import Mathlib

/-!
# Verification development for `go-baa/router` (package `regtree`)

A shallow embedding of the routing trie (`tree.go`) and of the router
(`router.go`), followed by theorems about them.

Conventions of the embedding

* Go strings are byte strings; they are embedded as `List Char`, one `Char`
  per byte (ASCII text).
* Go pointers to trie nodes are embedded as the node itself inside an
  inductive tree; the identity of a node (needed for the `parent`
  back-reference only) is its `addr` field, chosen at allocation.
* A handler slice `[]baa.HandlerFunc` is embedded as an optional reference
  into the store of slices kept with the router (`none` is the nil slice):
  the trie never looks inside a chain, it only tests it against nil.
* A Go panic is an explicit result, together with the state the store is left
  in when the panic is raised.
* The host regular-expression engine (`regexp` of the Go standard library) is
  external to the repository.  The trie and the router are embedded over any
  engine: the class `Engine` holds the two functions the package calls,
  `regexp.Compile` and `(*Regexp).FindStringSubmatchIndex`, and a declaration
  with the binder `[Engine]` is about the package run with any such pair.
  Theorems about literal routes, about the shape of the trie, about route
  names, groups and faults are stated that way.
* Section "The host regular-expression engine" writes out one engine, the
  embedded engine: the part of the documented behaviour of `regexp` (syntax
  and leftmost-first submatch semantics) that the patterns of the package's
  own rules need.  It reports syntax outside that part (counted repetition,
  `(?...)` groups, named classes, `\b`, `\p`, repetition of an expression that
  matches the empty string, bytes from 128 on) as `unsupported`, and it reads
  the subject byte by byte where `regexp` reads it character by character; on
  ASCII subjects the two are the same.  A declaration without the binder
  `[Engine]` that runs the package runs it with the embedded engine; theorems
  about which paths a parameterised pattern matches and which values it binds
  are stated that way, for patterns inside the part written out.
-/

namespace Regtree

/-- A Go string. -/
abbrev Str := List Char

/-! ## The host regular-expression engine -/

/-- One item of a bracket expression. -/
inductive ClassItem where
  | single (c : Char)
  | range (lo hi : Char)
  | digit
  | word
  | space
  deriving DecidableEq, Repr

/-- Abstract syntax of the regular expressions of the embedded engine.
Capture groups carry their number (1-based, in order of their opening
parenthesis). -/
inductive Re where
  | empty
  | chr (c : Char)
  | any
  | cls (neg : Bool) (items : List ClassItem)
  | bol
  | eol
  | group (idx : Nat) (r : Re)
  | cat (a b : Re)
  | alt (a b : Re)
  | star (greedy : Bool) (r : Re)
  | plus (greedy : Bool) (r : Re)
  | opt (greedy : Bool) (r : Re)
  deriving DecidableEq, Repr

/-- Why `regexp.Compile` did not return an expression: a syntax error of the
pattern, or syntax that the embedded engine does not cover. -/
inductive CompileError where
  | syntaxError
  | unsupported
  deriving DecidableEq, Repr

/-- Perl class `\d`. -/
def isDigit (c : Char) : Bool := decide (48 ≤ c.toNat) && decide (c.toNat ≤ 57)

/-- Perl class `\w`. -/
def isWord (c : Char) : Bool :=
  isDigit c || (decide (65 ≤ c.toNat) && decide (c.toNat ≤ 90))
    || (decide (97 ≤ c.toNat) && decide (c.toNat ≤ 122)) || c == '_'

/-- Perl class `\s`. -/
def isSpace (c : Char) : Bool :=
  c == ' ' || c == '\t' || c == '\n' || c == '\r' || c.toNat == 12

/-- Whether a character belongs to one item of a bracket expression. -/
def ClassItem.test (c : Char) : ClassItem → Bool
  | .single d => c == d
  | .range lo hi => decide (lo.toNat ≤ c.toNat) && decide (c.toNat ≤ hi.toNat)
  | .digit => isDigit c
  | .word => isWord c
  | .space => isSpace c

/-- Whether a character belongs to a (possibly negated) bracket expression. -/
def classTest (neg : Bool) (items : List ClassItem) (c : Char) : Bool :=
  (items.any (ClassItem.test c)) != neg

/-- Whether an expression can match the empty string. -/
def Re.nullable : Re → Bool
  | .empty => true
  | .chr _ => false
  | .any => false
  | .cls _ _ => false
  | .bol => true
  | .eol => true
  | .group _ r => r.nullable
  | .cat a b => a.nullable && b.nullable
  | .alt a b => a.nullable || b.nullable
  | .star _ _ => true
  | .plus _ r => r.nullable
  | .opt _ _ => true

/-- Number of capture groups of an expression. -/
def Re.numGroups : Re → Nat
  | .group _ r => r.numGroups + 1
  | .cat a b => a.numGroups + b.numGroups
  | .alt a b => a.numGroups + b.numGroups
  | .star _ r => r.numGroups
  | .plus _ r => r.numGroups
  | .opt _ r => r.numGroups
  | _ => 0

/-- ASCII letters and digits: after a backslash they are never a literal. -/
def isAlnum (c : Char) : Bool :=
  isDigit c || (decide (65 ≤ c.toNat) && decide (c.toNat ≤ 90))
    || (decide (97 ≤ c.toNat) && decide (c.toNat ≤ 122))

/-- Items of a bracket expression, up to and including the closing `]`.
`first` is true where a `]` still stands for itself. -/
def parseClassItems : Bool → Str → Except CompileError (List ClassItem × Str)
  | _, [] => .error .syntaxError
  | first, ']' :: rest =>
      if first then
        match parseClassItems false rest with
        | .ok (items, rest') => .ok (ClassItem.single ']' :: items, rest')
        | .error e => .error e
      else .ok ([], rest)
  | _, '[' :: _ => .error .unsupported
  | _, '\\' :: [] => .error .syntaxError
  | _, '\\' :: c :: rest =>
      let item : Except CompileError ClassItem :=
        if c == 'd' then .ok .digit
        else if c == 'w' then .ok .word
        else if c == 's' then .ok .space
        else if c == 'n' then .ok (.single '\n')
        else if c == 't' then .ok (.single '\t')
        else if c == 'r' then .ok (.single '\r')
        else if isAlnum c || decide (128 ≤ c.toNat) then .error .unsupported
        else .ok (.single c)
      match item with
      | .error e => .error e
      | .ok it =>
        match rest with
        | '-' :: d :: _ =>
            if d == ']' then
              match parseClassItems false rest with
              | .ok (items, rest') => .ok (it :: items, rest')
              | .error e => .error e
            else .error .unsupported
        | _ =>
          match parseClassItems false rest with
          | .ok (items, rest') => .ok (it :: items, rest')
          | .error e => .error e
  | _, c :: '-' :: d :: rest =>
      if d == ']' then
        match parseClassItems false ('-' :: d :: rest) with
        | .ok (items, rest') => .ok (ClassItem.single c :: items, rest')
        | .error e => .error e
      else if d == '\\' || d == '[' then .error .unsupported
      else if d.toNat < c.toNat then .error .syntaxError
      else
        match parseClassItems false rest with
        | .ok (items, rest') => .ok (ClassItem.range c d :: items, rest')
        | .error e => .error e
  | _, c :: rest =>
      match parseClassItems false rest with
      | .ok (items, rest') => .ok (ClassItem.single c :: items, rest')
      | .error e => .error e

/-- A bracket expression, the opening `[` already consumed. -/
def parseClass (s : Str) : Except CompileError (Re × Str) :=
  match s with
  | '^' :: rest =>
      match parseClassItems true rest with
      | .ok (items, rest') => .ok (Re.cls true items, rest')
      | .error e => .error e
  | _ =>
      match parseClassItems true s with
      | .ok (items, rest') => .ok (Re.cls false items, rest')
      | .error e => .error e

/-- An escape sequence outside a bracket expression, the backslash already
consumed. -/
def parseEscape (s : Str) : Except CompileError (Re × Str) :=
  match s with
  | [] => .error .syntaxError
  | c :: rest =>
      if c == 'd' then .ok (Re.cls false [.digit], rest)
      else if c == 'D' then .ok (Re.cls true [.digit], rest)
      else if c == 'w' then .ok (Re.cls false [.word], rest)
      else if c == 'W' then .ok (Re.cls true [.word], rest)
      else if c == 's' then .ok (Re.cls false [.space], rest)
      else if c == 'S' then .ok (Re.cls true [.space], rest)
      else if c == 'n' then .ok (Re.chr '\n', rest)
      else if c == 't' then .ok (Re.chr '\t', rest)
      else if c == 'r' then .ok (Re.chr '\r', rest)
      else if isAlnum c || decide (128 ≤ c.toNat) then .error .unsupported
      else .ok (Re.chr c, rest)

/-- Whether a byte is a repetition operator. -/
def isRepeatOp (c : Char) : Bool := c == '*' || c == '+' || c == '?'

/-- The repetition operator, if any, that follows an atom.  A second
operator is a syntax error, except `?` which makes the first one lazy.
Repetition of an expression that can match the empty string, and counted
repetition `\x7b..\x7d`, are outside the embedded engine. -/
def parsePostfix (a : Re) (s : Str) : Except CompileError (Re × Str) :=
  match s with
  | '{' :: _ => .error .unsupported
  | op :: rest =>
      if isRepeatOp op then
        let lazy : Bool := match rest with | '?' :: _ => true | _ => false
        let rest1 : Str := if lazy then rest.drop 1 else rest
        match rest1 with
        | '{' :: _ => .error .unsupported
        | c :: _ =>
            if isRepeatOp c then .error .syntaxError
            else if op == '?' then .ok (Re.opt (!lazy) a, rest1)
            else if a.nullable then .error .unsupported
            else if op == '*' then .ok (Re.star (!lazy) a, rest1)
            else .ok (Re.plus (!lazy) a, rest1)
        | [] =>
            if op == '?' then .ok (Re.opt (!lazy) a, rest1)
            else if a.nullable then .error .unsupported
            else if op == '*' then .ok (Re.star (!lazy) a, rest1)
            else .ok (Re.plus (!lazy) a, rest1)
      else .ok (a, s)
  | [] => .ok (a, s)

mutual
/-- Alternation: `a|b|...`.  The `Nat` is fuel, the other number counts the
capture groups opened so far. -/
def parseAlt : Nat → Str → Nat → Except CompileError (Re × Str × Nat)
  | 0, _, _ => .error .unsupported
  | n + 1, s, g =>
      match parseCat n s g with
      | .error e => .error e
      | .ok (a, rest, g1) =>
          match rest with
          | '|' :: rest' =>
              match parseAlt n rest' g1 with
              | .error e => .error e
              | .ok (b, rest'', g2) => .ok (Re.alt a b, rest'', g2)
          | _ => .ok (a, rest, g1)
/-- Concatenation of repeated atoms, up to `|`, `)` or the end. -/
def parseCat : Nat → Str → Nat → Except CompileError (Re × Str × Nat)
  | 0, _, _ => .error .unsupported
  | n + 1, s, g =>
      match s with
      | [] => .ok (Re.empty, s, g)
      | '|' :: _ => .ok (Re.empty, s, g)
      | ')' :: _ => .ok (Re.empty, s, g)
      | _ =>
          match parseAtom n s g with
          | .error e => .error e
          | .ok (a, rest, g1) =>
              match parsePostfix a rest with
              | .error e => .error e
              | .ok (a', rest') =>
                  match parseCat n rest' g1 with
                  | .error e => .error e
                  | .ok (b, rest'', g2) => .ok (Re.cat a' b, rest'', g2)
/-- One atom: a group, a bracket expression, an escape, an anchor, `.` or a
literal. -/
def parseAtom : Nat → Str → Nat → Except CompileError (Re × Str × Nat)
  | 0, _, _ => .error .unsupported
  | n + 1, s, g =>
      match s with
      | [] => .error .syntaxError
      | '(' :: rest =>
          match rest with
          | '?' :: _ => .error .unsupported
          | _ =>
              match parseAlt n rest (g + 1) with
              | .error e => .error e
              | .ok (r, rest', g1) =>
                  match rest' with
                  | ')' :: rest'' => .ok (Re.group (g + 1) r, rest'', g1)
                  | _ => .error .syntaxError
      | '[' :: rest =>
          match parseClass rest with
          | .error e => .error e
          | .ok (r, rest') => .ok (r, rest', g)
      | '\\' :: rest =>
          match parseEscape rest with
          | .error e => .error e
          | .ok (r, rest') => .ok (r, rest', g)
      | '.' :: rest => .ok (Re.any, rest, g)
      | '^' :: rest => .ok (Re.bol, rest, g)
      | '$' :: rest => .ok (Re.eol, rest, g)
      | '{' :: _ => .error .unsupported
      | c :: rest =>
          if isRepeatOp c then .error .syntaxError
          else if decide (128 ≤ c.toNat) then .error .unsupported
          else .ok (Re.chr c, rest, g)
end

/-- A compiled expression (`*regexp.Regexp`). -/
structure Regexp where
  prog : Re
  numCap : Nat
  deriving DecidableEq, Repr

/-- Embedding of `regexp.Compile`. -/
def Regexp.Compile (expr : Str) : Except CompileError Regexp :=
  match parseAlt (3 * expr.length + 3) expr 0 with
  | .error e => .error e
  | .ok (r, rest, g) =>
      match rest with
      | [] => .ok ⟨r, g⟩
      | _ => .error .syntaxError

/-- State of a match attempt: the input not yet consumed, the offset reached,
and the capture groups closed so far, most recent first. -/
structure MState where
  rest : Str
  pos : Nat
  caps : List (Nat × Nat × Nat)
  deriving DecidableEq, Repr

/-- Greedy repetition: the ways to repeat `step`, longest first.  An
iteration that consumes nothing is not repeated. -/
def starM (step : MState → List MState) : Nat → MState → List MState
  | 0, st => [st]
  | n + 1, st =>
      ((step st).filter (fun s => decide (st.pos < s.pos))).flatMap (starM step n) ++ [st]

/-- Lazy repetition: shortest first. -/
def starLazyM (step : MState → List MState) : Nat → MState → List MState
  | 0, st => [st]
  | n + 1, st =>
      st :: ((step st).filter (fun s => decide (st.pos < s.pos))).flatMap (starLazyM step n)

/-- All the ways an expression matches at a state, in the priority order of
leftmost-first (backtracking) matching. -/
def Re.run : Re → MState → List MState
  | .empty, st => [st]
  | .chr c, st =>
      match st.rest with
      | d :: t => if d = c then [⟨t, st.pos + 1, st.caps⟩] else []
      | [] => []
  | .any, st =>
      match st.rest with
      | d :: t => if d = '\n' then [] else [⟨t, st.pos + 1, st.caps⟩]
      | [] => []
  | .cls neg items, st =>
      match st.rest with
      | d :: t => if classTest neg items d then [⟨t, st.pos + 1, st.caps⟩] else []
      | [] => []
  | .bol, st => if st.pos = 0 then [st] else []
  | .eol, st => if st.rest = [] then [st] else []
  | .group i r, st =>
      (r.run st).map (fun s => ⟨s.rest, s.pos, (i, st.pos, s.pos) :: s.caps⟩)
  | .cat a b, st => (a.run st).flatMap (fun s => b.run s)
  | .alt a b, st => a.run st ++ b.run st
  | .star g r, st =>
      if g then starM (fun s => r.run s) st.rest.length st
      else starLazyM (fun s => r.run s) st.rest.length st
  | .plus g r, st =>
      (r.run st).flatMap (fun s =>
        if g then starM (fun s' => r.run s') s.rest.length s
        else starLazyM (fun s' => r.run s') s.rest.length s)
  | .opt g r, st => if g then r.run st ++ [st] else st :: r.run st

/-- Offsets of capture group `i` in a list of closed groups, `-1, -1` where
the group took no part in the match. -/
def capOffsets (caps : List (Nat × Nat × Nat)) (i : Nat) : List Int :=
  match caps.find? (fun c => c.1 == i) with
  | some (_, a, b) => [(a : Int), (b : Int)]
  | none => [-1, -1]

/-- Search for the leftmost match, from offset `pos` on. -/
def Regexp.findFrom (re : Regexp) : Str → Nat → List Int
  | [], pos =>
      match re.prog.run ⟨[], pos, []⟩ with
      | st :: _ =>
          [(pos : Int), (st.pos : Int)]
            ++ (List.range re.numCap).flatMap (fun i => capOffsets st.caps (i + 1))
      | [] => []
  | c :: t, pos =>
      match re.prog.run ⟨c :: t, pos, []⟩ with
      | st :: _ =>
          [(pos : Int), (st.pos : Int)]
            ++ (List.range re.numCap).flatMap (fun i => capOffsets st.caps (i + 1))
      | [] => re.findFrom t (pos + 1)

/-- Embedding of `(*Regexp).FindStringSubmatchIndex`: the offsets of the
leftmost match and of its capture groups, or the nil slice. -/
def Regexp.FindStringSubmatchIndex (re : Regexp) (s : Str) : List Int :=
  re.findFrom s 0

/-- The host engine as the package calls it: `regexp.Compile` and
`(*Regexp).FindStringSubmatchIndex`.  The trie and the router are embedded
over any such pair of functions; for an engine other than the embedded one a
value of `Regexp` is only the name of a compiled expression. -/
class Engine where
  compile : Str → Except CompileError Regexp
  find : Regexp → Str → List Int

/-! ## The routing trie (`tree.go`) -/

/-- The conditions under which the package panics. -/
inductive Fault where
  | emptyPattern
  | routeExists
  | regexCompile (e : CompileError)
  | nilNode
  | sliceBounds
  | unsupportedMethod
  | patternEmpty
  | patternNoSlash
  | treeAddError
  deriving DecidableEq, Repr

/-- The scalar fields of the Go struct `Tree`.  `handlers` is `none` for the
nil slice, `parent` and `nameNode` hold the address of the node they point
to, `addr` is the address of the node itself. -/
structure TreeFields where
  static : Bool
  alpha : Char
  pattern : Str
  handlers : Option Nat
  params : List Str
  format : Str
  re : Option Regexp
  parent : Option Nat
  nameNode : Option Nat
  addr : Nat
  deriving DecidableEq, Repr

/-- The Go struct `Tree`: its scalar fields and the two slices of children. -/
inductive Tree where
  | mk (d : TreeFields) (schildren rchildren : List Tree)
  deriving Repr

/-- The scalar fields of a node. -/
def Tree.d : Tree → TreeFields
  | .mk d _ _ => d

/-- Field `schildren`. -/
def Tree.schildren : Tree → List Tree
  | .mk _ sc _ => sc

/-- Field `rchildren`. -/
def Tree.rchildren : Tree → List Tree
  | .mk _ _ rc => rc

/-- `NewTree`: `none` is the panic on an empty pattern. -/
def NewTree (pattern : Str) (handlers : Option Nat) (addr : Nat) : Option Tree :=
  match pattern with
  | [] => none
  | c :: _ =>
      some (.mk
        { static := true, alpha := c, pattern := pattern, handlers := handlers,
          params := [], format := pattern, re := none, parent := none,
          nameNode := none, addr := addr } [] [])

/-- The loop `for ; matched < len(a) && matched < len(b) && a[matched] ==
b[matched]; matched++`: length of the longest common start of two strings. -/
def matchedLen : Str → Str → Nat
  | a :: as, b :: bs => if a = b then matchedLen as bs + 1 else 0
  | _, _ => 0

/-- External `baa.IsParamChar`: letters, digits and the underscore. -/
def IsParamChar (c : Char) : Bool :=
  (decide (65 ≤ c.toNat) && decide (c.toNat ≤ 90))
    || (decide (97 ≤ c.toNat) && decide (c.toNat ≤ 122))
    || (decide (48 ≤ c.toNat) && decide (c.toNat ≤ 57)) || c.toNat == 95

/-- The local variables of the scanning loop of `addChild`. -/
structure Scan where
  staticPattern : Str
  params : List Str
  newPattern : Str
  format : Str
  deriving DecidableEq, Repr

/-- The capture expression of a parameter rule. -/
def ruleExpr (rule : Str) : Str :=
  if rule = [] then "([^\\/]+)".toList
  else if rule = "int".toList then "([\\d]+)".toList
  else if rule = "string".toList then "([\\w]+)".toList
  else "(".toList ++ rule ++ ")".toList

/-- The scanning loop of `addChild` (`for i = 0; i < len(pattern); i++`).
`seen` is `pattern[:i]`, the list argument is `pattern[i:]`, the `Nat` is
fuel (one unit per iteration). -/
def scanLoop : Nat → Str → Str → Scan → Scan
  | 0, _, _, s => s
  | _ + 1, _, [], s => s
  | n + 1, seen, c :: rest, s =>
      if c = '*' then
        let sp := if s.staticPattern.length = 0 ∧ s.params.length = 0 ∧ 0 < seen.length
                  then seen else s.staticPattern
        scanLoop n (seen ++ [c]) rest
          { staticPattern := sp, params := s.params ++ [[]],
            newPattern := s.newPattern ++ "(^.*)".toList,
            format := s.format ++ "%v".toList }
      else if c = ':' then
        let name := rest.takeWhile IsParamChar
        let after := rest.dropWhile IsParamChar
        let sp := if s.staticPattern.length = 0 ∧ s.params.length = 0 ∧ 0 < seen.length
                  then seen else s.staticPattern
        match after with
        | '(' :: more =>
            let rule := more.takeWhile (fun x => x != ')')
            let rest' := (more.dropWhile (fun x => x != ')')).drop 1
            scanLoop n (seen ++ (c :: name) ++ ('(' :: rule)
                ++ (more.dropWhile (fun x => x != ')')).take 1) rest'
              { staticPattern := sp, params := s.params ++ [name],
                newPattern := s.newPattern ++ ruleExpr rule,
                format := s.format ++ "%v".toList }
        | _ =>
            scanLoop n (seen ++ (c :: name)) after
              { staticPattern := sp, params := s.params ++ [name],
                newPattern := s.newPattern ++ ruleExpr [],
                format := s.format ++ "%v".toList }
      else
        scanLoop n (seen ++ [c]) rest
          { s with newPattern := s.newPattern ++ [c], format := s.format ++ [c] }

/-- What `Tree.Add` and `Tree.addChild` do: return nil (`none`), return the
node at address `ret` having changed the subtree into `v`, or panic leaving
the subtree as `v`. -/
inductive AddOut (α : Type) where
  | none
  | node (v : α) (ret : Nat)
  | panic (f : Fault) (v : α)
  deriving Repr

/-- `(*Tree).addChild`.  The dynamic node is allocated at `fresh + 1`, the
static node at `fresh + 2`. -/
def Tree.addChild [Engine] (t : Tree) (pattern : Str) (handlers : Option Nat)
    (nameNode : Option Nat) (fresh : Nat) : AddOut Tree :=
  let s := scanLoop pattern.length [] pattern ⟨[], [], [], []⟩
  if 0 < s.params.length then
    -- key has regexp rule, new regexp rule
    match NewTree (s.newPattern.drop s.staticPattern.length) handlers (fresh + 1) with
    | Option.none => .panic .emptyPattern t
    | some re0 =>
      match Engine.compile (re0.d.pattern ++ "$".toList) with
      | .error e => .panic (.regexCompile e) t
      | .ok re =>
        let reD : TreeFields :=
          { re0.d with nameNode := nameNode, static := false, params := s.params,
                       format := s.format.drop s.staticPattern.length, re := some re }
        if 0 < s.staticPattern.length then
          match NewTree s.staticPattern Option.none (fresh + 2) with
          | Option.none => .panic .emptyPattern t
          | some st0 =>
            let staticNode : Tree :=
              .mk { st0.d with parent := some t.d.addr }
                [] [.mk { reD with parent := some (fresh + 2) } [] []]
            .node (.mk t.d (t.schildren ++ [staticNode]) t.rchildren) (fresh + 1)
        else
          -- key has regexp rule without static rule
          if t.rchildren.any (fun child => child.d.pattern == reD.pattern) then
            .panic .routeExists t
          else
            .node (.mk t.d t.schildren
              (t.rchildren ++ [.mk { reD with parent := some t.d.addr } [] []])) (fresh + 1)
  else if 0 < pattern.length then
    -- key has static rule
    match NewTree pattern Option.none (fresh + 2) with
    | Option.none => .panic .emptyPattern t
    | some st0 =>
      let staticNode : Tree :=
        .mk { st0.d with parent := some t.d.addr, handlers := handlers,
                         nameNode := nameNode } [] []
      .node (.mk t.d (t.schildren ++ [staticNode]) t.rchildren) (fresh + 2)
  else .panic .nilNode t

mutual
/-- `(*Tree).Add`.  A node created by a split is allocated at `fresh`. -/
def Tree.Add [Engine] : Tree → Str → Option Nat → Option Nat → Nat → AddOut Tree
  | .mk d sc rc, pattern, handlers, nameNode, fresh =>
      let matched := matchedLen pattern d.pattern
      -- no prefix
      if matched = 0 then .none
      else if matched = d.pattern.length then
        if matched = pattern.length then
          -- the node pattern is the same as the pattern
          if handlers.isSome then
            if d.handlers.isSome then .panic .routeExists (.mk d sc rc)
            else .node (.mk { d with handlers := handlers, nameNode := nameNode } sc rc) d.addr
          else .node (.mk d sc rc) d.addr
        else
          -- the node pattern is a start of the pattern: create a child node
          match Tree.addList sc (pattern.drop matched) handlers nameNode fresh with
          | .node sc' ret => .node (.mk d sc' rc) ret
          | .panic f sc' => .panic f (.mk d sc' rc)
          | .none => Tree.addChild (.mk d sc rc) (pattern.drop matched) handlers nameNode fresh
      else
        match NewTree (d.pattern.drop matched) d.handlers fresh with
        | Option.none => .panic .emptyPattern (.mk d sc rc)
        | some node0 =>
          let node : Tree :=
            .mk { node0.d with nameNode := d.nameNode, parent := some d.addr } sc rc
          if matched = pattern.length then
            -- the pattern is a start of the node pattern
            .node (.mk { d with pattern := pattern, format := pattern, handlers := handlers,
                                nameNode := nameNode } [node] []) d.addr
          else
            -- the node pattern shares a start with the key: split the node pattern
            Tree.addChild
              (.mk { d with pattern := pattern.take matched, format := pattern.take matched,
                            handlers := Option.none, nameNode := Option.none } [node] [])
              (pattern.drop matched) handlers nameNode fresh
/-- The loop `for _, child := range t.schildren` of `Add`: the first child
whose `Add` does not return nil decides. -/
def Tree.addList [Engine] : List Tree → Str → Option Nat → Option Nat → Nat → AddOut (List Tree)
  | [], _, _, _, _ => .none
  | c :: cs, pattern, handlers, nameNode, fresh =>
      match Tree.Add c pattern handlers nameNode fresh with
      | .node c' ret => .node (c' :: cs) ret
      | .panic f c' => .panic f (c' :: cs)
      | .none =>
          match Tree.addList cs pattern handlers nameNode fresh with
          | .node cs' ret => .node (c :: cs') ret
          | .panic f cs' => .panic f (c :: cs')
          | .none => .none
end

/-- `(*Tree).findChild`. -/
def Tree.findChild (t : Tree) (b : Char) : Option Tree :=
  t.schildren.find? (fun c => c.d.alpha == b)

/-- The Go slice expression `s[a:b]` on a string; `none` is the run-time
panic. -/
def goSlice (s : Str) (a b : Int) : Option Str :=
  if 0 ≤ a ∧ a ≤ b ∧ b ≤ (s.length : Int) then
    some ((s.drop a.toNat).take (b.toNat - a.toNat))
  else Option.none

/-- What `Tree.Get` does: return a handler slice and a name, or panic; in
both cases after the listed `SetParam` calls on the context. -/
inductive GetOut where
  | ret (handlers : Option Nat) (name : Str) (calls : List (Str × Str))
  | panic (f : Fault) (calls : List (Str × Str))
  deriving DecidableEq, Repr

/-- The loop `for j := range params` of `Get`, from index `j` on: the
`SetParam` calls made, and whether a slice expression panicked. -/
def bindParams (pattern : Str) (ms : List Int) : Nat → List Str → List (Str × Str) × Bool
  | _, [] => ([], true)
  | j, p :: ps =>
      match goSlice pattern (ms.getD ((j + 1) * 2) 0) (ms.getD ((j + 1) * 2 + 1) 0) with
      | Option.none => ([], false)
      | some v =>
          let r := bindParams pattern ms (j + 1) ps
          ((p, v) :: r.1, r.2)

/-- The name of the route node a trie node points to (`t.nameNode.name`
guarded by `t.nameNode != nil`). -/
def nameOf (names : Nat → Str) (nameNode : Option Nat) : Str :=
  match nameNode with
  | some n => names n
  | Option.none => []

/-- The loop `for i := range t.rchildren` of `Get`. -/
def getDynamic [Engine] (names : Nat → Str) (pattern : Str) : List Tree → GetOut
  | [] => .ret Option.none [] []
  | c :: cs =>
      let ms : List Int :=
        match c.d.re with
        | some re => Engine.find re pattern
        | Option.none => []
      if ms.length ≠ (c.d.params.length + 1) * 2 ∨ 0 < ms.getD 0 0 then
        getDynamic names pattern cs
      else
        match bindParams pattern ms 0 c.d.params with
        | (calls, true) => .ret c.d.handlers (nameOf names c.d.nameNode) calls
        | (calls, false) => .panic .sliceBounds calls

mutual
/-- `(*Tree).Get`.  `names` reads the field `name` of a route node. -/
def Tree.Get [Engine] : Tree → Str → (Nat → Str) → GetOut
  | .mk d sc rc, pattern, names =>
      -- regexp rule
      let ms : List Int :=
        if d.static then []
        else match d.re with
          | some re => Engine.find re pattern
          | Option.none => []
      if !d.static ∧ ms.length = (d.params.length + 1) * 2 ∧ ms.getD 0 0 = 0 then
        match bindParams pattern ms 0 d.params with
        | (calls, true) => .ret d.handlers (nameOf names d.nameNode) calls
        | (calls, false) => .panic .sliceBounds calls
      else
        -- static rule
        let matched := matchedLen pattern d.pattern
        if matched ≠ d.pattern.length then .ret Option.none [] []
        else if matched = pattern.length ∧ d.handlers.isSome then
          .ret d.handlers (nameOf names d.nameNode) []
        else
          -- node is a start of the path
          match pattern.drop matched with
          | [] => getDynamic names [] rc
          | b :: rest =>
              -- first, static rule
              match Tree.getFirst sc b (b :: rest) names with
              | some (.panic f calls) => .panic f calls
              | some (.ret (some h) name calls) => .ret (some h) name calls
              | some (.ret Option.none _ calls) =>
                  match getDynamic names (b :: rest) rc with
                  | .ret h name calls' => .ret h name (calls ++ calls')
                  | .panic f calls' => .panic f (calls ++ calls')
              | Option.none => getDynamic names (b :: rest) rc
/-- `snode.Get(pattern, c)` for `snode := t.findChild(b)`: `none` where no
child starts with `b`. -/
def Tree.getFirst [Engine] : List Tree → Char → Str → (Nat → Str) → Option GetOut
  | [], _, _, _ => Option.none
  | c :: cs, b, pattern, names =>
      if c.d.alpha = b then some (Tree.Get c pattern names)
      else Tree.getFirst cs b pattern names
end

mutual
/-- Dereference of a node address inside a trie: the fields of the node
allocated at `a`. -/
def Tree.find : Tree → Nat → Option TreeFields
  | .mk d sc rc, a =>
      if d.addr = a then some d
      else
        match Tree.findList sc a with
        | some x => some x
        | Option.none => Tree.findList rc a
/-- Dereference of a node address inside a list of tries. -/
def Tree.findList : List Tree → Nat → Option TreeFields
  | [], _ => Option.none
  | c :: cs, a =>
      match Tree.find c a with
      | some x => some x
      | Option.none => Tree.findList cs a
end

mutual
/-- Number of nodes of a trie. -/
def Tree.size : Tree → Nat
  | .mk _ sc rc => Tree.sizeList sc + Tree.sizeList rc + 1
/-- Number of nodes of a list of tries. -/
def Tree.sizeList : List Tree → Nat
  | [] => 0
  | c :: cs => Tree.size c + Tree.sizeList cs
end

/-- `(*Tree).String` of the node at address `a` of the trie `root`: its
pattern after the `String` of the node its `parent` points to.  The `Nat` is
fuel, one unit per node visited. -/
def Tree.StringAt (root : Tree) : Nat → Nat → Str
  | 0, _ => []
  | n + 1, a =>
      match root.find a with
      | Option.none => []
      | some d =>
          match d.parent with
          | Option.none => d.pattern
          | some p => Tree.StringAt root n p ++ d.pattern

/-- `(*Tree).String`. -/
def Tree.String (root : Tree) (a : Nat) : Str :=
  Tree.StringAt root root.size a

/-- `(*Tree).formatStr` of the node at address `a` of the trie `root`, with
fuel. -/
def Tree.formatStrAt (root : Tree) : Nat → Nat → Str
  | 0, _ => []
  | n + 1, a =>
      match root.find a with
      | Option.none => []
      | some d =>
          match d.parent with
          | Option.none => d.format
          | some p => Tree.formatStrAt root n p ++ d.format

/-- `(*Tree).formatStr`. -/
def Tree.formatStr (root : Tree) (a : Nat) : Str :=
  Tree.formatStrAt root root.size a

/-! ## The router (`router.go`) -/

/-- External `baa.HandlerFunc`: a function value the router never calls.
`wrapped h` is the value `baa.WrapHandlerFunc(h)`. -/
inductive HandlerFunc where
  | fn (id : Nat)
  | wrapped (h : HandlerFunc)
  deriving DecidableEq, Repr

/-- External `baa.WrapHandlerFunc`. -/
def WrapHandlerFunc (h : HandlerFunc) : HandlerFunc := .wrapped h

/-- The Go struct `Node` (a route handle); its field `root` points back to
the router and is left out. -/
structure Node where
  paramNum : Nat
  format : Str
  name : Str
  deriving DecidableEq, Repr

/-- The Go struct `group`. -/
structure group where
  pattern : Str
  handlers : Option Nat
  deriving DecidableEq, Repr

/-- External `baa.RouteLength`. -/
def RouteLength : Nat := 7

/-- External table `baa.RouterMethods`: the index of a method, `none` for a
key that is absent from the map. -/
def RouterMethods (method : Str) : Option Nat :=
  if method = "GET".toList then some 0
  else if method = "POST".toList then some 1
  else if method = "PUT".toList then some 2
  else if method = "DELETE".toList then some 3
  else if method = "PATCH".toList then some 4
  else if method = "OPTIONS".toList then some 5
  else if method = "HEAD".toList then some 6
  else Option.none

/-- External table `baa.RouterMethodName`. -/
def RouterMethodName (k : Nat) : Str :=
  if k = 0 then "GET".toList
  else if k = 1 then "POST".toList
  else if k = 2 then "PUT".toList
  else if k = 3 then "DELETE".toList
  else if k = 4 then "PATCH".toList
  else if k = 5 then "OPTIONS".toList
  else if k = 6 then "HEAD".toList
  else []

/-- The Go struct `Router`, with the parts of the heap it owns: `nodeStore`
holds the `Node` values (a `*Node` is an index into it), `slices` the handler
slices (a non-nil `[]baa.HandlerFunc` is an index into it), `nextAddr` is the
next free trie-node address.  The mutex and the `baa` handle are left out. -/
structure Router where
  autoHead : Bool
  autoTrailingSlash : Bool
  groups : List group
  nodes : List Tree
  nameNodes : List (Str × Nat)
  nodeStore : List Node
  slices : List (List HandlerFunc)
  nextAddr : Nat

/-- A trie that stands for a missing entry of `nodes`. -/
def Tree.nilTree : Tree :=
  .mk { static := true, alpha := '/', pattern := [], handlers := Option.none, params := [],
        format := [], re := Option.none, parent := Option.none, nameNode := Option.none,
        addr := 0 } [] []

/-- The root `r.nodes[i]`. -/
def Router.tree (r : Router) (i : Nat) : Tree := r.nodes.getD i Tree.nilTree

/-- The root of a fresh method trie, `NewTree("/", nil)`, allocated at
address `i`. -/
def newRoot (i : Nat) : Tree :=
  (NewTree "/".toList Option.none i).getD Tree.nilTree

/-- `New`: one root `/` per method, both options off. -/
def New : Router :=
  { autoHead := false, autoTrailingSlash := false, groups := [],
    nodes := (List.range RouteLength).map newRoot,
    nameNodes := [], nodeStore := [], slices := [], nextAddr := RouteLength }

/-- `SetAutoHead`. -/
def Router.SetAutoHead (r : Router) (v : Bool) : Router := { r with autoHead := v }

/-- `SetAutoTrailingSlash`. -/
def Router.SetAutoTrailingSlash (r : Router) (v : Bool) : Router :=
  { r with autoTrailingSlash := v }

/-- The elements of a handler slice. -/
def Router.chain (r : Router) (h : Option Nat) : List HandlerFunc :=
  match h with
  | some i => r.slices.getD i []
  | Option.none => []

/-- Field `name` of the route node at index `n`. -/
def Router.nameAt (r : Router) (n : Nat) : Str :=
  match r.nodeStore.get? n with
  | some nd => nd.name
  | Option.none => []

/-- `(*Router).Match`.  An absent key of `baa.RouterMethods` reads as
index 0. -/
def Router.Match [Engine] (r : Router) (method uri : Str) : GetOut :=
  (r.tree ((RouterMethods method).getD 0)).Get uri r.nameAt

/-- What a registration does: return a value in a new router state, or
panic leaving the router in the given state. -/
inductive Out (α : Type) where
  | ok (r : Router) (v : α)
  | panic (f : Fault) (r : Router)

/-- `(*Router).add`: returns the index of the new route node. -/
def Router.add [Engine] (r : Router) (method pattern : Str) (handlers : Option Nat) : Out Nat :=
  match RouterMethods method with
  | Option.none => .panic .unsupportedMethod r
  | some idx =>
    -- check group set
    let gpattern : Str := r.groups.foldl (fun acc g => acc ++ g.pattern) []
    let ghandlers : List HandlerFunc :=
      r.groups.foldl
        (fun acc g => if 0 < (r.chain g.handlers).length then acc ++ r.chain g.handlers else acc) []
    let all : List HandlerFunc := ghandlers ++ r.chain handlers
    let pattern1 : Str := if 0 < r.groups.length then gpattern ++ pattern else pattern
    let handlers1 : Option Nat :=
      if 0 < r.groups.length then (if all = [] then Option.none else some r.slices.length)
      else handlers
    let slices1 : List (List HandlerFunc) :=
      if 0 < r.groups.length ∧ all ≠ [] then r.slices ++ [all] else r.slices
    let r1 : Router := { r with slices := slices1 }
    match pattern1 with
    | [] => .panic .patternEmpty r1
    | c :: _ =>
      if c ≠ '/' then .panic .patternNoSlash r1
      else
        let nameNode := r.nodeStore.length
        let slices2 : List (List HandlerFunc) :=
          match handlers1 with
          | some i => slices1.modify (fun l => l.map WrapHandlerFunc) i
          | Option.none => slices1
        let r2 : Router :=
          { r with slices := slices2, nodeStore := r.nodeStore ++ [⟨0, [], []⟩],
                   nextAddr := r.nextAddr + 3 }
        match (r.tree idx).Add pattern1 handlers1 (some nameNode) r.nextAddr with
        | .none => .panic .treeAddError r2
        | .panic f t' => .panic f { r2 with nodes := r.nodes.set idx t' }
        | .node t' ret =>
            let paramNum := match t'.find ret with
              | some d => d.params.length
              | Option.none => 0
            .ok { r2 with nodes := r.nodes.set idx t',
                          nodeStore := r.nodeStore ++ [⟨paramNum, t'.formatStr ret, []⟩] }
                nameNode

/-- `(*Router).Add`. -/
def Router.Add [Engine] (r : Router) (method pattern : Str) (handlers : Option Nat) : Out Nat :=
  let afterHead : Out Nat :=
    if method = "GET".toList ∧ r.autoHead then r.add "HEAD".toList pattern handlers
    else .ok r 0
  match afterHead with
  | .panic f r1 => .panic f r1
  | .ok r1 _ =>
    let afterSlash : Out Nat :=
      if r1.autoTrailingSlash ∧ (1 < pattern.length ∨ 0 < r1.groups.length) then
        if pattern.getLast? = some '/' then r1.add method pattern.dropLast handlers
        else r1.add method (pattern ++ "/".toList) handlers
      else .ok r1 0
    match afterSlash with
    | .panic f r2 => .panic f r2
    | .ok r2 _ => r2.add method pattern handlers

/-- `(*Router).GroupAdd`.  The callback `f` is the state transformer it
performs on the router. -/
def Router.GroupAdd (r : Router) (pattern : Str) (f : Router → Out Unit)
    (handlers : Option Nat) : Out Unit :=
  match f { r with groups := r.groups ++ [⟨pattern, handlers⟩] } with
  | .panic e r1 => .panic e r1
  | .ok r1 _ => .ok { r1 with groups := r1.groups.dropLast } ()

/-- `(*Node).Name`, for the route node at index `n`. -/
def Router.Name (r : Router) (n : Nat) (name : Str) : Router :=
  if name = [] then r
  else
    { r with nodeStore := r.nodeStore.modify (fun nd => { nd with name := name }) n,
             nameNodes := (name, n) :: r.nameNodes.filter (fun e => e.1 != name) }

/-- External `fmt.Sprintf`, for the verbs `%v` and `%%` and arguments given by
their textual form.  `none` where the format or the arguments are outside this
part. -/
def Sprintf : Str → List Str → Option Str
  | [], [] => some []
  | [], _ :: _ => Option.none
  | '%' :: 'v' :: rest, a :: args => (Sprintf rest args).map (fun s => a ++ s)
  | '%' :: 'v' :: rest, [] => (Sprintf rest []).map (fun s => "%!v(MISSING)".toList ++ s)
  | '%' :: '%' :: rest, args => (Sprintf rest args).map (fun s => '%' :: s)
  | '%' :: _, _ => Option.none
  | c :: rest, args => (Sprintf rest args).map (fun s => c :: s)

/-- `(*Router).URLFor`; the arguments are given by their textual form. -/
def Router.URLFor (r : Router) (name : Str) (args : List Str) : Option Str :=
  if name = [] then some []
  else
    match r.nameNodes.lookup name with
    | Option.none => some []
    | some n =>
        match r.nodeStore.get? n with
        | Option.none => some []
        | some node =>
            if node.format.length = 0 then some []
            else
              Sprintf (node.format
                ++ (List.replicate (args.length - node.paramNum) "%v".toList).flatten) args

mutual
/-- `(*Router).routes` on a node of the trie `root`: the strings collected
and the node after the call, whose `schildren` have received its
`rchildren`. -/
def Router.routes (root : Tree) : Tree → List Str × Tree
  | .mk d sc rc =>
      let data : List Str := if d.handlers.isSome then [root.String d.addr] else []
      let rs := Router.routesList root sc
      let rr := Router.routesList root rc
      (data ++ rs.1 ++ rr.1, .mk d (rs.2 ++ rr.2) rr.2)
/-- The loop `for i := range l.schildren` of `routes`. -/
def Router.routesList (root : Tree) : List Tree → List Str × List Tree
  | [] => ([], [])
  | c :: cs =>
      let r1 := Router.routes root c
      let r2 := Router.routesList root cs
      (r1.1 ++ r2.1, r1.2 :: r2.2)
end

/-- `(*Router).Routes`: the list of paths of every method, in the order of
the method indices, and the router after the call. -/
def Router.Routes (r : Router) : List (Str × List Str) × Router :=
  let walked : List (List Str × Tree) :=
    (List.range RouteLength).map (fun k => Router.routes (r.tree k) (r.tree k))
  ((List.range RouteLength).zipWith (fun k w => (RouterMethodName k, w.1)) walked,
   { r with nodes := walked.map (fun w => w.2) })

/-- `(*Router).NamedRoutes`. -/
def Router.NamedRoutes (r : Router) : List (Str × Str) :=
  r.nameNodes.map (fun e =>
    (e.1, match r.nodeStore.get? e.2 with
          | some nd => nd.format
          | Option.none => []))

/-! ## Notions used to state the properties -/

/-- A literal pattern: no `:` and no `*`. -/
def isLiteral (p : Str) : Prop := ∀ c ∈ p, c ≠ ':' ∧ c ≠ '*'

mutual
/-- The node of a trie at which the string `q` is spelled exactly by the
static segments on the way from the root of the trie, if there is one. -/
def Tree.locate : Tree → Str → Option Tree
  | .mk d sc rc, q =>
      if d.pattern <+: q then
        match q.drop d.pattern.length with
        | [] => some (.mk d sc rc)
        | b :: rest => Tree.locateList sc b (b :: rest)
      else Option.none
/-- The same below the first child whose dispatch byte is `b`. -/
def Tree.locateList : List Tree → Char → Str → Option Tree
  | [], _, _ => Option.none
  | c :: cs, b, q => if c.d.alpha = b then Tree.locate c q else Tree.locateList cs b q
end

/-- The handler slice and the route node stored at the node where `q` is
spelled; nil where there is no such node. -/
def Tree.lookup (t : Tree) (q : Str) : Option Nat × Option Nat :=
  match t.locate q with
  | some x => (x.d.handlers, x.d.nameNode)
  | Option.none => (Option.none, Option.none)

/-- The dynamic children of the node where `q` is spelled. -/
def Tree.dyn (t : Tree) (q : Str) : List Tree :=
  match t.locate q with
  | some x => x.rchildren
  | Option.none => []

mutual
/-- Shape of the static part of a trie: every node reached through
`schildren` is static, its segment is a non-empty literal whose first byte
is the dispatch byte, and the dispatch bytes of its static children are
pairwise distinct. -/
def Tree.WF : Tree → Prop
  | .mk d sc _ =>
      d.static = true ∧ d.pattern.head? = some d.alpha ∧ isLiteral d.pattern
        ∧ Tree.WFList sc ∧ (sc.map (fun c => c.d.alpha)).Nodup
/-- Every trie of the list has the shape `Tree.WF`. -/
def Tree.WFList : List Tree → Prop
  | [] => True
  | c :: cs => Tree.WF c ∧ Tree.WFList cs
end

mutual
/-- No dynamic child at any node reached through `schildren`. -/
def Tree.NoDyn : Tree → Prop
  | .mk _ sc rc => rc = [] ∧ Tree.NoDynList sc
/-- No dynamic child anywhere in the list. -/
def Tree.NoDynList : List Tree → Prop
  | [] => True
  | c :: cs => Tree.NoDyn c ∧ Tree.NoDynList cs
end

/-- Tries obtained from a fresh root `/` by successful calls of `Add`. -/
inductive Tree.Reach [Engine] : Tree → Prop where
  | root (a : Nat) : Tree.Reach (newRoot a)
  | add {t t' : Tree} {p : Str} {h nn : Option Nat} {fresh ret : Nat} :
      Tree.Reach t → t.Add p h nn fresh = .node t' ret → Tree.Reach t'

/-- One trie is obtained from another by successful calls of `Add`. -/
inductive Tree.Steps [Engine] : Tree → Tree → Prop where
  | refl (t : Tree) : Tree.Steps t t
  | add {t t' t'' : Tree} {p : Str} {h nn : Option Nat} {fresh ret : Nat} :
      Tree.Steps t t' → t'.Add p h nn fresh = .node t'' ret → Tree.Steps t t''

/-- The empty state of the scanning loop. -/
def Scan.init : Scan := ⟨[], [], [], []⟩

/-- Whether a byte opens a parameter or is the wildcard. -/
def isTok (c : Char) : Prop := c = ':' ∨ c = '*'

/-- What the scanning loop of `addChild` computes on a pattern. -/
def dynScan (D : Str) : Scan := scanLoop D.length [] D Scan.init

/-- The static node `addChild` creates: segment `p`, allocated at `a`. -/
def staticLeaf (p : Str) (h nn : Option Nat) (parent a : Nat) (rc : List Tree) : Tree :=
  .mk { static := true, alpha := p.headD ' ', pattern := p, handlers := h, params := [],
        format := p, re := Option.none, parent := some parent, nameNode := nn, addr := a } [] rc

/-- The dynamic node `addChild` creates for the dynamic part `D` of a
pattern, allocated at `a`. -/
def dynLeaf (D : Str) (re : Regexp) (h nn : Option Nat) (parent a : Nat) : Tree :=
  .mk { static := false, alpha := (dynScan D).newPattern.headD ' ',
        pattern := (dynScan D).newPattern, handlers := h, params := (dynScan D).params,
        format := (dynScan D).format, re := some re, parent := some parent, nameNode := nn,
        addr := a } [] []

/-- What the properties read of a located node: its handler slice, its route
node, and its dynamic children. -/
def Tree.view (o : Option Tree) : (Option Nat × Option Nat) × List Tree :=
  match o with
  | some x => ((x.d.handlers, x.d.nameNode), x.rchildren)
  | Option.none => ((Option.none, Option.none), [])

/-- What a successful `Add` of pattern `p` (relative to the node) keeps and
establishes, from the trie `t` before to the trie `t'` after it. -/
def Tree.AddPost [Engine] (t t' : Tree) (p : Str) (h nn : Option Nat) (f : Nat) : Prop :=
  t'.WF ∧ t'.d.alpha = t.d.alpha
  ∧ (∀ q, q ≠ p → (Tree.view (t'.locate q)).1 = (Tree.view (t.locate q)).1)
  ∧ (∀ q, (Tree.view (t.locate q)).2 <+: (Tree.view (t'.locate q)).2)
  ∧ (isLiteral p →
      (h.isSome → (Tree.view (t'.locate p)).1.1 = h) ∧ (t.NoDyn → t'.NoDyn))
  ∧ (∀ S c rest, p = S ++ c :: rest → isLiteral S → isTok c →
      ∃ re, Engine.compile ((dynScan (c :: rest)).newPattern ++ "$".toList) = .ok re
        ∧ ∃ par, dynLeaf (c :: rest) re h nn par (f + 1) ∈ (Tree.view (t'.locate S)).2)

/-- The node a split creates for the end of the segment of a node with
fields `d`, from offset `m` on; it is allocated at `f`. -/
def splitNode (d : TreeFields) (m f : Nat) (sc rc : List Tree) : Tree :=
  .mk { static := true, alpha := (d.pattern.drop m).headD ' ', pattern := d.pattern.drop m,
        handlers := d.handlers, params := [], format := d.pattern.drop m, re := Option.none,
        parent := some d.addr, nameNode := d.nameNode, addr := f } sc rc

/-- A sequence of calls `r.Add(method, p, h)`, one for each pair `(p, h)` of
the list, in order; it stops at the first panic. -/
def Router.AddAll [Engine] (r : Router) (method : Str) : List (Str × Nat) → Out Unit
  | [] => .ok r ()
  | e :: rest =>
      match r.Add method e.1 (some e.2) with
      | .ok r' _ => Router.AddAll r' method rest
      | .panic f r' => .panic f r'

/-- The state of a router on which only literal routes were registered on the
method of index `idx`, with both options off and no group open. -/
def Router.Plain (r : Router) (idx : Nat) : Prop :=
  r.autoHead = false ∧ r.autoTrailingSlash = false ∧ r.groups = [] ∧ idx < r.nodes.length
    ∧ (r.tree idx).WF ∧ (r.tree idx).NoDyn ∧ (r.tree idx).d.alpha = '/'
    ∧ ∀ nd ∈ r.nodeStore, nd.name = []

instance (p : Str) : Decidable (isLiteral p) := by
  unfold isLiteral
  infer_instance

instance (c : Char) : Decidable (isTok c) := by
  unfold isTok
  infer_instance

/-- The router a call left behind, whether it returned or panicked. -/
def Out.router {α : Type} : Out α → Router
  | .ok r _ => r
  | .panic _ r => r

/-- Whether a call returned. -/
def Out.isOk {α : Type} : Out α → Bool
  | .ok _ _ => true
  | .panic _ _ => false

/-- The three rules of a parameter the properties speak of: none, `int`,
`string`. -/
inductive Rule where
  | dflt
  | int
  | str
  deriving DecidableEq, Repr

/-- A pattern as the specification reads it: literal bytes and parameters. -/
inductive Item where
  | lit (c : Char)
  | param (name : Str) (rule : Rule)
  deriving DecidableEq, Repr

/-- The text of a rule inside a pattern. -/
def Rule.text : Rule → Str
  | .dflt => []
  | .int => "(int)".toList
  | .str => "(string)".toList

/-- The text of an item inside a pattern. -/
def Item.text : Item → Str
  | .lit c => [c]
  | .param n r => ':' :: n ++ r.text

/-- The pattern string an item list stands for. -/
def patternText : List Item → Str
  | [] => []
  | i :: is => i.text ++ patternText is

/-- Whether a byte may occur in a value of a parameter with the rule. -/
def Rule.ok : Rule → Char → Bool
  | .dflt, c => c != '/'
  | .int, c => isDigit c
  | .str, c => isWord c

/-- The pattern with each parameter replaced by a value, in order. -/
def fill : List Item → List Str → Str
  | [], _ => []
  | .lit c :: is, vs => c :: fill is vs
  | .param _ _ :: is, v :: vs => v ++ fill is vs
  | .param _ _ :: is, [] => fill is []

/-- One value for each parameter, each a non-empty run of bytes its rule
admits. -/
def valuesOK : List Item → List Str → Prop
  | [], vs => vs = []
  | .lit _ :: is, vs => valuesOK is vs
  | .param _ r :: is, v :: vs => v ≠ [] ∧ (∀ x ∈ v, r.ok x = true) ∧ valuesOK is vs
  | .param _ _ :: _, [] => False

/-- The names of the parameters, in order. -/
def paramNames : List Item → List Str
  | [] => []
  | .lit _ :: is => paramNames is
  | .param n _ :: is => n :: paramNames is

/-- What follows a parameter without a rule does not extend its name and does
not open a rule. -/
def endsName : List Item → Prop
  | .lit c :: _ => IsParamChar c = false ∧ c ≠ '('
  | _ => True

/-- An item list is the reading of its own text: literals are neither `:`
nor `*`, names are made of parameter-name bytes, and a parameter without a
rule is followed by a byte that ends its name. -/
def itemsOK : List Item → Prop
  | [] => True
  | .lit c :: is => c ≠ ':' ∧ c ≠ '*' ∧ itemsOK is
  | .param n r :: is =>
      (∀ x ∈ n, IsParamChar x = true) ∧ (r = .dflt → endsName is) ∧ itemsOK is

/-- A byte the regular-expression syntax gives no meaning to. -/
def regexPlain (c : Char) : Prop :=
  c.toNat < 128 ∧ c ≠ '\\' ∧ c ≠ '.' ∧ c ≠ '+' ∧ c ≠ '*' ∧ c ≠ '?' ∧ c ≠ '(' ∧ c ≠ ')'
    ∧ c ≠ '|' ∧ c ≠ '[' ∧ c ≠ '{' ∧ c ≠ '^' ∧ c ≠ '$'

/-- Every literal of the list is a byte the regular-expression syntax gives no
meaning to. -/
def litsPlain : List Item → Prop
  | [] => True
  | .lit c :: is => regexPlain c ∧ litsPlain is
  | .param _ _ :: is => litsPlain is

/-- The literals in front of the first parameter. -/
def staticPart : List Item → Str
  | .lit c :: is => c :: staticPart is
  | _ => []

/-- The items from the first parameter on. -/
def dynPart : List Item → List Item
  | .lit _ :: is => dynPart is
  | is => is

instance : (is : List Item) → (vs : List Str) → Decidable (valuesOK is vs)
  | [], vs => by unfold valuesOK; infer_instance
  | .lit _ :: is, vs => by
      unfold valuesOK
      exact instDecidableValuesOK is vs
  | .param _ r :: is, v :: vs => by
      unfold valuesOK
      have := instDecidableValuesOK is vs
      infer_instance
  | .param _ _ :: _, [] => by unfold valuesOK; infer_instance

instance : (is : List Item) → Decidable (endsName is)
  | [] => by unfold endsName; infer_instance
  | .lit c :: _ => by unfold endsName; infer_instance
  | .param _ _ :: _ => by unfold endsName; infer_instance

instance : (is : List Item) → Decidable (itemsOK is)
  | [] => by unfold itemsOK; infer_instance
  | .lit c :: is => by
      unfold itemsOK
      have := instDecidableItemsOK is
      infer_instance
  | .param n r :: is => by
      unfold itemsOK
      have := instDecidableItemsOK is
      infer_instance

instance (c : Char) : Decidable (regexPlain c) := by
  unfold regexPlain
  infer_instance

instance : (is : List Item) → Decidable (litsPlain is)
  | [] => by unfold litsPlain; infer_instance
  | .lit c :: is => by
      unfold litsPlain
      have := instDecidableLitsPlain is
      infer_instance
  | .param _ _ :: is => by
      unfold litsPlain
      exact instDecidableLitsPlain is

/-- The bracket expression a rule compiles to. -/
def Rule.re : Rule → Re
  | .dflt => .cls true [.single '/']
  | .int => .cls false [.digit]
  | .str => .cls false [.word]

/-- The expression the engine builds for the compiled text of an item list
followed by `$`; `g` is the number of groups opened before. -/
def itemsRe : List Item → Nat → Re
  | [], _ => .cat .eol .empty
  | .lit c :: is, g => .cat (.chr c) (itemsRe is g)
  | .param _ r :: is, g =>
      .cat (.group (g + 1) (.cat (.plus true r.re) .empty)) (itemsRe is (g + 1))

/-- The capture groups closed by a match of an item list with the given
values, most recent first; `pos` is the offset the match starts at. -/
def capsOf : List Item → List Str → Nat → Nat → List (Nat × Nat × Nat)
  | [], _, _, _ => []
  | .lit _ :: is, vs, g, pos => capsOf is vs g (pos + 1)
  | .param _ _ :: is, v :: vs, g, pos =>
      capsOf is vs (g + 1) (pos + v.length) ++ [(g + 1, pos, pos + v.length)]
  | .param _ _ :: is, [], g, pos => capsOf is [] (g + 1) pos

/-- The capture expression `addChild` writes for a rule. -/
def Rule.expr : Rule → Str
  | .dflt => "([^\\/]+)".toList
  | .int => "([\\d]+)".toList
  | .str => "([\\w]+)".toList

/-- The expression text `addChild` writes for an item list. -/
def itemsExpr : List Item → Str
  | [] => []
  | .lit c :: is => c :: itemsExpr is
  | .param _ r :: is => r.expr ++ itemsExpr is

/-- The render fragment `addChild` writes for an item list. -/
def itemsFormat : List Item → Str
  | [] => []
  | .lit c :: is => c :: itemsFormat is
  | .param _ _ :: is => "%v".toList ++ itemsFormat is

/-- The name of a rule as it is written between the parentheses. -/
def Rule.word : Rule → Str
  | .dflt => []
  | .int => "int".toList
  | .str => "string".toList

/-- Where the value of the parameter number `j` (from 0) lies in the filled
pattern, which starts at offset `pos`. -/
def spanAt : List Item → List Str → Nat → Nat → Option (Nat × Nat)
  | [], _, _, _ => Option.none
  | .lit _ :: is, vs, pos, j => spanAt is vs (pos + 1) j
  | .param _ _ :: _, v :: _, pos, 0 => some (pos, pos + v.length)
  | .param _ _ :: is, v :: vs, pos, j + 1 => spanAt is vs (pos + v.length) j
  | .param _ _ :: _, [], _, _ => Option.none

/-- The trie a fresh root becomes when one pattern with a parameter is added:
`S` is the literal start of the pattern after the leading `/`, `L` builds the
dynamic node from the address of its parent. -/
def singleTrie (a f : Nat) (S : Str) (L : Nat → Tree) : Tree :=
  if S = [] then
    .mk ⟨true, '/', ['/'], Option.none, [], ['/'], Option.none, Option.none, Option.none, a⟩
      [] [L a]
  else
    .mk ⟨true, '/', ['/'], Option.none, [], ['/'], Option.none, Option.none, Option.none, a⟩
      [staticLeaf S Option.none Option.none a (f + 2) [L (f + 2)]] []

/-- What may follow a parameter that fills a whole segment: the end of the
pattern or a `/`. -/
def endsSegment : List Item → Prop
  | [] => True
  | .lit c :: _ => c = '/'
  | .param _ _ :: _ => False

/-- Every parameter has no rule and fills a whole `/`-delimited segment; the
flag tells whether the item in front is a `/`. -/
def wholeSegments : Bool → List Item → Prop
  | _, [] => True
  | _, .lit c :: is => wholeSegments (c == '/') is
  | b, .param _ r :: is => b = true ∧ r = .dflt ∧ endsSegment is ∧ wholeSegments false is

instance : (is : List Item) → Decidable (endsSegment is)
  | [] => by unfold endsSegment; infer_instance
  | .lit c :: _ => by unfold endsSegment; infer_instance
  | .param _ _ :: _ => by unfold endsSegment; infer_instance

instance : (b : Bool) → (is : List Item) → Decidable (wholeSegments b is)
  | _, [] => by unfold wholeSegments; infer_instance
  | _, .lit c :: is => by
      unfold wholeSegments
      exact instDecidableWholeSegments (c == '/') is
  | b, .param _ r :: is => by
      unfold wholeSegments
      have := instDecidableWholeSegments false is
      infer_instance

/-- A sequence of calls `r.Add(method, pattern, handlers)`, one for each
entry of the list, in order; it stops at the first panic. -/
def Router.AddSeq [Engine] (r : Router) : List (Str × Str × Option Nat) → Out Unit
  | [] => .ok r ()
  | e :: rest =>
      match r.Add e.1 e.2.1 e.2.2 with
      | .ok r' _ => Router.AddSeq r' rest
      | .panic f r' => .panic f r'

/-- The state of a router with both options off and no group open, on which
no route was named. -/
def Router.Sound (r : Router) : Prop :=
  r.autoHead = false ∧ r.autoTrailingSlash = false ∧ r.groups = []
    ∧ r.nodes.length = RouteLength ∧ (∀ idx, idx < RouteLength → (r.tree idx).WF)
    ∧ ∀ nd ∈ r.nodeStore, nd.name = []

/-- The value a call returned; 0 where it panicked. -/
def Out.val : Out Nat → Nat
  | .ok _ v => v
  | .panic _ _ => 0

/-- A callback that makes one call `r.Add(method, pattern, handlers)`. -/
def Router.addUnit [Engine] (method pattern : Str) (handlers : Option Nat) (r : Router) : Out Unit :=
  match r.Add method pattern handlers with
  | .ok r' _ => .ok r' ()
  | .panic f r' => .panic f r'

/-- Calls of `GroupAdd` nested in one another, outermost first, around the
callback `body`. -/
def Router.nested : List (Str × Option Nat) → (Router → Out Unit) → Router → Out Unit
  | [], body, r => body r
  | g :: gs, body, r => r.GroupAdd g.1 (Router.nested gs body) g.2

/-- A router to which the caller's handler slices have been allocated. -/
def Router.withSlices (r : Router) (S : List (List HandlerFunc)) : Router :=
  { r with slices := S }

/-- The trailing-slash twin of a pattern, as `Add` builds it: without the
final `/` where the pattern ends in `/`, with a `/` appended otherwise. -/
def toggleSlash (p : Str) : Str :=
  if p.getLast? = some '/' then p.dropLast else p ++ "/".toList

mutual
/-- A property of every node of a trie: `Qs` of the handler slice and the
route node of each node reached through `schildren`, `Qd` of each dynamic
child of such a node. -/
def Tree.Every (Qs : Option Nat → Option Nat → Prop) (Qd : Tree → Prop) : Tree → Prop
  | .mk d sc rc => Qs d.handlers d.nameNode ∧ (∀ c ∈ rc, Qd c) ∧ Tree.EveryList Qs Qd sc
/-- The same of every trie of a list. -/
def Tree.EveryList (Qs : Option Nat → Option Nat → Prop) (Qd : Tree → Prop) :
    List Tree → Prop
  | [] => True
  | c :: cs => Tree.Every Qs Qd c ∧ Tree.EveryList Qs Qd cs
end

/-- The nodes of a trie: `Tree.Node t x` says that `x` is `t` or is reached
from `t` through static and dynamic children. -/
inductive Tree.Node : Tree → Tree → Prop where
  | self (t : Tree) : Tree.Node t t
  | static {t c x : Tree} : c ∈ t.schildren → Tree.Node c x → Tree.Node t x
  | dynamic {t c x : Tree} : c ∈ t.rchildren → Tree.Node c x → Tree.Node t x

/-- The pattern `add` registers: the pattern of the call after the prefixes
of the open groups, outermost first. -/
def Router.fullPattern (r : Router) (pattern : Str) : Str :=
  (r.groups.map (fun g => g.pattern)).flatten ++ pattern

/-- The expression the engine builds for `(^.*)$`, the compiled text of the
wildcard. -/
def wildRe : Re :=
  .cat (.group 1 (.cat .bol (.cat (.star true .any) .empty))) (.cat .eol .empty)

/-- The trie whose dynamic routes all sit at one node: `S` is the literal
start of the patterns after the leading `/`, `rc` builds the dynamic children
from the address of their parent. -/
def dynTrie (a f : Nat) (S : Str) (rc : Nat → List Tree) : Tree :=
  if S = [] then
    .mk ⟨true, '/', ['/'], Option.none, [], ['/'], Option.none, Option.none, Option.none, a⟩
      [] (rc a)
  else
    .mk ⟨true, '/', ['/'], Option.none, [], ['/'], Option.none, Option.none, Option.none, a⟩
      [staticLeaf S Option.none Option.none a (f + 2) (rc (f + 2))] []

/-- The state of a router with both options off and no group open, whose
tries have the shape `Tree.WF`. -/
def Router.Good (r : Router) : Prop :=
  r.autoHead = false ∧ r.autoTrailingSlash = false ∧ r.groups = []
    ∧ r.nodes.length = RouteLength ∧ ∀ idx, idx < RouteLength → (r.tree idx).WF

/-- How the handler slice `hh` and the route node `nn` of a trie node relate
to the slice `h` of one route and to its route node `rn` (`none` before the
route is registered): the node has the slice `h` exactly when its route node
is `rn`, and every route node is below the bound `B`. -/
def pairOK (h : Nat) (rn : Option Nat) (B : Nat) (hh nn : Option Nat) : Prop :=
  (hh = some h ↔ (rn.isSome = true ∧ nn = rn)) ∧ ∀ k, nn = some k → k < B

/-- The registrations of `seq1`, then `Add(method, P, h)` whose route handle
is named `N`, then the registrations of `seq2`; it stops at the first
panic. -/
def Router.namedRun [Engine] (seq1 : List (Str × Str × Option Nat)) (method P : Str) (h : Nat)
    (N : Str) (seq2 : List (Str × Str × Option Nat)) : Out Unit :=
  match New.AddSeq seq1 with
  | .panic f r => .panic f r
  | .ok r1 _ =>
      match r1.Add method P (some h) with
      | .panic f r => .panic f r
      | .ok r2 n => (r2.Name n N).AddSeq seq2

/-- The number of `%v` placeholders of a render fragment, read the way
`fmt.Sprintf` reads it: `%%` is a literal percent sign. -/
def countPlaceholders : Str → Nat
  | [] => 0
  | '%' :: 'v' :: rest => countPlaceholders rest + 1
  | '%' :: '%' :: rest => countPlaceholders rest
  | _ :: rest => countPlaceholders rest

/-- The three counts of the dynamic children a call of `addChild` leaves at
the node, and of the dynamic children of its static children: the length of
the parameter list, the number of capture groups of the compiled expression,
the number of placeholders of the render fragment. -/
def AddOut.counts : AddOut Tree → List (Nat × Option Nat × Nat)
  | .node t _ =>
      (t.rchildren ++ t.schildren.flatMap (fun x => x.rchildren)).map (fun y =>
        (y.d.params.length, y.d.re.map (fun re => re.numCap), countPlaceholders y.d.format))
  | _ => []

/-- Where the reading of an expression text stands: outside everything, after
an opening parenthesis (`paren`, then `parenQ` after `(?` and `parenQP` after
`(?P`), after a backslash, inside a `\Q...\E` quotation, or inside a bracket
expression (`clsStart` right after `[`, `clsFirst` where a `]` still stands
for itself, `clsBr` after a `[`, `named` inside `[:name:]`). -/
inductive CapState where
  | out
  | paren
  | parenQ
  | parenQP
  | esc
  | quote
  | quoteEsc
  | clsStart
  | clsFirst
  | cls
  | clsEsc
  | clsBr
  | named
  | namedColon
  deriving DecidableEq, Repr

/-- The state after a byte read outside everything. -/
def outStep (c : Char) : CapState :=
  if c = '\\' then .esc
  else if c = '[' then .clsStart
  else if c = '(' then .paren
  else .out

/-- The state after a byte read inside a bracket expression; `first` is true
where a `]` still stands for itself. -/
def clsStep (first : Bool) (c : Char) : CapState :=
  if c = ']' then (if first then .cls else .out)
  else if c = '\\' then .clsEsc
  else if c = '[' then .clsBr
  else .cls

/-- One byte of an expression text: the state after it, and whether the byte
settles that the parenthesis before it opens a capturing group (`(` not
followed by `?`, `(?P<` and `(?<`). -/
def capStep (st : CapState) (c : Char) : CapState × Nat :=
  match st with
  | .out => (outStep c, 0)
  | .paren => if c = '?' then (.parenQ, 0) else (outStep c, 1)
  | .parenQ =>
      if c = 'P' then (.parenQP, 0) else if c = '<' then (.out, 1) else (.out, 0)
  | .parenQP => if c = '<' then (.out, 1) else (.out, 0)
  | .esc => if c = 'Q' then (.quote, 0) else (.out, 0)
  | .quote => if c = '\\' then (.quoteEsc, 0) else (.quote, 0)
  | .quoteEsc =>
      if c = 'E' then (.out, 0) else if c = '\\' then (.quoteEsc, 0) else (.quote, 0)
  | .clsStart => if c = '^' then (.clsFirst, 0) else (clsStep true c, 0)
  | .clsFirst => (clsStep true c, 0)
  | .cls => (clsStep false c, 0)
  | .clsEsc => (.cls, 0)
  | .clsBr => if c = ':' then (.named, 0) else (clsStep false c, 0)
  | .named => if c = ':' then (.namedColon, 0) else (.named, 0)
  | .namedColon =>
      if c = ']' then (.cls, 0) else if c = ':' then (.namedColon, 0) else (.named, 0)

/-- The number of capturing groups an expression text opens, read from the
state `st` on. -/
def capScan : CapState → Str → Nat
  | _, [] => 0
  | st, c :: rest => (capStep st c).2 + capScan (capStep st c).1 rest

/-- The state in which the reading of an expression text ends. -/
def capEnd : CapState → Str → CapState
  | st, [] => st
  | st, c :: rest => capEnd (capStep st c).1 rest

/-- The number of capturing groups of an expression text: its parentheses
that are not escaped, not quoted, not inside a bracket expression and not of
the form `(?...)` other than a named group. -/
def capGroups (e : Str) : Nat := capScan .out e

/-- A piece of a pattern: a literal byte, a parameter with the rule text
written in parentheses after its name (if any), or the wildcard `*`. -/
inductive Seg where
  | lit (c : Char)
  | param (n : Str) (rule : Option Str)
  | wild
  deriving DecidableEq, Repr

/-- The text of a rule inside a pattern: nothing, or the rule text in
parentheses. -/
def ruleText : Option Str → Str
  | none => []
  | some w => '(' :: (w ++ [')'])

/-- The text of a piece inside a pattern. -/
def Seg.text : Seg → Str
  | .lit c => [c]
  | .param n rule => ':' :: (n ++ ruleText rule)
  | .wild => ['*']

/-- The pattern string a list of pieces stands for. -/
def segText : List Seg → Str
  | [] => []
  | i :: is => i.text ++ segText is

/-- What follows a parameter without a rule does not extend its name and does
not open a rule. -/
def segEndsName : List Seg → Prop
  | .lit c :: _ => IsParamChar c = false ∧ c ≠ '('
  | _ => True

/-- A list of pieces is the reading of its own text: a literal byte is not
`:` or `*`, a parameter name is made of name bytes and ends where the next
piece starts, a rule text holds no `)`. -/
def segsOK : List Seg → Prop
  | [] => True
  | .lit c :: is => c ≠ ':' ∧ c ≠ '*' ∧ segsOK is
  | .param n rule :: is =>
      (∀ x ∈ n, IsParamChar x = true) ∧ (rule = none → segEndsName is)
        ∧ (∀ x ∈ rule.getD [], x ≠ ')') ∧ segsOK is
  | .wild :: is => segsOK is

/-- The capture expression `addChild` writes for the rule text `w`, read by
itself, opens exactly one capturing group (its own parenthesis) and ends
outside bracket expressions, escapes and quotations. -/
def ruleOK (w : Str) : Prop :=
  capScan .out (ruleExpr w) = 1 ∧ capEnd .out (ruleExpr w) = .out

/-- No literal byte of the list is `(`, `[`, a backslash or `%`, and every
rule text satisfies `ruleOK`. -/
def segsPlain : List Seg → Prop
  | [] => True
  | .lit c :: is => (c ≠ '(' ∧ c ≠ '[' ∧ c ≠ '\\' ∧ c ≠ '%') ∧ segsPlain is
  | .param _ rule :: is => ruleOK (rule.getD []) ∧ segsPlain is
  | .wild :: is => segsPlain is

/-- The list starts with a parameter or the wildcard. -/
def startsTok : List Seg → Prop
  | .param _ _ :: _ => True
  | .wild :: _ => True
  | _ => False

instance : (is : List Seg) → Decidable (segEndsName is)
  | [] => by unfold segEndsName; infer_instance
  | .lit c :: _ => by unfold segEndsName; infer_instance
  | .param _ _ :: _ => by unfold segEndsName; infer_instance
  | .wild :: _ => by unfold segEndsName; infer_instance

instance : (is : List Seg) → Decidable (segsOK is)
  | [] => by unfold segsOK; infer_instance
  | .lit c :: is => by
      unfold segsOK
      have := instDecidableSegsOK is
      infer_instance
  | .param n rule :: is => by
      unfold segsOK
      have := instDecidableSegsOK is
      infer_instance
  | .wild :: is => by
      unfold segsOK
      exact instDecidableSegsOK is

instance (w : Str) : Decidable (ruleOK w) := by
  unfold ruleOK
  infer_instance

instance : (is : List Seg) → Decidable (segsPlain is)
  | [] => by unfold segsPlain; infer_instance
  | .lit c :: is => by
      unfold segsPlain
      have := instDecidableSegsPlain is
      infer_instance
  | .param _ _ :: is => by
      unfold segsPlain
      have := instDecidableSegsPlain is
      infer_instance
  | .wild :: is => by
      unfold segsPlain
      exact instDecidableSegsPlain is

instance : (is : List Seg) → Decidable (startsTok is)
  | [] => by unfold startsTok; infer_instance
  | .lit _ :: _ => by unfold startsTok; infer_instance
  | .param _ _ :: _ => by unfold startsTok; infer_instance
  | .wild :: _ => by unfold startsTok; infer_instance

/-- The parameter names `addChild` records for a list of pieces: the name of
each parameter, the empty name for each wildcard. -/
def segNames : List Seg → List Str
  | [] => []
  | .lit _ :: is => segNames is
  | .param n _ :: is => n :: segNames is
  | .wild :: is => [] :: segNames is

/-- The expression text `addChild` writes for a list of pieces. -/
def segExpr : List Seg → Str
  | [] => []
  | .lit c :: is => c :: segExpr is
  | .param _ rule :: is => ruleExpr (rule.getD []) ++ segExpr is
  | .wild :: is => "(^.*)".toList ++ segExpr is

/-- The render fragment `addChild` writes for a list of pieces. -/
def segFormat : List Seg → Str
  | [] => []
  | .lit c :: is => c :: segFormat is
  | .param _ _ :: is => "%v".toList ++ segFormat is
  | .wild :: is => "%v".toList ++ segFormat is

/-- Every literal of the list is a byte the regular-expression syntax gives no
meaning to, or the byte `.`. -/
def litsDot : List Item → Prop
  | [] => True
  | .lit c :: is => (regexPlain c ∨ c = '.') ∧ litsDot is
  | .param _ _ :: is => litsDot is

instance : (is : List Item) → Decidable (litsDot is)
  | [] => by unfold litsDot; infer_instance
  | .lit c :: is => by
      unfold litsDot
      have := instDecidableLitsDot is
      infer_instance
  | .param _ _ :: is => by
      unfold litsDot
      exact instDecidableLitsDot is

/-- The expression the engine builds for the compiled text of an item list
followed by `$`, where a literal may be the byte `.`, which the engine reads
as "any byte but newline"; `g` is the number of groups opened before. -/
def itemsReDot : List Item → Nat → Re
  | [], _ => .cat .eol .empty
  | .lit c :: is, g => .cat (if c = '.' then .any else .chr c) (itemsReDot is g)
  | .param _ r :: is, g =>
      .cat (.group (g + 1) (.cat (.plus true r.re) .empty)) (itemsReDot is (g + 1))

/-- The second list is the first with each literal `.` replaced by a byte
other than newline. -/
def dotVar : List Item → List Item → Prop
  | [], [] => True
  | .lit c :: is, .lit d :: js => (if c = '.' then d ≠ '\n' else d = c) ∧ dotVar is js
  | .param n r :: is, .param m q :: js => m = n ∧ q = r ∧ dotVar is js
  | _, _ => False

/-- The chain `c_1 ++ ... ++ c_n ++ h` of a registration with the slice `h`
made inside groups with the slices `c_1 .. c_n`, outermost first. -/
def Router.groupChain (r : Router) (gs : List (Str × Option Nat)) (h : Option Nat) :
    List HandlerFunc :=
  (gs.map (fun g => r.chain g.2)).flatten ++ r.chain h

/-- The embedded engine: the part of the host engine written out in section
"The host regular-expression engine".  Statements without an engine of their
own are about the package run with this one. -/
instance embeddedEngine : Engine := ⟨Regexp.Compile, Regexp.FindStringSubmatchIndex⟩

/-! # Properties -/

/-! ## The embedded engine as the engine of the package -/

theorem Engine.compile_embedded (e : Str) :
    (Engine.compile e : Except CompileError Regexp) = Regexp.Compile e := rfl

theorem Engine.find_embedded (re : Regexp) (s : Str) :
    Engine.find re s = re.FindStringSubmatchIndex s := rfl

/-! ## Strings -/

theorem matchedLen_nil_left (b : Str) : matchedLen [] b = 0 := by
  cases b <;> rfl

theorem matchedLen_nil_right (a : Str) : matchedLen a [] = 0 := by
  cases a <;> rfl

theorem matchedLen_cons (a b : Char) (as bs : Str) :
    matchedLen (a :: as) (b :: bs) = if a = b then matchedLen as bs + 1 else 0 := rfl

theorem matchedLen_le_left (a b : Str) : matchedLen a b ≤ a.length := by
  induction a generalizing b with
  | nil => simp [matchedLen_nil_left]
  | cons x xs ih =>
    cases b with
    | nil => simp [matchedLen_nil_right]
    | cons y ys =>
      rw [matchedLen_cons]
      split
      · simpa using ih ys
      · simp

theorem matchedLen_le_right (a b : Str) : matchedLen a b ≤ b.length := by
  induction a generalizing b with
  | nil => simp [matchedLen_nil_left]
  | cons x xs ih =>
    cases b with
    | nil => simp [matchedLen_nil_right]
    | cons y ys =>
      rw [matchedLen_cons]
      split
      · simpa using ih ys
      · simp

theorem matchedLen_take (a b : Str) :
    a.take (matchedLen a b) = b.take (matchedLen a b) := by
  induction a generalizing b with
  | nil => simp [matchedLen_nil_left]
  | cons x xs ih =>
    cases b with
    | nil => simp [matchedLen_nil_right]
    | cons y ys =>
      rw [matchedLen_cons]
      split
      · rename_i h
        subst h
        simpa using ih ys
      · simp

/-- After the common start the two strings differ at once. -/
theorem matchedLen_drop_head (a b : Str) (x y : Char) (as bs : Str)
    (ha : a.drop (matchedLen a b) = x :: as) (hb : b.drop (matchedLen a b) = y :: bs) :
    x ≠ y := by
  induction a generalizing b with
  | nil => simp at ha
  | cons u us ih =>
    cases b with
    | nil => simp at hb
    | cons v vs =>
      rw [matchedLen_cons] at ha hb
      split at ha
      · rename_i h
        simp only [h, if_true, List.drop_succ_cons] at ha hb
        exact ih vs ha hb
      · rename_i h
        simp only [h, if_false, List.drop_zero, List.cons.injEq] at ha hb
        rw [← ha.1, ← hb.1]
        exact h

theorem matchedLen_eq_length_iff (q pat : Str) :
    matchedLen q pat = pat.length ↔ pat <+: q := by
  induction pat generalizing q with
  | nil => simp [matchedLen_nil_right]
  | cons y ys ih =>
    cases q with
    | nil => simp [matchedLen_nil_left]
    | cons x xs =>
      rw [matchedLen_cons]
      by_cases h : x = y
      · subst h
        simp [ih xs, List.cons_prefix_cons]
      · have h' : ¬ y = x := fun e => h e.symm
        simp [h, h', List.cons_prefix_cons]

theorem matchedLen_eq_zero_iff (a b : Str) :
    matchedLen a b = 0 ↔ a.head? ≠ b.head? ∨ a = [] ∨ b = [] := by
  cases a with
  | nil => simp [matchedLen_nil_left]
  | cons x xs =>
    cases b with
    | nil => simp [matchedLen_nil_right]
    | cons y ys =>
      rw [matchedLen_cons]
      by_cases h : x = y <;> simp [h]

theorem matchedLen_self_append (a r : Str) : matchedLen (a ++ r) a = a.length := by
  rw [matchedLen_eq_length_iff]
  exact List.prefix_append a r

theorem Tree.induct {P : Tree → Prop}
    (h : ∀ d sc rc, (∀ c ∈ sc, P c) → (∀ c ∈ rc, P c) → P (.mk d sc rc)) (t : Tree) : P t :=
  Tree.rec (motive_1 := P) (motive_2 := fun l => ∀ c ∈ l, P c)
    (fun d sc rc ih1 ih2 => h d sc rc ih1 ih2)
    (by intro c hc; cases hc)
    (fun head tail ih1 ih2 => by
      intro c hc
      rcases List.mem_cons.1 hc with rfl | hc
      · exact ih1
      · exact ih2 c hc) t

theorem Tree.WFList_iff (sc : List Tree) : Tree.WFList sc ↔ ∀ c ∈ sc, c.WF := by
  induction sc with
  | nil => simp [Tree.WFList]
  | cons c cs ih => simp [Tree.WFList, ih]

theorem Tree.NoDynList_iff (sc : List Tree) : Tree.NoDynList sc ↔ ∀ c ∈ sc, c.NoDyn := by
  induction sc with
  | nil => simp [Tree.NoDynList]
  | cons c cs ih => simp [Tree.NoDynList, ih]

theorem Tree.WF_mk (d : TreeFields) (sc rc : List Tree) :
    (Tree.mk d sc rc).WF ↔ d.static = true ∧ d.pattern.head? = some d.alpha ∧ isLiteral d.pattern
        ∧ (∀ c ∈ sc, c.WF) ∧ (sc.map (fun c => c.d.alpha)).Nodup := by
  rw [Tree.WF, Tree.WFList_iff]

theorem Tree.NoDyn_mk (d : TreeFields) (sc rc : List Tree) :
    (Tree.mk d sc rc).NoDyn ↔ rc = [] ∧ ∀ c ∈ sc, c.NoDyn := by
  rw [Tree.NoDyn, Tree.NoDynList_iff]

theorem scanLoop_nil (n : Nat) (seen : Str) (s : Scan) : scanLoop n seen [] s = s := by
  cases n <;> rfl

theorem scanLoop_lit (n : Nat) (seen : Str) (c : Char) (rest : Str) (s : Scan)
    (h1 : c ≠ ':') (h2 : c ≠ '*') :
    scanLoop (n + 1) seen (c :: rest) s
      = scanLoop n (seen ++ [c]) rest
          { s with newPattern := s.newPattern ++ [c], format := s.format ++ [c] } := by
  simp [scanLoop, h1, h2]

theorem isLiteral_cons (c : Char) (p : Str) :
    isLiteral (c :: p) ↔ (c ≠ ':' ∧ c ≠ '*') ∧ isLiteral p := by
  simp [isLiteral]

theorem isLiteral_nil : isLiteral [] := by simp [isLiteral]

theorem isLiteral_append (a b : Str) : isLiteral (a ++ b) ↔ isLiteral a ∧ isLiteral b := by
  simp only [isLiteral, List.mem_append]
  constructor
  · intro h
    exact ⟨fun c hc => h c (Or.inl hc), fun c hc => h c (Or.inr hc)⟩
  · rintro ⟨h1, h2⟩ c (hc | hc)
    · exact h1 c hc
    · exact h2 c hc

theorem isLiteral_take (a : Str) (n : Nat) (h : isLiteral a) : isLiteral (a.take n) :=
  fun c hc => h c (List.mem_of_mem_take hc)

theorem isLiteral_drop (a : Str) (n : Nat) (h : isLiteral a) : isLiteral (a.drop n) :=
  fun c hc => h c (List.mem_of_mem_drop hc)

/-- The loop copies a literal start of the pattern. -/
theorem scanLoop_literal (S : Str) (hS : isLiteral S) (n : Nat) (seen r : Str) (s : Scan) :
    scanLoop (S.length + n) seen (S ++ r) s
      = scanLoop n (seen ++ S) r
          { s with newPattern := s.newPattern ++ S, format := s.format ++ S } := by
  induction S generalizing seen s with
  | nil => simp
  | cons c cs ih =>
    obtain ⟨⟨h1, h2⟩, hcs⟩ := (isLiteral_cons c cs).1 hS
    have e : (c :: cs).length + n = (cs.length + n) + 1 := by simp; omega
    rw [e, List.cons_append, scanLoop_lit _ _ _ _ _ h1 h2, ih hcs]
    simp

theorem scanLoop_all_literal (p : Str) (hp : isLiteral p) :
    scanLoop p.length [] p Scan.init = ⟨[], [], p, p⟩ := by
  have := scanLoop_literal p hp 0 [] [] Scan.init
  simp only [Nat.add_zero, List.append_nil, List.nil_append] at this
  rw [this]
  simp [scanLoop, Scan.init]

/-- The three accumulators `params`, `newPattern`, `format` do not depend on
what the loop has seen before. -/
theorem scanLoop_acc (n : Nat) : ∀ (seen r : Str) (s : Scan),
    (scanLoop n seen r s).params = s.params ++ (scanLoop n [] r Scan.init).params
    ∧ (scanLoop n seen r s).newPattern = s.newPattern ++ (scanLoop n [] r Scan.init).newPattern
    ∧ (scanLoop n seen r s).format = s.format ++ (scanLoop n [] r Scan.init).format := by
  induction n with
  | zero => intro seen r s; simp [scanLoop, Scan.init]
  | succ n ih =>
    intro seen r s
    cases r with
    | nil => simp [scanLoop, Scan.init]
    | cons c rest =>
      simp only [scanLoop]
      split
      · refine ⟨?_, ?_, ?_⟩
        · conv_lhs => rw [(ih _ _ _).1]
          conv_rhs => rw [(ih _ _ _).1]
          simp [Scan.init]
        · conv_lhs => rw [(ih _ _ _).2.1]
          conv_rhs => rw [(ih _ _ _).2.1]
          simp [Scan.init]
        · conv_lhs => rw [(ih _ _ _).2.2]
          conv_rhs => rw [(ih _ _ _).2.2]
          simp [Scan.init]
      · split
        · split
          · refine ⟨?_, ?_, ?_⟩
            · conv_lhs => rw [(ih _ _ _).1]
              conv_rhs => rw [(ih _ _ _).1]
              simp [Scan.init]
            · conv_lhs => rw [(ih _ _ _).2.1]
              conv_rhs => rw [(ih _ _ _).2.1]
              simp [Scan.init]
            · conv_lhs => rw [(ih _ _ _).2.2]
              conv_rhs => rw [(ih _ _ _).2.2]
              simp [Scan.init]
          · refine ⟨?_, ?_, ?_⟩
            · conv_lhs => rw [(ih _ _ _).1]
              conv_rhs => rw [(ih _ _ _).1]
              simp [Scan.init]
            · conv_lhs => rw [(ih _ _ _).2.1]
              conv_rhs => rw [(ih _ _ _).2.1]
              simp [Scan.init]
            · conv_lhs => rw [(ih _ _ _).2.2]
              conv_rhs => rw [(ih _ _ _).2.2]
              simp [Scan.init]
        · refine ⟨?_, ?_, ?_⟩
          · conv_lhs => rw [(ih _ _ _).1]
            conv_rhs => rw [(ih _ _ _).1]
            simp [Scan.init]
          · conv_lhs => rw [(ih _ _ _).2.1]
            conv_rhs => rw [(ih _ _ _).2.1]
            simp [Scan.init]
          · conv_lhs => rw [(ih _ _ _).2.2]
            conv_rhs => rw [(ih _ _ _).2.2]
            simp [Scan.init]

/-- Once a parameter has been seen the static start is not set again. -/
theorem scanLoop_static_fixed (n : Nat) : ∀ (seen r : Str) (s : Scan),
    s.params ≠ [] → (scanLoop n seen r s).staticPattern = s.staticPattern := by
  induction n with
  | zero => intro seen r s _; simp [scanLoop]
  | succ n ih =>
    intro seen r s hs
    have hl : ¬ s.params.length = 0 := by
      intro h; exact hs (List.length_eq_zero.1 h)
    cases r with
    | nil => simp [scanLoop]
    | cons c rest =>
      simp only [scanLoop]
      split
      · rw [ih _ _ _ (by simp)]; simp [hl]
      · split
        · split
          · rw [ih _ _ _ (by simp)]; simp [hl]
          · rw [ih _ _ _ (by simp)]; simp [hl]
        · rw [ih _ _ _ (by simpa using hs)]


/-- At the first parameter the static start is what has been seen. -/
theorem scanLoop_static_tok (n : Nat) (seen : Str) (c : Char) (rest : Str) (a b : Str)
    (hc : isTok c) :
    (scanLoop (n + 1) seen (c :: rest) ⟨[], [], a, b⟩).staticPattern = seen := by
  have hseen : (if 0 < seen.length then seen else []) = seen := by
    cases seen <;> simp
  simp only [scanLoop]
  split
  · rw [scanLoop_static_fixed _ _ _ _ (by simp)]; simp
  · split
    · split
      · rw [scanLoop_static_fixed _ _ _ _ (by simp)]; simp
      · rw [scanLoop_static_fixed _ _ _ _ (by simp)]; simp
    · rcases hc with h | h <;> contradiction

theorem scanLoop_params_tok (n : Nat) (seen : Str) (c : Char) (rest : Str) (s : Scan)
    (hc : isTok c) :
    (scanLoop (n + 1) seen (c :: rest) s).params ≠ []
    ∧ (scanLoop (n + 1) seen (c :: rest) Scan.init).newPattern ≠ [] := by
  simp only [scanLoop]
  split
  · constructor
    · rw [(scanLoop_acc _ _ _ _).1]; simp
    · rw [(scanLoop_acc _ _ _ _).2.1]; simp [Scan.init]
  · split
    · split
      · constructor
        · rw [(scanLoop_acc _ _ _ _).1]; simp
        · rw [(scanLoop_acc _ _ _ _).2.1]; simp [Scan.init, ruleExpr]
          split <;> [simp; (split <;> [simp; (split <;> simp)])]
      · constructor
        · rw [(scanLoop_acc _ _ _ _).1]; simp
        · rw [(scanLoop_acc _ _ _ _).2.1]; simp [Scan.init, ruleExpr]
    · rcases hc with h | h <;> contradiction

@[simp] theorem Tree.d_mk (d : TreeFields) (sc rc : List Tree) : (Tree.mk d sc rc).d = d := rfl
@[simp] theorem Tree.schildren_mk (d : TreeFields) (sc rc : List Tree) :
    (Tree.mk d sc rc).schildren = sc := rfl
@[simp] theorem Tree.rchildren_mk (d : TreeFields) (sc rc : List Tree) :
    (Tree.mk d sc rc).rchildren = rc := rfl

theorem Tree.eta (t : Tree) : Tree.mk t.d t.schildren t.rchildren = t := by
  cases t; rfl

theorem addChild_literal [Engine] (t : Tree) (p : Str) (hp : isLiteral p) (hne : p ≠ [])
    (h nn : Option Nat) (f : Nat) :
    t.addChild p h nn f
      = .node (.mk t.d (t.schildren ++ [staticLeaf p h nn t.d.addr (f + 2) []]) t.rchildren)
          (f + 2) := by
  cases p with
  | nil => exact absurd rfl hne
  | cons c cs =>
    unfold Tree.addChild
    rw [← Scan.init, scanLoop_all_literal _ hp]
    simp [NewTree, staticLeaf]

theorem dynScan_split (S : Str) (hS : isLiteral S) (c : Char) (rest : Str) (hc : isTok c) :
    dynScan (S ++ c :: rest)
      = ⟨S, (dynScan (c :: rest)).params, S ++ (dynScan (c :: rest)).newPattern,
          S ++ (dynScan (c :: rest)).format⟩ := by
  unfold dynScan
  have e : (S ++ c :: rest).length = S.length + (rest.length + 1) := by simp
  rw [e, scanLoop_literal S hS]
  have hst := scanLoop_static_tok rest.length ([] ++ S) c rest ([] ++ S) ([] ++ S) hc
  have hacc := scanLoop_acc (rest.length + 1) ([] ++ S) (c :: rest) ⟨[], [], [] ++ S, [] ++ S⟩
  simp only [Scan.init, List.length_cons, List.nil_append] at hst hacc ⊢
  generalize scanLoop (rest.length + 1) S (c :: rest) ⟨[], [], S, S⟩ = x at hst hacc ⊢
  cases x
  simp only at hst hacc
  simp [hst, hacc.1, hacc.2.1, hacc.2.2, Scan.init]

theorem dynScan_tok (c : Char) (rest : Str) (hc : isTok c) :
    (dynScan (c :: rest)).staticPattern = [] ∧ (dynScan (c :: rest)).params ≠ []
      ∧ (dynScan (c :: rest)).newPattern ≠ [] := by
  unfold dynScan
  refine ⟨?_, ?_, ?_⟩
  · exact scanLoop_static_tok rest.length [] c rest [] [] hc
  · exact (scanLoop_params_tok rest.length [] c rest Scan.init hc).1
  · exact (scanLoop_params_tok rest.length [] c rest Scan.init hc).2

/-- `addChild` on a pattern with a parameter: `S` is the literal start, `D`
the rest from the first parameter on. -/
theorem addChild_dynamic [Engine] (t : Tree) (S : Str) (hS : isLiteral S) (c : Char) (rest : Str)
    (hc : isTok c) (h nn : Option Nat) (f : Nat) :
    t.addChild (S ++ c :: rest) h nn f
      = match Engine.compile ((dynScan (c :: rest)).newPattern ++ "$".toList) with
        | .error e => .panic (.regexCompile e) t
        | .ok re =>
          if S ≠ [] then
            .node (.mk t.d (t.schildren ++ [staticLeaf S Option.none Option.none t.d.addr (f + 2)
                [dynLeaf (c :: rest) re h nn (f + 2) (f + 1)]]) t.rchildren) (f + 1)
          else if t.rchildren.any (fun x => x.d.pattern == (dynScan (c :: rest)).newPattern) then
            .panic .routeExists t
          else
            .node (.mk t.d t.schildren
              (t.rchildren ++ [dynLeaf (c :: rest) re h nn t.d.addr (f + 1)])) (f + 1) := by
  obtain ⟨h1, h2, h3⟩ := dynScan_tok c rest hc
  have hsp := dynScan_split S hS c rest hc
  simp only [dynScan] at h1 h2 h3 hsp ⊢
  unfold Tree.addChild
  rw [← Scan.init]
  simp only [hsp]
  have hpl : 0 < (scanLoop (c :: rest).length [] (c :: rest) Scan.init).params.length :=
    List.length_pos.2 h2
  simp only [hpl, if_true, List.drop_left]
  obtain ⟨x, xs, hx⟩ := List.exists_cons_of_ne_nil h3
  simp only [NewTree, hx, Tree.d_mk]
  cases hre : Engine.compile (x :: xs ++ "$".toList) with
  | error e => rfl
  | ok re =>
    have hx' := hx
    simp only [List.length_cons] at hx'
    cases S with
    | nil => simp [dynLeaf, dynScan, hx']
    | cons s ss => simp [dynLeaf, staticLeaf, dynScan, hx']

theorem Tree.lookup_eq_view (t : Tree) (q : Str) : t.lookup q = (Tree.view (t.locate q)).1 := by
  unfold Tree.lookup Tree.view
  cases t.locate q <;> rfl

theorem Tree.dyn_eq_view (t : Tree) (q : Str) : t.dyn q = (Tree.view (t.locate q)).2 := by
  unfold Tree.dyn Tree.view
  cases t.locate q <;> rfl

theorem isTok_not_literal (S : Str) (c : Char) (rest : Str) (hc : isTok c) :
    ¬ isLiteral (S ++ c :: rest) := by
  intro h
  have := h c (by simp)
  rcases hc with rfl | rfl
  · exact this.1 rfl
  · exact this.2 rfl

/-- A pattern is literal or has a literal start followed by a parameter. -/
theorem literal_or_tok (p : Str) :
    isLiteral p ∨ ∃ S c rest, p = S ++ c :: rest ∧ isLiteral S ∧ isTok c := by
  induction p with
  | nil => exact Or.inl isLiteral_nil
  | cons x xs ih =>
    by_cases hx : isTok x
    · exact Or.inr ⟨[], x, xs, rfl, isLiteral_nil, hx⟩
    · have hx' : x ≠ ':' ∧ x ≠ '*' := by
        unfold isTok at hx
        push_neg at hx
        exact hx
      rcases ih with h | ⟨S, c, rest, rfl, hS, hc⟩
      · exact Or.inl ((isLiteral_cons x xs).2 ⟨hx', h⟩)
      · exact Or.inr ⟨x :: S, c, rest, rfl, (isLiteral_cons x S).2 ⟨hx', hS⟩, hc⟩


/-! ## Registration in the trie (`Tree.Add`) -/

theorem Tree.Add_mk [Engine] (d : TreeFields) (sc rc : List Tree) (p : Str) (h nn : Option Nat) (f : Nat) :
    (Tree.mk d sc rc).Add p h nn f =
      if matchedLen p d.pattern = 0 then .none
      else if matchedLen p d.pattern = d.pattern.length then
        if matchedLen p d.pattern = p.length then
          if h.isSome then
            if d.handlers.isSome then .panic .routeExists (.mk d sc rc)
            else .node (.mk { d with handlers := h, nameNode := nn } sc rc) d.addr
          else .node (.mk d sc rc) d.addr
        else
          match Tree.addList sc (p.drop (matchedLen p d.pattern)) h nn f with
          | .node sc' ret => .node (.mk d sc' rc) ret
          | .panic e sc' => .panic e (.mk d sc' rc)
          | .none => Tree.addChild (.mk d sc rc) (p.drop (matchedLen p d.pattern)) h nn f
      else
        match NewTree (d.pattern.drop (matchedLen p d.pattern)) d.handlers f with
        | Option.none => .panic .emptyPattern (.mk d sc rc)
        | some node0 =>
          if matchedLen p d.pattern = p.length then
            .node (.mk { d with pattern := p, format := p, handlers := h, nameNode := nn }
              [.mk { node0.d with nameNode := d.nameNode, parent := some d.addr } sc rc] []) d.addr
          else
            Tree.addChild
              (.mk { d with pattern := p.take (matchedLen p d.pattern),
                            format := p.take (matchedLen p d.pattern),
                            handlers := Option.none, nameNode := Option.none }
                [.mk { node0.d with nameNode := d.nameNode, parent := some d.addr } sc rc] [])
              (p.drop (matchedLen p d.pattern)) h nn f := by
  rw [Tree.Add]

theorem addChild_ne_none [Engine] (t : Tree) (p : Str) (hne : p ≠ []) (h nn : Option Nat) (f : Nat) :
    t.addChild p h nn f ≠ .none := by
  intro hh
  rcases literal_or_tok p with hl | ⟨S, c, rest, e, hS, hc⟩
  · rw [addChild_literal _ _ hl hne] at hh
    cases hh
  · rw [e, addChild_dynamic _ S hS c rest hc] at hh
    cases hre : Engine.compile ((dynScan (c :: rest)).newPattern ++ "$".toList) with
    | error e => rw [hre] at hh; cases hh
    | ok re =>
      rw [hre] at hh
      simp only at hh
      by_cases h1 : S ≠ []
      · rw [if_pos h1] at hh; cases hh
      · rw [if_neg h1] at hh
        split at hh <;> cases hh

theorem drop_matchedLen_ne_nil (p pat : Str) (h : matchedLen p pat ≠ p.length) :
    p.drop (matchedLen p pat) ≠ [] := by
  intro e
  have := List.drop_eq_nil_iff.1 e
  have := matchedLen_le_left p pat
  omega

theorem Tree.Add_eq_none_iff [Engine] (t : Tree) (p : Str) (h nn : Option Nat) (f : Nat) :
    t.Add p h nn f = .none ↔ matchedLen p t.d.pattern = 0 := by
  cases t with
  | mk d sc rc =>
    rw [Tree.Add_mk, Tree.d_mk]
    constructor
    · intro hh
      by_contra hm
      rw [if_neg hm] at hh
      by_cases h1 : matchedLen p d.pattern = d.pattern.length
      · rw [if_pos h1] at hh
        by_cases h2 : matchedLen p d.pattern = p.length
        · rw [if_pos h2] at hh
          split at hh
          · split at hh <;> cases hh
          · cases hh
        · rw [if_neg h2] at hh
          cases hl : Tree.addList sc (p.drop (matchedLen p d.pattern)) h nn f with
          | node sc' ret => rw [hl] at hh; cases hh
          | panic e sc' => rw [hl] at hh; cases hh
          | none =>
            rw [hl] at hh
            exact addChild_ne_none _ _ (drop_matchedLen_ne_nil p d.pattern h2) h nn f hh
      · rw [if_neg h1] at hh
        cases hn : NewTree (d.pattern.drop (matchedLen p d.pattern)) d.handlers f with
        | none => rw [hn] at hh; cases hh
        | some node0 =>
          rw [hn] at hh
          simp only at hh
          by_cases h2 : matchedLen p d.pattern = p.length
          · rw [if_pos h2] at hh; cases hh
          · rw [if_neg h2] at hh
            exact addChild_ne_none _ _ (drop_matchedLen_ne_nil p d.pattern h2) h nn f hh
    · intro hm
      simp [hm]

theorem Tree.addList_nil [Engine] (p : Str) (h nn : Option Nat) (f : Nat) :
    Tree.addList [] p h nn f = .none := by
  rw [Tree.addList]

theorem Tree.addList_cons [Engine] (c : Tree) (cs : List Tree) (p : Str) (h nn : Option Nat) (f : Nat) :
    Tree.addList (c :: cs) p h nn f =
      match Tree.Add c p h nn f with
      | .node c' ret => .node (c' :: cs) ret
      | .panic e c' => .panic e (c' :: cs)
      | .none =>
          match Tree.addList cs p h nn f with
          | .node cs' ret => .node (c :: cs') ret
          | .panic e cs' => .panic e (c :: cs')
          | .none => .none := by
  rw [Tree.addList]

theorem Tree.addList_eq_none_iff [Engine] (sc : List Tree) (p : Str) (h nn : Option Nat) (f : Nat) :
    Tree.addList sc p h nn f = .none ↔ ∀ x ∈ sc, x.Add p h nn f = .none := by
  induction sc with
  | nil => simp [Tree.addList_nil]
  | cons c cs ih =>
    rw [Tree.addList_cons]
    cases hc : Tree.Add c p h nn f with
    | node c' ret => simp [hc]
    | panic e c' => simp [hc]
    | none =>
      cases hcs : Tree.addList cs p h nn f with
      | node cs' ret =>
        simp only [hc, List.mem_cons, forall_eq_or_imp, true_and]
        rw [hcs] at ih
        simpa using ih
      | panic e cs' =>
        simp only [hc, List.mem_cons, forall_eq_or_imp, true_and]
        rw [hcs] at ih
        simpa using ih
      | none =>
        simp only [hc, List.mem_cons, forall_eq_or_imp, true_and]
        rw [hcs] at ih
        simpa using ih

theorem Tree.addList_eq_node [Engine] (sc : List Tree) (p : Str) (h nn : Option Nat) (f : Nat)
    (sc' : List Tree) (ret : Nat) (hh : Tree.addList sc p h nn f = .node sc' ret) :
    ∃ pre c c' post, sc = pre ++ c :: post ∧ sc' = pre ++ c' :: post
      ∧ c.Add p h nn f = .node c' ret ∧ ∀ x ∈ pre, x.Add p h nn f = .none := by
  induction sc generalizing sc' with
  | nil => rw [Tree.addList_nil] at hh; cases hh
  | cons c cs ih =>
    rw [Tree.addList_cons] at hh
    cases hc : Tree.Add c p h nn f with
    | node c' r =>
      rw [hc] at hh
      simp only [AddOut.node.injEq] at hh
      obtain ⟨rfl, rfl⟩ := hh
      exact ⟨[], c, c', cs, rfl, rfl, hc, by simp⟩
    | panic e c' => rw [hc] at hh; cases hh
    | none =>
      rw [hc] at hh
      cases hcs : Tree.addList cs p h nn f with
      | node cs' r =>
        rw [hcs] at hh
        simp only [AddOut.node.injEq] at hh
        obtain ⟨rfl, rfl⟩ := hh
        obtain ⟨pre, x, x', post, e1, e2, e3, e4⟩ := ih cs' hcs
        refine ⟨c :: pre, x, x', post, by simp [e1], by simp [e2], e3, ?_⟩
        intro y hy
        rcases List.mem_cons.1 hy with rfl | hy
        · exact hc
        · exact e4 y hy
      | panic e cs' => rw [hcs] at hh; cases hh
      | none => rw [hcs] at hh; cases hh

theorem Tree.addList_eq_panic [Engine] (sc : List Tree) (p : Str) (h nn : Option Nat) (f : Nat)
    (sc' : List Tree) (e : Fault) (hh : Tree.addList sc p h nn f = .panic e sc') :
    ∃ pre c c' post, sc = pre ++ c :: post ∧ sc' = pre ++ c' :: post
      ∧ c.Add p h nn f = .panic e c' ∧ ∀ x ∈ pre, x.Add p h nn f = .none := by
  induction sc generalizing sc' with
  | nil => rw [Tree.addList_nil] at hh; cases hh
  | cons c cs ih =>
    rw [Tree.addList_cons] at hh
    cases hc : Tree.Add c p h nn f with
    | node c' r => rw [hc] at hh; cases hh
    | panic e' c' =>
      rw [hc] at hh
      simp only [AddOut.panic.injEq] at hh
      obtain ⟨rfl, rfl⟩ := hh
      exact ⟨[], c, c', cs, rfl, rfl, hc, by simp⟩
    | none =>
      rw [hc] at hh
      cases hcs : Tree.addList cs p h nn f with
      | node cs' r => rw [hcs] at hh; cases hh
      | panic e' cs' =>
        rw [hcs] at hh
        simp only [AddOut.panic.injEq] at hh
        obtain ⟨rfl, rfl⟩ := hh
        obtain ⟨pre, x, x', post, e1, e2, e3, e4⟩ := ih cs' hcs
        refine ⟨c :: pre, x, x', post, by simp [e1], by simp [e2], e3, ?_⟩
        intro y hy
        rcases List.mem_cons.1 hy with rfl | hy
        · exact hc
        · exact e4 y hy
      | none => rw [hcs] at hh; cases hh

/-- The converse: the first child that accepts the pattern decides. -/
theorem Tree.addList_of_first [Engine] (pre post : List Tree) (c : Tree) (p : Str) (h nn : Option Nat)
    (f : Nat) (hpre : ∀ x ∈ pre, x.Add p h nn f = .none) :
    Tree.addList (pre ++ c :: post) p h nn f =
      match Tree.Add c p h nn f with
      | .node c' ret => .node (pre ++ c' :: post) ret
      | .panic e c' => .panic e (pre ++ c' :: post)
      | .none =>
          match Tree.addList post p h nn f with
          | .node cs' ret => .node (pre ++ c :: cs') ret
          | .panic e cs' => .panic e (pre ++ c :: cs')
          | .none => .none := by
  induction pre with
  | nil => simp [Tree.addList_cons]
  | cons x xs ih =>
    have hx := hpre x (by simp)
    have ih' := ih (fun y hy => hpre y (by simp [hy]))
    rw [List.cons_append, Tree.addList_cons, hx, ih']
    cases Tree.Add c p h nn f with
    | node c' ret => rfl
    | panic e c' => rfl
    | none =>
      cases Tree.addList post p h nn f <;> rfl

theorem Tree.locate_mk (d : TreeFields) (sc rc : List Tree) (q : Str) :
    (Tree.mk d sc rc).locate q =
      if d.pattern <+: q then
        match q.drop d.pattern.length with
        | [] => some (.mk d sc rc)
        | b :: rest => Tree.locateList sc b (b :: rest)
      else Option.none := by
  rw [Tree.locate]

theorem Tree.locate_not_prefix (d : TreeFields) (sc rc : List Tree) (q : Str)
    (h : ¬ d.pattern <+: q) : (Tree.mk d sc rc).locate q = Option.none := by
  rw [Tree.locate_mk, if_neg h]

theorem Tree.locate_self (d : TreeFields) (sc rc : List Tree) (q : Str) (hq : q = d.pattern) :
    (Tree.mk d sc rc).locate q = some (.mk d sc rc) := by
  subst hq
  rw [Tree.locate_mk, if_pos (List.prefix_refl _)]
  simp

theorem Tree.locate_append_cons (d : TreeFields) (sc rc : List Tree) (pat : Str) (b : Char)
    (r : Str) (hp : d.pattern = pat) :
    (Tree.mk d sc rc).locate (pat ++ b :: r) = Tree.locateList sc b (b :: r) := by
  subst hp
  rw [Tree.locate_mk, if_pos (List.prefix_append _ _)]
  simp

theorem Tree.locateList_nil (b : Char) (q : Str) : Tree.locateList [] b q = Option.none := by
  rw [Tree.locateList]

theorem Tree.locateList_cons (c : Tree) (cs : List Tree) (b : Char) (q : Str) :
    Tree.locateList (c :: cs) b q
      = if c.d.alpha = b then Tree.locate c q else Tree.locateList cs b q := by
  rw [Tree.locateList]

theorem Tree.locateList_skip (pre l : List Tree) (b : Char) (q : Str)
    (h : ∀ x ∈ pre, x.d.alpha ≠ b) :
    Tree.locateList (pre ++ l) b q = Tree.locateList l b q := by
  induction pre with
  | nil => rfl
  | cons x xs ih =>
    rw [List.cons_append, Tree.locateList_cons, if_neg (h x (by simp))]
    exact ih (fun y hy => h y (by simp [hy]))

theorem Tree.locateList_none (sc : List Tree) (b : Char) (q : Str)
    (h : ∀ x ∈ sc, x.d.alpha ≠ b) : Tree.locateList sc b q = Option.none := by
  have := Tree.locateList_skip sc [] b q h
  rw [List.append_nil] at this
  rw [this, Tree.locateList_nil]

/-- Below a list that has a child for the byte, what follows the list is not
looked at. -/
theorem Tree.locateList_append_of_mem (sc l : List Tree) (b : Char) (q : Str)
    (h : ∃ x ∈ sc, x.d.alpha = b) :
    Tree.locateList (sc ++ l) b q = Tree.locateList sc b q := by
  induction sc with
  | nil => obtain ⟨x, hx, _⟩ := h; cases hx
  | cons c cs ih =>
    rw [List.cons_append, Tree.locateList_cons, Tree.locateList_cons]
    by_cases hc : c.d.alpha = b
    · rw [if_pos hc, if_pos hc]
    · rw [if_neg hc, if_neg hc]
      apply ih
      obtain ⟨x, hx, hb⟩ := h
      rcases List.mem_cons.1 hx with rfl | hx
      · exact absurd hb hc
      · exact ⟨x, hx, hb⟩

/-- Replacing one child by a node with the same dispatch byte changes the
result for that byte only. -/
theorem Tree.locateList_replace (pre post : List Tree) (c c' : Tree) (b : Char) (q : Str)
    (hpre : ∀ x ∈ pre, x.d.alpha ≠ c.d.alpha) (ha : c'.d.alpha = c.d.alpha) :
    Tree.locateList (pre ++ c' :: post) b q
      = if b = c.d.alpha then Tree.locate c' q else Tree.locateList (pre ++ c :: post) b q := by
  by_cases hb : b = c.d.alpha
  · subst hb
    rw [if_pos rfl, Tree.locateList_skip _ _ _ _ hpre, Tree.locateList_cons, if_pos ha]
  · rw [if_neg hb]
    induction pre with
    | nil =>
      simp only [List.nil_append]
      rw [Tree.locateList_cons, Tree.locateList_cons, ha,
        if_neg (fun e => hb e.symm), if_neg (fun e => hb e.symm)]
    | cons x xs ih =>
      rw [List.cons_append, List.cons_append, Tree.locateList_cons, Tree.locateList_cons]
      by_cases hx : x.d.alpha = b
      · rw [if_pos hx, if_pos hx]
      · rw [if_neg hx, if_neg hx]
        exact ih (fun y hy => hpre y (by simp [hy]))

theorem Tree.locateList_at (pre post : List Tree) (c : Tree) (q : Str)
    (hpre : ∀ x ∈ pre, x.d.alpha ≠ c.d.alpha) :
    Tree.locateList (pre ++ c :: post) c.d.alpha q = Tree.locate c q := by
  rw [Tree.locateList_skip _ _ _ _ hpre, Tree.locateList_cons, if_pos rfl]

/-- The node that keeps the end of a split segment answers as the node did
before the split. -/
theorem Tree.view_locate_suffix (d d2 : TreeFields) (sc rc : List Tree) (a s : Str)
    (hd : d.pattern = a ++ s) (hd2 : d2.pattern = s) (hh : d2.handlers = d.handlers)
    (hn : d2.nameNode = d.nameNode) (q : Str) :
    Tree.view ((Tree.mk d2 sc rc).locate q) = Tree.view ((Tree.mk d sc rc).locate (a ++ q)) := by
  rw [Tree.locate_mk, Tree.locate_mk, hd, hd2]
  by_cases hp : s <+: q
  · have hp' : a ++ s <+: a ++ q := (List.prefix_append_right_inj a).2 hp
    rw [if_pos hp, if_pos hp']
    have e : (a ++ q).drop (a ++ s).length = q.drop s.length := by
      rw [List.length_append, ← List.drop_drop, List.drop_left]
    rw [e]
    cases q.drop s.length with
    | nil => simp [Tree.view, hh, hn]
    | cons b r => rfl
  · have hp' : ¬ a ++ s <+: a ++ q := fun h => hp ((List.prefix_append_right_inj a).1 h)
    rw [if_neg hp, if_neg hp']

theorem tok_split_unique (S1 S2 : Str) (c1 c2 : Char) (r1 r2 : Str)
    (h1 : isLiteral S1) (h2 : isLiteral S2) (t1 : isTok c1) (t2 : isTok c2)
    (e : S1 ++ c1 :: r1 = S2 ++ c2 :: r2) : S1 = S2 ∧ c1 = c2 ∧ r1 = r2 := by
  induction S1 generalizing S2 with
  | nil =>
    cases S2 with
    | nil => simpa using e
    | cons y ys =>
      simp only [List.nil_append, List.cons_append, List.cons.injEq] at e
      have := ((isLiteral_cons y ys).1 h2).1
      rw [← e.1] at this
      rcases t1 with rfl | rfl
      · exact absurd rfl this.1
      · exact absurd rfl this.2
  | cons x xs ih =>
    cases S2 with
    | nil =>
      simp only [List.nil_append, List.cons_append, List.cons.injEq] at e
      have := ((isLiteral_cons x xs).1 h1).1
      rw [e.1] at this
      rcases t2 with rfl | rfl
      · exact absurd rfl this.1
      · exact absurd rfl this.2
    | cons y ys =>
      simp only [List.cons_append, List.cons.injEq] at e
      obtain ⟨rfl, e'⟩ := e
      obtain ⟨a, b, c⟩ := ih ys ((isLiteral_cons x xs).1 h1).2 ((isLiteral_cons x ys).1 h2).2 e'
      exact ⟨by rw [a], b, c⟩

theorem staticLeaf_WF (p : Str) (hp : isLiteral p) (hne : p ≠ []) (h nn : Option Nat)
    (par a : Nat) (rc : List Tree) : (staticLeaf p h nn par a rc).WF := by
  unfold staticLeaf
  rw [Tree.WF_mk]
  refine ⟨rfl, ?_, hp, by simp, by simp⟩
  cases p with
  | nil => exact absurd rfl hne
  | cons c cs => simp

theorem staticLeaf_alpha (c : Char) (cs : Str) (h nn : Option Nat) (par a : Nat)
    (rc : List Tree) : (staticLeaf (c :: cs) h nn par a rc).d.alpha = c := rfl

theorem staticLeaf_locate (p : Str) (h nn : Option Nat) (par a : Nat) (rc : List Tree)
    (q : Str) :
    (staticLeaf p h nn par a rc).locate q
      = if q = p then some (staticLeaf p h nn par a rc) else Option.none := by
  unfold staticLeaf
  rw [Tree.locate_mk]
  by_cases hp : p <+: q
  · obtain ⟨r, rfl⟩ := hp
    rw [if_pos (List.prefix_append _ _)]
    simp only [List.drop_left]
    cases r with
    | nil => simp
    | cons b r => simp [Tree.locateList_nil]
  · rw [if_neg hp, if_neg]
    rintro rfl
    exact hp (List.prefix_refl _)

theorem Tree.WF.head (t : Tree) (h : t.WF) : t.d.pattern.head? = some t.d.alpha := by
  cases t with
  | mk d sc rc => exact ((Tree.WF_mk d sc rc).1 h).2.1

/-- A child whose segment does not start like the pattern has another
dispatch byte. -/
theorem Tree.WF.alpha_ne_of_none (x : Tree) (hx : x.WF) (b : Char) (r : Str)
    (h : matchedLen (b :: r) x.d.pattern = 0) : x.d.alpha ≠ b := by
  have hh := hx.head
  rw [matchedLen_eq_zero_iff] at h
  intro e
  cases hp : x.d.pattern with
  | nil => rw [hp] at hh; cases hh
  | cons y ys =>
    rw [hp] at hh h
    simp only [List.head?_cons, Option.some.injEq] at hh
    simp only [List.head?_cons, ne_eq, Option.some.injEq, reduceCtorEq, or_false] at h
    exact h (by rw [hh, e])

theorem Tree.WF.alpha_eq_of_matched (x : Tree) (hx : x.WF) (b : Char) (r : Str)
    (h : matchedLen (b :: r) x.d.pattern ≠ 0) : x.d.alpha = b := by
  have hh := hx.head
  cases hp : x.d.pattern with
  | nil => rw [hp] at hh; cases hh
  | cons y ys =>
    rw [hp] at hh h
    simp only [List.head?_cons, Option.some.injEq] at hh
    rw [matchedLen_cons] at h
    by_cases e : b = y
    · rw [← hh, e]
    · rw [if_neg e] at h
      exact absurd rfl h

theorem Tree.view_locate_leaf (d : TreeFields) (sc rc : List Tree) (x : Char) (xs : Str)
    (h nn : Option Nat) (par a : Nat) (lrc : List Tree) (hhead : ∀ y ∈ sc, y.d.alpha ≠ x)
    (q : Str) :
    Tree.view ((Tree.mk d (sc ++ [staticLeaf (x :: xs) h nn par a lrc]) rc).locate q)
      = if q = d.pattern ++ x :: xs then ((h, nn), lrc)
        else Tree.view ((Tree.mk d sc rc).locate q) := by
  by_cases hp : d.pattern <+: q
  · obtain ⟨r, rfl⟩ := hp
    cases r with
    | nil =>
      rw [if_neg (by simp), List.append_nil, Tree.locate_self _ _ _ _ rfl,
        Tree.locate_self _ _ _ _ rfl]
      rfl
    | cons b r =>
      rw [Tree.locate_append_cons _ _ _ _ _ _ rfl, Tree.locate_append_cons _ _ _ _ _ _ rfl]
      by_cases hb : ∃ y ∈ sc, y.d.alpha = b
      · rw [Tree.locateList_append_of_mem _ _ _ _ hb, if_neg]
        intro e
        simp only [List.append_cancel_left_eq, List.cons.injEq] at e
        obtain ⟨y, hy, hyb⟩ := hb
        exact hhead y hy (by rw [hyb, e.1])
      · push_neg at hb
        rw [Tree.locateList_skip _ _ _ _ hb, Tree.locateList_none _ _ _ hb,
          Tree.locateList_cons, staticLeaf_alpha, staticLeaf_locate, Tree.locateList_nil]
        by_cases e : b :: r = x :: xs
        · simp only [List.cons.injEq] at e
          obtain ⟨rfl, rfl⟩ := e
          simp [Tree.view, staticLeaf]
        · have e2 : ¬ d.pattern ++ b :: r = d.pattern ++ x :: xs := by
            simpa using e
          rw [if_neg e2, if_neg e]
          split <;> rfl
  · rw [Tree.locate_not_prefix _ _ _ _ hp, Tree.locate_not_prefix _ _ _ _ hp, if_neg]
    rintro rfl
    exact hp (List.prefix_append _ _)

theorem Tree.view_locate_none_of_head (d : TreeFields) (sc rc : List Tree) (x : Char) (xs : Str)
    (hhead : ∀ y ∈ sc, y.d.alpha ≠ x) :
    Tree.view ((Tree.mk d sc rc).locate (d.pattern ++ x :: xs))
      = ((Option.none, Option.none), []) := by
  rw [Tree.locate_append_cons _ _ _ _ _ _ rfl, Tree.locateList_none _ _ _ hhead]
  rfl

theorem Tree.view_locate_rc (d : TreeFields) (sc rc rc' : List Tree) (q : Str) :
    Tree.view ((Tree.mk d sc rc').locate q)
      = if q = d.pattern then ((d.handlers, d.nameNode), rc')
        else Tree.view ((Tree.mk d sc rc).locate q) := by
  by_cases hp : d.pattern <+: q
  · obtain ⟨r, rfl⟩ := hp
    cases r with
    | nil =>
      rw [if_pos (by simp), List.append_nil, Tree.locate_self _ _ _ _ rfl]
      rfl
    | cons b r =>
      rw [Tree.locate_append_cons _ _ _ _ _ _ rfl, Tree.locate_append_cons _ _ _ _ _ _ rfl,
        if_neg (by simp)]
  · rw [Tree.locate_not_prefix _ _ _ _ hp, Tree.locate_not_prefix _ _ _ _ hp, if_neg]
    rintro rfl
    exact hp (List.prefix_refl _)

theorem nodup_append_leaf (sc : List Tree) (L : Tree)
    (hn : (sc.map (fun c => c.d.alpha)).Nodup) (hhead : ∀ y ∈ sc, y.d.alpha ≠ L.d.alpha) :
    ((sc ++ [L]).map (fun c => c.d.alpha)).Nodup := by
  rw [List.map_append, List.nodup_append]
  refine ⟨hn, by simp, ?_⟩
  intro a ha hb
  simp only [List.map_cons, List.map_nil, List.mem_singleton] at hb
  obtain ⟨y, hy, rfl⟩ := List.mem_map.1 ha
  exact hhead y hy hb

/-- What `addChild` establishes when it returns a node. -/
theorem addChild_post [Engine] (d : TreeFields) (sc rc : List Tree) (hwf : (Tree.mk d sc rc).WF)
    (b : Char) (r : Str) (hhead : ∀ x ∈ sc, x.d.alpha ≠ b) (h nn : Option Nat) (f : Nat)
    (t' : Tree) (ret : Nat)
    (hh : (Tree.mk d sc rc).addChild (b :: r) h nn f = .node t' ret) :
    Tree.AddPost (Tree.mk d sc rc) t' (d.pattern ++ b :: r) h nn f := by
  obtain ⟨w1, w2, w3, w4, w5⟩ := (Tree.WF_mk d sc rc).1 hwf
  rcases literal_or_tok (b :: r) with hl | ⟨S, c, rest, e, hS, hc⟩
  · -- a literal pattern: one more static child
    rw [addChild_literal _ _ hl (by simp)] at hh
    simp only [Tree.d_mk, Tree.schildren_mk, Tree.rchildren_mk, AddOut.node.injEq] at hh
    obtain ⟨rfl, -⟩ := hh
    have hL := staticLeaf_WF (b :: r) hl (by simp) h nn d.addr (f + 2) []
    refine ⟨?_, rfl, ?_, ?_, ?_, ?_⟩
    · rw [Tree.WF_mk]
      refine ⟨w1, w2, w3, ?_, nodup_append_leaf sc _ w5 hhead⟩
      intro c hc
      rcases List.mem_append.1 hc with hc | hc
      · exact w4 c hc
      · rw [List.mem_singleton.1 hc]; exact hL
    · intro q hq
      rw [Tree.view_locate_leaf _ _ _ _ _ _ _ _ _ _ hhead, if_neg hq]
    · intro q
      rw [Tree.view_locate_leaf _ _ _ _ _ _ _ _ _ _ hhead]
      split
      · rename_i e
        rw [e, Tree.view_locate_none_of_head _ _ _ _ _ hhead]
      · exact List.prefix_refl _
    · intro _
      constructor
      · intro _
        rw [Tree.view_locate_leaf _ _ _ _ _ _ _ _ _ _ hhead, if_pos rfl]
      · intro hnd
        rw [Tree.NoDyn_mk] at hnd ⊢
        refine ⟨hnd.1, ?_⟩
        intro c hc
        rcases List.mem_append.1 hc with hc | hc
        · exact hnd.2 c hc
        · rw [List.mem_singleton.1 hc, staticLeaf, Tree.NoDyn_mk]
          simp
    · intro S c rest e hS hc
      exfalso
      have hlit : isLiteral (d.pattern ++ b :: r) := (isLiteral_append _ _).2 ⟨w3, hl⟩
      rw [e] at hlit
      exact isTok_not_literal S c rest hc hlit
  · -- a pattern with a parameter
    rw [e, addChild_dynamic _ S hS c rest hc] at hh
    cases hre : Engine.compile ((dynScan (c :: rest)).newPattern ++ "$".toList) with
    | error err => rw [hre] at hh; cases hh
    | ok re =>
      rw [hre] at hh
      simp only [Tree.d_mk, Tree.schildren_mk, Tree.rchildren_mk] at hh
      have hnl : ¬ isLiteral (d.pattern ++ b :: r) := by
        rw [e, ← List.append_assoc]
        exact isTok_not_literal _ c rest hc
      have hdS : isLiteral (d.pattern ++ S) := (isLiteral_append _ _).2 ⟨w3, hS⟩
      cases S with
      | nil =>
        -- no literal start: one more dynamic child
        rw [if_neg (by simp)] at hh
        simp only [List.nil_append] at e
        split at hh
        · cases hh
        · simp only [AddOut.node.injEq] at hh
          obtain ⟨rfl, -⟩ := hh
          refine ⟨?_, rfl, ?_, ?_, ?_, ?_⟩
          · rw [Tree.WF_mk]; exact ⟨w1, w2, w3, w4, w5⟩
          · intro q _
            rw [Tree.view_locate_rc d sc rc (rc ++ [dynLeaf (c :: rest) re h nn d.addr (f + 1)])]
            split
            · rename_i e'
              rw [e', Tree.locate_self _ _ _ _ rfl]
              rfl
            · rfl
          · intro q
            rw [Tree.view_locate_rc d sc rc (rc ++ [dynLeaf (c :: rest) re h nn d.addr (f + 1)])]
            split
            · rename_i e'
              rw [e', Tree.locate_self _ _ _ _ rfl]
              exact List.prefix_append _ _
            · exact List.prefix_refl _
          · intro hl; exact absurd hl hnl
          · intro S' c' rest' e' hS' hc'
            rw [e] at e'
            obtain ⟨rfl, rfl, rfl⟩ := tok_split_unique _ _ _ _ _ _ w3 hS' hc hc' e'
            refine ⟨re, hre, d.addr, ?_⟩
            rw [Tree.view_locate_rc d sc rc (rc ++ [dynLeaf (c :: rest) re h nn d.addr (f + 1)]),
              if_pos rfl]
            simp
      | cons s ss =>
        rw [if_pos (by simp)] at hh
        simp only [AddOut.node.injEq] at hh
        obtain ⟨rfl, -⟩ := hh
        simp only [List.cons_append, List.cons.injEq] at e
        obtain ⟨rfl, e0⟩ := e
        have hL := staticLeaf_WF (b :: ss) hS (by simp) Option.none Option.none d.addr (f + 2)
          [dynLeaf (c :: rest) re h nn (f + 2) (f + 1)]
        refine ⟨?_, rfl, ?_, ?_, ?_, ?_⟩
        · rw [Tree.WF_mk]
          refine ⟨w1, w2, w3, ?_, nodup_append_leaf sc _ w5 hhead⟩
          intro c hc
          rcases List.mem_append.1 hc with hc | hc
          · exact w4 c hc
          · rw [List.mem_singleton.1 hc]; exact hL
        · intro q _
          rw [Tree.view_locate_leaf _ _ _ _ _ _ _ _ _ _ hhead]
          split
          · rename_i e'
            rw [e', Tree.view_locate_none_of_head _ _ _ _ _ hhead]
          · rfl
        · intro q
          rw [Tree.view_locate_leaf _ _ _ _ _ _ _ _ _ _ hhead]
          split
          · rename_i e'
            rw [e', Tree.view_locate_none_of_head _ _ _ _ _ hhead]
            exact List.nil_prefix
          · exact List.prefix_refl _
        · intro hl; exact absurd hl hnl
        · intro S' c' rest' e' hS' hc'
          rw [e0, ← List.cons_append, ← List.append_assoc] at e'
          obtain ⟨rfl, rfl, rfl⟩ := tok_split_unique _ _ _ _ _ _ hdS hS' hc hc' e'
          refine ⟨re, hre, f + 2, ?_⟩
          rw [Tree.view_locate_leaf _ _ _ _ _ _ _ _ _ _ hhead, if_pos rfl]
          simp

theorem Tree.view_locate_root (d d' : TreeFields) (sc rc rc' : List Tree)
    (hp : d'.pattern = d.pattern) (q : Str) :
    Tree.view ((Tree.mk d' sc rc').locate q)
      = if q = d.pattern then ((d'.handlers, d'.nameNode), rc')
        else Tree.view ((Tree.mk d sc rc).locate q) := by
  by_cases hpre : d.pattern <+: q
  · obtain ⟨r, rfl⟩ := hpre
    cases r with
    | nil =>
      rw [if_pos (by simp), List.append_nil, Tree.locate_self _ _ _ _ hp.symm]
      rfl
    | cons b r =>
      rw [Tree.locate_append_cons _ _ _ _ _ _ hp, Tree.locate_append_cons _ _ _ _ _ _ rfl,
        if_neg (by simp)]
  · rw [Tree.locate_not_prefix _ _ _ _ (by rw [hp]; exact hpre),
      Tree.locate_not_prefix _ _ _ _ hpre, if_neg]
    rintro rfl
    exact hpre (List.prefix_refl _)

theorem NewTree_cons (x : Char) (xs : Str) (h : Option Nat) (f : Nat) :
    NewTree (x :: xs) h f
      = some (.mk { static := true, alpha := x, pattern := x :: xs, handlers := h,
                    params := [], format := x :: xs, re := Option.none, parent := Option.none,
                    nameNode := Option.none, addr := f } [] []) := rfl

/-- After a split the truncated node answers for its own segment and the new
node answers as the node did before. -/
theorem Tree.view_locate_split (d dT : TreeFields) (sc rc : List Tree) (a : Str) (x : Char)
    (xs : Str) (m f : Nat) (hd : d.pattern = a ++ x :: xs) (hm : m = a.length)
    (hT : dT.pattern = a) (q : Str) :
    Tree.view ((Tree.mk dT [splitNode d m f sc rc] []).locate q)
      = if q = a then ((dT.handlers, dT.nameNode), [])
        else Tree.view ((Tree.mk d sc rc).locate q) := by
  have hdrop : d.pattern.drop m = x :: xs := by rw [hd, hm, List.drop_left]
  by_cases hpre : a <+: q
  · obtain ⟨r, rfl⟩ := hpre
    cases r with
    | nil =>
      rw [if_pos (by simp), List.append_nil, Tree.locate_self _ _ _ _ hT.symm]
      rfl
    | cons b r =>
      rw [Tree.locate_append_cons _ _ _ _ _ _ hT, if_neg (by simp), Tree.locateList_cons,
        Tree.locateList_nil]
      have halpha : (splitNode d m f sc rc).d.alpha = x := by
        simp [splitNode, hdrop]
      rw [halpha]
      by_cases hb : x = b
      · rw [if_pos hb]
        unfold splitNode
        exact Tree.view_locate_suffix d
          { static := true, alpha := (d.pattern.drop m).headD ' ', pattern := d.pattern.drop m,
            handlers := d.handlers, params := [], format := d.pattern.drop m, re := Option.none,
            parent := some d.addr, nameNode := d.nameNode, addr := f }
          sc rc a (x :: xs) hd hdrop rfl rfl (b :: r)
      · rw [if_neg hb, Tree.locate_not_prefix]
        rw [hd, List.prefix_append_right_inj, List.cons_prefix_cons]
        exact fun h => hb h.1
  · rw [Tree.locate_not_prefix _ _ _ _ (by rw [hT]; exact hpre), if_neg,
      Tree.locate_not_prefix]
    · rw [hd]
      intro h
      exact hpre ((List.prefix_append a (x :: xs)).trans h)
    · rintro rfl
      exact hpre (List.prefix_refl _)

theorem Tree.view_locate_short (d : TreeFields) (sc rc : List Tree) (a : Str) (x : Char)
    (xs : Str) (hd : d.pattern = a ++ x :: xs) :
    Tree.view ((Tree.mk d sc rc).locate a) = ((Option.none, Option.none), []) := by
  rw [Tree.locate_not_prefix]
  · rfl
  · rw [hd]
    intro h
    have := h.length_le
    simp at this

theorem splitNode_WF (d : TreeFields) (sc rc : List Tree) (hwf : (Tree.mk d sc rc).WF)
    (m f : Nat) (hne : d.pattern.drop m ≠ []) : (splitNode d m f sc rc).WF := by
  obtain ⟨w1, w2, w3, w4, w5⟩ := (Tree.WF_mk d sc rc).1 hwf
  unfold splitNode
  rw [Tree.WF_mk]
  refine ⟨rfl, ?_, isLiteral_drop _ _ w3, w4, w5⟩
  cases hdr : d.pattern.drop m with
  | nil => exact absurd hdr hne
  | cons x xs => simp

theorem split_WF (d dT : TreeFields) (sc rc : List Tree) (hwf : (Tree.mk d sc rc).WF)
    (m f : Nat) (hne : d.pattern.drop m ≠ []) (hm : 0 < m)
    (hs : dT.static = d.static) (ha : dT.alpha = d.alpha) (hp : dT.pattern = d.pattern.take m) :
    (Tree.mk dT [splitNode d m f sc rc] []).WF := by
  obtain ⟨w1, w2, w3, w4, w5⟩ := (Tree.WF_mk d sc rc).1 hwf
  rw [Tree.WF_mk]
  refine ⟨by rw [hs, w1], ?_, by rw [hp]; exact isLiteral_take _ _ w3, ?_, by simp⟩
  · rw [hp, ha, ← w2]
    cases d.pattern with
    | nil => simp
    | cons y ys =>
      cases m with
      | zero => omega
      | succ k => simp
  · intro c hc
    rw [List.mem_singleton.1 hc]
    exact splitNode_WF d sc rc hwf m f hne

theorem prefix_tok_split (a p' S : Str) (c : Char) (rest : Str) (ha : isLiteral a)
    (hS : isLiteral S) (hc : isTok c) (e : a ++ p' = S ++ c :: rest) :
    ∃ S', S = a ++ S' ∧ p' = S' ++ c :: rest := by
  rcases literal_or_tok p' with hl | ⟨S', c', rest', rfl, hS', hc'⟩
  · exfalso
    have : isLiteral (a ++ p') := (isLiteral_append _ _).2 ⟨ha, hl⟩
    rw [e] at this
    exact isTok_not_literal S c rest hc this
  · rw [← List.append_assoc] at e
    obtain ⟨e1, e2, e3⟩ :=
      tok_split_unique _ _ _ _ _ _ ((isLiteral_append _ _).2 ⟨ha, hS'⟩) hS hc' hc e
    exact ⟨S', e1.symm, by rw [e2, e3]⟩

theorem Add_post_same [Engine] (d : TreeFields) (sc rc : List Tree) (hwf : (Tree.mk d sc rc).WF)
    (nn : Option Nat) (f : Nat) :
    Tree.AddPost (Tree.mk d sc rc) (Tree.mk d sc rc) d.pattern Option.none nn f := by
  obtain ⟨w1, w2, w3, w4, w5⟩ := (Tree.WF_mk d sc rc).1 hwf
  refine ⟨hwf, rfl, fun q _ => rfl, fun q => List.prefix_refl _, ?_, ?_⟩
  · intro _
    exact ⟨fun h => by simp at h, fun h => h⟩
  · intro S c rest e _ hc
    rw [e] at w3
    exact absurd w3 (isTok_not_literal S c rest hc)

theorem Add_post_exact [Engine] (d : TreeFields) (sc rc : List Tree) (hwf : (Tree.mk d sc rc).WF)
    (h nn : Option Nat) (f : Nat) :
    Tree.AddPost (Tree.mk d sc rc) (Tree.mk { d with handlers := h, nameNode := nn } sc rc)
      d.pattern h nn f := by
  obtain ⟨w1, w2, w3, w4, w5⟩ := (Tree.WF_mk d sc rc).1 hwf
  refine ⟨?_, rfl, ?_, ?_, ?_, ?_⟩
  · rw [Tree.WF_mk]; exact ⟨w1, w2, w3, w4, w5⟩
  · intro q hq
    rw [Tree.view_locate_root d { d with handlers := h, nameNode := nn } sc rc rc rfl, if_neg hq]
  · intro q
    rw [Tree.view_locate_root d { d with handlers := h, nameNode := nn } sc rc rc rfl]
    split
    · rename_i e
      rw [e, Tree.locate_self _ _ _ _ rfl]
      exact List.prefix_refl _
    · exact List.prefix_refl _
  · intro _
    constructor
    · intro _
      rw [Tree.view_locate_root d { d with handlers := h, nameNode := nn } sc rc rc rfl, if_pos rfl]
    · intro hnd
      rw [Tree.NoDyn_mk] at hnd ⊢
      exact hnd
  · intro S c rest e _ hc
    rw [e] at w3
    exact absurd w3 (isTok_not_literal S c rest hc)

theorem Add_post_split [Engine] (d : TreeFields) (sc rc : List Tree) (hwf : (Tree.mk d sc rc).WF)
    (m f : Nat) (hm : 0 < m) (hlt : m < d.pattern.length) (h nn : Option Nat) :
    Tree.AddPost (Tree.mk d sc rc)
      (Tree.mk { d with pattern := d.pattern.take m, format := d.pattern.take m,
                        handlers := h, nameNode := nn } [splitNode d m f sc rc] [])
      (d.pattern.take m) h nn f := by
  obtain ⟨w1, w2, w3, w4, w5⟩ := (Tree.WF_mk d sc rc).1 hwf
  have hne : d.pattern.drop m ≠ [] := by
    intro e
    have := List.drop_eq_nil_iff.1 e
    omega
  obtain ⟨x, xs, hx⟩ := List.exists_cons_of_ne_nil hne
  have hd : d.pattern = d.pattern.take m ++ x :: xs := by
    rw [← hx, List.take_append_drop]
  have hlen : m = (d.pattern.take m).length := by
    rw [List.length_take]; omega
  have hv := Tree.view_locate_split d
    { d with pattern := d.pattern.take m, format := d.pattern.take m,
             handlers := h, nameNode := nn } sc rc (d.pattern.take m) x xs m f hd hlen rfl
  have hshort := Tree.view_locate_short d sc rc (d.pattern.take m) x xs hd
  refine ⟨split_WF d _ sc rc hwf m f hne hm rfl rfl rfl, rfl, ?_, ?_, ?_, ?_⟩
  · intro q hq
    rw [hv, if_neg hq]
  · intro q
    rw [hv]
    split
    · rename_i e
      rw [e, hshort]
    · exact List.prefix_refl _
  · intro _
    constructor
    · intro _
      rw [hv, if_pos rfl]
    · intro hnd
      rw [Tree.NoDyn_mk] at hnd ⊢
      refine ⟨rfl, ?_⟩
      intro c hc
      rw [List.mem_singleton.1 hc, splitNode, Tree.NoDyn_mk]
      exact hnd
  · intro S c rest e _ hc
    have := isLiteral_take _ m w3
    rw [e] at this
    exact absurd this (isTok_not_literal S c rest hc)

theorem Add_post_partial [Engine] (d : TreeFields) (sc rc : List Tree) (hwf : (Tree.mk d sc rc).WF)
    (p : Str) (f : Nat) (hm : 0 < matchedLen p d.pattern)
    (hlt : matchedLen p d.pattern < d.pattern.length)
    (hlt2 : matchedLen p d.pattern ≠ p.length) (h nn : Option Nat) (t' : Tree) (ret : Nat)
    (hh : (Tree.mk { d with pattern := p.take (matchedLen p d.pattern),
                            format := p.take (matchedLen p d.pattern),
                            handlers := Option.none, nameNode := Option.none }
              [splitNode d (matchedLen p d.pattern) f sc rc] []).addChild
            (p.drop (matchedLen p d.pattern)) h nn f = .node t' ret) :
    Tree.AddPost (Tree.mk d sc rc) t' p h nn f := by
  obtain ⟨w1, w2, w3, w4, w5⟩ := (Tree.WF_mk d sc rc).1 hwf
  generalize hmm : matchedLen p d.pattern = m at *
  have htake : p.take m = d.pattern.take m := by rw [← hmm]; exact matchedLen_take p d.pattern
  have hne : d.pattern.drop m ≠ [] := by
    intro e
    have := List.drop_eq_nil_iff.1 e
    omega
  have hne2 : p.drop m ≠ [] := by rw [← hmm]; exact drop_matchedLen_ne_nil p d.pattern (by rw [hmm]; exact hlt2)
  obtain ⟨x, xs, hx⟩ := List.exists_cons_of_ne_nil hne
  obtain ⟨b, r, hb⟩ := List.exists_cons_of_ne_nil hne2
  have hxb : b ≠ x := by
    have := matchedLen_drop_head p d.pattern b x r xs (by rw [hmm]; exact hb) (by rw [hmm]; exact hx)
    exact this
  have hd : d.pattern = p.take m ++ x :: xs := by
    rw [htake, ← hx, List.take_append_drop]
  have hlen : m = (p.take m).length := by
    rw [htake, List.length_take]; omega
  have hp : p = p.take m ++ b :: r := by rw [← hb, List.take_append_drop]
  have hwfT : (Tree.mk { d with pattern := p.take m, format := p.take m,
                                handlers := Option.none, nameNode := Option.none }
             [splitNode d m f sc rc] []).WF :=
    split_WF d _ sc rc hwf m f hne hm rfl rfl htake
  have hv := Tree.view_locate_split d
    { d with pattern := p.take m, format := p.take m,
             handlers := Option.none, nameNode := Option.none } sc rc (p.take m) x xs m f hd hlen rfl
  have hshort := Tree.view_locate_short d sc rc (p.take m) x xs hd
  have hv' : ∀ q, Tree.view ((Tree.mk { d with pattern := p.take m, format := p.take m,
                                                handlers := Option.none, nameNode := Option.none }
             [splitNode d m f sc rc] []).locate q) = Tree.view ((Tree.mk d sc rc).locate q) := by
    intro q
    rw [hv]
    split
    · rename_i e
      rw [e, hshort]
    · rfl
  rw [hb] at hh
  have hhead : ∀ y ∈ [splitNode d m f sc rc], y.d.alpha ≠ b := by
    intro y hy
    rw [List.mem_singleton.1 hy]
    simp only [splitNode, Tree.d_mk, hx, List.headD_cons]
    exact fun e => hxb e.symm
  obtain ⟨p1, p2, p3, p4, p5, p6⟩ := addChild_post _ _ _ hwfT b r hhead h nn f t' ret hh
  simp only [Tree.d_mk] at p2 p3 p4 p5 p6
  rw [← hp] at p3 p5 p6
  refine ⟨p1, p2, ?_, ?_, ?_, p6⟩
  · intro q hq
    rw [p3 q hq, hv']
  · intro q
    rw [← hv']
    exact p4 q
  · intro hl
    refine ⟨(p5 hl).1, fun hnd => (p5 hl).2 ?_⟩
    rw [Tree.NoDyn_mk] at hnd ⊢
    refine ⟨rfl, ?_⟩
    intro c hc
    rw [List.mem_singleton.1 hc, splitNode, Tree.NoDyn_mk]
    exact hnd

theorem Add_post_descend [Engine] (d : TreeFields) (pre post rc : List Tree) (c c' : Tree)
    (hwf : (Tree.mk d (pre ++ c :: post) rc).WF) (b : Char) (r : Str) (h nn : Option Nat)
    (f : Nat) (hc : Tree.AddPost c c' (b :: r) h nn f) (hcb : c.d.alpha = b) :
    Tree.AddPost (Tree.mk d (pre ++ c :: post) rc) (Tree.mk d (pre ++ c' :: post) rc)
      (d.pattern ++ b :: r) h nn f := by
  obtain ⟨w1, w2, w3, w4, w5⟩ := (Tree.WF_mk _ _ _).1 hwf
  obtain ⟨c1, c2, c3, c4, c5, c6⟩ := hc
  have hcwf : c.WF := w4 c (by simp)
  have hpre : ∀ x ∈ pre, x.d.alpha ≠ c.d.alpha := by
    intro x hx e
    rw [List.map_append, List.map_cons, List.nodup_append] at w5
    exact w5.2.2 (List.mem_map.2 ⟨x, hx, rfl⟩) (by rw [e]; simp)
  have hloc : ∀ b' r', Tree.locateList (pre ++ c' :: post) b' (b' :: r')
      = if b' = b then Tree.locate c' (b' :: r')
        else Tree.locateList (pre ++ c :: post) b' (b' :: r') := by
    intro b' r'
    rw [Tree.locateList_replace pre post c c' b' _ hpre c2, hcb]
  have hloc0 : ∀ r', Tree.locateList (pre ++ c :: post) b (b :: r') = Tree.locate c (b :: r') := by
    intro r'
    rw [← hcb]
    exact Tree.locateList_at pre post c _ hpre
  refine ⟨?_, rfl, ?_, ?_, ?_, ?_⟩
  · rw [Tree.WF_mk]
    refine ⟨w1, w2, w3, ?_, ?_⟩
    · intro x hx
      rcases List.mem_append.1 hx with hx | hx
      · exact w4 x (by simp [hx])
      · rcases List.mem_cons.1 hx with rfl | hx
        · exact c1
        · exact w4 x (by simp [hx])
    · simpa [c2] using w5
  · intro q hq
    by_cases hp : d.pattern <+: q
    · obtain ⟨rq, rfl⟩ := hp
      cases rq with
      | nil =>
        rw [List.append_nil, Tree.locate_self _ _ _ _ rfl, Tree.locate_self _ _ _ _ rfl]
        rfl
      | cons b' r' =>
        rw [Tree.locate_append_cons _ _ _ _ _ _ rfl, Tree.locate_append_cons _ _ _ _ _ _ rfl,
          hloc]
        by_cases hb : b' = b
        · subst hb
          rw [if_pos rfl, hloc0]
          apply c3
          intro e
          exact hq (by rw [e])
        · rw [if_neg hb]
    · rw [Tree.locate_not_prefix _ _ _ _ hp, Tree.locate_not_prefix _ _ _ _ hp]
  · intro q
    by_cases hp : d.pattern <+: q
    · obtain ⟨rq, rfl⟩ := hp
      cases rq with
      | nil =>
        rw [List.append_nil, Tree.locate_self _ _ _ _ rfl, Tree.locate_self _ _ _ _ rfl]
        exact List.prefix_refl _
      | cons b' r' =>
        rw [Tree.locate_append_cons _ _ _ _ _ _ rfl, Tree.locate_append_cons _ _ _ _ _ _ rfl,
          hloc]
        by_cases hb : b' = b
        · subst hb
          rw [if_pos rfl, hloc0]
          exact c4 _
        · rw [if_neg hb]
    · rw [Tree.locate_not_prefix _ _ _ _ hp, Tree.locate_not_prefix _ _ _ _ hp]
  · intro hl
    have hl' : isLiteral (b :: r) := ((isLiteral_append _ _).1 hl).2
    constructor
    · intro hs
      rw [Tree.locate_append_cons _ _ _ _ _ _ rfl, hloc, if_pos rfl]
      exact (c5 hl').1 hs
    · intro hnd
      rw [Tree.NoDyn_mk] at hnd ⊢
      refine ⟨hnd.1, ?_⟩
      intro x hx
      rcases List.mem_append.1 hx with hx | hx
      · exact hnd.2 x (by simp [hx])
      · rcases List.mem_cons.1 hx with rfl | hx
        · exact (c5 hl').2 (hnd.2 c (by simp))
        · exact hnd.2 x (by simp [hx])
  · intro S c0 rest e hS hc0
    obtain ⟨S', rfl, e'⟩ := prefix_tok_split _ _ _ _ _ w3 hS hc0 e
    obtain ⟨re, hre, par, hmem⟩ := c6 S' c0 rest e' ((isLiteral_append _ _).1 hS).2 hc0
    refine ⟨re, hre, par, ?_⟩
    cases S' with
    | nil =>
      exfalso
      simp only [List.nil_append, List.cons.injEq] at e'
      have hh := hcwf.head
      have hlit : isLiteral c.d.pattern := by
        cases c with
        | mk cd csc crc => exact ((Tree.WF_mk _ _ _).1 hcwf).2.2.1
      cases hpat : c.d.pattern with
      | nil => rw [hpat] at hh; cases hh
      | cons y ys =>
        rw [hpat] at hh hlit
        simp only [List.head?_cons, Option.some.injEq] at hh
        have := ((isLiteral_cons y ys).1 hlit).1
        rw [hh, hcb, e'.1] at this
        rcases hc0 with rfl | rfl
        · exact this.1 rfl
        · exact this.2 rfl
    | cons s ss =>
      simp only [List.cons_append, List.cons.injEq] at e'
      obtain ⟨rfl, -⟩ := e'
      rw [Tree.locate_append_cons _ _ _ _ _ _ rfl, hloc, if_pos rfl]
      exact hmem

/-- What a successful `Add` keeps and establishes. -/
theorem Tree.Add_post [Engine] (t : Tree) : t.WF → ∀ (p : Str) (h nn : Option Nat) (f : Nat)
    (t' : Tree) (ret : Nat), t.Add p h nn f = .node t' ret → Tree.AddPost t t' p h nn f := by
  induction t using Tree.induct with
  | h d sc rc ih _ =>
    intro hwf p h nn f t' ret hh
    obtain ⟨w1, w2, w3, w4, w5⟩ := (Tree.WF_mk d sc rc).1 hwf
    rw [Tree.Add_mk] at hh
    by_cases hm0 : matchedLen p d.pattern = 0
    · rw [if_pos hm0] at hh; cases hh
    rw [if_neg hm0] at hh
    by_cases h1 : matchedLen p d.pattern = d.pattern.length
    · rw [if_pos h1] at hh
      have hpre : d.pattern <+: p := (matchedLen_eq_length_iff _ _).1 h1
      by_cases h2 : matchedLen p d.pattern = p.length
      · rw [if_pos h2] at hh
        have hp : p = d.pattern := by
          have := hpre.eq_of_length (by rw [← h1, h2])
          exact this.symm
        subst hp
        cases hs : h.isSome with
        | true =>
          rw [hs, if_pos rfl] at hh
          split at hh
          · cases hh
          · simp only [AddOut.node.injEq] at hh
            obtain ⟨rfl, -⟩ := hh
            exact Add_post_exact d sc rc hwf h nn f
        | false =>
          rw [hs] at hh
          simp only [Bool.false_eq_true, if_false, AddOut.node.injEq] at hh
          obtain ⟨rfl, -⟩ := hh
          have hn : h = Option.none := by
            cases h with
            | none => rfl
            | some v => simp at hs
          subst hn
          exact Add_post_same d sc rc hwf nn f
      · rw [if_neg h2] at hh
        obtain ⟨rq, rfl⟩ := hpre
        rw [h1, List.drop_left] at hh
        cases rq with
        | nil => exact absurd (by rw [h1]; simp) h2
        | cons b r =>
          cases hl : Tree.addList sc (b :: r) h nn f with
          | node sc' ret' =>
            rw [hl] at hh
            simp only [AddOut.node.injEq] at hh
            obtain ⟨rfl, rfl⟩ := hh
            obtain ⟨pre, c, c', post, rfl, rfl, hc, _⟩ := Tree.addList_eq_node _ _ _ _ _ _ _ hl
            have hcwf : c.WF := w4 c (by simp)
            have hcp := ih c (by simp) hcwf (b :: r) h nn f c' ret' hc
            have hcb : c.d.alpha = b := by
              apply hcwf.alpha_eq_of_matched
              intro e
              rw [(Tree.Add_eq_none_iff c (b :: r) h nn f).2 e] at hc
              cases hc
            exact Add_post_descend d pre post rc c c' hwf b r h nn f hcp hcb
          | panic e sc' => rw [hl] at hh; cases hh
          | none =>
            rw [hl] at hh
            simp only at hh
            have hnone := (Tree.addList_eq_none_iff _ _ _ _ _).1 hl
            have hhead : ∀ x ∈ sc, x.d.alpha ≠ b := by
              intro x hx
              exact Tree.WF.alpha_ne_of_none x (w4 x hx) b r
                ((Tree.Add_eq_none_iff x (b :: r) h nn f).1 (hnone x hx))
            exact addChild_post d sc rc hwf b r hhead h nn f t' ret hh
    · rw [if_neg h1] at hh
      have hlt : matchedLen p d.pattern < d.pattern.length :=
        lt_of_le_of_ne (matchedLen_le_right p d.pattern) h1
      have hne : d.pattern.drop (matchedLen p d.pattern) ≠ [] := by
        intro e
        have := List.drop_eq_nil_iff.1 e
        omega
      obtain ⟨x, xs, hx⟩ := List.exists_cons_of_ne_nil hne
      have hsn : splitNode d (matchedLen p d.pattern) f sc rc
          = Tree.mk ⟨true, x, x :: xs, d.handlers, [], x :: xs, Option.none, some d.addr,
              d.nameNode, f⟩ sc rc := by
        simp [splitNode, hx]
      rw [hx, NewTree_cons] at hh
      simp only [Tree.d_mk] at hh
      rw [← hsn] at hh
      by_cases h2 : matchedLen p d.pattern = p.length
      · rw [if_pos h2] at hh
        simp only [AddOut.node.injEq] at hh
        obtain ⟨rfl, -⟩ := hh
        have hp : p = d.pattern.take (matchedLen p d.pattern) := by
          rw [← matchedLen_take, h2, List.take_length]
        have := Add_post_split d sc rc hwf (matchedLen p d.pattern) f (Nat.pos_of_ne_zero hm0)
          hlt h nn
        rw [← hp] at this
        exact this
      · rw [if_neg h2] at hh
        exact Add_post_partial d sc rc hwf p f (Nat.pos_of_ne_zero hm0) hlt h2 h nn t' ret hh


/-! ## Lookup in the trie (`Tree.Get`) -/

theorem Tree.Get_static [Engine] (d : TreeFields) (sc rc : List Tree) (hs : d.static = true)
    (path : Str) (names : Nat → Str) :
    (Tree.mk d sc rc).Get path names =
      if matchedLen path d.pattern ≠ d.pattern.length then .ret Option.none [] []
      else if matchedLen path d.pattern = path.length ∧ d.handlers.isSome then
        .ret d.handlers (nameOf names d.nameNode) []
      else
        match path.drop (matchedLen path d.pattern) with
        | [] => getDynamic names [] rc
        | b :: rest =>
            match Tree.getFirst sc b (b :: rest) names with
            | some (.panic f calls) => .panic f calls
            | some (.ret (some h) name calls) => .ret (some h) name calls
            | some (.ret Option.none _ calls) =>
                match getDynamic names (b :: rest) rc with
                | .ret h name calls' => .ret h name (calls ++ calls')
                | .panic f calls' => .panic f (calls ++ calls')
            | Option.none => getDynamic names (b :: rest) rc := by
  rw [Tree.Get]
  simp only [hs, Bool.not_true, Bool.false_eq_true, false_and, if_false, if_true]

theorem Tree.getFirst_nil [Engine] (b : Char) (q : Str) (names : Nat → Str) :
    Tree.getFirst [] b q names = Option.none := by
  rw [Tree.getFirst]

theorem Tree.getFirst_cons [Engine] (c : Tree) (cs : List Tree) (b : Char) (q : Str)
    (names : Nat → Str) :
    Tree.getFirst (c :: cs) b q names
      = if c.d.alpha = b then some (Tree.Get c q names) else Tree.getFirst cs b q names := by
  rw [Tree.getFirst]

theorem getDynamic_nil [Engine] (names : Nat → Str) (q : Str) :
    getDynamic names q [] = .ret Option.none [] [] := rfl

/-- Where the static segments spell the path at a node that has a handler
slice, `Get` returns that slice and binds nothing. -/
theorem Tree.Get_of_locate [Engine] (t : Tree) : t.WF → ∀ (q : Str) (h : Nat) (names : Nat → Str),
    (Tree.view (t.locate q)).1.1 = some h →
    t.Get q names = .ret (some h) (nameOf names (Tree.view (t.locate q)).1.2) [] := by
  induction t using Tree.induct with
  | h d sc rc ih _ =>
    intro hwf q h names hl
    obtain ⟨w1, w2, w3, w4, w5⟩ := (Tree.WF_mk d sc rc).1 hwf
    rw [Tree.Get_static d sc rc w1]
    by_cases hp : d.pattern <+: q
    · have hm := (matchedLen_eq_length_iff q d.pattern).2 hp
      rw [if_neg (by simpa using hm), hm]
      obtain ⟨r, rfl⟩ := hp
      cases r with
      | nil =>
        rw [List.append_nil] at hl ⊢
        rw [Tree.locate_self _ _ _ _ rfl] at hl ⊢
        simp only [Tree.view, Tree.d_mk] at hl ⊢
        rw [if_pos (by simp [hl]), hl]
      | cons b r =>
        rw [if_neg (by simp), List.drop_left]
        rw [Tree.locate_append_cons _ _ _ _ _ _ rfl] at hl ⊢
        have key : ∀ l : List Tree, (∀ c ∈ l, c ∈ sc) →
            (Tree.view (Tree.locateList l b (b :: r))).1.1 = some h →
            Tree.getFirst l b (b :: r) names
              = some (.ret (some h)
                  (nameOf names (Tree.view (Tree.locateList l b (b :: r))).1.2) []) := by
          intro l
          induction l with
          | nil =>
            intro _ hl'
            rw [Tree.locateList_nil] at hl'
            simp [Tree.view] at hl'
          | cons c cs ihl =>
            intro hsub hl'
            rw [Tree.locateList_cons] at hl' ⊢
            rw [Tree.getFirst_cons]
            by_cases hc : c.d.alpha = b
            · rw [if_pos hc] at hl' ⊢
              rw [if_pos hc, ih c (hsub c (by simp)) (w4 c (hsub c (by simp))) _ h names hl']
            · rw [if_neg hc] at hl' ⊢
              rw [if_neg hc]
              exact ihl (fun x hx => hsub x (by simp [hx])) hl'
        dsimp only
        rw [key sc (fun c hc => hc) hl]
    · rw [Tree.locate_not_prefix _ _ _ _ hp] at hl
      simp [Tree.view] at hl

/-- In a trie without dynamic children, `Get` returns nil where the static
segments do not spell the path at a node that has a handler slice. -/
theorem Tree.Get_of_locate_none [Engine] (t : Tree) : t.WF → t.NoDyn →
    ∀ (q : Str) (names : Nat → Str), (Tree.view (t.locate q)).1.1 = Option.none →
    t.Get q names = .ret Option.none [] [] := by
  induction t using Tree.induct with
  | h d sc rc ih _ =>
    intro hwf hnd q names hl
    obtain ⟨w1, w2, w3, w4, w5⟩ := (Tree.WF_mk d sc rc).1 hwf
    obtain ⟨n1, n2⟩ := (Tree.NoDyn_mk d sc rc).1 hnd
    subst n1
    rw [Tree.Get_static d sc [] w1]
    by_cases hp : d.pattern <+: q
    · have hm := (matchedLen_eq_length_iff q d.pattern).2 hp
      rw [if_neg (by simpa using hm), hm]
      obtain ⟨r, rfl⟩ := hp
      cases r with
      | nil =>
        rw [List.append_nil] at hl ⊢
        rw [Tree.locate_self _ _ _ _ rfl] at hl
        simp only [Tree.view, Tree.d_mk] at hl
        rw [if_neg (by rw [hl]; simp), List.drop_length]
        rfl
      | cons b r =>
        rw [if_neg (by simp), List.drop_left]
        rw [Tree.locate_append_cons _ _ _ _ _ _ rfl] at hl
        have key : ∀ l : List Tree, (∀ c ∈ l, c ∈ sc) →
            (Tree.view (Tree.locateList l b (b :: r))).1.1 = Option.none →
            Tree.getFirst l b (b :: r) names = Option.none
              ∨ Tree.getFirst l b (b :: r) names = some (.ret Option.none [] []) := by
          intro l
          induction l with
          | nil =>
            intro _ _
            exact Or.inl (Tree.getFirst_nil _ _ _)
          | cons c cs ihl =>
            intro hsub hl'
            rw [Tree.locateList_cons] at hl'
            rw [Tree.getFirst_cons]
            by_cases hc : c.d.alpha = b
            · rw [if_pos hc] at hl'
              rw [if_pos hc, ih c (hsub c (by simp)) (w4 c (hsub c (by simp)))
                (n2 c (hsub c (by simp))) _ names hl']
              exact Or.inr rfl
            · rw [if_neg hc] at hl'
              rw [if_neg hc]
              exact ihl (fun x hx => hsub x (by simp [hx])) hl'
        dsimp only
        rcases key sc (fun c hc => hc) hl with e | e
        · rw [e]; rfl
        · rw [e]; rfl
    · have hm : matchedLen q d.pattern ≠ d.pattern.length :=
        fun e => hp ((matchedLen_eq_length_iff q d.pattern).1 e)
      rw [if_pos hm]

theorem Tree.WF.literal (t : Tree) (h : t.WF) : isLiteral t.d.pattern := by
  cases t with
  | mk d sc rc => exact ((Tree.WF_mk d sc rc).1 h).2.2.1

/-- The dispatch byte of a well-shaped node is not a parameter byte. -/
theorem Tree.WF.alpha_not_tok (t : Tree) (h : t.WF) (c : Char) (hc : isTok c) :
    t.d.alpha ≠ c := by
  have hh := Tree.WF.head t h
  have hl := Tree.WF.literal t h
  cases hp : t.d.pattern with
  | nil => rw [hp] at hh; cases hh
  | cons y ys =>
    rw [hp] at hh hl
    simp only [List.head?_cons, Option.some.injEq] at hh
    have := ((isLiteral_cons y ys).1 hl).1
    rw [hh] at this
    intro e
    rw [e] at this
    rcases hc with rfl | rfl
    · exact this.1 rfl
    · exact this.2 rfl

theorem Tree.WF.matched_zero_of_alpha_ne (x : Tree) (hx : x.WF) (b : Char) (r : Str)
    (h : x.d.alpha ≠ b) : matchedLen (b :: r) x.d.pattern = 0 := by
  have hh := Tree.WF.head x hx
  cases hp : x.d.pattern with
  | nil => rfl
  | cons y ys =>
    rw [hp] at hh
    simp only [List.head?_cons, Option.some.injEq] at hh
    rw [matchedLen_cons, if_neg]
    intro e
    exact h (by rw [← hh, e])

/-- Either no child has the dispatch byte, or the first one that has it
answers. -/
theorem Tree.locateList_cases (sc : List Tree) (b : Char) (q : Str) :
    ((∀ y ∈ sc, y.d.alpha ≠ b) ∧ Tree.locateList sc b q = Option.none)
    ∨ ∃ pre c post, sc = pre ++ c :: post ∧ (∀ y ∈ pre, y.d.alpha ≠ b) ∧ c.d.alpha = b
        ∧ Tree.locateList sc b q = Tree.locate c q := by
  induction sc with
  | nil => exact Or.inl ⟨by simp, Tree.locateList_nil _ _⟩
  | cons c cs ih =>
    by_cases hc : c.d.alpha = b
    · refine Or.inr ⟨[], c, cs, rfl, by simp, hc, ?_⟩
      rw [Tree.locateList_cons, if_pos hc]
    · rcases ih with ⟨h1, h2⟩ | ⟨pre, x, post, e, h1, h2, h3⟩
      · refine Or.inl ⟨?_, ?_⟩
        · intro y hy
          rcases List.mem_cons.1 hy with rfl | hy
          · exact hc
          · exact h1 y hy
        · rw [Tree.locateList_cons, if_neg hc, h2]
      · refine Or.inr ⟨c :: pre, x, post, by rw [e]; rfl, ?_, h2, ?_⟩
        · intro y hy
          rcases List.mem_cons.1 hy with rfl | hy
          · exact hc
          · exact h1 y hy
        · rw [Tree.locateList_cons, if_neg hc, h3]

/-- A literal pattern that is not yet bound to a handler slice is accepted. -/
theorem Tree.Add_succ [Engine] (t : Tree) : t.WF → ∀ (p : Str) (h nn : Option Nat) (f : Nat),
    isLiteral p → matchedLen p t.d.pattern ≠ 0 →
    ((Tree.view (t.locate p)).1.1 = Option.none ∨ h = Option.none) →
    ∃ t' ret, t.Add p h nn f = .node t' ret := by
  induction t using Tree.induct with
  | h d sc rc ih _ =>
    intro hwf p h nn f hlit hm0 hfree
    obtain ⟨w1, w2, w3, w4, w5⟩ := (Tree.WF_mk d sc rc).1 hwf
    rw [Tree.Add_mk]
    simp only [Tree.d_mk] at hm0
    rw [if_neg hm0]
    by_cases h1 : matchedLen p d.pattern = d.pattern.length
    · rw [if_pos h1]
      have hpre : d.pattern <+: p := (matchedLen_eq_length_iff _ _).1 h1
      by_cases h2 : matchedLen p d.pattern = p.length
      · rw [if_pos h2]
        have hp : p = d.pattern := (hpre.eq_of_length (by rw [← h1, h2])).symm
        subst hp
        rw [Tree.locate_self _ _ _ _ rfl] at hfree
        simp only [Tree.view, Tree.d_mk] at hfree
        rcases hfree with e | e
        · rw [e]
          split <;> simp
        · rw [e]; simp
      · rw [if_neg h2]
        obtain ⟨rq, rfl⟩ := hpre
        rw [h1, List.drop_left]
        cases rq with
        | nil => exact absurd (by rw [h1]; simp) h2
        | cons b r =>
          have hlit' : isLiteral (b :: r) := ((isLiteral_append _ _).1 hlit).2
          cases hl : Tree.addList sc (b :: r) h nn f with
          | node sc' ret' => exact ⟨_, _, rfl⟩
          | panic e sc' =>
            exfalso
            obtain ⟨pre, c, c', post, rfl, rfl, hc, hpre'⟩ := Tree.addList_eq_panic _ _ _ _ _ _ _ hl
            have hcwf : c.WF := w4 c (by simp)
            have hcm : matchedLen (b :: r) c.d.pattern ≠ 0 := by
              intro e'
              rw [(Tree.Add_eq_none_iff c (b :: r) h nn f).2 e'] at hc
              cases hc
            have hcb : c.d.alpha = b := Tree.WF.alpha_eq_of_matched c hcwf b r hcm
            have hpreb : ∀ x ∈ pre, x.d.alpha ≠ c.d.alpha := by
              intro x hx
              rw [hcb]
              exact Tree.WF.alpha_ne_of_none x (w4 x (by simp [hx])) b r
                ((Tree.Add_eq_none_iff x (b :: r) h nn f).1 (hpre' x hx))
            have hfree' : (Tree.view (c.locate (b :: r))).1.1 = Option.none ∨ h = Option.none := by
              rcases hfree with e' | e'
              · left
                rw [Tree.locate_append_cons _ _ _ _ _ _ rfl, ← hcb,
                  Tree.locateList_at pre post c _ hpreb, hcb] at e'
                exact e'
              · exact Or.inr e'
            obtain ⟨t', ret, e'⟩ := ih c (by simp) hcwf (b :: r) h nn f hlit' hcm hfree'
            rw [e'] at hc
            cases hc
          | none =>
            simp only
            rw [addChild_literal _ _ hlit' (by simp)]
            exact ⟨_, _, rfl⟩
    · rw [if_neg h1]
      have hlt : matchedLen p d.pattern < d.pattern.length :=
        lt_of_le_of_ne (matchedLen_le_right p d.pattern) h1
      have hne : d.pattern.drop (matchedLen p d.pattern) ≠ [] := by
        intro e
        have := List.drop_eq_nil_iff.1 e
        omega
      obtain ⟨x, xs, hx⟩ := List.exists_cons_of_ne_nil hne
      rw [hx, NewTree_cons]
      simp only
      by_cases h2 : matchedLen p d.pattern = p.length
      · rw [if_pos h2]
        exact ⟨_, _, rfl⟩
      · rw [if_neg h2, addChild_literal _ _ (isLiteral_drop _ _ hlit)
          (drop_matchedLen_ne_nil p d.pattern h2)]
        exact ⟨_, _, rfl⟩

/-- A pattern spelled at a node that has a handler slice is rejected, and the
trie is left as it was. -/
theorem Tree.Add_dup_static [Engine] (t : Tree) : t.WF → ∀ (p : Str) (h nn : Option Nat) (f : Nat),
    h.isSome = true → ((Tree.view (t.locate p)).1.1).isSome = true →
    t.Add p h nn f = .panic .routeExists t := by
  induction t using Tree.induct with
  | h d sc rc ih _ =>
    intro hwf p h nn f hs hreg
    obtain ⟨w1, w2, w3, w4, w5⟩ := (Tree.WF_mk d sc rc).1 hwf
    by_cases hpre : d.pattern <+: p
    · have h1 := (matchedLen_eq_length_iff p d.pattern).2 hpre
      have hm0 : matchedLen p d.pattern ≠ 0 := by
        rw [h1]
        cases hp : d.pattern with
        | nil => rw [hp] at w2; cases w2
        | cons y ys => simp
      rw [Tree.Add_mk, if_neg hm0, if_pos h1]
      obtain ⟨rq, rfl⟩ := hpre
      cases rq with
      | nil =>
        rw [List.append_nil] at hreg h1 ⊢
        rw [Tree.locate_self _ _ _ _ rfl] at hreg
        simp only [Tree.view, Tree.d_mk] at hreg
        rw [if_pos h1, if_pos hs, if_pos hreg]
      | cons b r =>
        rw [if_neg (by rw [h1]; simp), h1, List.drop_left]
        rw [Tree.locate_append_cons _ _ _ _ _ _ rfl] at hreg
        rcases Tree.locateList_cases sc b (b :: r) with ⟨_, e⟩ | ⟨pre, c, post, rfl, hp1, hp2, e⟩
        · rw [e] at hreg
          simp [Tree.view] at hreg
        · rw [e] at hreg
          have hc := ih c (by simp) (w4 c (by simp)) (b :: r) h nn f hs hreg
          have hpre' : ∀ x ∈ pre, x.Add (b :: r) h nn f = .none := by
            intro x hx
            rw [Tree.Add_eq_none_iff]
            exact Tree.WF.matched_zero_of_alpha_ne x (w4 x (by simp [hx])) b r (hp1 x hx)
          rw [Tree.addList_of_first pre post c _ h nn f hpre', hc]
    · rw [Tree.locate_not_prefix _ _ _ _ hpre] at hreg
      simp [Tree.view] at hreg

/-- A pattern with a parameter whose compiled dynamic part is already among
the dynamic children of the node where its literal start is spelled is
rejected, and the trie is left as it was. -/
theorem Tree.Add_dup_dyn [Engine] (t : Tree) : t.WF → ∀ (S : Str) (c : Char) (rest : Str)
    (h nn : Option Nat) (f : Nat) (re : Regexp), isLiteral S → isTok c →
    Engine.compile ((dynScan (c :: rest)).newPattern ++ "$".toList) = .ok re →
    (∃ x ∈ (Tree.view (t.locate S)).2, x.d.pattern = (dynScan (c :: rest)).newPattern) →
    t.Add (S ++ c :: rest) h nn f = .panic .routeExists t := by
  induction t using Tree.induct with
  | h d sc rc ih _ =>
    intro hwf S c rest h nn f re hS hc hre hreg
    obtain ⟨w1, w2, w3, w4, w5⟩ := (Tree.WF_mk d sc rc).1 hwf
    by_cases hpre : d.pattern <+: S
    · have hpre2 : d.pattern <+: S ++ c :: rest := hpre.trans (List.prefix_append _ _)
      have h1 := (matchedLen_eq_length_iff (S ++ c :: rest) d.pattern).2 hpre2
      have hm0 : matchedLen (S ++ c :: rest) d.pattern ≠ 0 := by
        rw [h1]
        cases hp : d.pattern with
        | nil => rw [hp] at w2; cases w2
        | cons y ys => simp
      rw [Tree.Add_mk, if_neg hm0, if_pos h1]
      obtain ⟨rq, rfl⟩ := hpre
      have h2 : ¬ matchedLen (d.pattern ++ rq ++ c :: rest) d.pattern
          = (d.pattern ++ rq ++ c :: rest).length := by
        rw [h1]; simp
      rw [if_neg h2, h1, List.append_assoc, List.drop_left]
      cases rq with
      | nil =>
        rw [List.append_nil, Tree.locate_self _ _ _ _ rfl] at hreg
        simp only [Tree.view, Tree.rchildren_mk] at hreg
        have hnone : Tree.addList sc ([] ++ c :: rest) h nn f = .none := by
          rw [Tree.addList_eq_none_iff]
          intro x hx
          rw [Tree.Add_eq_none_iff]
          exact Tree.WF.matched_zero_of_alpha_ne x (w4 x hx) c rest
            (Tree.WF.alpha_not_tok x (w4 x hx) c hc)
        rw [hnone]
        simp only
        rw [addChild_dynamic _ [] isLiteral_nil c rest hc, hre]
        simp only [ne_eq, not_true_eq_false, if_false, Tree.rchildren_mk]
        rw [if_pos]
        obtain ⟨x, hx, hxp⟩ := hreg
        simp only [List.any_eq_true, beq_iff_eq]
        exact ⟨x, hx, hxp⟩
      | cons b r =>
        rw [Tree.locate_append_cons _ _ _ _ _ _ rfl] at hreg
        rcases Tree.locateList_cases sc b (b :: r) with ⟨_, e⟩ | ⟨pre, c0, post, rfl, hp1, hp2, e⟩
        · rw [e] at hreg
          simp [Tree.view] at hreg
        · rw [e] at hreg
          have hc0 := ih c0 (by simp) (w4 c0 (by simp)) (b :: r) c rest h nn f re
            ((isLiteral_append _ _).1 hS).2 hc hre hreg
          have hpre' : ∀ x ∈ pre, x.Add (b :: r ++ c :: rest) h nn f = .none := by
            intro x hx
            rw [Tree.Add_eq_none_iff]
            exact Tree.WF.matched_zero_of_alpha_ne x (w4 x (by simp [hx])) b _ (hp1 x hx)
          rw [Tree.addList_of_first pre post c0 _ h nn f hpre', hc0]
    · rw [Tree.locate_not_prefix _ _ _ _ hpre] at hreg
      simp [Tree.view] at hreg

theorem newRoot_eq (a : Nat) :
    newRoot a = .mk ⟨true, '/', ['/'], Option.none, [], ['/'], Option.none, Option.none,
      Option.none, a⟩ [] [] := rfl

theorem newRoot_WF (a : Nat) : (newRoot a).WF := by
  rw [newRoot_eq, Tree.WF_mk]
  refine ⟨rfl, rfl, ?_, by simp, by simp⟩
  intro c hc
  simp only [List.mem_singleton] at hc
  subst hc
  decide

theorem newRoot_NoDyn (a : Nat) : (newRoot a).NoDyn := by
  rw [newRoot_eq, Tree.NoDyn_mk]
  simp

/-- Every trie obtained from a fresh root by successful `Add` calls has the
shape `Tree.WF`, and its root still dispatches on `/`. -/
theorem Tree.Reach.wf [Engine] {t : Tree} (h : Tree.Reach t) : t.WF ∧ t.d.alpha = '/' := by
  induction h with
  | root a => exact ⟨newRoot_WF a, rfl⟩
  | add _ hadd ih =>
    obtain ⟨p1, p2, -⟩ := Tree.Add_post _ ih.1 _ _ _ _ _ _ hadd
    exact ⟨p1, by rw [p2, ih.2]⟩


/-! ## Literal routes on the router -/

theorem Router.add_nogroup [Engine] (r : Router) (hg : r.groups = []) (method : Str) (idx : Nat)
    (hm : RouterMethods method = some idx) (cs : Str) (handlers : Option Nat) :
    r.add method ('/' :: cs) handlers =
      match (r.tree idx).Add ('/' :: cs) handlers (some r.nodeStore.length) r.nextAddr with
      | .none =>
          .panic .treeAddError
            { r with slices := (match handlers with
                                | some i => r.slices.modify (fun l => l.map WrapHandlerFunc) i
                                | Option.none => r.slices),
                     nodeStore := r.nodeStore ++ [⟨0, [], []⟩], nextAddr := r.nextAddr + 3 }
      | .panic f t' =>
          .panic f
            { r with slices := (match handlers with
                                | some i => r.slices.modify (fun l => l.map WrapHandlerFunc) i
                                | Option.none => r.slices),
                     nodeStore := r.nodeStore ++ [⟨0, [], []⟩], nextAddr := r.nextAddr + 3,
                     nodes := r.nodes.set idx t' }
      | .node t' ret =>
          .ok { r with slices := (match handlers with
                                  | some i => r.slices.modify (fun l => l.map WrapHandlerFunc) i
                                  | Option.none => r.slices),
                       nextAddr := r.nextAddr + 3, nodes := r.nodes.set idx t',
                       nodeStore := r.nodeStore ++
                         [⟨(match t'.find ret with
                            | some d => d.params.length
                            | Option.none => 0), t'.formatStr ret, []⟩] }
              r.nodeStore.length := by
  unfold Router.add
  rw [hm]
  simp only [hg, List.length_nil, lt_self_iff_false, if_false, false_and, ne_eq,
    not_true_eq_false]

theorem Router.Add_plain [Engine] (r : Router) (h1 : r.autoHead = false)
    (h2 : r.autoTrailingSlash = false) (method pattern : Str) (handlers : Option Nat) :
    r.Add method pattern handlers = r.add method pattern handlers := by
  unfold Router.Add
  simp [h1, h2]

theorem Router.tree_set (r : Router) (idx : Nat) (t' : Tree) (hi : idx < r.nodes.length)
    (nodes' : List Tree) (hn : nodes' = r.nodes.set idx t') (r' : Router)
    (hr : r'.nodes = nodes') : r'.tree idx = t' := by
  unfold Router.tree
  rw [hr, hn]
  simp [List.getD_eq_getElem?_getD, hi]

theorem Router.tree_set_ne (r : Router) (idx j : Nat) (t' : Tree) (hj : j ≠ idx)
    (r' : Router) (hr : r'.nodes = r.nodes.set idx t') : r'.tree j = r.tree j := by
  unfold Router.tree
  rw [hr]
  simp [List.getD_eq_getElem?_getD, List.getElem?_set_ne (Ne.symm hj)]

theorem Router.nameAt_nil (r : Router) (h : ∀ nd ∈ r.nodeStore, nd.name = []) (n : Nat) :
    r.nameAt n = [] := by
  unfold Router.nameAt
  cases hg : r.nodeStore.get? n with
  | none => rfl
  | some nd =>
    simp only
    exact h nd (List.get?_mem hg)

theorem nameOf_nil (names : Nat → Str) (h : ∀ n, names n = []) (nn : Option Nat) :
    nameOf names nn = [] := by
  cases nn with
  | none => rfl
  | some n => exact h n

/-- One registration of a literal pattern that no handler slice is bound to
yet, on a plain router. -/
theorem Router.Add_literal_step [Engine] (r : Router) (method : Str) (idx : Nat)
    (hm : RouterMethods method = some idx) (hr : r.Plain idx) (p : Str) (h : Nat)
    (hlit : isLiteral p) (hhead : p.head? = some '/')
    (hfree : (Tree.view ((r.tree idx).locate p)).1.1 = Option.none) :
    ∃ r' n, r.Add method p (some h) = .ok r' n ∧ r'.Plain idx
      ∧ ∀ q, (Tree.view ((r'.tree idx).locate q)).1.1
          = if q = p then some h else (Tree.view ((r.tree idx).locate q)).1.1 := by
  obtain ⟨i1, i2, i3, i4, i5, i6, i7, i8⟩ := hr
  cases p with
  | nil => cases hhead
  | cons c cs =>
    simp only [List.head?_cons, Option.some.injEq] at hhead
    subst hhead
    rw [Router.Add_plain r i1 i2, Router.add_nogroup r i3 method idx hm]
    have hm0 : matchedLen ('/' :: cs) (r.tree idx).d.pattern ≠ 0 := by
      have hh := Tree.WF.head _ i5
      rw [i7] at hh
      cases hp : (r.tree idx).d.pattern with
      | nil => rw [hp] at hh; cases hh
      | cons y ys =>
        rw [hp] at hh
        simp only [List.head?_cons, Option.some.injEq] at hh
        subst hh
        simp [matchedLen_cons]
    obtain ⟨t', ret, hadd⟩ := Tree.Add_succ _ i5 ('/' :: cs) (some h) (some r.nodeStore.length)
      r.nextAddr hlit hm0 (Or.inl hfree)
    obtain ⟨p1, p2, p3, p4, p5, p6⟩ := Tree.Add_post _ i5 _ _ _ _ _ _ hadd
    rw [hadd]
    refine ⟨_, _, rfl, ?_, ?_⟩
    · refine ⟨i1, i2, i3, by simpa using i4, ?_, ?_, ?_, ?_⟩
      · rw [Router.tree_set r idx t' i4 _ rfl _ rfl]; exact p1
      · rw [Router.tree_set r idx t' i4 _ rfl _ rfl]; exact (p5 hlit).2 i6
      · rw [Router.tree_set r idx t' i4 _ rfl _ rfl, p2, i7]
      · intro nd hnd
        simp only [List.mem_append, List.mem_singleton] at hnd
        rcases hnd with hnd | rfl
        · exact i8 nd hnd
        · rfl
    · intro q
      rw [Router.tree_set r idx t' i4 _ rfl _ rfl]
      by_cases hq : q = '/' :: cs
      · rw [if_pos hq, hq]
        exact (p5 hlit).1 rfl
      · rw [if_neg hq, p3 q hq]

theorem RouterMethods_lt (m : Str) (idx : Nat) (h : RouterMethods m = some idx) :
    idx < RouteLength := by
  unfold RouterMethods at h
  unfold RouteLength
  split_ifs at h <;> simp at h <;> omega

theorem New_tree (idx : Nat) (h : idx < RouteLength) : New.tree idx = newRoot idx := by
  unfold RouteLength at h
  interval_cases idx <;> rfl

theorem newRoot_locate (a : Nat) (q : Str) :
    (Tree.view ((newRoot a).locate q)).1.1 = Option.none := by
  rw [newRoot_eq, Tree.locate_mk]
  split
  · split
    · rfl
    · rw [Tree.locateList_nil]; rfl
  · rfl

theorem New_plain (idx : Nat) (h : idx < RouteLength) : New.Plain idx := by
  refine ⟨rfl, rfl, rfl, ?_, ?_, ?_, ?_, ?_⟩
  · simpa [New] using h
  · rw [New_tree idx h]; exact newRoot_WF idx
  · rw [New_tree idx h]; exact newRoot_NoDyn idx
  · rw [New_tree idx h]; rfl
  · intro nd hnd
    simp [New] at hnd

theorem Router.AddAll_literal [Engine] (method : Str) (idx : Nat) (hm : RouterMethods method = some idx) :
    ∀ (regs : List (Str × Nat)) (r : Router), r.Plain idx →
    (∀ e ∈ regs, isLiteral e.1 ∧ e.1.head? = some '/') → (regs.map Prod.fst).Nodup →
    (∀ e ∈ regs, (Tree.view ((r.tree idx).locate e.1)).1.1 = Option.none) →
    ∃ r', r.AddAll method regs = .ok r' () ∧ r'.Plain idx
      ∧ (∀ e ∈ regs, (Tree.view ((r'.tree idx).locate e.1)).1.1 = some e.2)
      ∧ (∀ q, q ∉ regs.map Prod.fst →
          (Tree.view ((r'.tree idx).locate q)).1.1 = (Tree.view ((r.tree idx).locate q)).1.1) := by
  intro regs
  induction regs with
  | nil =>
    intro r hr _ _ _
    exact ⟨r, rfl, hr, by simp, fun q _ => rfl⟩
  | cons e rest ih =>
    intro r hr hlit hnd hfree
    obtain ⟨hl, hh⟩ := hlit e (by simp)
    simp only [List.map_cons, List.nodup_cons] at hnd
    obtain ⟨r1, n, hadd, hr1, htab⟩ :=
      Router.Add_literal_step r method idx hm hr e.1 e.2 hl hh (hfree e (by simp))
    have hfree1 : ∀ x ∈ rest, (Tree.view ((r1.tree idx).locate x.1)).1.1 = Option.none := by
      intro x hx
      rw [htab, if_neg, hfree x (by simp [hx])]
      intro ex
      exact hnd.1 (by rw [← ex]; exact List.mem_map_of_mem _ hx)
    obtain ⟨r2, hall, hr2, hin, hout⟩ :=
      ih r1 hr1 (fun x hx => hlit x (by simp [hx])) hnd.2 hfree1
    refine ⟨r2, ?_, hr2, ?_, ?_⟩
    · rw [Router.AddAll, hadd]
      exact hall
    · intro x hx
      rcases List.mem_cons.1 hx with rfl | hx
      · rw [hout _ hnd.1, htab, if_pos rfl]
      · exact hin x hx
    · intro q hq
      simp only [List.map_cons, List.mem_cons, not_or] at hq
      rw [hout q hq.2, htab, if_neg hq.1]

theorem Router.Match_eq [Engine] (r : Router) (method : Str) (idx : Nat)
    (hm : RouterMethods method = some idx) (path : Str) :
    r.Match method path = (r.tree idx).Get path r.nameAt := by
  unfold Router.Match
  rw [hm]
  rfl

/-- C1: literal routes behave like a finite map.  On a fresh router, for
every list of pairwise distinct literal patterns that begin with `/`, each
registered on one recognized method with a non-nil handler slice, in the order
of the list: every registration succeeds (no duplicate-route panic), and
afterwards `Match` returns the slice of a registered pattern on that pattern,
binding no parameter, and returns nil on every path that is none of the
patterns.  The statement holds for every host engine: literal routes never
reach it. -/
theorem literal_routes_finite_map [Engine] (method : Str) (idx : Nat)
    (hm : RouterMethods method = some idx) (regs : List (Str × Nat))
    (hlit : ∀ e ∈ regs, isLiteral e.1 ∧ e.1.head? = some '/')
    (hnd : (regs.map Prod.fst).Nodup) :
    ∃ r, New.AddAll method regs = .ok r ()
      ∧ (∀ e ∈ regs, r.Match method e.1 = .ret (some e.2) [] [])
      ∧ (∀ path, path ∉ regs.map Prod.fst → r.Match method path = .ret Option.none [] []) := by
  have hidx := RouterMethods_lt method idx hm
  obtain ⟨r, hall, hr, hin, hout⟩ := Router.AddAll_literal method idx hm regs New
    (New_plain idx hidx) hlit hnd
    (fun e _ => by rw [New_tree idx hidx]; exact newRoot_locate idx e.1)
  obtain ⟨i1, i2, i3, i4, i5, i6, i7, i8⟩ := hr
  refine ⟨r, hall, ?_, ?_⟩
  · intro e he
    rw [Router.Match_eq r method idx hm, Tree.Get_of_locate _ i5 e.1 e.2 r.nameAt (hin e he),
      nameOf_nil _ (Router.nameAt_nil r i8)]
  · intro path hp
    rw [Router.Match_eq r method idx hm]
    apply Tree.Get_of_locate_none _ i5 i6
    rw [hout path hp, New_tree idx hidx]
    exact newRoot_locate idx path

/-- C1, at `/user` then `/username` on `GET`: both resolve to their own
slices. -/
theorem literal_routes_finite_map_witness :
    RouterMethods "GET".toList = some 0
    ∧ (∀ e ∈ [("/user".toList, 1), ("/username".toList, 2)],
        isLiteral e.1 ∧ e.1.head? = some '/')
    ∧ (([("/user".toList, 1), ("/username".toList, 2)] : List (Str × Nat)).map Prod.fst).Nodup
    ∧ ∃ r, New.AddAll "GET".toList [("/user".toList, 1), ("/username".toList, 2)] = .ok r ()
      ∧ (∀ e ∈ [("/user".toList, 1), ("/username".toList, 2)],
          r.Match "GET".toList e.1 = .ret (some e.2) [] [])
      ∧ (∀ path, path ∉ ([("/user".toList, 1), ("/username".toList, 2)] :
            List (Str × Nat)).map Prod.fst →
          r.Match "GET".toList path = .ret Option.none [] []) :=
  ⟨rfl, by decide, by decide,
    literal_routes_finite_map "GET".toList 0 rfl [("/user".toList, 1), ("/username".toList, 2)]
      (by decide) (by decide)⟩


/-! ## Patterns with parameters: the compiled expression -/

theorem Re.run_cat_empty (a : Re) (st : MState) : (Re.cat a .empty).run st = a.run st := by
  simp only [Re.run]
  induction a.run st with
  | nil => rfl
  | cons x xs ih => simp [List.flatMap_cons, ih]

theorem Re.run_cat (a b : Re) (st : MState) :
    (Re.cat a b).run st = (a.run st).flatMap (fun s => b.run s) := by
  simp only [Re.run]

theorem Re.run_chr (c : Char) (st : MState) :
    (Re.chr c).run st
      = match st.rest with
        | d :: t => if d = c then [⟨t, st.pos + 1, st.caps⟩] else []
        | [] => [] := by
  rw [Re.run]

theorem Re.run_cls (neg : Bool) (items : List ClassItem) (st : MState) :
    (Re.cls neg items).run st
      = match st.rest with
        | d :: t => if classTest neg items d then [⟨t, st.pos + 1, st.caps⟩] else []
        | [] => [] := by
  rw [Re.run]

/-- Greedy repetition of a bracket expression: the states reached are those
after any run of admitted bytes. -/
theorem mem_starM_cls (neg : Bool) (items : List ClassItem) (n : Nat) :
    ∀ (st s' : MState), st.rest.length ≤ n →
    (s' ∈ starM (fun s => (Re.cls neg items).run s) n st ↔
      ∃ v, st.rest = v ++ s'.rest ∧ (∀ x ∈ v, classTest neg items x = true)
        ∧ s'.pos = st.pos + v.length ∧ s'.caps = st.caps) := by
  induction n with
  | zero =>
    intro st s' hn
    have hr : st.rest = [] := List.length_eq_zero.1 (Nat.le_zero.1 hn)
    show s' ∈ [st] ↔ _
    rw [List.mem_singleton]
    constructor
    · rintro rfl
      exact ⟨[], by simp, by simp, by simp, rfl⟩
    · rintro ⟨v, h1, h2, h3, h4⟩
      rw [hr] at h1
      have hv : v = [] := (List.append_eq_nil.1 h1.symm).1
      have hs : s'.rest = [] := (List.append_eq_nil.1 h1.symm).2
      subst hv
      obtain ⟨r1, p1, c1⟩ := s'
      obtain ⟨r2, p2, c2⟩ := st
      simp only [List.length_nil, Nat.add_zero] at h3 h4 hs hr
      subst hs hr h3 h4
      rfl
  | succ n ih =>
    intro st s' hn
    show s' ∈ (((Re.cls neg items).run st).filter (fun s => decide (st.pos < s.pos))).flatMap
        (starM (fun s => (Re.cls neg items).run s) n) ++ [st] ↔ _
    simp only [List.mem_append, List.mem_flatMap, List.mem_filter, List.mem_singleton,
      decide_eq_true_eq]
    rw [Re.run_cls]
    constructor
    · rintro (⟨s1, ⟨hs1, hprog⟩, hmem⟩ | rfl)
      · cases hrest : st.rest with
        | nil => rw [hrest] at hs1; simp at hs1
        | cons d t =>
          rw [hrest] at hs1
          simp only at hs1
          by_cases ht : classTest neg items d = true
          · rw [if_pos ht, List.mem_singleton] at hs1
            subst hs1
            have hlen : t.length ≤ n := by
              rw [hrest] at hn
              simpa using hn
            obtain ⟨v, h1, h2, h3, h4⟩ := (ih _ s' hlen).1 hmem
            simp only at h1 h3 h4
            refine ⟨d :: v, by simp [h1], ?_, by simp [h3]; omega, h4⟩
            intro x hx
            rcases List.mem_cons.1 hx with rfl | hx
            · exact ht
            · exact h2 x hx
          · rw [if_neg ht] at hs1
            simp at hs1
      · exact ⟨[], by simp, by simp, by simp, rfl⟩
    · rintro ⟨v, h1, h2, h3, h4⟩
      cases v with
      | nil =>
        right
        obtain ⟨r1, p1, c1⟩ := s'
        obtain ⟨r2, p2, c2⟩ := st
        simp only [List.length_nil, Nat.add_zero, List.nil_append] at h1 h3 h4
        subst h1 h3 h4
        rfl
      | cons d v =>
        left
        simp only [List.cons_append] at h1
        rw [h1]
        simp only
        have ht := h2 d (by simp)
        rw [if_pos ht]
        refine ⟨⟨v ++ s'.rest, st.pos + 1, st.caps⟩, ⟨by simp, by simp⟩, ?_⟩
        apply (ih _ s' ?_).2
        · refine ⟨v, rfl, fun x hx => h2 x (by simp [hx]), ?_, h4⟩
          simp only [h3, List.length_cons]
          omega
        · rw [h1] at hn
          simpa using hn

theorem mem_plus_cls (neg : Bool) (items : List ClassItem) (st s' : MState) :
    s' ∈ (Re.plus true (Re.cls neg items)).run st ↔
      ∃ v, v ≠ [] ∧ st.rest = v ++ s'.rest ∧ (∀ x ∈ v, classTest neg items x = true)
        ∧ s'.pos = st.pos + v.length ∧ s'.caps = st.caps := by
  simp only [Re.run, if_true, List.mem_flatMap]
  constructor
  · rintro ⟨s1, hs1, hmem⟩
    cases hrest : st.rest with
    | nil => rw [hrest] at hs1; simp at hs1
    | cons d t =>
      rw [hrest] at hs1
      simp only at hs1
      by_cases ht : classTest neg items d = true
      · rw [if_pos ht, List.mem_singleton] at hs1
        subst hs1
        obtain ⟨v, h1, h2, h3, h4⟩ := (mem_starM_cls neg items _ _ s' (le_refl _)).1 hmem
        simp only at h1 h3 h4
        refine ⟨d :: v, by simp, by simp [h1], ?_, by simp [h3]; omega, h4⟩
        intro x hx
        rcases List.mem_cons.1 hx with rfl | hx
        · exact ht
        · exact h2 x hx
      · rw [if_neg ht] at hs1
        simp at hs1
  · rintro ⟨v, hne, h1, h2, h3, h4⟩
    cases v with
    | nil => exact absurd rfl hne
    | cons d v =>
      simp only [List.cons_append] at h1
      rw [h1]
      simp only
      rw [if_pos (h2 d (by simp))]
      refine ⟨⟨v ++ s'.rest, st.pos + 1, st.caps⟩, by simp, ?_⟩
      apply (mem_starM_cls neg items _ _ s' (le_refl _)).2
      refine ⟨v, rfl, fun x hx => h2 x (by simp [hx]), ?_, h4⟩
      simp only [h3, List.length_cons]
      omega

theorem Rule.re_eq (r : Rule) :
    ∃ neg items, r.re = Re.cls neg items ∧ ∀ x, classTest neg items x = r.ok x := by
  cases r with
  | dflt =>
    refine ⟨true, [.single '/'], rfl, ?_⟩
    intro x
    simp only [classTest, List.any_cons, ClassItem.test, List.any_nil, Bool.or_false, Rule.ok]
    show ((x == '/') != true) = !(x == '/')
    cases (x == '/') <;> rfl
  | int =>
    refine ⟨false, [.digit], rfl, ?_⟩
    intro x
    simp [classTest, ClassItem.test, Rule.ok]
  | str =>
    refine ⟨false, [.word], rfl, ?_⟩
    intro x
    simp [classTest, ClassItem.test, Rule.ok]

/-- The group of a parameter matches a non-empty run of bytes its rule admits
and records where the run lies. -/
theorem mem_run_paramGroup (r : Rule) (i : Nat) (st s' : MState) :
    s' ∈ (Re.group i (Re.cat (Re.plus true r.re) Re.empty)).run st ↔
      ∃ v, v ≠ [] ∧ (∀ x ∈ v, r.ok x = true) ∧ st.rest = v ++ s'.rest
        ∧ s'.pos = st.pos + v.length ∧ s'.caps = (i, st.pos, st.pos + v.length) :: st.caps := by
  obtain ⟨neg, items, hre, hok⟩ := Rule.re_eq r
  rw [hre]
  have hrun : (Re.group i (Re.cat (Re.plus true (Re.cls neg items)) Re.empty)).run st
      = ((Re.plus true (Re.cls neg items)).run st).map
          (fun s => ⟨s.rest, s.pos, (i, st.pos, s.pos) :: s.caps⟩) := by
    rw [← Re.run_cat_empty (Re.plus true (Re.cls neg items)) st]
    simp only [Re.run]
  rw [hrun, List.mem_map]
  constructor
  · rintro ⟨s1, hs1, rfl⟩
    obtain ⟨v, hne, h1, h2, h3, h4⟩ := (mem_plus_cls neg items st s1).1 hs1
    exact ⟨v, hne, fun x hx => by rw [← hok]; exact h2 x hx, h1, h3, by simp [h3, h4]⟩
  · rintro ⟨v, hne, h2, h1, h3, h4⟩
    refine ⟨⟨s'.rest, s'.pos, st.caps⟩, ?_, ?_⟩
    · apply (mem_plus_cls neg items st _).2
      exact ⟨v, hne, h1, fun x hx => by rw [hok]; exact h2 x hx, h3, rfl⟩
    · cases s'
      simp only [MState.mk.injEq, true_and]
      simp only at h3 h4
      rw [h4, h3]

/-- What the expression of an item list matches: exactly the item list filled
with admissible values, up to the end of the input. -/
theorem mem_run_itemsRe (is : List Item) : ∀ (g : Nat) (st s' : MState),
    s' ∈ (itemsRe is g).run st ↔
      ∃ vs, valuesOK is vs ∧ st.rest = fill is vs
        ∧ s' = ⟨[], st.pos + st.rest.length, capsOf is vs g st.pos ++ st.caps⟩ := by
  induction is with
  | nil =>
    intro g st s'
    rw [itemsRe, Re.run_cat_empty]
    simp only [Re.run, valuesOK, fill, capsOf, List.nil_append]
    constructor
    · intro h
      split at h
      · rename_i hr
        rw [List.mem_singleton] at h
        subst h
        refine ⟨[], rfl, hr, ?_⟩
        cases s'
        simp only at hr
        simp [hr]
      · simp at h
    · rintro ⟨vs, _, hr, rfl⟩
      rw [if_pos hr, List.mem_singleton]
      cases st
      simp only at hr
      simp [hr]
  | cons i is ih =>
    intro g st s'
    cases i with
    | lit c =>
      simp only [itemsRe, Re.run_cat, List.mem_flatMap, Re.run_chr, valuesOK, fill, capsOf]
      constructor
      · rintro ⟨s1, hs1, hmem⟩
        cases hrest : st.rest with
        | nil => rw [hrest] at hs1; simp at hs1
        | cons d t =>
          rw [hrest] at hs1
          simp only at hs1
          by_cases hd : d = c
          · rw [if_pos hd, List.mem_singleton] at hs1
            subst hs1
            obtain ⟨vs, h1, h2, h3⟩ := (ih g _ s').1 hmem
            simp only at h2 h3
            refine ⟨vs, h1, by rw [hd, h2], ?_⟩
            rw [h3]
            simp only [List.length_cons, MState.mk.injEq, true_and]
            exact ⟨by omega, trivial⟩
          · rw [if_neg hd] at hs1
            simp at hs1
      · rintro ⟨vs, h1, h2, h3⟩
        rw [h2]
        simp only [if_true]
        refine ⟨⟨fill is vs, st.pos + 1, st.caps⟩, by simp, ?_⟩
        apply (ih g _ s').2
        refine ⟨vs, h1, rfl, ?_⟩
        rw [h3, h2]
        simp only [List.length_cons, MState.mk.injEq, true_and]
        exact ⟨by omega, trivial⟩
    | param n r =>
      simp only [itemsRe, Re.run_cat, List.mem_flatMap]
      constructor
      · rintro ⟨s1, hs1, hmem⟩
        obtain ⟨v, hne, hok, h1, h3, h4⟩ := (mem_run_paramGroup r (g + 1) st s1).1 hs1
        obtain ⟨vs, k1, k2, k3⟩ := (ih (g + 1) s1 s').1 hmem
        refine ⟨v :: vs, ⟨hne, hok, k1⟩, by rw [h1, k2]; rfl, ?_⟩
        rw [k3, h1, h3, h4]
        simp only [capsOf, List.length_append, MState.mk.injEq, true_and, List.append_assoc,
          List.singleton_append]
        exact ⟨by omega, trivial⟩
      · rintro ⟨vs, h1, h2, h3⟩
        cases vs with
        | nil => exact absurd h1 (by simp [valuesOK])
        | cons v vs =>
          obtain ⟨hne, hok, k1⟩ := h1
          simp only [fill] at h2
          refine ⟨⟨fill is vs, st.pos + v.length, (g + 1, st.pos, st.pos + v.length) :: st.caps⟩,
            ?_, ?_⟩
          · apply (mem_run_paramGroup r (g + 1) st _).2
            exact ⟨v, hne, hok, h2, rfl, rfl⟩
          · apply (ih (g + 1) _ s').2
            refine ⟨vs, k1, rfl, ?_⟩
            rw [h3, h2]
            simp only [capsOf, List.length_append, MState.mk.injEq, true_and, List.append_assoc,
              List.singleton_append]
            exact ⟨by omega, trivial⟩

theorem parseCat_cons (n : Nat) (c : Char) (rest : Str) (g : Nat) (h1 : c ≠ '|')
    (h2 : c ≠ ')') :
    parseCat (n + 1) (c :: rest) g =
      match parseAtom n (c :: rest) g with
      | .error e => .error e
      | .ok (a, rest1, g1) =>
          match parsePostfix a rest1 with
          | .error e => .error e
          | .ok (a', rest') =>
              match parseCat n rest' g1 with
              | .error e => .error e
              | .ok (b, rest'', g2) => .ok (Re.cat a' b, rest'', g2) := by
  conv_lhs => unfold parseCat
  split
  · rename_i heq; cases heq
  · rename_i heq
    simp only [List.cons.injEq] at heq
    exact absurd heq.1 h1
  · rename_i heq
    simp only [List.cons.injEq] at heq
    exact absurd heq.1 h2
  · rfl

theorem parseAtom_lit (n : Nat) (c : Char) (rest : Str) (g : Nat) (hc : regexPlain c) :
    parseAtom (n + 1) (c :: rest) g = .ok (Re.chr c, rest, g) := by
  obtain ⟨p0, p1, p2, p3, p4, p5, p6, p7, p8, p9, p10, p11, p12⟩ := hc
  conv_lhs => unfold parseAtom
  split
  · rename_i heq; cases heq
  · rename_i heq
    simp only [List.cons.injEq] at heq
    exact absurd heq.1 p6
  · rename_i heq
    simp only [List.cons.injEq] at heq
    exact absurd heq.1 p9
  · rename_i heq
    simp only [List.cons.injEq] at heq
    exact absurd heq.1 p1
  · rename_i heq
    simp only [List.cons.injEq] at heq
    exact absurd heq.1 p2
  · rename_i heq
    simp only [List.cons.injEq] at heq
    exact absurd heq.1 p11
  · rename_i heq
    simp only [List.cons.injEq] at heq
    exact absurd heq.1 p12
  · rename_i heq
    simp only [List.cons.injEq] at heq
    exact absurd heq.1 p10
  · rename_i c' rest' _ _ _ _ _ _ _ heq
    simp only [List.cons.injEq] at heq
    obtain ⟨rfl, rfl⟩ := heq
    have hr : isRepeatOp c = false := by simp [isRepeatOp, p3, p4, p5]
    have hlt : ¬ 128 ≤ c.toNat := by omega
    simp [hr, hlt]

theorem parseAtom_group (n : Nat) (r : Rule) (rest : Str) (g : Nat) :
    parseAtom (n + 4) (r.expr ++ rest) g
      = .ok (Re.group (g + 1) (Re.cat (Re.plus true r.re) Re.empty), rest, g + 1) := by
  cases r with
  | dflt =>
    simp [Rule.expr, Rule.re, parseAtom, parseAlt, parseCat, parseClass, parseClassItems,
      parsePostfix, isRepeatOp, isAlnum, isDigit, Re.nullable]
  | int =>
    simp [Rule.expr, Rule.re, parseAtom, parseAlt, parseCat, parseClass, parseClassItems,
      parsePostfix, isRepeatOp, isAlnum, isDigit, Re.nullable]
  | str =>
    simp [Rule.expr, Rule.re, parseAtom, parseAlt, parseCat, parseClass, parseClassItems,
      parsePostfix, isRepeatOp, isAlnum, isDigit, Re.nullable]

/-- After an atom, a byte that is neither a repetition operator nor `\x7b`
leaves the atom as it is. -/
theorem parsePostfix_plain (a : Re) (h : Char) (t : Str) (h1 : h ≠ '{') (h2 : h ≠ '*')
    (h3 : h ≠ '+') (h4 : h ≠ '?') : parsePostfix a (h :: t) = .ok (a, h :: t) := by
  unfold parsePostfix
  split
  · rename_i heq
    simp only [List.cons.injEq] at heq
    exact absurd heq.1 h1
  · rename_i op rest _ heq
    simp only [List.cons.injEq] at heq
    obtain ⟨rfl, rfl⟩ := heq
    have : isRepeatOp h = false := by
      simp [isRepeatOp, h2, h3, h4]
    simp [this]
  · rename_i heq
    cases heq

theorem parseCat_end (n : Nat) (g : Nat) :
    parseCat (n + 2) "$".toList g = .ok (Re.cat Re.eol Re.empty, [], g) := by
  show parseCat (n + 1 + 1) ('$' :: []) g = _
  rw [parseCat_cons _ _ _ _ (by decide) (by decide)]
  simp [parseAtom, parsePostfix, parseCat]

theorem Rule.expr_head (r : Rule) : ∃ t, r.expr = '(' :: t := by
  cases r <;> exact ⟨_, rfl⟩

/-- The compiled text of an item list followed by `$` starts with a byte that
ends an atom without repeating it. -/
theorem itemsExpr_head (is : List Item) (hp : litsPlain is) :
    ∃ h t, itemsExpr is ++ "$".toList = h :: t ∧ h ≠ '{' ∧ h ≠ '*' ∧ h ≠ '+' ∧ h ≠ '?'
      ∧ h ≠ '|' ∧ h ≠ ')' := by
  cases is with
  | nil => exact ⟨'$', [], rfl, by decide, by decide, by decide, by decide, by decide, by decide⟩
  | cons i is =>
    cases i with
    | lit c =>
      obtain ⟨⟨p0, p1, p2, p3, p4, p5, p6, p7, p8, p9, p10, p11, p12⟩, _⟩ := hp
      exact ⟨c, itemsExpr is ++ "$".toList, rfl, p10, p4, p3, p5, p8, p7⟩
    | param n r =>
      obtain ⟨t, ht⟩ := Rule.expr_head r
      refine ⟨'(', t ++ (itemsExpr is ++ "$".toList), ?_, by decide, by decide, by decide,
        by decide, by decide, by decide⟩
      simp [itemsExpr, ht]

theorem parseCat_items (is : List Item) : ∀ (g n : Nat), litsPlain is →
    parseCat (is.length + n + 5) (itemsExpr is ++ "$".toList) g
      = .ok (itemsRe is g, [], g + (paramNames is).length) := by
  induction is with
  | nil =>
    intro g n _
    have := parseCat_end (n + 3) g
    simpa [itemsExpr, itemsRe, paramNames] using this
  | cons i is ih =>
    intro g n hp
    have hfuel : (i :: is).length + n + 5 = (is.length + n + 5) + 1 := by
      simp only [List.length_cons]; omega
    rw [hfuel]
    cases i with
    | lit c =>
      obtain ⟨hc, hp'⟩ := hp
      obtain ⟨h, t, hht, q1, q2, q3, q4, _, _⟩ := itemsExpr_head is hp'
      have hc' := hc
      obtain ⟨p0, p1, p2, p3, p4, p5, p6, p7, p8, p9, p10, p11, p12⟩ := hc'
      show parseCat (is.length + n + 5 + 1) (c :: (itemsExpr is ++ "$".toList)) g = _
      rw [parseCat_cons _ _ _ _ p8 p7]
      have hat : parseAtom (is.length + n + 5) (c :: (itemsExpr is ++ "$".toList)) g
          = .ok (Re.chr c, itemsExpr is ++ "$".toList, g) :=
        parseAtom_lit (is.length + n + 4) c _ g hc
      rw [hat]
      simp only
      rw [hht, parsePostfix_plain _ h t q1 q2 q3 q4]
      simp only
      rw [← hht, ih g n hp']
      simp [itemsRe, paramNames]
    | param nm r =>
      have hp' : litsPlain is := hp
      obtain ⟨h, t, hht, q1, q2, q3, q4, _, _⟩ := itemsExpr_head is hp'
      obtain ⟨tl, htl⟩ := Rule.expr_head r
      have hat : parseAtom (is.length + n + 5) (r.expr ++ (itemsExpr is ++ "$".toList)) g
          = .ok (Re.group (g + 1) (Re.cat (Re.plus true r.re) Re.empty),
              itemsExpr is ++ "$".toList, g + 1) :=
        parseAtom_group (is.length + n + 1) r _ g
      show parseCat (is.length + n + 5 + 1) (r.expr ++ itemsExpr is ++ "$".toList) g = _
      rw [List.append_assoc]
      rw [htl] at hat ⊢
      rw [List.cons_append] at hat ⊢
      rw [parseCat_cons _ _ _ _ (by decide) (by decide), hat]
      simp only
      rw [hht, parsePostfix_plain _ h t q1 q2 q3 q4]
      simp only
      rw [← hht, ih (g + 1) n hp']
      simp only [itemsRe, paramNames, List.length_cons]
      rw [show g + 1 + (paramNames is).length = g + ((paramNames is).length + 1) by omega]

theorem parseAlt_succ_of_cat (n : Nat) (s : Str) (g : Nat) (a : Re) (g1 : Nat)
    (h : parseCat n s g = .ok (a, [], g1)) : parseAlt (n + 1) s g = .ok (a, [], g1) := by
  conv_lhs => unfold parseAlt
  rw [h]

/-- The expression `regexp.Compile` returns for the compiled text of an item
list followed by `$`. -/
theorem Compile_items (is : List Item) (hp : litsPlain is) :
    Regexp.Compile (itemsExpr is ++ "$".toList)
      = .ok ⟨itemsRe is 0, (paramNames is).length⟩ := by
  unfold Regexp.Compile
  have hlen : is.length ≤ (itemsExpr is).length := by
    induction is with
    | nil => simp
    | cons i is ih =>
      cases i with
      | lit c =>
        simp only [itemsExpr, List.length_cons]
        have := ih hp.2
        omega
      | param nm r =>
        obtain ⟨tl, htl⟩ := Rule.expr_head r
        simp only [itemsExpr, List.length_cons, List.length_append, htl]
        have := ih hp
        omega
  obtain ⟨k, hk⟩ : ∃ k, 3 * (itemsExpr is ++ "$".toList).length + 3 = (is.length + k + 5) + 1 := by
    refine ⟨3 * (itemsExpr is ++ "$".toList).length + 3 - (is.length + 6), ?_⟩
    simp only [List.length_append, String.toList, List.length_cons, List.length_nil]
    omega
  rw [hk, parseAlt_succ_of_cat _ _ _ _ _ (parseCat_items is 0 k hp)]
  simp

theorem takeWhile_append_stop {p : Char → Bool} (a b : Str) (ha : ∀ x ∈ a, p x = true)
    (hb : ∀ c t, b = c :: t → p c = false) :
    (a ++ b).takeWhile p = a ∧ (a ++ b).dropWhile p = b := by
  induction a with
  | nil =>
    cases b with
    | nil => simp
    | cons c t =>
      have := hb c t rfl
      simp [List.takeWhile_cons, List.dropWhile_cons, this]
  | cons x xs ih =>
    have hx := ha x (by simp)
    have := ih (fun y hy => ha y (by simp [hy]))
    simp [List.takeWhile_cons, List.dropWhile_cons, hx, this.1, this.2]

theorem ruleExpr_word (r : Rule) : ruleExpr r.word = r.expr := by
  cases r <;> decide

theorem patternText_head_not_param (is : List Item) (hok : itemsOK is) (hend : endsName is) :
    ∀ c t, patternText is = c :: t → IsParamChar c = false ∧ c ≠ '(' := by
  intro c t h
  cases is with
  | nil => cases h
  | cons i is =>
    cases i with
    | lit d =>
      simp only [patternText, Item.text, List.singleton_append, List.cons.injEq] at h
      rw [← h.1]
      exact hend
    | param n r =>
      simp only [patternText, Item.text, List.cons_append, List.cons.injEq] at h
      rw [← h.1]
      exact ⟨by decide, by decide⟩

/-- One turn of the scanning loop on the text of a parameter. -/
theorem scanLoop_param (m : Nat) (n : Str) (r : Rule) (is : List Item)
    (hn : ∀ x ∈ n, IsParamChar x = true) (hr : r = .dflt → endsName is) (hok : itemsOK is) :
    (scanLoop (m + 1) [] ((Item.param n r).text ++ patternText is) Scan.init).params
        = n :: (scanLoop m [] (patternText is) Scan.init).params
    ∧ (scanLoop (m + 1) [] ((Item.param n r).text ++ patternText is) Scan.init).newPattern
        = r.expr ++ (scanLoop m [] (patternText is) Scan.init).newPattern
    ∧ (scanLoop (m + 1) [] ((Item.param n r).text ++ patternText is) Scan.init).format
        = "%v".toList ++ (scanLoop m [] (patternText is) Scan.init).format := by
  cases r with
  | dflt =>
    have hstop : ∀ c t, patternText is = c :: t → IsParamChar c = false :=
      fun c t h => (patternText_head_not_param is hok (hr rfl) c t h).1
    obtain ⟨e1, e2⟩ := takeWhile_append_stop n (patternText is) hn hstop
    simp only [Item.text, Rule.text, List.append_nil, List.cons_append]
    rw [scanLoop]
    simp only [show ¬ (':' = '*') by decide, if_false, if_true, e1, e2]
    split
    · rename_i more heq
      exact absurd rfl (patternText_head_not_param is hok (hr rfl) _ _ heq).2
    · refine ⟨?_, ?_, ?_⟩
      · conv_lhs => rw [(scanLoop_acc m _ _ _).1]
        rfl
      · conv_lhs => rw [(scanLoop_acc m _ _ _).2.1]
        rfl
      · conv_lhs => rw [(scanLoop_acc m _ _ _).2.2]
        rfl
  | int =>
    have hstop : ∀ c t, ("(int)".toList ++ patternText is) = c :: t → IsParamChar c = false := by
      intro c t h
      simp only [String.toList, List.cons_append, List.cons.injEq] at h
      rw [← h.1]
      decide
    obtain ⟨e1, e2⟩ := takeWhile_append_stop n ("(int)".toList ++ patternText is) hn hstop
    simp only [Item.text, Rule.text, List.cons_append, List.append_assoc]
    rw [scanLoop]
    simp only [show ¬ (':' = '*') by decide, if_false, if_true, e1, e2]
    simp only [String.toList, List.cons_append, List.nil_append]
    refine ⟨?_, ?_, ?_⟩
    · conv_lhs => rw [(scanLoop_acc m _ _ _).1]
      simp [List.takeWhile_cons, List.dropWhile_cons, Scan.init]
    · conv_lhs => rw [(scanLoop_acc m _ _ _).2.1]
      simp [List.takeWhile_cons, List.dropWhile_cons, Scan.init, ruleExpr, Rule.expr]
    · conv_lhs => rw [(scanLoop_acc m _ _ _).2.2]
      simp [List.takeWhile_cons, List.dropWhile_cons, Scan.init]
  | str =>
    have hstop : ∀ c t, ("(string)".toList ++ patternText is) = c :: t →
        IsParamChar c = false := by
      intro c t h
      simp only [String.toList, List.cons_append, List.cons.injEq] at h
      rw [← h.1]
      decide
    obtain ⟨e1, e2⟩ := takeWhile_append_stop n ("(string)".toList ++ patternText is) hn hstop
    simp only [Item.text, Rule.text, List.cons_append, List.append_assoc]
    rw [scanLoop]
    simp only [show ¬ (':' = '*') by decide, if_false, if_true, e1, e2]
    simp only [String.toList, List.cons_append, List.nil_append]
    refine ⟨?_, ?_, ?_⟩
    · conv_lhs => rw [(scanLoop_acc m _ _ _).1]
      simp [List.takeWhile_cons, List.dropWhile_cons, Scan.init]
    · conv_lhs => rw [(scanLoop_acc m _ _ _).2.1]
      simp [List.takeWhile_cons, List.dropWhile_cons, Scan.init, ruleExpr, Rule.expr]
    · conv_lhs => rw [(scanLoop_acc m _ _ _).2.2]
      simp [List.takeWhile_cons, List.dropWhile_cons, Scan.init]

/-- What the scanning loop of `addChild` computes on the text of an item
list. -/
theorem scanLoop_items (is : List Item) : ∀ (m : Nat), itemsOK is →
    (patternText is).length ≤ m →
    (scanLoop m [] (patternText is) Scan.init).params = paramNames is
    ∧ (scanLoop m [] (patternText is) Scan.init).newPattern = itemsExpr is
    ∧ (scanLoop m [] (patternText is) Scan.init).format = itemsFormat is := by
  induction is with
  | nil =>
    intro m _ _
    simp [patternText, scanLoop_nil, Scan.init, paramNames, itemsExpr, itemsFormat]
  | cons i is ih =>
    intro m hok hm
    cases i with
    | lit c =>
      obtain ⟨h1, h2, hok'⟩ := hok
      simp only [patternText, Item.text, List.singleton_append, List.length_cons] at hm ⊢
      obtain ⟨m', rfl⟩ : ∃ m', m = m' + 1 := ⟨m - 1, by omega⟩
      rw [scanLoop_lit _ _ _ _ _ h1 h2]
      obtain ⟨a1, a2, a3⟩ := ih m' hok' (by omega)
      refine ⟨?_, ?_, ?_⟩
      · rw [(scanLoop_acc m' _ _ _).1, a1]; simp [Scan.init, paramNames]
      · rw [(scanLoop_acc m' _ _ _).2.1, a2]; simp [Scan.init, itemsExpr]
      · rw [(scanLoop_acc m' _ _ _).2.2, a3]; simp [Scan.init, itemsFormat]
    | param n r =>
      obtain ⟨h1, h2, hok'⟩ := hok
      have hlen : (patternText is).length + 1 ≤ m := by
        simp only [patternText, Item.text, List.length_append, List.length_cons] at hm
        omega
      obtain ⟨m', rfl⟩ : ∃ m', m = m' + 1 := ⟨m - 1, by omega⟩
      obtain ⟨b1, b2, b3⟩ := scanLoop_param m' n r is h1 h2 hok'
      obtain ⟨a1, a2, a3⟩ := ih m' hok' (by omega)
      simp only [patternText]
      rw [b1, b2, b3, a1, a2, a3]
      simp [paramNames, itemsExpr, itemsFormat]

theorem valuesOK_length (is : List Item) : ∀ vs, valuesOK is vs →
    vs.length = (paramNames is).length := by
  induction is with
  | nil => intro vs h; simp [valuesOK] at h; simp [h, paramNames]
  | cons i is ih =>
    intro vs h
    cases i with
    | lit c => exact ih vs h
    | param n r =>
      cases vs with
      | nil => exact absurd h (by simp [valuesOK])
      | cons v vs =>
        simp only [paramNames, List.length_cons]
        rw [ih vs h.2.2]

theorem capsOf_index (is : List Item) : ∀ (vs : List Str) (g pos : Nat),
    ∀ c ∈ capsOf is vs g pos, g < c.1 := by
  induction is with
  | nil => intro vs g pos c hc; simp [capsOf] at hc
  | cons i is ih =>
    intro vs g pos c hc
    cases i with
    | lit d => exact ih vs g (pos + 1) c hc
    | param n r =>
      cases vs with
      | nil =>
        have := ih [] (g + 1) pos c hc
        omega
      | cons v vs =>
        simp only [capsOf, List.mem_append, List.mem_singleton] at hc
        rcases hc with hc | rfl
        · have := ih vs (g + 1) (pos + v.length) c hc
          omega
        · simp

theorem find?_append_skip {α : Type} (p : α → Bool) (l1 l2 : List α)
    (h : ∀ x ∈ l1, p x = false) : (l1 ++ l2).find? p = l2.find? p := by
  induction l1 with
  | nil => rfl
  | cons x xs ih =>
    rw [List.cons_append, List.find?_cons, h x (by simp)]
    exact ih (fun y hy => h y (by simp [hy]))

/-- The offsets recorded for the group of a parameter are those of its
value. -/
theorem capOffsets_capsOf (is : List Item) : ∀ (vs : List Str) (g pos : Nat)
    (tail : List (Nat × Nat × Nat)) (j a b : Nat), valuesOK is vs →
    spanAt is vs pos j = some (a, b) →
    capOffsets (capsOf is vs g pos ++ tail) (g + j + 1) = [(a : Int), (b : Int)] := by
  induction is with
  | nil => intro vs g pos tail j a b _ h; simp [spanAt] at h
  | cons i is ih =>
    intro vs g pos tail j a b hv h
    cases i with
    | lit d => exact ih vs g (pos + 1) tail j a b hv h
    | param n r =>
      cases vs with
      | nil => exact absurd hv (by simp [valuesOK])
      | cons v vs =>
        cases j with
        | zero =>
          simp only [spanAt, Option.some.injEq, Prod.mk.injEq] at h
          obtain ⟨rfl, rfl⟩ := h
          simp only [capsOf, List.append_assoc, List.singleton_append, capOffsets]
          rw [find?_append_skip]
          · simp
          · intro c hc
            have := capsOf_index is vs (g + 1) (pos + v.length) c hc
            simp only [Nat.add_zero, beq_eq_false_iff_ne, ne_eq]
            omega
        | succ j =>
          simp only [spanAt] at h
          have := ih vs (g + 1) (pos + v.length) ((g + 1, pos, pos + v.length) :: tail) j a b
            hv.2.2 h
          simp only [capsOf, List.append_assoc, List.singleton_append]
          rw [show g + (j + 1) + 1 = g + 1 + j + 1 by omega]
          exact this

theorem goSlice_mid (pre v post : Str) :
    goSlice (pre ++ v ++ post) (pre.length : Int) ((pre.length + v.length : Nat) : Int)
      = some v := by
  unfold goSlice
  rw [if_pos]
  · have e1 : ((pre.length : Nat) : Int).toNat = pre.length := Int.toNat_ofNat _
    have e2 : ((pre.length + v.length : Nat) : Int).toNat = pre.length + v.length :=
      Int.toNat_ofNat _
    rw [e1, e2, List.append_assoc, List.drop_left, Nat.add_sub_cancel_left, List.take_left]
  · refine ⟨by omega, by omega, ?_⟩
    simp only [List.length_append]
    omega

/-- The slice of the filled pattern between the offsets of a parameter is
its value. -/
theorem spanAt_slice (is : List Item) : ∀ (vs : List Str) (pre : Str) (j : Nat),
    valuesOK is vs → j < (paramNames is).length →
    ∃ a b, spanAt is vs pre.length j = some (a, b)
      ∧ goSlice (pre ++ fill is vs) (a : Int) (b : Int) = some (vs.getD j []) := by
  induction is with
  | nil => intro vs pre j _ hj; simp [paramNames] at hj
  | cons i is ih =>
    intro vs pre j hv hj
    cases i with
    | lit c =>
      obtain ⟨a, b, h1, h2⟩ := ih vs (pre ++ [c]) j hv hj
      refine ⟨a, b, ?_, ?_⟩
      · simpa [spanAt] using h1
      · simpa [fill] using h2
    | param n r =>
      cases vs with
      | nil => exact absurd hv (by simp [valuesOK])
      | cons v vs =>
        cases j with
        | zero =>
          refine ⟨pre.length, pre.length + v.length, rfl, ?_⟩
          have := goSlice_mid pre v (fill is vs)
          simpa [fill] using this
        | succ j =>
          simp only [paramNames, List.length_cons, Nat.add_lt_add_iff_right] at hj
          obtain ⟨a, b, h1, h2⟩ := ih vs (pre ++ v) j hv.2.2 hj
          refine ⟨a, b, ?_, ?_⟩
          · simpa [spanAt] using h1
          · simpa [fill] using h2

theorem bindParams_ok (pattern : Str) (ms : List Int) (ps : List Str) :
    ∀ (j : Nat) (vs : List Str), vs.length = ps.length →
    (∀ i, i < ps.length →
      goSlice pattern (ms.getD ((j + i + 1) * 2) 0) (ms.getD ((j + i + 1) * 2 + 1) 0)
        = some (vs.getD i [])) →
    bindParams pattern ms j ps = (ps.zip vs, true) := by
  induction ps with
  | nil => intro j vs _ _; simp [bindParams]
  | cons p ps ih =>
    intro j vs hl h
    cases vs with
    | nil => simp at hl
    | cons v vs =>
      have h0 := h 0 (by simp)
      simp only [Nat.add_zero, List.getD_cons_zero] at h0
      rw [bindParams, h0]
      simp only
      rw [ih (j + 1) vs (by simpa using hl)]
      · simp
      · intro i hi
        have := h (i + 1) (by simpa using hi)
        simp only [List.getD_cons_succ] at this
        rw [show j + 1 + i + 1 = j + (i + 1) + 1 by omega]
        exact this

theorem findFrom_pos (re : Regexp) : ∀ (t : Str) (pos : Nat), 0 < pos →
    re.findFrom t pos = [] ∨ 0 < (re.findFrom t pos).getD 0 0 := by
  intro t
  induction t with
  | nil =>
    intro pos hpos
    rw [Regexp.findFrom]
    cases re.prog.run ⟨[], pos, []⟩ with
    | nil => exact Or.inl rfl
    | cons st more =>
      right
      simp only [List.cons_append, List.getD_cons_zero]
      omega
  | cons c t ih =>
    intro pos hpos
    rw [Regexp.findFrom]
    cases re.prog.run ⟨c :: t, pos, []⟩ with
    | nil => exact ih (pos + 1) (by omega)
    | cons st more =>
      right
      simp only [List.cons_append, List.getD_cons_zero]
      omega

theorem find_of_run_nil (re : Regexp) (s : Str) (h : re.prog.run ⟨s, 0, []⟩ = []) :
    re.FindStringSubmatchIndex s = [] ∨ 0 < (re.FindStringSubmatchIndex s).getD 0 0 := by
  unfold Regexp.FindStringSubmatchIndex
  cases s with
  | nil =>
    rw [Regexp.findFrom, h]
    exact Or.inl rfl
  | cons c t =>
    rw [Regexp.findFrom, h]
    exact findFrom_pos re t 1 (by omega)

theorem find_of_run_cons (re : Regexp) (s : Str) (st : MState) (more : List MState)
    (h : re.prog.run ⟨s, 0, []⟩ = st :: more) :
    re.FindStringSubmatchIndex s
      = [((0 : Nat) : Int), (st.pos : Int)]
          ++ (List.range re.numCap).flatMap (fun i => capOffsets st.caps (i + 1)) := by
  unfold Regexp.FindStringSubmatchIndex
  cases s with
  | nil => rw [Regexp.findFrom, h]
  | cons c t => rw [Regexp.findFrom, h]

theorem capOffsets_length (caps : List (Nat × Nat × Nat)) (i : Nat) :
    (capOffsets caps i).length = 2 := by
  unfold capOffsets
  split <;> rfl

theorem flatMap_pairs_length (f : Nat → List Int) (hf : ∀ i, (f i).length = 2) (k : Nat) :
    ((List.range k).flatMap f).length = 2 * k := by
  induction k with
  | zero => rfl
  | succ k ih =>
    rw [List.range_succ, List.flatMap_append, List.length_append, ih]
    simp [hf]
    omega

theorem flatMap_pairs_getD (f : Nat → List Int) (hf : ∀ i, (f i).length = 2) (k : Nat) :
    ∀ j, j < k → ∀ e, e < 2 →
    ((List.range k).flatMap f).getD (2 * j + e) 0 = (f j).getD e 0 := by
  induction k with
  | zero => intro j hj; omega
  | succ k ih =>
    intro j hj e he
    rw [List.range_succ, List.flatMap_append]
    have hlen := flatMap_pairs_length f hf k
    by_cases hjk : j < k
    · rw [List.getD_append _ _ _ _ (by rw [hlen]; omega)]
      exact ih j hjk e he
    · have : j = k := by omega
      subst this
      rw [List.getD_append_right _ _ _ _ (by rw [hlen]; omega), hlen]
      simp only [List.flatMap_cons, List.flatMap_nil, List.append_nil]
      congr 1
      omega

theorem getDynamic_single [Engine] (names : Nat → Str) (pattern : Str) (c : Tree) :
    getDynamic names pattern [c] =
      (let ms : List Int :=
        match c.d.re with
        | some re => Engine.find re pattern
        | Option.none => []
      if ms.length ≠ (c.d.params.length + 1) * 2 ∨ 0 < ms.getD 0 0 then
        .ret Option.none [] []
      else
        match bindParams pattern ms 0 c.d.params with
        | (calls, true) => .ret c.d.handlers (nameOf names c.d.nameNode) calls
        | (calls, false) => .panic .sliceBounds calls) := by
  rw [getDynamic]
  rfl

/-- What `Get` does at a node whose only dynamic child was compiled from an
item list: the items filled with admissible values are matched, with the
parameters bound to values that fill the items to the path; nothing else is
matched. -/
theorem getDynamic_items (names : Nat → Str) (rem : Str) (L : Tree) (D : List Item)
    (hre : L.d.re = some ⟨itemsRe D 0, (paramNames D).length⟩)
    (hparams : L.d.params = paramNames D) :
    (∃ vs, valuesOK D vs ∧ rem = fill D vs
        ∧ getDynamic names rem [L]
            = .ret L.d.handlers (nameOf names L.d.nameNode) ((paramNames D).zip vs))
    ∨ ((∀ vs, valuesOK D vs → rem ≠ fill D vs)
        ∧ getDynamic names rem [L] = .ret Option.none [] []) := by
  rw [getDynamic_single, hre, hparams]
  simp only [Engine.find_embedded]
  cases hrun : (itemsRe D 0).run ⟨rem, 0, []⟩ with
  | nil =>
    right
    constructor
    · intro vs hv hfill
      have : (⟨[], 0 + rem.length, capsOf D vs 0 0 ++ []⟩ : MState)
          ∈ (itemsRe D 0).run ⟨rem, 0, []⟩ :=
        (mem_run_itemsRe D 0 ⟨rem, 0, []⟩ _).2 ⟨vs, hv, hfill, rfl⟩
      rw [hrun] at this
      cases this
    · rcases find_of_run_nil ⟨itemsRe D 0, (paramNames D).length⟩ rem hrun with e | e
      · rw [e]
        simp
      · rw [if_pos (Or.inr e)]
  | cons st more =>
    left
    have hmem : st ∈ (itemsRe D 0).run ⟨rem, 0, []⟩ := by rw [hrun]; simp
    obtain ⟨vs, hv, hfill, hst⟩ := (mem_run_itemsRe D 0 ⟨rem, 0, []⟩ st).1 hmem
    simp only at hfill hst
    refine ⟨vs, hv, hfill, ?_⟩
    have hfind := find_of_run_cons ⟨itemsRe D 0, (paramNames D).length⟩ rem st more hrun
    simp only at hfind
    have hcl : ∀ i, (capOffsets st.caps (i + 1)).length = 2 :=
      fun i => capOffsets_length st.caps (i + 1)
    have hlen : (Regexp.FindStringSubmatchIndex ⟨itemsRe D 0, (paramNames D).length⟩ rem).length
        = ((paramNames D).length + 1) * 2 := by
      rw [hfind, List.length_append, flatMap_pairs_length _ hcl]
      simp
      omega
    have h0 : (Regexp.FindStringSubmatchIndex ⟨itemsRe D 0, (paramNames D).length⟩ rem).getD 0 0
        = 0 := by
      rw [hfind]
      rfl
    rw [if_neg (by rw [hlen, h0]; simp)]
    have hbind : bindParams rem
        (Regexp.FindStringSubmatchIndex ⟨itemsRe D 0, (paramNames D).length⟩ rem) 0
        (paramNames D) = ((paramNames D).zip vs, true) := by
      apply bindParams_ok _ _ _ 0 vs (valuesOK_length D vs hv)
      intro i hi
      obtain ⟨a, b, hspan, hslice⟩ := spanAt_slice D vs [] i hv hi
      have hcap := capOffsets_capsOf D vs 0 0 [] i a b hv hspan
      rw [hst] at hfind
      simp only [List.append_nil, Nat.zero_add] at hcap hfind
      have g0 := flatMap_pairs_getD (fun i => capOffsets (capsOf D vs 0 0) (i + 1))
        (fun i => capOffsets_length _ _) (paramNames D).length i hi 0 (by omega)
      have g1 := flatMap_pairs_getD (fun i => capOffsets (capsOf D vs 0 0) (i + 1))
        (fun i => capOffsets_length _ _) (paramNames D).length i hi 1 (by omega)
      simp only [hcap, List.getD_cons_zero, List.getD_cons_succ, Nat.add_zero] at g0 g1
      have e0 : (Regexp.FindStringSubmatchIndex ⟨itemsRe D 0, (paramNames D).length⟩ rem).getD
          ((0 + i + 1) * 2) 0 = (a : Int) := by
        rw [hfind, show (0 + i + 1) * 2 = (2 * i) + 2 by omega]
        simp only [List.cons_append, List.nil_append, List.getD_cons_succ]
        exact g0
      have e1 : (Regexp.FindStringSubmatchIndex ⟨itemsRe D 0, (paramNames D).length⟩ rem).getD
          ((0 + i + 1) * 2 + 1) 0 = (b : Int) := by
        rw [hfind, show (0 + i + 1) * 2 + 1 = (2 * i + 1) + 2 by omega]
        simp only [List.cons_append, List.nil_append, List.getD_cons_succ]
        exact g1
      rw [e0, e1, hfill]
      simpa using hslice
    rw [hbind]


/-! ## Patterns with parameters: a router that holds one route -/

theorem patternText_split (is : List Item) :
    patternText is = staticPart is ++ patternText (dynPart is) := by
  induction is with
  | nil => rfl
  | cons i is ih =>
    cases i with
    | lit c => simp [patternText, staticPart, dynPart, Item.text, ih]
    | param n r => simp [staticPart, dynPart]

theorem fill_split (is : List Item) (vs : List Str) :
    fill is vs = staticPart is ++ fill (dynPart is) vs := by
  induction is with
  | nil => rfl
  | cons i is ih =>
    cases i with
    | lit c => simp [fill, staticPart, dynPart, ih]
    | param n r => simp [staticPart, dynPart]

theorem valuesOK_dynPart (is : List Item) (vs : List Str) :
    valuesOK (dynPart is) vs ↔ valuesOK is vs := by
  induction is with
  | nil => rfl
  | cons i is ih =>
    cases i with
    | lit c => simpa [valuesOK, dynPart] using ih
    | param n r => rfl

theorem paramNames_dynPart (is : List Item) : paramNames (dynPart is) = paramNames is := by
  induction is with
  | nil => rfl
  | cons i is ih =>
    cases i with
    | lit c => simpa [paramNames, dynPart] using ih
    | param n r => rfl

theorem itemsOK_dynPart (is : List Item) (h : itemsOK is) : itemsOK (dynPart is) := by
  induction is with
  | nil => exact h
  | cons i is ih =>
    cases i with
    | lit c => exact ih h.2.2
    | param n r => exact h

theorem staticPart_literal (is : List Item) (h : itemsOK is) : isLiteral (staticPart is) := by
  induction is with
  | nil => exact isLiteral_nil
  | cons i is ih =>
    cases i with
    | lit c =>
      simp only [staticPart]
      exact (isLiteral_cons _ _).2 ⟨⟨h.1, h.2.1⟩, ih h.2.2⟩
    | param n r => exact isLiteral_nil

theorem dynPart_cases (is : List Item) :
    dynPart is = [] ∨ ∃ n r D, dynPart is = .param n r :: D := by
  induction is with
  | nil => exact Or.inl rfl
  | cons i is ih =>
    cases i with
    | lit c => exact ih
    | param n r => exact Or.inr ⟨n, r, is, rfl⟩

theorem dynScan_items (D : List Item) (hok : itemsOK D) :
    (dynScan (patternText D)).params = paramNames D
    ∧ (dynScan (patternText D)).newPattern = itemsExpr D
    ∧ (dynScan (patternText D)).format = itemsFormat D :=
  scanLoop_items D _ hok (le_refl _)

theorem matchedLen_slash (rest : Str) : matchedLen ('/' :: rest) ['/'] = 1 := by
  rw [matchedLen_cons, if_pos rfl, matchedLen_nil_right]

/-- Adding one pattern with a parameter to a fresh root. -/
theorem Add_root_dynamic (a : Nat) (S : Str) (n : Str) (r : Rule) (D : List Item)
    (hS : isLiteral S) (hok : itemsOK (.param n r :: D)) (hp : litsPlain (.param n r :: D))
    (h nn : Option Nat) (f : Nat) :
    (newRoot a).Add ('/' :: S ++ patternText (.param n r :: D)) h nn f
      = .node (singleTrie a f S (fun par => dynLeaf (patternText (.param n r :: D))
          ⟨itemsRe (.param n r :: D) 0, (paramNames (.param n r :: D)).length⟩ h nn par (f + 1)))
          (f + 1) := by
  have htxt : patternText (.param n r :: D) = ':' :: (n ++ r.text ++ patternText D) := by
    simp [patternText, Item.text]
  rw [newRoot_eq, Tree.Add_mk]
  simp only [List.cons_append, matchedLen_slash, List.length_cons, List.length_nil,
    Nat.zero_add, if_true, one_ne_zero, if_false, List.drop_succ_cons, List.drop_zero]
  rw [if_neg (by rw [htxt]; simp), Tree.addList_nil]
  simp only
  obtain ⟨e1, e2, e3⟩ := dynScan_items _ hok
  rw [htxt] at e1 e2 e3 ⊢
  rw [addChild_dynamic _ S hS ':' _ (Or.inl rfl), e2, ← htxt, Engine.compile_embedded,
    Compile_items _ hp]
  simp only [Tree.d_mk, Tree.schildren_mk, Tree.rchildren_mk, List.nil_append]
  unfold singleTrie
  by_cases hSe : S = []
  · rw [if_neg (by simpa using hSe), if_pos hSe]
    simp
  · rw [if_pos hSe, if_neg hSe]

theorem singleTrie_nil (a f : Nat) (L : Nat → Tree) :
    singleTrie a f [] L
      = .mk ⟨true, '/', ['/'], Option.none, [], ['/'], Option.none, Option.none, Option.none, a⟩
          [] [L a] := by
  unfold singleTrie
  rw [if_pos rfl]

theorem singleTrie_cons (a f : Nat) (b : Char) (s : Str) (L : Nat → Tree) :
    singleTrie a f (b :: s) L
      = .mk ⟨true, '/', ['/'], Option.none, [], ['/'], Option.none, Option.none, Option.none, a⟩
          [staticLeaf (b :: s) Option.none Option.none a (f + 2) [L (f + 2)]] [] := by
  unfold singleTrie
  rw [if_neg (by simp)]

theorem Get_root_other [Engine] (a : Nat) (sc rc : List Tree) (names : Nat → Str) (path : Str)
    (h : ∀ rem, path ≠ '/' :: rem) :
    (Tree.mk ⟨true, '/', ['/'], Option.none, [], ['/'], Option.none, Option.none, Option.none,
      a⟩ sc rc).Get path names = .ret Option.none [] [] := by
  rw [Tree.Get_static _ _ _ rfl]
  have hm : matchedLen path ['/'] = 0 := by
    cases path with
    | nil => rfl
    | cons c t =>
      rw [matchedLen_cons, if_neg]
      rintro rfl
      exact h t rfl
  simp [hm]

/-- `Get` on a root whose only child is dynamic. -/
theorem Get_single_nil [Engine] (a : Nat) (L : Tree) (names : Nat → Str) (rem : Str) :
    (Tree.mk ⟨true, '/', ['/'], Option.none, [], ['/'], Option.none, Option.none, Option.none,
      a⟩ [] [L]).Get ('/' :: rem) names = getDynamic names rem [L] := by
  rw [Tree.Get_static _ _ _ rfl]
  simp only [matchedLen_slash, List.length_cons, List.length_nil, Nat.zero_add, ne_eq,
    not_true_eq_false, if_false, Option.isSome_none, Bool.false_eq_true, and_false,
    List.drop_succ_cons, List.drop_zero]
  cases rem with
  | nil => rfl
  | cons b r =>
    simp only [Tree.getFirst_nil]

theorem Get_leaf [Engine] (S : Str) (par ad : Nat) (L : Tree) (names : Nat → Str) (rem : Str)
    (_hS : S ≠ []) :
    (staticLeaf S Option.none Option.none par ad [L]).Get (S ++ rem) names
      = getDynamic names rem [L] := by
  unfold staticLeaf
  rw [Tree.Get_static _ _ _ rfl]
  simp only [matchedLen_self_append, ne_eq, not_true_eq_false, if_false, Option.isSome_none,
    Bool.false_eq_true, and_false, List.drop_left]
  cases rem with
  | nil => rfl
  | cons b r =>
    simp only [Tree.getFirst_nil]

theorem Get_leaf_other [Engine] (S : Str) (par ad : Nat) (L : Tree) (names : Nat → Str) (path : Str)
    (h : ¬ S <+: path) :
    (staticLeaf S Option.none Option.none par ad [L]).Get path names
      = .ret Option.none [] [] := by
  unfold staticLeaf
  rw [Tree.Get_static _ _ _ rfl]
  have hm : matchedLen path S ≠ S.length := fun e => h ((matchedLen_eq_length_iff _ _).1 e)
  simp only [ne_eq, hm, not_false_eq_true, if_true]

/-- `Get` on a root whose only child is a static node with one dynamic child:
a path that continues the segment of the static node. -/
theorem Get_single_cons [Engine] (a par ad : Nat) (b : Char) (s : Str) (L : Tree) (names : Nat → Str)
    (rem : Str) :
    (Tree.mk ⟨true, '/', ['/'], Option.none, [], ['/'], Option.none, Option.none, Option.none,
      a⟩ [staticLeaf (b :: s) Option.none Option.none par ad [L]] []).Get
        ('/' :: (b :: s) ++ rem) names
      = match getDynamic names rem [L] with
        | .panic e calls => .panic e calls
        | .ret (some h) name calls => .ret (some h) name calls
        | .ret Option.none _ calls => .ret Option.none [] (calls ++ []) := by
  rw [Tree.Get_static _ _ _ rfl]
  simp only [List.cons_append, matchedLen_slash, List.length_cons, List.length_nil,
    Nat.zero_add, ne_eq, not_true_eq_false, if_false, Option.isSome_none, Bool.false_eq_true,
    and_false, List.drop_succ_cons, List.drop_zero]
  rw [Tree.getFirst_cons, if_pos (staticLeaf_alpha b s _ _ _ _ _)]
  have := Get_leaf (b :: s) par ad L names rem (by simp)
  simp only [List.cons_append] at this
  rw [this]
  cases getDynamic names rem [L] with
  | panic e calls => rfl
  | ret h name calls =>
    cases h with
    | none => rfl
    | some v => rfl

theorem Get_single_cons_other [Engine] (a par ad : Nat) (b : Char) (s : Str) (L : Tree)
    (names : Nat → Str) (path : Str) (h : ∀ rem, path ≠ '/' :: (b :: s) ++ rem) :
    (Tree.mk ⟨true, '/', ['/'], Option.none, [], ['/'], Option.none, Option.none, Option.none,
      a⟩ [staticLeaf (b :: s) Option.none Option.none par ad [L]] []).Get path names
      = .ret Option.none [] [] := by
  by_cases hsl : ∃ rem0, path = '/' :: rem0
  · obtain ⟨rem0, rfl⟩ := hsl
    have hnp : ¬ (b :: s) <+: rem0 := by
      rintro ⟨r, rfl⟩
      exact h r rfl
    rw [Tree.Get_static _ _ _ rfl]
    simp only [matchedLen_slash, List.length_cons, List.length_nil, Nat.zero_add, ne_eq,
      not_true_eq_false, if_false, Option.isSome_none, Bool.false_eq_true, and_false,
      List.drop_succ_cons, List.drop_zero]
    cases rem0 with
    | nil => rfl
    | cons c r0 =>
      simp only
      rw [Tree.getFirst_cons, Tree.getFirst_nil]
      by_cases hc : (staticLeaf (b :: s) Option.none Option.none par ad [L]).d.alpha = c
      · rw [if_pos hc, Get_leaf_other _ _ _ _ _ _ hnp]
        rfl
      · rw [if_neg hc]
        rfl
  · push_neg at hsl
    exact Get_root_other a _ _ names path hsl

/-- `Get` on the trie that holds one pattern with a parameter. -/
theorem Get_singleTrie (a f : Nat) (S : Str) (D : List Item) (hok : itemsOK D)
    (h : Nat) (nn : Option Nat) (names : Nat → Str) (hn : ∀ k, names k = []) (ad : Nat) :
    (∀ rem,
      (∃ vs, valuesOK D vs ∧ rem = fill D vs
        ∧ (singleTrie a f S (fun par => dynLeaf (patternText D)
            ⟨itemsRe D 0, (paramNames D).length⟩ (some h) nn par ad)).Get
              ('/' :: S ++ rem) names = .ret (some h) [] ((paramNames D).zip vs))
      ∨ ((∀ vs, valuesOK D vs → rem ≠ fill D vs)
        ∧ (singleTrie a f S (fun par => dynLeaf (patternText D)
            ⟨itemsRe D 0, (paramNames D).length⟩ (some h) nn par ad)).Get
              ('/' :: S ++ rem) names = .ret Option.none [] []))
    ∧ (∀ path, (∀ rem, path ≠ '/' :: S ++ rem) →
        (singleTrie a f S (fun par => dynLeaf (patternText D)
            ⟨itemsRe D 0, (paramNames D).length⟩ (some h) nn par ad)).Get path names
          = .ret Option.none [] []) := by
  have key : ∀ par rem,
      (∃ vs, valuesOK D vs ∧ rem = fill D vs
        ∧ getDynamic names rem [dynLeaf (patternText D)
            ⟨itemsRe D 0, (paramNames D).length⟩ (some h) nn par ad]
            = .ret (some h) [] ((paramNames D).zip vs))
      ∨ ((∀ vs, valuesOK D vs → rem ≠ fill D vs)
        ∧ getDynamic names rem [dynLeaf (patternText D)
            ⟨itemsRe D 0, (paramNames D).length⟩ (some h) nn par ad]
            = .ret Option.none [] []) := by
    intro par rem
    have := getDynamic_items names rem (dynLeaf (patternText D)
      ⟨itemsRe D 0, (paramNames D).length⟩ (some h) nn par ad) D rfl (dynScan_items D hok).1
    rw [nameOf_nil names hn] at this
    exact this
  cases S with
  | nil =>
    rw [singleTrie_nil]
    constructor
    · intro rem
      rw [List.cons_append, List.nil_append, Get_single_nil]
      exact key a rem
    · intro path hp
      exact Get_root_other a _ _ names path (fun rem e => hp rem (by simpa using e))
  | cons b s =>
    rw [singleTrie_cons]
    constructor
    · intro rem
      rw [Get_single_cons]
      rcases key (f + 2) rem with ⟨vs, hv, hf, hg⟩ | ⟨hno, hg⟩
      · left
        refine ⟨vs, hv, hf, ?_⟩
        rw [hg]
      · right
        refine ⟨hno, ?_⟩
        rw [hg]
        rfl
    · intro path hp
      exact Get_single_cons_other a _ _ b s _ names path hp

/-- A fresh router that holds one route, whose pattern has a parameter: what
`Match` returns on every path. -/
theorem single_route (method : Str) (idx : Nat) (hm : RouterMethods method = some idx)
    (S : Str) (n : Str) (r : Rule) (D : List Item) (hS : isLiteral S)
    (hok : itemsOK (.param n r :: D)) (hp : litsPlain (.param n r :: D)) (h : Nat) :
    ∃ rt k, New.Add method ('/' :: S ++ patternText (.param n r :: D)) (some h) = .ok rt k
      ∧ (∀ rem,
          (∃ vs, valuesOK (.param n r :: D) vs ∧ rem = fill (.param n r :: D) vs
            ∧ rt.Match method ('/' :: S ++ rem)
                = .ret (some h) [] ((paramNames (.param n r :: D)).zip vs))
          ∨ ((∀ vs, valuesOK (.param n r :: D) vs → rem ≠ fill (.param n r :: D) vs)
            ∧ rt.Match method ('/' :: S ++ rem) = .ret Option.none [] []))
      ∧ (∀ path, (∀ rem, path ≠ '/' :: S ++ rem) →
          rt.Match method path = .ret Option.none [] []) := by
  have hidx := RouterMethods_lt method idx hm
  have hadd := Router.add_nogroup New rfl method idx hm
    (S ++ patternText (.param n r :: D)) (some h)
  rw [New_tree idx hidx, ← List.cons_append, Add_root_dynamic idx S n r D hS hok hp] at hadd
  rw [Router.Add_plain New rfl rfl, hadd]
  simp only
  refine ⟨_, _, rfl, ?_⟩
  have hlen : idx < New.nodes.length := by simpa [New] using hidx
  have hnames : ∀ (R : Router), (∀ nd ∈ R.nodeStore, nd.name = []) → ∀ k, R.nameAt k = [] :=
    fun R hR => Router.nameAt_nil R hR
  constructor
  · intro rem
    rw [Router.Match_eq _ method idx hm, Router.tree_set New idx _ hlen _ rfl _ rfl]
    exact (Get_singleTrie idx New.nextAddr S (.param n r :: D) hok h
      (some New.nodeStore.length) _ (hnames _ (by
        intro nd hnd
        simp only [New, List.nil_append, List.mem_singleton] at hnd
        rw [hnd])) (New.nextAddr + 1)).1 rem
  · intro path hpath
    rw [Router.Match_eq _ method idx hm, Router.tree_set New idx _ hlen _ rfl _ rfl]
    exact (Get_singleTrie idx New.nextAddr S (.param n r :: D) hok h
      (some New.nodeStore.length) _ (hnames _ (by
        intro nd hnd
        simp only [New, List.nil_append, List.mem_singleton] at hnd
        rw [hnd])) (New.nextAddr + 1)).2 path hpath

theorem itemsOK_staticPart (is : List Item) (h : dynPart is = []) :
    patternText is = staticPart is ∧ (∀ vs, fill is vs = staticPart is)
      ∧ (∀ vs, valuesOK is vs ↔ vs = []) ∧ paramNames is = [] := by
  refine ⟨?_, ?_, ?_, ?_⟩
  · rw [patternText_split, h]
    simp [patternText]
  · intro vs
    rw [fill_split, h]
    simp [fill]
  · intro vs
    rw [← valuesOK_dynPart, h]
    simp [valuesOK]
  · rw [← paramNames_dynPart, h]
    rfl

/-- A fresh router that holds one route, whose pattern is literal: what
`Match` returns on every path. -/
theorem single_route_literal [Engine] (method : Str) (idx : Nat)
    (hm : RouterMethods method = some idx) (p : Str) (hlit : isLiteral p)
    (hhead : p.head? = some '/') (h : Nat) :
    ∃ rt k, New.Add method p (some h) = .ok rt k
      ∧ rt.Match method p = .ret (some h) [] []
      ∧ ∀ path, path ≠ p → rt.Match method path = .ret Option.none [] [] := by
  have hidx := RouterMethods_lt method idx hm
  obtain ⟨rt, k, hadd, hpl, htab⟩ := Router.Add_literal_step New method idx hm
    (New_plain idx hidx) p h hlit hhead (by rw [New_tree idx hidx]; exact newRoot_locate idx p)
  obtain ⟨i1, i2, i3, i4, i5, i6, i7, i8⟩ := hpl
  refine ⟨rt, k, hadd, ?_, ?_⟩
  · rw [Router.Match_eq rt method idx hm,
      Tree.Get_of_locate _ i5 p h rt.nameAt (by rw [htab, if_pos rfl]),
      nameOf_nil _ (Router.nameAt_nil rt i8)]
  · intro path hne
    rw [Router.Match_eq rt method idx hm]
    apply Tree.Get_of_locate_none _ i5 i6
    rw [htab, if_neg hne, New_tree idx hidx]
    exact newRoot_locate idx path

/-- A fresh router that holds one route: `Match` returns the handler slice of
the route, binding the parameters to the values in order, on the paths that
fill the pattern, and nil on every other path. -/
theorem single_route_items (method : Str) (idx : Nat)
    (hm : RouterMethods method = some idx) (is : List Item) (hok : itemsOK (.lit '/' :: is))
    (hp : litsPlain (dynPart is)) (h : Nat) :
    ∃ rt k, New.Add method (patternText (.lit '/' :: is)) (some h) = .ok rt k
      ∧ ∀ path,
          (∃ vs, valuesOK (.lit '/' :: is) vs ∧ path = fill (.lit '/' :: is) vs
            ∧ rt.Match method path
                = .ret (some h) [] ((paramNames (.lit '/' :: is)).zip vs))
          ∨ ((∀ vs, valuesOK (.lit '/' :: is) vs → path ≠ fill (.lit '/' :: is) vs)
            ∧ rt.Match method path = .ret Option.none [] []) := by
  have hS : isLiteral (staticPart is) := staticPart_literal is hok.2.2
  rcases dynPart_cases is with hd | ⟨n, r, D, hd⟩
  · obtain ⟨e1, e2, e3, e4⟩ := itemsOK_staticPart (.lit '/' :: is) hd
    have hlit : isLiteral ('/' :: staticPart is) :=
      (isLiteral_cons _ _).2 ⟨⟨by decide, by decide⟩, hS⟩
    obtain ⟨rt, k, hadd, hin, hout⟩ :=
      single_route_literal method idx hm ('/' :: staticPart is) hlit rfl h
    refine ⟨rt, k, by rw [e1]; exact hadd, ?_⟩
    intro path
    by_cases hpath : path = '/' :: staticPart is
    · left
      refine ⟨[], (e3 []).2 rfl, by rw [e2]; exact hpath, ?_⟩
      rw [e4, hpath]
      exact hin
    · right
      refine ⟨fun vs _ e => hpath (by rw [e, e2]; rfl), hout path hpath⟩
  · have hokD : itemsOK (.param n r :: D) := by
      rw [← hd]
      exact itemsOK_dynPart is hok.2.2
    rw [hd] at hp
    obtain ⟨rt, k, hadd, hin, hout⟩ :=
      single_route method idx hm (staticPart is) n r D hS hokD hp h
    have etxt : patternText (.lit '/' :: is)
        = '/' :: staticPart is ++ patternText (.param n r :: D) := by
      rw [patternText_split, ← hd]
      rfl
    have efill : ∀ vs, fill (.lit '/' :: is) vs
        = '/' :: staticPart is ++ fill (.param n r :: D) vs := by
      intro vs
      rw [fill_split, ← hd]
      rfl
    have eval : ∀ vs, valuesOK (.param n r :: D) vs ↔ valuesOK (.lit '/' :: is) vs := by
      intro vs
      rw [← hd]
      exact valuesOK_dynPart (.lit '/' :: is) vs
    have enames : paramNames (.param n r :: D) = paramNames (.lit '/' :: is) := by
      rw [← hd]
      exact paramNames_dynPart (.lit '/' :: is)
    refine ⟨rt, k, by rw [etxt]; exact hadd, ?_⟩
    intro path
    by_cases hpath : ∃ rem, path = '/' :: staticPart is ++ rem
    · obtain ⟨rem, rfl⟩ := hpath
      rcases hin rem with ⟨vs, hv, hf, hg⟩ | ⟨hno, hg⟩
      · left
        refine ⟨vs, (eval vs).1 hv, by rw [efill, hf], ?_⟩
        rw [hg, enames]
      · right
        refine ⟨?_, hg⟩
        intro vs hv e
        rw [efill] at e
        exact hno vs ((eval vs).2 hv) (List.append_cancel_left e)
    · right
      push_neg at hpath
      refine ⟨?_, hout path hpath⟩
      intro vs _ e
      exact hpath _ (by rw [e, efill])

theorem slash_split_unique (v w X Y : Str) (hv : ∀ x ∈ v, Rule.ok .dflt x = true)
    (hw : ∀ x ∈ w, Rule.ok .dflt x = true) (e : v ++ '/' :: X = w ++ '/' :: Y) :
    v = w ∧ X = Y := by
  induction v generalizing w with
  | nil =>
    cases w with
    | nil => simpa using e
    | cons y ys =>
      simp only [List.nil_append, List.cons_append, List.cons.injEq] at e
      have := hw y (by simp)
      rw [← e.1] at this
      exact absurd this (by decide)
  | cons a as ih =>
    cases w with
    | nil =>
      simp only [List.nil_append, List.cons_append, List.cons.injEq] at e
      have := hv a (by simp)
      rw [e.1] at this
      exact absurd this (by decide)
    | cons y ys =>
      simp only [List.cons_append, List.cons.injEq] at e
      obtain ⟨e1, e2⟩ := ih ys (fun x hx => hv x (by simp [hx]))
        (fun x hx => hw x (by simp [hx])) e.2
      exact ⟨by rw [e.1, e1], e2⟩

/-- Where every parameter fills a whole segment, a path fills the pattern
with one list of values only. -/
theorem fill_unique (is : List Item) : ∀ (b : Bool) (vs ws : List Str),
    wholeSegments b is → valuesOK is vs → valuesOK is ws → fill is vs = fill is ws →
    vs = ws := by
  induction is with
  | nil =>
    intro b vs ws _ hv hw _
    simp only [valuesOK] at hv hw
    rw [hv, hw]
  | cons i is ih =>
    intro b vs ws hseg hv hw e
    cases i with
    | lit c =>
      simp only [wholeSegments, valuesOK, fill, List.cons.injEq, true_and] at hseg hv hw e
      exact ih _ vs ws hseg hv hw e
    | param n r =>
      cases vs with
      | nil => exact absurd hv (by simp [valuesOK])
      | cons v vs =>
        cases ws with
        | nil => exact absurd hw (by simp [valuesOK])
        | cons w ws =>
          simp only [wholeSegments, valuesOK, fill] at hseg hv hw e
          obtain ⟨-, rfl, hend, hseg⟩ := hseg
          cases is with
          | nil =>
            simp only [valuesOK] at hv hw
            simp only [fill, List.append_nil] at e
            rw [e, hv.2.2, hw.2.2]
          | cons j js =>
            cases j with
            | param m q => exact absurd hend (by simp [endsSegment])
            | lit c =>
              simp only [endsSegment] at hend
              subst hend
              have e' : v ++ '/' :: fill js vs = w ++ '/' :: fill js ws := e
              obtain ⟨e1, e2⟩ := slash_split_unique v w _ _ hv.2.1 hw.2.1 e'
              have := ih false vs ws hseg hv.2.2 hw.2.2 (by
                show '/' :: fill js vs = '/' :: fill js ws
                rw [e2])
              rw [e1, this]

/-! ## Patterns with parameters and literal dots -/

theorem dotVar_refl (is : List Item) : dotVar is is := by
  induction is with
  | nil => trivial
  | cons i is ih =>
    cases i with
    | lit c =>
      refine ⟨?_, ih⟩
      by_cases hc : c = '.'
      · rw [if_pos hc, hc]
        decide
      · rw [if_neg hc]
    | param n r => exact ⟨rfl, rfl, ih⟩

theorem dotVar_names (is : List Item) : ∀ js, dotVar is js → paramNames js = paramNames is := by
  induction is with
  | nil =>
    intro js h
    cases js with
    | nil => rfl
    | cons j js => exact absurd h (by simp [dotVar])
  | cons i is ih =>
    intro js h
    cases js with
    | nil => cases i <;> exact absurd h (by simp [dotVar])
    | cons j js =>
      cases i with
      | lit c =>
        cases j with
        | lit d => exact ih js h.2
        | param m q => exact absurd h (by simp [dotVar])
      | param n r =>
        cases j with
        | lit d => exact absurd h (by simp [dotVar])
        | param m q =>
          obtain ⟨rfl, rfl, h3⟩ := h
          simp only [paramNames]
          rw [ih js h3]

theorem run_dotAtom (c : Char) (st s1 : MState) :
    s1 ∈ (if c = '.' then Re.any else Re.chr c).run st ↔
      ∃ d, (if c = '.' then d ≠ '\n' else d = c) ∧ s1 ∈ (Re.chr d).run st := by
  by_cases hc : c = '.'
  · simp only [hc, if_true, Re.run]
    cases st.rest with
    | nil => simp
    | cons d t =>
      simp only
      by_cases hd : d = '\n'
      · rw [if_pos hd]
        simp only [List.not_mem_nil, false_iff, not_exists, not_and]
        intro d' hd' hmem
        by_cases e : d = d'
        · exact hd' (e ▸ hd)
        · rw [if_neg e] at hmem
          cases hmem
      · rw [if_neg hd]
        constructor
        · intro h
          exact ⟨d, hd, by rw [if_pos rfl]; exact h⟩
        · rintro ⟨d', _, hmem⟩
          by_cases e : d = d'
          · rw [if_pos e] at hmem
            exact hmem
          · rw [if_neg e] at hmem
            cases hmem
  · simp only [hc, if_false]
    constructor
    · intro h
      exact ⟨c, rfl, h⟩
    · rintro ⟨d, rfl, h⟩
      exact h

/-- What the expression of an item list with literal dots matches: what the
expression of one of its variants matches. -/
theorem mem_run_itemsReDot (is : List Item) : ∀ (g : Nat) (st s' : MState),
    s' ∈ (itemsReDot is g).run st ↔ ∃ js, dotVar is js ∧ s' ∈ (itemsRe js g).run st := by
  induction is with
  | nil =>
    intro g st s'
    constructor
    · intro h
      exact ⟨[], trivial, h⟩
    · rintro ⟨js, hjs, h⟩
      cases js with
      | nil => exact h
      | cons j js => exact absurd hjs (by simp [dotVar])
  | cons i is ih =>
    intro g st s'
    cases i with
    | lit c =>
      simp only [itemsReDot, Re.run_cat, List.mem_flatMap]
      constructor
      · rintro ⟨s1, hs1, hmem⟩
        obtain ⟨d, hd, hs1'⟩ := (run_dotAtom c st s1).1 hs1
        obtain ⟨js, hjs, hmem'⟩ := (ih g s1 s').1 hmem
        refine ⟨.lit d :: js, ⟨hd, hjs⟩, ?_⟩
        simp only [itemsRe, Re.run_cat, List.mem_flatMap]
        exact ⟨s1, hs1', hmem'⟩
      · rintro ⟨js, hjs, hmem⟩
        cases js with
        | nil => exact absurd hjs (by simp [dotVar])
        | cons j js =>
          cases j with
          | param m q => exact absurd hjs (by simp [dotVar])
          | lit d =>
            obtain ⟨hd, hjs'⟩ := hjs
            simp only [itemsRe, Re.run_cat, List.mem_flatMap] at hmem
            obtain ⟨s1, hs1, hmem'⟩ := hmem
            exact ⟨s1, (run_dotAtom c st s1).2 ⟨d, hd, hs1⟩, (ih g s1 s').2 ⟨js, hjs', hmem'⟩⟩
    | param n r =>
      simp only [itemsReDot, Re.run_cat, List.mem_flatMap]
      constructor
      · rintro ⟨s1, hs1, hmem⟩
        obtain ⟨js, hjs, hmem'⟩ := (ih (g + 1) s1 s').1 hmem
        refine ⟨.param n r :: js, ⟨rfl, rfl, hjs⟩, ?_⟩
        simp only [itemsRe, Re.run_cat, List.mem_flatMap]
        exact ⟨s1, hs1, hmem'⟩
      · rintro ⟨js, hjs, hmem⟩
        cases js with
        | nil => exact absurd hjs (by simp [dotVar])
        | cons j js =>
          cases j with
          | lit d => exact absurd hjs (by simp [dotVar])
          | param m q =>
            obtain ⟨rfl, rfl, hjs'⟩ := hjs
            simp only [itemsRe, Re.run_cat, List.mem_flatMap] at hmem
            obtain ⟨s1, hs1, hmem'⟩ := hmem
            exact ⟨s1, hs1, (ih (g + 1) s1 s').2 ⟨js, hjs', hmem'⟩⟩

theorem parseAtom_dot (n : Nat) (rest : Str) (g : Nat) :
    parseAtom (n + 1) ('.' :: rest) g = .ok (Re.any, rest, g) := by
  simp [parseAtom]

/-- The compiled text of an item list followed by `$` starts with a byte that
ends an atom without repeating it. -/
theorem itemsExpr_head_dot (is : List Item) (hp : litsDot is) :
    ∃ h t, itemsExpr is ++ "$".toList = h :: t ∧ h ≠ '{' ∧ h ≠ '*' ∧ h ≠ '+' ∧ h ≠ '?' := by
  cases is with
  | nil => exact ⟨'$', [], rfl, by decide, by decide, by decide, by decide⟩
  | cons i is =>
    cases i with
    | lit c =>
      rcases hp.1 with ⟨p0, p1, p2, p3, p4, p5, p6, p7, p8, p9, p10, p11, p12⟩ | hc
      · exact ⟨c, itemsExpr is ++ "$".toList, rfl, p10, p4, p3, p5⟩
      · subst hc
        exact ⟨'.', itemsExpr is ++ "$".toList, rfl, by decide, by decide, by decide,
          by decide⟩
    | param n r =>
      obtain ⟨t, ht⟩ := Rule.expr_head r
      refine ⟨'(', t ++ (itemsExpr is ++ "$".toList), ?_, by decide, by decide, by decide,
        by decide⟩
      simp [itemsExpr, ht]

theorem parseCat_itemsDot (is : List Item) : ∀ (g n : Nat), litsDot is →
    parseCat (is.length + n + 5) (itemsExpr is ++ "$".toList) g
      = .ok (itemsReDot is g, [], g + (paramNames is).length) := by
  induction is with
  | nil =>
    intro g n _
    have := parseCat_end (n + 3) g
    simpa [itemsExpr, itemsReDot, paramNames] using this
  | cons i is ih =>
    intro g n hp
    have hfuel : (i :: is).length + n + 5 = (is.length + n + 5) + 1 := by
      simp only [List.length_cons]; omega
    rw [hfuel]
    cases i with
    | lit c =>
      obtain ⟨hc, hp'⟩ := hp
      obtain ⟨h, t, hht, q1, q2, q3, q4⟩ := itemsExpr_head_dot is hp'
      have hat : parseAtom (is.length + n + 5) (c :: (itemsExpr is ++ "$".toList)) g
          = .ok (if c = '.' then Re.any else Re.chr c, itemsExpr is ++ "$".toList, g) := by
        rcases hc with hc | hc
        · have hne : c ≠ '.' := hc.2.2.1
          rw [if_neg hne]
          exact parseAtom_lit (is.length + n + 4) c _ g hc
        · subst hc
          rw [if_pos rfl]
          exact parseAtom_dot (is.length + n + 4) _ g
      have h8 : c ≠ '|' := by
        rcases hc with hc | hc
        · exact hc.2.2.2.2.2.2.2.2.1
        · rw [hc]; decide
      have h7 : c ≠ ')' := by
        rcases hc with hc | hc
        · exact hc.2.2.2.2.2.2.2.1
        · rw [hc]; decide
      show parseCat (is.length + n + 5 + 1) (c :: (itemsExpr is ++ "$".toList)) g = _
      rw [parseCat_cons _ _ _ _ h8 h7, hat]
      simp only
      rw [hht, parsePostfix_plain _ h t q1 q2 q3 q4]
      simp only
      rw [← hht, ih g n hp']
      simp [itemsReDot, paramNames]
    | param nm r =>
      have hp' : litsDot is := hp
      obtain ⟨h, t, hht, q1, q2, q3, q4⟩ := itemsExpr_head_dot is hp'
      obtain ⟨tl, htl⟩ := Rule.expr_head r
      have hat : parseAtom (is.length + n + 5) (r.expr ++ (itemsExpr is ++ "$".toList)) g
          = .ok (Re.group (g + 1) (Re.cat (Re.plus true r.re) Re.empty),
              itemsExpr is ++ "$".toList, g + 1) :=
        parseAtom_group (is.length + n + 1) r _ g
      show parseCat (is.length + n + 5 + 1) (r.expr ++ itemsExpr is ++ "$".toList) g = _
      rw [List.append_assoc]
      rw [htl] at hat ⊢
      rw [List.cons_append] at hat ⊢
      rw [parseCat_cons _ _ _ _ (by decide) (by decide), hat]
      simp only
      rw [hht, parsePostfix_plain _ h t q1 q2 q3 q4]
      simp only
      rw [← hht, ih (g + 1) n hp']
      simp only [itemsReDot, paramNames, List.length_cons]
      rw [show g + 1 + (paramNames is).length = g + ((paramNames is).length + 1) by omega]

theorem itemsExpr_length (is : List Item) : is.length ≤ (itemsExpr is).length := by
  induction is with
  | nil => simp
  | cons i is ih =>
    cases i with
    | lit c =>
      simp only [itemsExpr, List.length_cons]
      omega
    | param nm r =>
      obtain ⟨tl, htl⟩ := Rule.expr_head r
      simp only [itemsExpr, List.length_cons, List.length_append, htl]
      omega

/-- The expression `regexp.Compile` returns for the compiled text of an item
list with literal dots followed by `$`. -/
theorem Compile_itemsDot (is : List Item) (hp : litsDot is) :
    Regexp.Compile (itemsExpr is ++ "$".toList)
      = .ok ⟨itemsReDot is 0, (paramNames is).length⟩ := by
  unfold Regexp.Compile
  have hlen := itemsExpr_length is
  obtain ⟨k, hk⟩ : ∃ k, 3 * (itemsExpr is ++ "$".toList).length + 3 = (is.length + k + 5) + 1 := by
    refine ⟨3 * (itemsExpr is ++ "$".toList).length + 3 - (is.length + 6), ?_⟩
    simp only [List.length_append, String.toList, List.length_cons, List.length_nil]
    omega
  rw [hk, parseAlt_succ_of_cat _ _ _ _ _ (parseCat_itemsDot is 0 k hp)]
  simp

/-- What `Get` does at a node whose only dynamic child was compiled from an
item list with literal dots, on the items filled with admissible values: the
child is matched. -/
theorem getDynamic_itemsDot (names : Nat → Str) (rem : Str) (L : Tree) (D : List Item)
    (hre : L.d.re = some ⟨itemsReDot D 0, (paramNames D).length⟩)
    (hparams : L.d.params = paramNames D) (vs : List Str) (hv : valuesOK D vs)
    (hfill : rem = fill D vs) :
    ∃ calls, getDynamic names rem [L]
      = .ret L.d.handlers (nameOf names L.d.nameNode) calls := by
  rw [getDynamic_single, hre, hparams]
  simp only [Engine.find_embedded]
  cases hrun : (itemsReDot D 0).run ⟨rem, 0, []⟩ with
  | nil =>
    have : (⟨[], 0 + rem.length, capsOf D vs 0 0 ++ []⟩ : MState)
        ∈ (itemsReDot D 0).run ⟨rem, 0, []⟩ :=
      (mem_run_itemsReDot D 0 ⟨rem, 0, []⟩ _).2 ⟨D, dotVar_refl D,
        (mem_run_itemsRe D 0 ⟨rem, 0, []⟩ _).2 ⟨vs, hv, hfill, rfl⟩⟩
    rw [hrun] at this
    cases this
  | cons st more =>
    have hmem : st ∈ (itemsReDot D 0).run ⟨rem, 0, []⟩ := by rw [hrun]; simp
    obtain ⟨js, hjs, hmem'⟩ := (mem_run_itemsReDot D 0 ⟨rem, 0, []⟩ st).1 hmem
    obtain ⟨ws, hw, hfillw, hst⟩ := (mem_run_itemsRe js 0 ⟨rem, 0, []⟩ st).1 hmem'
    simp only at hfillw hst
    rw [← dotVar_names D js hjs]
    refine ⟨(paramNames js).zip ws, ?_⟩
    have hfind := find_of_run_cons ⟨itemsReDot D 0, (paramNames js).length⟩ rem st more hrun
    simp only at hfind
    have hcl : ∀ i, (capOffsets st.caps (i + 1)).length = 2 :=
      fun i => capOffsets_length st.caps (i + 1)
    have hlen : (Regexp.FindStringSubmatchIndex
        ⟨itemsReDot D 0, (paramNames js).length⟩ rem).length
        = ((paramNames js).length + 1) * 2 := by
      rw [hfind, List.length_append, flatMap_pairs_length _ hcl]
      simp
      omega
    have h0 : (Regexp.FindStringSubmatchIndex
        ⟨itemsReDot D 0, (paramNames js).length⟩ rem).getD 0 0 = 0 := by
      rw [hfind]
      rfl
    rw [if_neg (by rw [hlen, h0]; simp)]
    have hbind : bindParams rem
        (Regexp.FindStringSubmatchIndex ⟨itemsReDot D 0, (paramNames js).length⟩ rem) 0
        (paramNames js) = ((paramNames js).zip ws, true) := by
      apply bindParams_ok _ _ _ 0 ws (valuesOK_length js ws hw)
      intro i hi
      obtain ⟨a, b, hspan, hslice⟩ := spanAt_slice js ws [] i hw hi
      have hcap := capOffsets_capsOf js ws 0 0 [] i a b hw hspan
      rw [hst] at hfind
      simp only [List.append_nil, Nat.zero_add] at hcap hfind
      have g0 := flatMap_pairs_getD (fun i => capOffsets (capsOf js ws 0 0) (i + 1))
        (fun i => capOffsets_length _ _) (paramNames js).length i hi 0 (by omega)
      have g1 := flatMap_pairs_getD (fun i => capOffsets (capsOf js ws 0 0) (i + 1))
        (fun i => capOffsets_length _ _) (paramNames js).length i hi 1 (by omega)
      simp only [hcap, List.getD_cons_zero, List.getD_cons_succ, Nat.add_zero] at g0 g1
      have e0 : (Regexp.FindStringSubmatchIndex
          ⟨itemsReDot D 0, (paramNames js).length⟩ rem).getD ((0 + i + 1) * 2) 0
          = (a : Int) := by
        rw [hfind, show (0 + i + 1) * 2 = (2 * i) + 2 by omega]
        simp only [List.cons_append, List.nil_append, List.getD_cons_succ]
        exact g0
      have e1 : (Regexp.FindStringSubmatchIndex
          ⟨itemsReDot D 0, (paramNames js).length⟩ rem).getD ((0 + i + 1) * 2 + 1) 0
          = (b : Int) := by
        rw [hfind, show (0 + i + 1) * 2 + 1 = (2 * i + 1) + 2 by omega]
        simp only [List.cons_append, List.nil_append, List.getD_cons_succ]
        exact g1
      rw [e0, e1, hfillw]
      simpa using hslice
    rw [hbind]

/-- Adding one pattern with a parameter and literal dots to a fresh root. -/
theorem Add_root_dynamicDot (a : Nat) (S : Str) (n : Str) (r : Rule) (D : List Item)
    (hS : isLiteral S) (hok : itemsOK (.param n r :: D)) (hp : litsDot (.param n r :: D))
    (h nn : Option Nat) (f : Nat) :
    (newRoot a).Add ('/' :: S ++ patternText (.param n r :: D)) h nn f
      = .node (singleTrie a f S (fun par => dynLeaf (patternText (.param n r :: D))
          ⟨itemsReDot (.param n r :: D) 0, (paramNames (.param n r :: D)).length⟩ h nn par
            (f + 1)))
          (f + 1) := by
  have htxt : patternText (.param n r :: D) = ':' :: (n ++ r.text ++ patternText D) := by
    simp [patternText, Item.text]
  rw [newRoot_eq, Tree.Add_mk]
  simp only [List.cons_append, matchedLen_slash, List.length_cons, List.length_nil,
    Nat.zero_add, if_true, one_ne_zero, if_false, List.drop_succ_cons, List.drop_zero]
  rw [if_neg (by rw [htxt]; simp), Tree.addList_nil]
  simp only
  obtain ⟨e1, e2, e3⟩ := dynScan_items _ hok
  rw [htxt] at e1 e2 e3 ⊢
  rw [addChild_dynamic _ S hS ':' _ (Or.inl rfl), e2, ← htxt, Engine.compile_embedded,
    Compile_itemsDot _ hp]
  simp only [Tree.d_mk, Tree.schildren_mk, Tree.rchildren_mk, List.nil_append]
  unfold singleTrie
  by_cases hSe : S = []
  · rw [if_neg (by simpa using hSe), if_pos hSe]
    simp
  · rw [if_pos hSe, if_neg hSe]

/-- `Get` on the trie that holds one pattern with a parameter and literal
dots, on a path that fills the pattern. -/
theorem Get_singleTrie_dot (a f : Nat) (S : Str) (D : List Item) (hok : itemsOK D)
    (h : Nat) (nn : Option Nat) (names : Nat → Str) (hn : ∀ k, names k = []) (ad : Nat)
    (vs : List Str) (hv : valuesOK D vs) :
    ∃ calls, (singleTrie a f S (fun par => dynLeaf (patternText D)
        ⟨itemsReDot D 0, (paramNames D).length⟩ (some h) nn par ad)).Get
          ('/' :: S ++ fill D vs) names = .ret (some h) [] calls := by
  have key : ∀ par, ∃ calls, getDynamic names (fill D vs)
      [dynLeaf (patternText D) ⟨itemsReDot D 0, (paramNames D).length⟩ (some h) nn par ad]
        = .ret (some h) [] calls := by
    intro par
    obtain ⟨calls, hc⟩ := getDynamic_itemsDot names (fill D vs)
      (dynLeaf (patternText D) ⟨itemsReDot D 0, (paramNames D).length⟩ (some h) nn par ad)
      D rfl (dynScan_items D hok).1 vs hv rfl
    rw [nameOf_nil names hn] at hc
    exact ⟨calls, hc⟩
  cases S with
  | nil =>
    rw [singleTrie_nil, List.cons_append, List.nil_append, Get_single_nil]
    exact key a
  | cons b s =>
    rw [singleTrie_cons, Get_single_cons]
    obtain ⟨calls, hc⟩ := key (f + 2)
    rw [hc]
    exact ⟨calls, rfl⟩

/-- A fresh router that holds one route, whose pattern has a parameter and
literal dots: `Match` returns the handler slice of the route on the paths that
fill the pattern. -/
theorem single_route_dot (method : Str) (idx : Nat) (hm : RouterMethods method = some idx)
    (S : Str) (n : Str) (r : Rule) (D : List Item) (hS : isLiteral S)
    (hok : itemsOK (.param n r :: D)) (hp : litsDot (.param n r :: D)) (h : Nat) :
    ∃ rt k, New.Add method ('/' :: S ++ patternText (.param n r :: D)) (some h) = .ok rt k
      ∧ ∀ vs, valuesOK (.param n r :: D) vs →
          ∃ calls, rt.Match method ('/' :: S ++ fill (.param n r :: D) vs)
            = .ret (some h) [] calls := by
  have hidx := RouterMethods_lt method idx hm
  have hadd := Router.add_nogroup New rfl method idx hm
    (S ++ patternText (.param n r :: D)) (some h)
  rw [New_tree idx hidx, ← List.cons_append, Add_root_dynamicDot idx S n r D hS hok hp] at hadd
  rw [Router.Add_plain New rfl rfl, hadd]
  simp only
  refine ⟨_, _, rfl, ?_⟩
  have hlen : idx < New.nodes.length := by simpa [New] using hidx
  have hnames : ∀ (R : Router), (∀ nd ∈ R.nodeStore, nd.name = []) → ∀ k, R.nameAt k = [] :=
    fun R hR => Router.nameAt_nil R hR
  intro vs hv
  rw [Router.Match_eq _ method idx hm, Router.tree_set New idx _ hlen _ rfl _ rfl]
  exact Get_singleTrie_dot idx New.nextAddr S (.param n r :: D) hok h
    (some New.nodeStore.length) _ (hnames _ (by
      intro nd hnd
      simp only [New, List.nil_append, List.mem_singleton] at hnd
      rw [hnd])) (New.nextAddr + 1) vs hv

/-- C2 as stated fails: the pattern `/:a(int)+:b(int)` is registered on `GET`
of a fresh router with a non-nil slice; the path `/1+2` replaces each
parameter by a digit run and keeps the literal `+`, and `Match` returns no
handler on it. -/
theorem literal_plus_not_matched :
    itemsOK [.lit '/', .param "a".toList .int, .lit '+', .param "b".toList .int]
    ∧ valuesOK [.lit '/', .param "a".toList .int, .lit '+', .param "b".toList .int]
        ["1".toList, "2".toList]
    ∧ patternText [.lit '/', .param "a".toList .int, .lit '+', .param "b".toList .int]
        = "/:a(int)+:b(int)".toList
    ∧ fill [.lit '/', .param "a".toList .int, .lit '+', .param "b".toList .int]
        ["1".toList, "2".toList] = "/1+2".toList
    ∧ (New.Add "GET".toList "/:a(int)+:b(int)".toList (some 7)).isOk = true
    ∧ (New.Add "GET".toList "/:a(int)+:b(int)".toList (some 7)).router.Match "GET".toList
        "/1+2".toList = .ret Option.none [] [] := by
  decide

/-- C2, as amended: every instance of a parameterised pattern is matched,
where the literal bytes after the first parameter are `.` or bytes the
regular-expression syntax gives no meaning to, and the values are ASCII.  On a
fresh router, a pattern that begins with `/`, made of literal bytes other than
`:` and `*` and of parameters `:name`, `:name(int)`, `:name(string)`, is
registered on a recognized method with a non-nil handler slice; then for every
path that fills the pattern with one value per parameter, each a non-empty run
of ASCII bytes its rule admits, `Match` returns that slice.  (The embedded
engine reads the path byte by byte and the host engine character by character;
on ASCII text the two are the same.  The values `Match` binds to the
parameters are the subject of C4.) -/
theorem param_instances_matched (method : Str) (idx : Nat)
    (hm : RouterMethods method = some idx) (is : List Item)
    (hok : itemsOK (.lit '/' :: is)) (hp : litsDot (dynPart is)) (h : Nat)
    (vs : List Str) (hv : valuesOK (.lit '/' :: is) vs)
    (_hascii : ∀ v ∈ vs, ∀ x ∈ v, x.toNat < 128) :
    ∃ rt k, New.Add method (patternText (.lit '/' :: is)) (some h) = .ok rt k
      ∧ ∃ calls, rt.Match method (fill (.lit '/' :: is) vs) = .ret (some h) [] calls := by
  have hS : isLiteral (staticPart is) := staticPart_literal is hok.2.2
  rcases dynPart_cases is with hd | ⟨n, r, D, hd⟩
  · obtain ⟨e1, e2, e3, e4⟩ := itemsOK_staticPart (.lit '/' :: is) hd
    have hlit : isLiteral ('/' :: staticPart is) :=
      (isLiteral_cons _ _).2 ⟨⟨by decide, by decide⟩, hS⟩
    obtain ⟨rt, k, hadd, hin, _⟩ :=
      single_route_literal method idx hm ('/' :: staticPart is) hlit rfl h
    refine ⟨rt, k, by rw [e1]; exact hadd, [], ?_⟩
    rw [e2]
    exact hin
  · have hokD : itemsOK (.param n r :: D) := by
      rw [← hd]
      exact itemsOK_dynPart is hok.2.2
    rw [hd] at hp
    obtain ⟨rt, k, hadd, hin⟩ :=
      single_route_dot method idx hm (staticPart is) n r D hS hokD hp h
    have etxt : patternText (.lit '/' :: is)
        = '/' :: staticPart is ++ patternText (.param n r :: D) := by
      rw [patternText_split, ← hd]
      rfl
    have efill : fill (.lit '/' :: is) vs
        = '/' :: staticPart is ++ fill (.param n r :: D) vs := by
      rw [fill_split, ← hd]
      rfl
    have hv' : valuesOK (.param n r :: D) vs := by
      rw [← hd]
      exact (valuesOK_dynPart (.lit '/' :: is) vs).2 hv
    refine ⟨rt, k, by rw [etxt]; exact hadd, ?_⟩
    rw [efill]
    exact hin vs hv'

/-- C2, as amended, at `/u/:id(int).:n(string)-:x` and the path
`/u/42.ab-c`. -/
theorem param_instances_matched_witness :
    RouterMethods "GET".toList = some 0
    ∧ itemsOK [.lit '/', .lit 'u', .lit '/', .param "id".toList .int, .lit '.',
        .param "n".toList .str, .lit '-', .param "x".toList .dflt]
    ∧ litsDot (dynPart [.lit 'u', .lit '/', .param "id".toList .int, .lit '.',
        .param "n".toList .str, .lit '-', .param "x".toList .dflt])
    ∧ valuesOK [.lit '/', .lit 'u', .lit '/', .param "id".toList .int, .lit '.',
        .param "n".toList .str, .lit '-', .param "x".toList .dflt]
        ["42".toList, "ab".toList, "c".toList]
    ∧ (∀ v ∈ ["42".toList, "ab".toList, "c".toList], ∀ x ∈ v, x.toNat < 128)
    ∧ patternText [.lit '/', .lit 'u', .lit '/', .param "id".toList .int, .lit '.',
        .param "n".toList .str, .lit '-', .param "x".toList .dflt]
        = "/u/:id(int).:n(string)-:x".toList
    ∧ fill [.lit '/', .lit 'u', .lit '/', .param "id".toList .int, .lit '.',
        .param "n".toList .str, .lit '-', .param "x".toList .dflt]
        ["42".toList, "ab".toList, "c".toList] = "/u/42.ab-c".toList
    ∧ ∃ rt k, New.Add "GET".toList (patternText [.lit '/', .lit 'u', .lit '/',
          .param "id".toList .int, .lit '.', .param "n".toList .str, .lit '-',
          .param "x".toList .dflt]) (some 3) = .ok rt k
      ∧ ∃ calls, rt.Match "GET".toList (fill [.lit '/', .lit 'u', .lit '/',
          .param "id".toList .int, .lit '.', .param "n".toList .str, .lit '-',
          .param "x".toList .dflt]
          ["42".toList, "ab".toList, "c".toList]) = .ret (some 3) [] calls :=
  ⟨rfl, by decide, by decide, by decide, by decide, by decide, by decide,
    param_instances_matched "GET".toList 0 rfl
      [.lit 'u', .lit '/', .param "id".toList .int, .lit '.', .param "n".toList .str,
        .lit '-', .param "x".toList .dflt]
      (by decide) (by decide) 3 ["42".toList, "ab".toList, "c".toList] (by decide)
      (by decide)⟩

/-- C3, as amended: nothing but instances of a pattern is matched, where the
literal bytes after the first parameter are bytes the regular-expression
syntax gives no meaning to.  On a fresh router, a pattern that begins with
`/`, made of literal bytes other than `:` and `*` and of parameters `:name`,
`:name(int)`, `:name(string)`, is registered on a recognized method with a
non-nil handler slice; then every path on which `Match` returns that slice
fills the pattern with one value per parameter, each a non-empty run of bytes
its rule admits. -/
theorem matched_only_instances (method : Str) (idx : Nat)
    (hm : RouterMethods method = some idx) (is : List Item)
    (hok : itemsOK (.lit '/' :: is)) (hp : litsPlain (dynPart is)) (h : Nat) :
    ∃ rt k, New.Add method (patternText (.lit '/' :: is)) (some h) = .ok rt k
      ∧ ∀ path name calls, rt.Match method path = .ret (some h) name calls →
          ∃ vs, valuesOK (.lit '/' :: is) vs ∧ path = fill (.lit '/' :: is) vs := by
  obtain ⟨rt, k, hadd, hall⟩ := single_route_items method idx hm is hok hp h
  refine ⟨rt, k, hadd, ?_⟩
  intro path name calls hg
  rcases hall path with ⟨vs, hv, hf, _⟩ | ⟨_, hnone⟩
  · exact ⟨vs, hv, hf⟩
  · rw [hnone] at hg
    cases hg

/-- C3, as amended, at `/:id-json` on `GET`. -/
theorem matched_only_instances_witness :
    RouterMethods "GET".toList = some 0
    ∧ itemsOK [.lit '/', .param "id".toList .dflt, .lit '-', .lit 'j', .lit 's', .lit 'o',
        .lit 'n']
    ∧ litsPlain (dynPart [.param "id".toList .dflt, .lit '-', .lit 'j', .lit 's', .lit 'o',
        .lit 'n'])
    ∧ ∃ rt k, New.Add "GET".toList (patternText [.lit '/', .param "id".toList .dflt, .lit '-',
          .lit 'j', .lit 's', .lit 'o', .lit 'n']) (some 3) = .ok rt k
      ∧ ∀ path name calls, rt.Match "GET".toList path = .ret (some 3) name calls →
          ∃ vs, valuesOK [.lit '/', .param "id".toList .dflt, .lit '-', .lit 'j', .lit 's',
                  .lit 'o', .lit 'n'] vs
            ∧ path = fill [.lit '/', .param "id".toList .dflt, .lit '-', .lit 'j', .lit 's',
                  .lit 'o', .lit 'n'] vs :=
  ⟨rfl, by decide, by decide,
    matched_only_instances "GET".toList 0 rfl
      [.param "id".toList .dflt, .lit '-', .lit 'j', .lit 's', .lit 'o', .lit 'n']
      (by decide) (by decide) 3⟩

/-- C3 as stated fails: the pattern `/:id.json` is registered on `GET` of a
fresh router with the slice 7; `Match` returns that slice on the path
`/5xjson`, binding `id` to `5`, and no choice of a value for `id` makes the
pattern equal to that path, whose byte at the place of the `.` is `x`. -/
theorem literal_dot_matches_any :
    itemsOK [.lit '/', .param "id".toList .dflt, .lit '.', .lit 'j', .lit 's', .lit 'o',
      .lit 'n']
    ∧ patternText [.lit '/', .param "id".toList .dflt, .lit '.', .lit 'j', .lit 's', .lit 'o',
        .lit 'n'] = "/:id.json".toList
    ∧ (New.Add "GET".toList "/:id.json".toList (some 7)).isOk = true
    ∧ (New.Add "GET".toList "/:id.json".toList (some 7)).router.Match "GET".toList
        "/5xjson".toList = .ret (some 7) [] [("id".toList, "5".toList)]
    ∧ ∀ vs, fill [.lit '/', .param "id".toList .dflt, .lit '.', .lit 'j', .lit 's', .lit 'o',
        .lit 'n'] vs ≠ "/5xjson".toList := by
  refine ⟨by decide, by decide, by decide, by decide, ?_⟩
  intro vs e
  have hlen := congrArg List.length e
  cases vs with
  | nil => simp [fill] at hlen
  | cons v vs =>
    simp only [fill, List.length_cons, List.length_append, List.length_nil,
      String.toList] at hlen
    have hv : v.length = 1 := by
      have : ("/5xjson".toList).length = 7 := by decide
      simp only [String.toList] at this
      omega
    match v, hv with
    | [c], _ =>
      simp only [fill, List.singleton_append] at e
      have := congrArg (fun l => l.get? 2) e
      simp at this

/-- C4, as amended: parameters are bound in declaration order with the
substituted values, where the literal bytes after the first parameter are
bytes the regular-expression syntax gives no meaning to.  On a fresh router,
a pattern that begins with `/` in which every parameter has no rule and fills
a whole `/`-delimited segment is registered on a recognized method with a
non-nil handler slice; then on the path that replaces the parameters by
non-empty `/`-free values `Match` returns the slice and makes exactly one
`setParam` call per parameter, the i-th with the i-th name and the i-th
value. -/
theorem params_bound_in_order (method : Str) (idx : Nat)
    (hm : RouterMethods method = some idx) (is : List Item)
    (hok : itemsOK (.lit '/' :: is)) (hseg : wholeSegments false (.lit '/' :: is))
    (hp : litsPlain (dynPart is)) (h : Nat)
    (vs : List Str) (hv : valuesOK (.lit '/' :: is) vs) :
    ∃ rt k, New.Add method (patternText (.lit '/' :: is)) (some h) = .ok rt k
      ∧ rt.Match method (fill (.lit '/' :: is) vs)
          = .ret (some h) [] ((paramNames (.lit '/' :: is)).zip vs)
      ∧ ((paramNames (.lit '/' :: is)).zip vs).length = (paramNames (.lit '/' :: is)).length := by
  obtain ⟨rt, k, hadd, hall⟩ := single_route_items method idx hm is hok hp h
  refine ⟨rt, k, hadd, ?_, ?_⟩
  · rcases hall (fill (.lit '/' :: is) vs) with ⟨ws, hw, hf, hg⟩ | ⟨hno, _⟩
    · rw [hg, fill_unique _ false vs ws hseg hv hw hf]
    · exact absurd rfl (hno vs hv)
  · rw [List.length_zip, valuesOK_length _ vs hv, Nat.min_self]

/-- C4, as amended, at `/users/:id/posts/:postId` and the path
`/users/7/posts/99`: `id` is bound to `7`, then `postId` to `99`. -/
theorem params_bound_in_order_witness :
    RouterMethods "GET".toList = some 0
    ∧ patternText [.lit '/', .lit 'u', .lit 's', .lit 'e', .lit 'r', .lit 's', .lit '/',
        .param "id".toList .dflt, .lit '/', .lit 'p', .lit 'o', .lit 's', .lit 't', .lit 's',
        .lit '/', .param "postId".toList .dflt] = "/users/:id/posts/:postId".toList
    ∧ fill [.lit '/', .lit 'u', .lit 's', .lit 'e', .lit 'r', .lit 's', .lit '/',
        .param "id".toList .dflt, .lit '/', .lit 'p', .lit 'o', .lit 's', .lit 't', .lit 's',
        .lit '/', .param "postId".toList .dflt] ["7".toList, "99".toList]
        = "/users/7/posts/99".toList
    ∧ ∃ rt k, New.Add "GET".toList (patternText [.lit '/', .lit 'u', .lit 's', .lit 'e',
          .lit 'r', .lit 's', .lit '/', .param "id".toList .dflt, .lit '/', .lit 'p', .lit 'o',
          .lit 's', .lit 't', .lit 's', .lit '/', .param "postId".toList .dflt]) (some 3)
          = .ok rt k
      ∧ rt.Match "GET".toList (fill [.lit '/', .lit 'u', .lit 's', .lit 'e', .lit 'r', .lit 's',
          .lit '/', .param "id".toList .dflt, .lit '/', .lit 'p', .lit 'o', .lit 's', .lit 't',
          .lit 's', .lit '/', .param "postId".toList .dflt] ["7".toList, "99".toList])
          = .ret (some 3) [] ((paramNames [.lit '/', .lit 'u', .lit 's', .lit 'e', .lit 'r',
              .lit 's', .lit '/', .param "id".toList .dflt, .lit '/', .lit 'p', .lit 'o',
              .lit 's', .lit 't', .lit 's', .lit '/', .param "postId".toList .dflt]).zip
              ["7".toList, "99".toList])
      ∧ ((paramNames [.lit '/', .lit 'u', .lit 's', .lit 'e', .lit 'r',
              .lit 's', .lit '/', .param "id".toList .dflt, .lit '/', .lit 'p', .lit 'o',
              .lit 's', .lit 't', .lit 's', .lit '/', .param "postId".toList .dflt]).zip
              ["7".toList, "99".toList]).length
          = (paramNames [.lit '/', .lit 'u', .lit 's', .lit 'e', .lit 'r',
              .lit 's', .lit '/', .param "id".toList .dflt, .lit '/', .lit 'p', .lit 'o',
              .lit 's', .lit 't', .lit 's', .lit '/', .param "postId".toList .dflt]).length :=
  ⟨rfl, by decide, by decide,
    params_bound_in_order "GET".toList 0 rfl
      [.lit 'u', .lit 's', .lit 'e', .lit 'r', .lit 's', .lit '/',
        .param "id".toList .dflt, .lit '/', .lit 'p', .lit 'o', .lit 's', .lit 't', .lit 's',
        .lit '/', .param "postId".toList .dflt]
      (by decide) (by decide) (by decide) 3 ["7".toList, "99".toList] (by decide)⟩

/-- C4 as stated fails: in `/:user/c+/:file` both parameters have no rule and
fill a whole segment; the pattern is registered on `GET` of a fresh router
with a non-nil slice, and on the path `/bob/c+/x`, which replaces the
parameters by `bob` and `x`, `Match` returns no handler and makes no
`setParam` call. -/
theorem segment_literal_plus_unbound :
    itemsOK [.lit '/', .param "user".toList .dflt, .lit '/', .lit 'c', .lit '+', .lit '/',
      .param "file".toList .dflt]
    ∧ wholeSegments false [.lit '/', .param "user".toList .dflt, .lit '/', .lit 'c', .lit '+',
        .lit '/', .param "file".toList .dflt]
    ∧ valuesOK [.lit '/', .param "user".toList .dflt, .lit '/', .lit 'c', .lit '+', .lit '/',
        .param "file".toList .dflt] ["bob".toList, "x".toList]
    ∧ patternText [.lit '/', .param "user".toList .dflt, .lit '/', .lit 'c', .lit '+', .lit '/',
        .param "file".toList .dflt] = "/:user/c+/:file".toList
    ∧ fill [.lit '/', .param "user".toList .dflt, .lit '/', .lit 'c', .lit '+', .lit '/',
        .param "file".toList .dflt] ["bob".toList, "x".toList] = "/bob/c+/x".toList
    ∧ (New.Add "GET".toList "/:user/c+/:file".toList (some 7)).isOk = true
    ∧ (New.Add "GET".toList "/:user/c+/:file".toList (some 7)).router.Match "GET".toList
        "/bob/c+/x".toList = .ret Option.none [] [] := by
  decide


/-! ## Sequences of registrations -/

/-- A literal pattern spelled at a node that has a handler slice, added again
with a nil slice, is accepted and the trie is left as it was. -/
theorem Tree.Add_nil_registered [Engine] (t : Tree) : t.WF → ∀ (p : Str) (nn : Option Nat) (f : Nat),
    ((Tree.view (t.locate p)).1.1).isSome = true →
    ∃ ret, t.Add p Option.none nn f = .node t ret := by
  induction t using Tree.induct with
  | h d sc rc ih _ =>
    intro hwf p nn f hreg
    obtain ⟨w1, w2, w3, w4, w5⟩ := (Tree.WF_mk d sc rc).1 hwf
    by_cases hpre : d.pattern <+: p
    · have h1 := (matchedLen_eq_length_iff p d.pattern).2 hpre
      have hm0 : matchedLen p d.pattern ≠ 0 := by
        rw [h1]
        cases hp : d.pattern with
        | nil => rw [hp] at w2; cases w2
        | cons y ys => simp
      rw [Tree.Add_mk, if_neg hm0, if_pos h1]
      obtain ⟨rq, rfl⟩ := hpre
      cases rq with
      | nil =>
        rw [List.append_nil] at h1 ⊢
        rw [if_pos h1, if_neg (by simp)]
        exact ⟨_, rfl⟩
      | cons b r =>
        rw [if_neg (by rw [h1]; simp), h1, List.drop_left]
        rw [Tree.locate_append_cons _ _ _ _ _ _ rfl] at hreg
        rcases Tree.locateList_cases sc b (b :: r) with ⟨_, e⟩ | ⟨pre, c, post, rfl, hp1, hp2, e⟩
        · rw [e] at hreg
          simp [Tree.view] at hreg
        · rw [e] at hreg
          obtain ⟨ret, hc⟩ := ih c (by simp) (w4 c (by simp)) (b :: r) nn f hreg
          have hpre' : ∀ x ∈ pre, x.Add (b :: r) Option.none nn f = .none := by
            intro x hx
            rw [Tree.Add_eq_none_iff]
            exact Tree.WF.matched_zero_of_alpha_ne x (w4 x (by simp [hx])) b r (hp1 x hx)
          rw [Tree.addList_of_first pre post c _ Option.none nn f hpre', hc]
          exact ⟨_, rfl⟩
    · rw [Tree.locate_not_prefix _ _ _ _ hpre] at hreg
      simp [Tree.view] at hreg

theorem Router.add_ok_shape [Engine] (r : Router) (hg : r.groups = []) (method p : Str)
    (h : Option Nat) (r' : Router) (n : Nat) (hadd : r.add method p h = .ok r' n) :
    ∃ idx cs, RouterMethods method = some idx ∧ p = '/' :: cs := by
  unfold Router.add at hadd
  cases hm : RouterMethods method with
  | none => rw [hm] at hadd; cases hadd
  | some idx =>
    rw [hm] at hadd
    simp only [hg, List.length_nil, lt_self_iff_false, if_false] at hadd
    cases p with
    | nil => cases hadd
    | cons c cs =>
      simp only at hadd
      by_cases hc : c = '/'
      · exact ⟨idx, cs, rfl, by rw [hc]⟩
      · rw [if_pos hc] at hadd
        cases hadd

theorem New_sound : New.Sound := by
  refine ⟨rfl, rfl, rfl, by simp [New], ?_, ?_⟩
  · intro idx hidx
    rw [New_tree idx hidx]
    exact newRoot_WF idx
  · intro nd hnd
    simp [New] at hnd

/-- One successful registration on a router with both options off: the trie
of the method is the one `Tree.Add` returns, the other tries are kept. -/
theorem Router.Add_sound_step [Engine] (r : Router) (hs : r.Sound) (method p : Str) (h : Option Nat)
    (r' : Router) (n : Nat) (hadd : r.Add method p h = .ok r' n) :
    ∃ idx ret, RouterMethods method = some idx
      ∧ (r.tree idx).Add p h (some r.nodeStore.length) r.nextAddr = .node (r'.tree idx) ret
      ∧ (∀ j, j ≠ idx → r'.tree j = r.tree j) ∧ r'.Sound := by
  obtain ⟨s1, s2, s3, s4, s5, s6⟩ := hs
  rw [Router.Add_plain r s1 s2] at hadd
  obtain ⟨idx, cs, hm, rfl⟩ := Router.add_ok_shape r s3 method p h r' n hadd
  have hidx := RouterMethods_lt method idx hm
  rw [Router.add_nogroup r s3 method idx hm] at hadd
  cases ht : (r.tree idx).Add ('/' :: cs) h (some r.nodeStore.length) r.nextAddr with
  | none => rw [ht] at hadd; cases hadd
  | panic e t' => rw [ht] at hadd; cases hadd
  | node t' ret =>
    rw [ht] at hadd
    simp only [Out.ok.injEq] at hadd
    obtain ⟨rfl, -⟩ := hadd
    have hlen : idx < r.nodes.length := by rw [s4]; exact hidx
    refine ⟨idx, ret, hm, ?_, ?_, s1, s2, s3, ?_, ?_, ?_⟩
    · rw [ht]
      congr 1
      exact (Router.tree_set r idx t' hlen _ rfl _ rfl).symm
    · intro j hj
      exact Router.tree_set_ne r idx j t' hj _ rfl
    · simp [s4]
    · intro j hj
      by_cases e : j = idx
      · rw [e, Router.tree_set r idx t' hlen _ rfl _ rfl]
        exact (Tree.Add_post _ (s5 idx hidx) _ _ _ _ _ _ ht).1
      · rw [Router.tree_set_ne r idx j t' e _ rfl]
        exact s5 j hj
    · intro nd hnd
      simp only [List.mem_append, List.mem_singleton] at hnd
      rcases hnd with hnd | rfl
      · exact s6 nd hnd
      · rfl

/-- What one successful registration keeps and establishes in the tries of a
router with both options off. -/
theorem Router.Add_step_facts [Engine] (r : Router) (hs : r.Sound) (method p : Str) (h : Option Nat)
    (r' : Router) (n : Nat) (hadd : r.Add method p h = .ok r' n) :
    r'.Sound
    ∧ (∀ idx P k, isLiteral P → (Tree.view ((r.tree idx).locate P)).1.1 = some k →
        (Tree.view ((r'.tree idx).locate P)).1.1 = some k)
    ∧ (∀ idx k, RouterMethods method = some idx → isLiteral p → h = some k →
        (Tree.view ((r'.tree idx).locate p)).1.1 = some k)
    ∧ (∀ idx S x, x ∈ (Tree.view ((r.tree idx).locate S)).2 →
        x ∈ (Tree.view ((r'.tree idx).locate S)).2)
    ∧ (∀ idx S c rest, RouterMethods method = some idx → p = S ++ c :: rest → isLiteral S →
        isTok c →
        ∃ re, Engine.compile ((dynScan (c :: rest)).newPattern ++ "$".toList) = .ok re
          ∧ ∃ x ∈ (Tree.view ((r'.tree idx).locate S)).2,
              x.d.pattern = (dynScan (c :: rest)).newPattern)
    ∧ (∃ idx cs, RouterMethods method = some idx ∧ p = '/' :: cs) := by
  have hshape := Router.add_ok_shape r hs.2.2.1 method p h r' n
    (by rw [← Router.Add_plain r hs.1 hs.2.1]; exact hadd)
  obtain ⟨idx0, ret, hm, hT, hother, hs'⟩ := Router.Add_sound_step r hs method p h r' n hadd
  have hidx := RouterMethods_lt method idx0 hm
  have hwf := hs.2.2.2.2.1 idx0 hidx
  obtain ⟨p1, p2, p3, p4, p5, p6⟩ := Tree.Add_post _ hwf _ _ _ _ _ _ hT
  refine ⟨hs', ?_, ?_, ?_, ?_, hshape⟩
  · intro idx P k hP hreg
    by_cases e : idx = idx0
    · subst e
      by_cases hq : P = p
      · subst hq
        cases h with
        | none =>
          obtain ⟨ret', hnil⟩ := Tree.Add_nil_registered _ hwf P (some r.nodeStore.length)
            r.nextAddr (by rw [hreg]; rfl)
          rw [hnil] at hT
          simp only [AddOut.node.injEq] at hT
          rw [← hT.1]
          exact hreg
        | some v =>
          rw [Tree.Add_dup_static _ hwf P (some v) _ _ rfl (by rw [hreg]; rfl)] at hT
          cases hT
      · rw [p3 P hq]
        exact hreg
    · rw [hother idx e]
      exact hreg
  · intro idx k hm' hlit hk
    rw [hm] at hm'
    simp only [Option.some.injEq] at hm'
    subst hm'
    subst hk
    exact (p5 hlit).1 rfl
  · intro idx S x hx
    by_cases e : idx = idx0
    · subst e
      exact (p4 S).subset hx
    · rw [hother idx e]
      exact hx
  · intro idx S c rest hm' hp hS hc
    rw [hm] at hm'
    simp only [Option.some.injEq] at hm'
    subst hm'
    obtain ⟨re, hre, par, hmem⟩ := p6 S c rest hp hS hc
    exact ⟨re, hre, _, hmem, rfl⟩

/-- What a sequence of successful registrations keeps and establishes in the
tries of a router with both options off. -/
theorem Router.AddSeq_facts [Engine] : ∀ (seq : List (Str × Str × Option Nat)) (r : Router), r.Sound →
    (r.AddSeq seq).isOk = true →
    (r.AddSeq seq).router.Sound
    ∧ (∀ idx P k, isLiteral P → (Tree.view ((r.tree idx).locate P)).1.1 = some k →
        (Tree.view (((r.AddSeq seq).router.tree idx).locate P)).1.1 = some k)
    ∧ (∀ method idx P k, RouterMethods method = some idx → isLiteral P →
        (method, P, some k) ∈ seq →
        (Tree.view (((r.AddSeq seq).router.tree idx).locate P)).1.1 = some k)
    ∧ (∀ idx S x, x ∈ (Tree.view ((r.tree idx).locate S)).2 →
        x ∈ (Tree.view (((r.AddSeq seq).router.tree idx).locate S)).2)
    ∧ (∀ method idx S c rest h, RouterMethods method = some idx → isLiteral S → isTok c →
        (method, S ++ c :: rest, h) ∈ seq →
        ∃ re, Engine.compile ((dynScan (c :: rest)).newPattern ++ "$".toList) = .ok re
          ∧ ∃ x ∈ (Tree.view (((r.AddSeq seq).router.tree idx).locate S)).2,
              x.d.pattern = (dynScan (c :: rest)).newPattern)
    ∧ (∀ e ∈ seq, ∃ idx cs, RouterMethods e.1 = some idx ∧ e.2.1 = '/' :: cs) := by
  intro seq
  induction seq with
  | nil =>
    intro r hs _
    refine ⟨hs, fun _ _ _ _ hk => hk, ?_, fun _ _ _ hx => hx, ?_, ?_⟩
    · intro _ _ _ _ _ _ hmem
      cases hmem
    · intro _ _ _ _ _ _ _ _ _ hmem
      cases hmem
    · intro _ hmem
      cases hmem
  | cons e rest ih =>
    intro r hs hok
    rw [Router.AddSeq] at hok ⊢
    cases hadd : r.Add e.1 e.2.1 e.2.2 with
    | panic f r1 =>
      rw [hadd] at hok
      cases hok
    | ok r1 n =>
      rw [hadd] at hok
      simp only at hok ⊢
      obtain ⟨a1, a2, a3, a4, a5, a6⟩ := Router.Add_step_facts r hs _ _ _ r1 n hadd
      obtain ⟨b1, b2, b3, b4, b5, b6⟩ := ih r1 a1 hok
      refine ⟨b1, ?_, ?_, ?_, ?_, ?_⟩
      · intro idx P k hP hreg
        exact b2 idx P k hP (a2 idx P k hP hreg)
      · intro method idx P k hm hP hmem
        rcases List.mem_cons.1 hmem with he | hmem
        · apply b2 idx P k hP
          have e1 : e.1 = method := by rw [← he]
          have e2 : e.2.1 = P := by rw [← he]
          have e3 : e.2.2 = some k := by rw [← he]
          have := a3 idx k (by rw [e1]; exact hm) (by rw [e2]; exact hP) e3
          rw [e2] at this
          exact this
        · exact b3 method idx P k hm hP hmem
      · intro idx S x hx
        exact b4 idx S x (a4 idx S x hx)
      · intro method idx S c rest' h hm hS hc hmem
        rcases List.mem_cons.1 hmem with he | hmem
        · have e1 : e.1 = method := by rw [← he]
          have e2 : e.2.1 = S ++ c :: rest' := by rw [← he]
          obtain ⟨re, hre, x, hx, hpat⟩ :=
            a5 idx S c rest' (by rw [e1]; exact hm) e2 hS hc
          exact ⟨re, hre, x, b4 idx S x hx, hpat⟩
        · exact b5 method idx S c rest' h hm hS hc hmem
      · intro x hx
        rcases List.mem_cons.1 hx with rfl | hx
        · exact a6
        · exact b6 x hx

/-- On a router with both options off, `Match` on a literal path that the
static segments spell at a node with a handler slice returns that slice. -/
theorem Router.Match_of_locate [Engine] (r : Router) (hs : r.Sound) (method : Str) (idx : Nat)
    (hm : RouterMethods method = some idx) (P : Str) (h : Nat)
    (hreg : (Tree.view ((r.tree idx).locate P)).1.1 = some h) :
    r.Match method P = .ret (some h) [] [] := by
  have hidx := RouterMethods_lt method idx hm
  rw [Router.Match_eq r method idx hm,
    Tree.Get_of_locate _ (hs.2.2.2.2.1 idx hidx) P h r.nameAt hreg,
    nameOf_nil _ (Router.nameAt_nil r hs.2.2.2.2.2)]

/-- C5: static beats dynamic.  A fresh router receives any sequence of
registrations, all of which return; one of them registers the literal pattern
`P` on a method with the non-nil handler slice `h`, the others register any
patterns (dynamic ones among them) in any order around it.  Then `Match` on
the path `P` returns `h` and makes no `setParam` call.  The statement holds
for every host engine, whatever expressions it compiles and whatever it
matches: the sequences range over all the routers the package builds with
it. -/
theorem static_beats_dynamic [Engine] (seq : List (Str × Str × Option Nat))
    (hok : (New.AddSeq seq).isOk = true) (method P : Str) (h : Nat)
    (hreg : (method, P, some h) ∈ seq) (hlit : isLiteral P) :
    (New.AddSeq seq).router.Match method P = .ret (some h) [] [] := by
  obtain ⟨b1, -, b3, -, -, b6⟩ := Router.AddSeq_facts seq New New_sound hok
  obtain ⟨idx, cs, hm, -⟩ := b6 _ hreg
  exact Router.Match_of_locate _ b1 method idx hm P h (b3 method idx P h hm hlit hreg)

/-- C5 at `/users/:id` registered before `/users/new` on `GET`: the path
`/users/new` selects the static route. -/
theorem static_beats_dynamic_witness :
    (New.AddSeq [("GET".toList, "/users/:id".toList, some 2),
        ("GET".toList, "/users/new".toList, some 1)]).isOk = true
    ∧ (("GET".toList, "/users/new".toList, some 1) : Str × Str × Option Nat)
        ∈ [("GET".toList, "/users/:id".toList, some 2),
            ("GET".toList, "/users/new".toList, some 1)]
    ∧ isLiteral "/users/new".toList
    ∧ (New.AddSeq [("GET".toList, "/users/:id".toList, some 2),
        ("GET".toList, "/users/new".toList, some 1)]).router.Match "GET".toList
          "/users/new".toList = .ret (some 1) [] [] :=
  ⟨by decide, by decide, by decide,
    static_beats_dynamic [("GET".toList, "/users/:id".toList, some 2),
        ("GET".toList, "/users/new".toList, some 1)] (by decide) "GET".toList
      "/users/new".toList 1 (by decide) (by decide)⟩

/-- On a router with both options off, a registration that `Tree.Add` rejects
as a duplicate panics with the duplicate-route fault, and `Match` answers
afterwards as before. -/
theorem Router.Add_dup [Engine] (r : Router) (hs : r.Sound) (method : Str) (idx : Nat)
    (hm : RouterMethods method = some idx) (cs : Str) (h : Option Nat)
    (hdup : (r.tree idx).Add ('/' :: cs) h (some r.nodeStore.length) r.nextAddr
      = .panic .routeExists (r.tree idx)) :
    ∃ r', r.Add method ('/' :: cs) h = .panic .routeExists r'
      ∧ ∀ m path, r'.Match m path = r.Match m path := by
  obtain ⟨s1, s2, s3, s4, s5, s6⟩ := hs
  have hidx := RouterMethods_lt method idx hm
  have hlen : idx < r.nodes.length := by rw [s4]; exact hidx
  rw [Router.Add_plain r s1 s2, Router.add_nogroup r s3 method idx hm, hdup]
  refine ⟨_, rfl, ?_⟩
  intro m path
  have htree : ∀ (R : Router), R.nodes = r.nodes.set idx (r.tree idx) → ∀ j,
      R.tree j = r.tree j := by
    intro R hR j
    by_cases e : j = idx
    · rw [e]
      exact Router.tree_set r idx _ hlen _ rfl R hR
    · exact Router.tree_set_ne r idx j _ e R hR
  have hname : ∀ (R : Router), R.nodeStore = r.nodeStore ++ [⟨0, [], []⟩] →
      R.nameAt = r.nameAt := by
    intro R hR
    funext k
    rw [Router.nameAt_nil r s6, Router.nameAt_nil R]
    intro nd hnd
    rw [hR] at hnd
    simp only [List.mem_append, List.mem_singleton] at hnd
    rcases hnd with hnd | rfl
    · exact s6 nd hnd
    · rfl
  unfold Router.Match
  rw [htree _ rfl, hname _ rfl]

/-- C6, as amended: duplicate registration is rejected, not overwritten.  A
fresh router receives any sequence of registrations, all of which return, one
of which registers the pattern `P` (literal or not) on a method with the
non-nil handler slice `h`.  A further registration of `P` on that method, with
a non-nil slice where `P` is literal and with any slice, nil or not, where `P`
has a parameter or wildcard, panics with the duplicate-route fault; afterwards
`Match` returns on every method and path what it returned before, and on a
literal `P` that is `h`.  The statement holds for every host engine, whatever
expressions it compiles and whatever it matches. -/
theorem duplicate_rejected [Engine] (seq : List (Str × Str × Option Nat))
    (hok : (New.AddSeq seq).isOk = true) (method P : Str) (h : Nat)
    (hreg : (method, P, some h) ∈ seq) (h2 : Option Nat)
    (hh : isLiteral P → h2.isSome = true) :
    ∃ r', (New.AddSeq seq).router.Add method P h2 = .panic .routeExists r'
      ∧ (∀ m path, r'.Match m path = (New.AddSeq seq).router.Match m path)
      ∧ (isLiteral P → r'.Match method P = .ret (some h) [] []) := by
  obtain ⟨b1, -, b3, -, b5, b6⟩ := Router.AddSeq_facts seq New New_sound hok
  obtain ⟨idx, cs, hm, hP⟩ := b6 _ hreg
  simp only at hm hP
  have hidx := RouterMethods_lt method idx hm
  have hwf := b1.2.2.2.2.1 idx hidx
  have hdup : ((New.AddSeq seq).router.tree idx).Add P h2
      (some (New.AddSeq seq).router.nodeStore.length) (New.AddSeq seq).router.nextAddr
      = .panic .routeExists ((New.AddSeq seq).router.tree idx) := by
    rcases literal_or_tok P with hlit | ⟨S, c, rest, e, hS, hc⟩
    · apply Tree.Add_dup_static _ hwf P h2 _ _ (hh hlit)
      rw [b3 method idx P h hm hlit hreg]
      rfl
    · subst e
      obtain ⟨re, hre, hx⟩ := b5 method idx S c rest (some h) hm hS hc hreg
      exact Tree.Add_dup_dyn _ hwf S c rest h2 _ _ re hS hc hre hx
  rw [hP] at hdup
  obtain ⟨r', hadd, hsame⟩ := Router.Add_dup _ b1 method idx hm cs h2 hdup
  refine ⟨r', by rw [hP]; exact hadd, hsame, ?_⟩
  intro hlit
  rw [hsame]
  exact Router.Match_of_locate _ b1 method idx hm P h (b3 method idx P h hm hlit hreg)

/-- C6, as amended, at `/a/b`, registered on `GET` before `/a` and then once
more with another slice. -/
theorem duplicate_rejected_witness :
    (New.AddSeq [("GET".toList, "/a/b".toList, some 1),
        ("GET".toList, "/a".toList, some 3)]).isOk = true
    ∧ (("GET".toList, "/a/b".toList, some 1) : Str × Str × Option Nat)
        ∈ [("GET".toList, "/a/b".toList, some 1), ("GET".toList, "/a".toList, some 3)]
    ∧ ∃ r', (New.AddSeq [("GET".toList, "/a/b".toList, some 1),
          ("GET".toList, "/a".toList, some 3)]).router.Add "GET".toList "/a/b".toList (some 4)
          = .panic .routeExists r'
      ∧ (∀ m path, r'.Match m path = (New.AddSeq [("GET".toList, "/a/b".toList, some 1),
          ("GET".toList, "/a".toList, some 3)]).router.Match m path)
      ∧ (isLiteral "/a/b".toList → r'.Match "GET".toList "/a/b".toList = .ret (some 1) [] []) :=
  ⟨by decide, by decide,
    duplicate_rejected [("GET".toList, "/a/b".toList, some 1),
        ("GET".toList, "/a".toList, some 3)]
      (by decide) "GET".toList "/a/b".toList 1 (by decide) (some 4) (fun _ => rfl)⟩

/-- C6 as stated fails: `/a/b` is registered on `GET` of a fresh router with a
non-nil slice; a further registration of `/a/b` on `GET` with the nil slice
returns instead of panicking. -/
theorem nil_chain_duplicate_accepted :
    (New.AddSeq [("GET".toList, "/a/b".toList, some 1)]).isOk = true
    ∧ ((New.AddSeq [("GET".toList, "/a/b".toList, some 1)]).router.Add "GET".toList
        "/a/b".toList Option.none).isOk = true := by
  decide


/-! ## Node splits and the parent references -/

/-- C7 at its failing input: on a fresh router `/abc`, `/abcd` and `/ab` are
registered on `GET` (the third call splits the node `abc`, which has the child
`d`), then `/abcde` is registered and named `n`.  Every call returns, and
`URLFor("n")` is `/abde`, not `/abcde`: the child `d` that the split moved
under the new node `c` still has the shortened node `ab` as its parent, so the
render template built by walking the parents misses the `c`. -/
theorem urlFor_after_split_drops_segment :
    (New.AddSeq [("GET".toList, "/abc".toList, some 1), ("GET".toList, "/abcd".toList, some 2),
        ("GET".toList, "/ab".toList, some 3)]).isOk = true
    ∧ ((New.AddSeq [("GET".toList, "/abc".toList, some 1),
          ("GET".toList, "/abcd".toList, some 2),
          ("GET".toList, "/ab".toList, some 3)]).router.Add "GET".toList "/abcde".toList
            (some 4)).isOk = true
    ∧ (((New.AddSeq [("GET".toList, "/abc".toList, some 1),
          ("GET".toList, "/abcd".toList, some 2),
          ("GET".toList, "/ab".toList, some 3)]).router.Add "GET".toList "/abcde".toList
            (some 4)).router.Name
          ((New.AddSeq [("GET".toList, "/abc".toList, some 1),
            ("GET".toList, "/abcd".toList, some 2),
            ("GET".toList, "/ab".toList, some 3)]).router.Add "GET".toList "/abcde".toList
              (some 4)).val "n".toList).URLFor "n".toList []
        = some "/abde".toList := by
  decide!

/-- C8 at its failing input: on a fresh router `/abc`, `/abcd` and `/ab` are
registered on `GET`; the third call splits the node `abc`, which has the child
`d`.  Every call returns, and the list `Routes()` gives for `GET` is `/ab`,
`/abc`, `/abd`: the registered `/abcd` is missing and `/abd`, which was never
registered, is listed, because the child `d` that the split moved under the
new node `c` still has the shortened node `ab` as its parent. -/
theorem routes_after_split_misspell :
    (New.AddSeq [("GET".toList, "/abc".toList, some 1), ("GET".toList, "/abcd".toList, some 2),
        ("GET".toList, "/ab".toList, some 3)]).isOk = true
    ∧ (New.AddSeq [("GET".toList, "/abc".toList, some 1),
          ("GET".toList, "/abcd".toList, some 2),
          ("GET".toList, "/ab".toList, some 3)]).router.Routes.1.head?
        = some ("GET".toList, ["/ab".toList, "/abc".toList, "/abd".toList]) := by
  decide!


/-! ## Groups -/

/-- One literal pattern added to a fresh root: the call returns, and `Get` on
the pattern returns the handler slice it was added with. -/
theorem newRoot_Add_literal [Engine] (a : Nat) (cs : Str) (h nn : Option Nat) (f : Nat)
    (hlit : isLiteral cs) :
    ∃ t' ret, (newRoot a).Add ('/' :: cs) h nn f = .node t' ret
      ∧ ∀ names : Nat → Str, (∀ k, names k = []) →
          t'.Get ('/' :: cs) names = .ret h [] [] := by
  rw [newRoot_eq, Tree.Add_mk]
  simp only [matchedLen_slash, List.length_cons, List.length_nil, Nat.zero_add, if_true,
    one_ne_zero, if_false, List.drop_succ_cons, List.drop_zero]
  cases cs with
  | nil =>
    simp only [List.length_nil, Nat.zero_add, if_true]
    cases h with
    | none =>
      refine ⟨_, _, rfl, ?_⟩
      intro names _
      rw [Tree.Get_static _ _ _ rfl]
      simp [matchedLen_slash, getDynamic_nil]
    | some v =>
      refine ⟨_, _, rfl, ?_⟩
      intro names hn
      rw [Tree.Get_static _ _ _ rfl]
      simp [matchedLen_slash, nameOf_nil names hn]
  | cons b r =>
    rw [if_neg (by simp), Tree.addList_nil]
    simp only
    rw [addChild_literal _ _ hlit (by simp)]
    refine ⟨_, _, rfl, ?_⟩
    intro names hn
    rw [Tree.Get_static _ _ _ rfl]
    simp only [Tree.d_mk, Tree.schildren_mk, Tree.rchildren_mk, matchedLen_slash,
      List.length_cons, List.length_nil, Nat.zero_add, ne_eq, not_true_eq_false, if_false,
      List.drop_succ_cons, List.drop_zero, List.nil_append]
    rw [if_neg (by simp), Tree.getFirst_cons, if_pos (staticLeaf_alpha b r _ _ _ _ _)]
    have hleaf : (staticLeaf (b :: r) h nn a (f + 2) []).Get (b :: r) names = .ret h [] [] := by
      unfold staticLeaf
      rw [Tree.Get_static _ _ _ rfl]
      have hm : matchedLen (b :: r) (b :: r) = (b :: r).length := by
        have := matchedLen_self_append (b :: r) []
        rw [List.append_nil] at this
        exact this
      simp only [hm, ne_eq, not_true_eq_false, if_false, true_and, List.drop_length]
      cases h with
      | none => simp [getDynamic_nil]
      | some v => simp [nameOf_nil names hn]
    rw [hleaf]
    cases h with
    | none => simp [getDynamic_nil]
    | some v => rfl

theorem foldl_group_pattern (G : List group) : ∀ init : Str,
    G.foldl (fun acc g => acc ++ g.pattern) init = init ++ (G.map (fun g => g.pattern)).flatten := by
  induction G with
  | nil => intro init; simp
  | cons g gs ih => intro init; simp [ih]

theorem foldl_group_handlers (r : Router) (G : List group) : ∀ init : List HandlerFunc,
    G.foldl (fun acc g =>
        if 0 < (r.chain g.handlers).length then acc ++ r.chain g.handlers else acc) init
      = init ++ (G.map (fun g => r.chain g.handlers)).flatten := by
  induction G with
  | nil => intro init; simp
  | cons g gs ih =>
    intro init
    simp only [List.foldl_cons, List.map_cons, List.flatten_cons, ih]
    by_cases hpos : 0 < (r.chain g.handlers).length
    · rw [if_pos hpos, List.append_assoc]
    · rw [if_neg hpos]
      have : r.chain g.handlers = [] := List.length_eq_zero.1 (by omega)
      rw [this, List.nil_append]

/-- Nested `GroupAdd` calls around a callback that returns with the group
stack as it found it: the callback runs with the groups pushed, outermost
first, and the stack is popped back afterwards. -/
theorem Router.nested_ok (body : Router → Out Unit) :
    ∀ (gs : List (Str × Option Nat)) (r r1 : Router),
    body { r with groups := r.groups ++ gs.map (fun g => ⟨g.1, g.2⟩) } = .ok r1 () →
    r1.groups = r.groups ++ gs.map (fun g => ⟨g.1, g.2⟩) →
    Router.nested gs body r = .ok { r1 with groups := r.groups } () := by
  intro gs
  induction gs with
  | nil =>
    intro r r1 hb hg
    simp only [List.map_nil, List.append_nil] at hb hg
    rw [Router.nested, hb, ← hg]
  | cons g gs ih =>
    intro r r1 hb hg
    have hb' : body { ({ r with groups := r.groups ++ [⟨g.1, g.2⟩] } : Router) with
        groups := (r.groups ++ [⟨g.1, g.2⟩]) ++ gs.map (fun g => ⟨g.1, g.2⟩) } = .ok r1 () := by
      simp only [List.append_assoc, List.singleton_append]
      exact hb
    have := ih { r with groups := r.groups ++ [⟨g.1, g.2⟩] } r1 hb'
      (by simp only [List.append_assoc, List.singleton_append]; exact hg)
    rw [Router.nested, Router.GroupAdd, this]
    simp

theorem getD_modify_map (S : List (List HandlerFunc)) (i : Nat) :
    (S.modify (fun l => l.map WrapHandlerFunc) i).getD i []
      = (S.getD i []).map WrapHandlerFunc := by
  rw [List.getD_eq_getElem?_getD, List.getD_eq_getElem?_getD, List.getElem?_modify_eq]
  cases S[i]? <;> rfl

theorem modify_append_last (S : List (List HandlerFunc)) (a : List HandlerFunc) :
    (S ++ [a]).modify (fun l => l.map WrapHandlerFunc) S.length
      = S ++ [a.map WrapHandlerFunc] := by
  induction S with
  | nil => rfl
  | cons x xs ih => simp [List.modify_succ_cons, ih]

/-- One call of `add` with a group open, where `Tree.Add` accepts the
effective pattern: the handler slices of the groups and of the call are
concatenated into a new slice, which is registered. -/
theorem Router.add_ingroup [Engine] (r : Router) (hg : r.groups ≠ []) (method : Str) (idx : Nat)
    (hm : RouterMethods method = some idx) (pattern : Str) (h : Option Nat) (cs : Str)
    (hP : (r.groups.map (fun g => g.pattern)).flatten ++ pattern = '/' :: cs)
    (t' : Tree) (ret : Nat)
    (ht : (r.tree idx).Add ('/' :: cs)
        (if (r.groups.map (fun g => r.chain g.handlers)).flatten ++ r.chain h = []
          then Option.none else some r.slices.length)
        (some r.nodeStore.length) r.nextAddr = .node t' ret) :
    ∃ r1, r.add method pattern h = .ok r1 r.nodeStore.length
      ∧ r1.groups = r.groups ∧ r1.nodes = r.nodes.set idx t'
      ∧ r1.slices =
          (if (r.groups.map (fun g => r.chain g.handlers)).flatten ++ r.chain h = []
            then r.slices
            else r.slices ++ [((r.groups.map (fun g => r.chain g.handlers)).flatten
              ++ r.chain h).map WrapHandlerFunc])
      ∧ (∃ nd, r1.nodeStore = r.nodeStore ++ [nd] ∧ nd.name = []) := by
  have hpos : 0 < r.groups.length := List.length_pos.2 hg
  unfold Router.add
  rw [hm]
  simp only [hpos, if_true, true_and, foldl_group_pattern, foldl_group_handlers,
    List.nil_append, hP, ne_eq, not_true_eq_false, if_false]
  by_cases hA : (r.groups.map (fun g => r.chain g.handlers)).flatten ++ r.chain h = []
  · simp only [hA, if_true, not_true_eq_false, if_false] at ht ⊢
    rw [ht]
    exact ⟨_, rfl, rfl, rfl, rfl, _, rfl, rfl⟩
  · simp only [hA, if_false, not_false_eq_true, if_true] at ht ⊢
    rw [ht]
    refine ⟨_, rfl, rfl, rfl, ?_, _, rfl, rfl⟩
    exact modify_append_last _ _

/-- One call of `add` on a fresh router with the groups `G` open, for a
literal effective pattern. -/
theorem Router.add_fresh_groups [Engine] (S : List (List HandlerFunc)) (G : List group)
    (method : Str) (idx : Nat) (hm : RouterMethods method = some idx) (pattern : Str)
    (h : Option Nat) (cs : Str)
    (hP : (G.map (fun g => g.pattern)).flatten ++ pattern = '/' :: cs) (hlit : isLiteral cs) :
    ∃ r1 n res, ({ New.withSlices S with groups := G } : Router).add method pattern h = .ok r1 n
      ∧ r1.groups = G
      ∧ r1.Match method ('/' :: cs) = .ret res [] []
      ∧ r1.chain res = ((G.map (fun g => (New.withSlices S).chain g.handlers)).flatten
          ++ (New.withSlices S).chain h).map WrapHandlerFunc := by
  have hidx := RouterMethods_lt method idx hm
  have hlen : idx < New.nodes.length := by simpa [New] using hidx
  have hnames : ∀ (R : Router), (∀ nd ∈ R.nodeStore, nd.name = []) → ∀ k, R.nameAt k = [] :=
    fun R hR => Router.nameAt_nil R hR
  by_cases hG : G = []
  · subst hG
    simp only [List.map_nil, List.flatten_nil, List.nil_append] at hP ⊢
    subst hP
    have hadd := Router.add_nogroup ({ New.withSlices S with groups := [] } : Router) rfl
      method idx hm cs h
    obtain ⟨t', ret, ht, hget⟩ := newRoot_Add_literal idx cs h (some 0) New.nextAddr hlit
    have htree : ({ New.withSlices S with groups := [] } : Router).tree idx = newRoot idx :=
      New_tree idx hidx
    rw [htree] at hadd
    have ht' : (newRoot idx).Add ('/' :: cs) h
        (some ({ New.withSlices S with groups := [] } : Router).nodeStore.length)
        ({ New.withSlices S with groups := [] } : Router).nextAddr = .node t' ret := ht
    rw [ht'] at hadd
    refine ⟨_, _, h, hadd, rfl, ?_, ?_⟩
    · rw [Router.Match_eq _ method idx hm, Router.tree_set New idx t' hlen _ rfl _ rfl]
      apply hget
      apply hnames
      intro nd hnd
      simp only [New, Router.withSlices, List.nil_append, List.mem_singleton] at hnd
      rw [hnd]
    · cases h with
      | none => rfl
      | some i => exact getD_modify_map S i
  · obtain ⟨t', ret, ht, hget⟩ := newRoot_Add_literal idx cs
      (if (G.map (fun g => (New.withSlices S).chain g.handlers)).flatten
          ++ (New.withSlices S).chain h = [] then Option.none else some S.length)
      (some 0) New.nextAddr hlit
    obtain ⟨r1, hadd, g1, g2, g3, nd, g4, g5⟩ :=
      Router.add_ingroup ({ New.withSlices S with groups := G } : Router) hG method idx hm
        pattern h cs hP t' ret
        (by rw [show ({ New.withSlices S with groups := G } : Router).tree idx = newRoot idx
              from New_tree idx hidx]
            exact ht)
    refine ⟨r1, _, (if (G.map (fun g => (New.withSlices S).chain g.handlers)).flatten
          ++ (New.withSlices S).chain h = [] then Option.none else some S.length),
      hadd, g1, ?_, ?_⟩
    · rw [Router.Match_eq _ method idx hm, Router.tree_set New idx t' hlen _ rfl r1 g2]
      apply hget
      apply hnames
      intro x hx
      rw [g4] at hx
      simp only [New, Router.withSlices, List.nil_append, List.mem_singleton] at hx
      rw [hx]
      exact g5
    · have hch : ∀ o, ({ New.withSlices S with groups := G } : Router).chain o
          = (New.withSlices S).chain o := fun _ => rfl
      simp only [hch] at g3
      by_cases hA : (G.map (fun g => (New.withSlices S).chain g.handlers)).flatten
          ++ (New.withSlices S).chain h = []
      · rw [if_pos hA, hA]
        rfl
      · rw [if_neg hA]
        show r1.slices.getD S.length [] = _
        rw [g3, if_neg hA]
        show (S ++ [_]).getD S.length [] = _
        rw [List.getD_eq_getElem?_getD, List.getElem?_append_right (le_refl _)]
        simp

/-- Nested groups around one `Add` of a literal concatenated pattern on a fresh
router to which the handler slices `S` were allocated: every call returns with
the group stack empty again, and `Match` on the concatenated pattern returns a
slice whose elements are those of `c_1 ++ ... ++ c_n ++ h`, in that order,
each passed through `WrapHandlerFunc`. -/
theorem Router.nested_literal [Engine] (S : List (List HandlerFunc)) (gs : List (Str × Option Nat))
    (method : Str) (idx : Nat) (hm : RouterMethods method = some idx) (pattern : Str)
    (h : Option Nat) (hlit : isLiteral ((gs.map Prod.fst).flatten ++ pattern))
    (hhead : ((gs.map Prod.fst).flatten ++ pattern).head? = some '/') :
    ∃ r' res, Router.nested gs (Router.addUnit method pattern h) (New.withSlices S) = .ok r' ()
      ∧ r'.groups = []
      ∧ r'.Match method ((gs.map Prod.fst).flatten ++ pattern) = .ret res [] []
      ∧ r'.chain res = ((gs.map (fun g => (New.withSlices S).chain g.2)).flatten
          ++ (New.withSlices S).chain h).map WrapHandlerFunc := by
  obtain ⟨cs, hcs⟩ : ∃ cs, (gs.map Prod.fst).flatten ++ pattern = '/' :: cs := by
    cases hp : (gs.map Prod.fst).flatten ++ pattern with
    | nil => rw [hp] at hhead; cases hhead
    | cons c cs =>
      rw [hp] at hhead
      simp only [List.head?_cons, Option.some.injEq] at hhead
      exact ⟨cs, by rw [hhead]⟩
  have hcs' : ((gs.map (fun g => (⟨g.1, g.2⟩ : group))).map (fun g => g.pattern)).flatten
      ++ pattern = '/' :: cs := by
    rw [List.map_map]
    exact hcs
  obtain ⟨r1, n, res, hadd, g1, g2, g3⟩ :=
    Router.add_fresh_groups S (gs.map (fun g => ⟨g.1, g.2⟩)) method idx hm pattern h cs hcs'
      ((isLiteral_cons _ _).1 (hcs ▸ hlit)).2
  have hbody : Router.addUnit method pattern h
      { New.withSlices S with
        groups := (New.withSlices S).groups ++ gs.map (fun g => ⟨g.1, g.2⟩) } = .ok r1 () := by
    unfold Router.addUnit
    rw [Router.Add_plain _ rfl rfl]
    have : ((New.withSlices S).groups ++ gs.map (fun g => (⟨g.1, g.2⟩ : group)))
        = gs.map (fun g => ⟨g.1, g.2⟩) := rfl
    rw [this, hadd]
  refine ⟨_, res, Router.nested_ok _ gs (New.withSlices S) r1 hbody g1, rfl, ?_, ?_⟩
  · rw [hcs]
    exact g2
  · rw [List.map_map] at g3
    exact g3

/-- Nested `GroupAdd` calls around a callback that panics: the panic goes
through, with the router as the callback left it. -/
theorem Router.nested_panic (body : Router → Out Unit) :
    ∀ (gs : List (Str × Option Nat)) (r r1 : Router) (f : Fault),
    body { r with groups := r.groups ++ gs.map (fun g => ⟨g.1, g.2⟩) } = .panic f r1 →
    Router.nested gs body r = .panic f r1 := by
  intro gs
  induction gs with
  | nil =>
    intro r r1 f hb
    simp only [List.map_nil, List.append_nil] at hb
    rw [Router.nested, hb]
  | cons g gs ih =>
    intro r r1 f hb
    have hb' : body { ({ r with groups := r.groups ++ [⟨g.1, g.2⟩] } : Router) with
        groups := (r.groups ++ [⟨g.1, g.2⟩]) ++ gs.map (fun g => ⟨g.1, g.2⟩) } = .panic f r1 := by
      simp only [List.append_assoc, List.singleton_append]
      exact hb
    have := ih { r with groups := r.groups ++ [⟨g.1, g.2⟩] } r1 f hb'
    rw [Router.nested, Router.GroupAdd, this]

/-- `add` with groups open against `add` of the concatenated pattern with the
concatenated chain on the same router with no group open: they return
together, with the same router up to the group stack, and panic together. -/
theorem Router.add_grouped [Engine] (r : Router) (hg : r.groups = []) (G : List group) (hG : G ≠ [])
    (method pattern : Str) (h : Option Nat) :
    match (if (G.map (fun g => r.chain g.handlers)).flatten ++ r.chain h = [] then r
            else { r with slices := r.slices
              ++ [(G.map (fun g => r.chain g.handlers)).flatten ++ r.chain h] }).add method
          ((G.map (fun g => g.pattern)).flatten ++ pattern)
          (if (G.map (fun g => r.chain g.handlers)).flatten ++ r.chain h = [] then Option.none
            else some r.slices.length) with
    | .ok r' n => ({ r with groups := G } : Router).add method pattern h
        = .ok { r' with groups := G } n
    | .panic f _ => ∃ r'', ({ r with groups := G } : Router).add method pattern h
        = .panic f r'' := by
  have hpos : 0 < G.length := List.length_pos.2 hG
  have hch : ∀ o, ({ r with groups := G } : Router).chain o = r.chain o := fun _ => rfl
  by_cases hA : (G.map (fun g => r.chain g.handlers)).flatten ++ r.chain h = []
  · rw [if_pos hA, if_pos hA]
    unfold Router.add
    cases RouterMethods method with
    | none => exact ⟨_, rfl⟩
    | some idx =>
      simp only [hpos, hg, List.length_nil, Nat.lt_irrefl, if_true, if_false, true_and,
        false_and, foldl_group_pattern, foldl_group_handlers, List.nil_append, hch, hA,
        ne_eq, not_true_eq_false]
      cases hP : (G.map (fun g => g.pattern)).flatten ++ pattern with
      | nil => exact ⟨_, rfl⟩
      | cons c cs =>
        simp only
        by_cases hc : c = '/'
        · simp only [hc, ne_eq, not_true_eq_false, if_false, Router.tree]
          cases (r.nodes.getD idx Tree.nilTree).Add ('/' :: cs) Option.none
            (some r.nodeStore.length) r.nextAddr with
          | none => exact ⟨_, rfl⟩
          | panic f t' => exact ⟨_, rfl⟩
          | node t' ret => rfl
        · simp only [hc, ne_eq, not_false_eq_true, if_true]
          exact ⟨_, rfl⟩
  · rw [if_neg hA, if_neg hA]
    unfold Router.add
    cases RouterMethods method with
    | none => exact ⟨_, rfl⟩
    | some idx =>
      simp only [hpos, hg, List.length_nil, Nat.lt_irrefl, if_true, if_false, true_and,
        false_and, foldl_group_pattern, foldl_group_handlers, List.nil_append, hch, hA,
        ne_eq, not_false_eq_true]
      cases hP : (G.map (fun g => g.pattern)).flatten ++ pattern with
      | nil => exact ⟨_, rfl⟩
      | cons c cs =>
        simp only
        by_cases hc : c = '/'
        · simp only [hc, ne_eq, not_true_eq_false, if_false, Router.tree]
          cases (r.nodes.getD idx Tree.nilTree).Add ('/' :: cs) (some r.slices.length)
            (some r.nodeStore.length) r.nextAddr with
          | none => exact ⟨_, rfl⟩
          | panic f t' => exact ⟨_, rfl⟩
          | node t' ret => rfl
        · simp only [hc, ne_eq, not_false_eq_true, if_true]
          exact ⟨_, rfl⟩

/-- What nested `GroupAdd` calls around one `Add` do, against the registration
of the concatenated pattern with the concatenated chain outside any group. -/
theorem Router.nested_direct [Engine] (gs : List (Str × Option Nat)) (hne : gs ≠ [])
    (method pattern : Str) (h : Option Nat) (r : Router) (hg : r.groups = [])
    (h1 : r.autoHead = false) (h2 : r.autoTrailingSlash = false) (rd : Router)
    (hd : Option Nat)
    (hrd : (rd = r ∧ hd = Option.none ∧ r.groupChain gs h = [])
      ∨ (rd = r.withSlices (r.slices ++ [r.groupChain gs h]) ∧ hd = some r.slices.length
          ∧ r.groupChain gs h ≠ [])) :
    match rd.Add method ((gs.map Prod.fst).flatten ++ pattern) hd with
    | .ok r' _ => Router.nested gs (Router.addUnit method pattern h) r = .ok r' ()
    | .panic f _ => ∃ r'', Router.nested gs (Router.addUnit method pattern h) r
        = .panic f r'' := by
  have hG : gs.map (fun g => (⟨g.1, g.2⟩ : group)) ≠ [] := by
    intro e
    exact hne (List.map_eq_nil_iff.1 e)
  have key := Router.add_grouped r hg (gs.map (fun g => ⟨g.1, g.2⟩)) hG method pattern h
  simp only [List.map_map] at key
  have e1 : (gs.map ((fun g : group => r.chain g.handlers) ∘ fun g => ⟨g.1, g.2⟩)).flatten
      ++ r.chain h = r.groupChain gs h := rfl
  have e2 : (gs.map ((fun g : group => g.pattern) ∘ fun g => ⟨g.1, g.2⟩)).flatten
      = (gs.map Prod.fst).flatten := rfl
  rw [e1, e2] at key
  have hin : ∀ (x : Out Nat),
      ({ r with groups := gs.map (fun g => (⟨g.1, g.2⟩ : group)) } : Router).add method pattern h
        = x →
      Router.addUnit method pattern h
        { r with groups := r.groups ++ gs.map (fun g => ⟨g.1, g.2⟩) }
        = match x with
          | .ok r' _ => .ok r' ()
          | .panic f r' => .panic f r' := by
    intro x hx
    unfold Router.addUnit
    rw [Router.Add_plain ({ r with groups := r.groups ++ gs.map (fun g => ⟨g.1, g.2⟩) } : Router)
      h1 h2, hg, List.nil_append, hx]
  have hrdA : rd.Add method ((gs.map Prod.fst).flatten ++ pattern) hd
      = (if r.groupChain gs h = [] then r
          else { r with slices := r.slices ++ [r.groupChain gs h] }).add method
          ((gs.map Prod.fst).flatten ++ pattern)
          (if r.groupChain gs h = [] then Option.none else some r.slices.length) := by
    rcases hrd with ⟨hr1, hr2, hc⟩ | ⟨hr1, hr2, hc⟩
    · rw [hr1, hr2, if_pos hc, if_pos hc, Router.Add_plain r h1 h2]
    · rw [hr1, hr2, if_neg hc, if_neg hc,
        Router.Add_plain (r.withSlices (r.slices ++ [r.groupChain gs h])) h1 h2]
      rfl
  have hgr : ∀ r' n, (if r.groupChain gs h = [] then r
          else { r with slices := r.slices ++ [r.groupChain gs h] }).add method
          ((gs.map Prod.fst).flatten ++ pattern)
          (if r.groupChain gs h = [] then Option.none else some r.slices.length) = .ok r' n →
      r'.groups = [] := by
    intro r' n hok
    have hg' : (if r.groupChain gs h = [] then r
          else { r with slices := r.slices ++ [r.groupChain gs h] }).groups = [] := by
      split
      · exact hg
      · exact hg
    obtain ⟨idx, cs, hm, hp⟩ := Router.add_ok_shape _ hg' method _ _ r' n hok
    rw [hp, Router.add_nogroup _ hg' method idx hm cs] at hok
    split at hok
    · cases hok
    · cases hok
    · simp only [Out.ok.injEq] at hok
      rw [← hok.1]
      exact hg'
  rw [hrdA]
  cases hx : (if r.groupChain gs h = [] then r
          else { r with slices := r.slices ++ [r.groupChain gs h] }).add method
          ((gs.map Prod.fst).flatten ++ pattern)
          (if r.groupChain gs h = [] then Option.none else some r.slices.length) with
  | ok r' n =>
    rw [hx] at key
    simp only at key ⊢
    have hb := hin _ key
    simp only at hb
    have := Router.nested_ok _ gs r _ hb (by rw [hg]; rfl)
    rw [this, hg]
    have hr' := hgr r' n hx
    cases r' with
    | mk a b g nodes nn ns sl na =>
      simp only at hr'
      subst hr'
      rfl
  | panic f r' =>
    rw [hx] at key
    simp only at key ⊢
    obtain ⟨r'', hk⟩ := key
    have hb := hin _ hk
    simp only at hb
    exact ⟨r'', Router.nested_panic _ gs r r'' f hb⟩

/-- C9 as stated fails: on a fresh router `GroupAdd("/api", [mw])` contains
`Add("GET", "/:id(int)", [h])`.  The calls return; `Match` on the concatenated
pattern `/api/:id(int)` returns no handler, while `Match` on `/api/7` returns
the chain `[mw, h]` and binds `id`. -/
theorem grouped_int_pattern_not_matched :
    (Router.nested [("/api".toList, some 0)]
        (Router.addUnit "GET".toList "/:id(int)".toList (some 1))
        (New.withSlices [[.fn 1], [.fn 2]])).isOk = true
    ∧ (Router.nested [("/api".toList, some 0)]
        (Router.addUnit "GET".toList "/:id(int)".toList (some 1))
        (New.withSlices [[.fn 1], [.fn 2]])).router.Match "GET".toList "/api/:id(int)".toList
        = .ret Option.none [] []
    ∧ (Router.nested [("/api".toList, some 0)]
        (Router.addUnit "GET".toList "/:id(int)".toList (some 1))
        (New.withSlices [[.fn 1], [.fn 2]])).router.Match "GET".toList "/api/7".toList
        = .ret (some 2) [] [("id".toList, "7".toList)]
    ∧ (Router.nested [("/api".toList, some 0)]
        (Router.addUnit "GET".toList "/:id(int)".toList (some 1))
        (New.withSlices [[.fn 1], [.fn 2]])).router.chain (some 2)
        = [.wrapped (.fn 1), .wrapped (.fn 2)] := by
  decide!

/-- C9 (amended): groups concatenate outer-to-inner, for every host engine.
`GroupAdd` calls are nested with prefixes `g_1..g_n` and handler slices
`c_1..c_n`, outermost first, and the innermost callback makes one call
`Add(method, pattern, h)`, whatever the pattern (literal, with parameters or
wildcards).

First part: on every router with no group open and both options off, with
`n > 0`, the nested calls do what the registration of the pattern
`g_1 ++ ... ++ g_n ++ pattern` with the chain `c_1 ++ ... ++ c_n ++ h` does
outside any group (the chain in a slice the caller allocates next, or the nil
slice where the chain is empty): where that registration returns, the nested
calls return the same router (tries, route nodes, names and handler slices),
so that `Match` resolves every path alike; where it panics, they panic with
the same fault.

Second part: on a fresh router to which the handler slices `S` were allocated
(`n` may be 0), where the method is recognized and the concatenated pattern is
literal and begins with `/`, every call returns with the group stack empty
again, and `Match` on the concatenated pattern returns a slice whose elements
are those of `c_1 ++ ... ++ c_n ++ h`, in that order, each passed through
`WrapHandlerFunc`. -/
theorem groups_concatenate [Engine] (gs : List (Str × Option Nat)) (method pattern : Str)
    (h : Option Nat) :
    (∀ r : Router, r.groups = [] → r.autoHead = false → r.autoTrailingSlash = false →
      gs ≠ [] →
      (r.groupChain gs h ≠ [] →
        match (r.withSlices (r.slices ++ [r.groupChain gs h])).Add method
            ((gs.map Prod.fst).flatten ++ pattern) (some r.slices.length) with
        | .ok r' _ => Router.nested gs (Router.addUnit method pattern h) r = .ok r' ()
        | .panic f _ => ∃ r'', Router.nested gs (Router.addUnit method pattern h) r
            = .panic f r'')
      ∧ (r.groupChain gs h = [] →
        match r.Add method ((gs.map Prod.fst).flatten ++ pattern) Option.none with
        | .ok r' _ => Router.nested gs (Router.addUnit method pattern h) r = .ok r' ()
        | .panic f _ => ∃ r'', Router.nested gs (Router.addUnit method pattern h) r
            = .panic f r''))
    ∧ (∀ (S : List (List HandlerFunc)) (idx : Nat), RouterMethods method = some idx →
      isLiteral ((gs.map Prod.fst).flatten ++ pattern) →
      ((gs.map Prod.fst).flatten ++ pattern).head? = some '/' →
      ∃ r' res, Router.nested gs (Router.addUnit method pattern h) (New.withSlices S) = .ok r' ()
        ∧ r'.groups = []
        ∧ r'.Match method ((gs.map Prod.fst).flatten ++ pattern) = .ret res [] []
        ∧ r'.chain res = ((New.withSlices S).groupChain gs h).map WrapHandlerFunc) := by
  refine ⟨?_, ?_⟩
  · intro r hg h1 h2 hne
    exact ⟨fun hc => Router.nested_direct gs hne method pattern h r hg h1 h2 _ _
        (Or.inr ⟨rfl, rfl, hc⟩),
      fun hc => Router.nested_direct gs hne method pattern h r hg h1 h2 _ _
        (Or.inl ⟨rfl, rfl, hc⟩)⟩
  · intro S idx hm hlit hhead
    exact Router.nested_literal S gs method idx hm pattern h hlit hhead

/-- C9 (amended) at two instances.  `GroupAdd("/api", [mw1])` containing
`Add("GET", "/:id(int)", [h])` on a fresh router against `Add("GET",
"/api/:id(int)", [mw1, h])`; and the nesting `GroupAdd("/api", [mw1])`,
`GroupAdd("/v1", [mw2])`, `Add("GET", "/ping", [h])`, after which
`GET /api/v1/ping` resolves to the three handlers in that order. -/
theorem groups_concatenate_witness :
    (New.withSlices [[.fn 1], [.fn 2]]).groups = []
    ∧ (New.withSlices [[.fn 1], [.fn 2]]).groupChain [("/api".toList, some 0)] (some 1)
        = [.fn 1, .fn 2]
    ∧ (match ((New.withSlices [[.fn 1], [.fn 2]]).withSlices
          ((New.withSlices [[.fn 1], [.fn 2]]).slices
            ++ [(New.withSlices [[.fn 1], [.fn 2]]).groupChain [("/api".toList, some 0)]
              (some 1)])).Add "GET".toList
          ((([("/api".toList, some 0)] : List (Str × Option Nat)).map Prod.fst).flatten
            ++ "/:id(int)".toList)
          (some (New.withSlices [[.fn 1], [.fn 2]]).slices.length) with
        | .ok r' _ => Router.nested [("/api".toList, some 0)]
            (Router.addUnit "GET".toList "/:id(int)".toList (some 1))
            (New.withSlices [[.fn 1], [.fn 2]]) = .ok r' ()
        | .panic f _ => ∃ r'', Router.nested [("/api".toList, some 0)]
            (Router.addUnit "GET".toList "/:id(int)".toList (some 1))
            (New.withSlices [[.fn 1], [.fn 2]]) = .panic f r'')
    ∧ (New.withSlices [[.fn 1], [.fn 2], [.fn 3]]).groupChain
        [("/api".toList, some 0), ("/v1".toList, some 1)] (some 2) = [.fn 1, .fn 2, .fn 3]
    ∧ ((([("/api".toList, some 0), ("/v1".toList, some 1)] :
        List (Str × Option Nat)).map Prod.fst).flatten ++ "/ping".toList)
        = "/api/v1/ping".toList
    ∧ ∃ r' res, Router.nested [("/api".toList, some 0), ("/v1".toList, some 1)]
          (Router.addUnit "GET".toList "/ping".toList (some 2))
          (New.withSlices [[.fn 1], [.fn 2], [.fn 3]]) = .ok r' ()
      ∧ r'.groups = []
      ∧ r'.Match "GET".toList ((([("/api".toList, some 0), ("/v1".toList, some 1)] :
          List (Str × Option Nat)).map Prod.fst).flatten ++ "/ping".toList) = .ret res [] []
      ∧ r'.chain res = ((New.withSlices [[.fn 1], [.fn 2], [.fn 3]]).groupChain
          [("/api".toList, some 0), ("/v1".toList, some 1)] (some 2)).map WrapHandlerFunc :=
  ⟨rfl, by decide,
    ((groups_concatenate [("/api".toList, some 0)] "GET".toList "/:id(int)".toList
      (some 1)).1 (New.withSlices [[.fn 1], [.fn 2]]) rfl rfl rfl (by decide)).1 (by decide),
    by decide, by decide,
    (groups_concatenate [("/api".toList, some 0), ("/v1".toList, some 1)] "GET".toList
      "/ping".toList (some 2)).2 [[.fn 1], [.fn 2], [.fn 3]] 0 rfl (by decide) (by decide)⟩


/-! ## The trailing-slash option -/

/-- The two options are carried through `add` untouched. -/
theorem Router.add_flags [Engine] (r : Router) (a b : Bool) (method pattern : Str) (h : Option Nat) :
    ({ r with autoHead := a, autoTrailingSlash := b } : Router).add method pattern h
      = match r.add method pattern h with
        | .ok r' n => .ok { r' with autoHead := a, autoTrailingSlash := b } n
        | .panic f r' => .panic f { r' with autoHead := a, autoTrailingSlash := b } := by
  unfold Router.add
  cases RouterMethods method with
  | none => rfl
  | some idx =>
    simp only
    split
    · rfl
    · split
      · rfl
      · rename_i c cs hc
        simp only [Router.tree, Router.chain]
        split <;> rfl

theorem toggleSlash_facts (P : Str) (hlit : isLiteral P) (hhead : P.head? = some '/')
    (hlen : 1 < P.length) :
    isLiteral (toggleSlash P) ∧ (toggleSlash P).head? = some '/' ∧ toggleSlash P ≠ P := by
  unfold toggleSlash
  by_cases hl : P.getLast? = some '/'
  · rw [if_pos hl]
    refine ⟨?_, ?_, ?_⟩
    · intro c hc
      exact hlit c (List.dropLast_subset P hc)
    · cases P with
      | nil => simp at hlen
      | cons a t =>
        cases t with
        | nil => simp at hlen
        | cons b t' =>
          simp only [List.head?_cons, Option.some.injEq] at hhead
          simp [List.dropLast, hhead]
    · intro e
      have := congrArg List.length e
      simp only [List.length_dropLast] at this
      omega
  · rw [if_neg hl]
    refine ⟨?_, ?_, ?_⟩
    · exact (isLiteral_append _ _).2 ⟨hlit, by decide⟩
    · cases P with
      | nil => simp at hlen
      | cons a t => simpa using hhead
    · intro e
      have := congrArg List.length e
      simp at this

/-- C10: with `autoTrailingSlash` enabled, a route and its trailing-slash twin
resolve alike.  On a fresh router with the option set, with no group open,
`Add(method, P, h)` for a recognized method, a literal pattern `P` of length
greater than 1 that begins with `/` and a non-nil slice `h` returns, and
afterwards `Match` returns `h` both on `P` and on its twin (`P` without its
final `/` if it ends in `/`, otherwise `P` followed by `/`).  The statement
holds for every host engine: literal routes never reach it. -/
theorem trailing_slash_twin [Engine] (method : Str) (idx : Nat)
    (hm : RouterMethods method = some idx) (P : Str) (h : Nat) (hlit : isLiteral P)
    (hhead : P.head? = some '/') (hlen : 1 < P.length) :
    ∃ r n, (New.SetAutoTrailingSlash true).Add method P (some h) = .ok r n
      ∧ r.Match method P = .ret (some h) [] []
      ∧ r.Match method (toggleSlash P) = .ret (some h) [] [] := by
  have hidx := RouterMethods_lt method idx hm
  obtain ⟨q1, q2, q3⟩ := toggleSlash_facts P hlit hhead hlen
  obtain ⟨r1, n1, hadd1, hpl1, htab1⟩ := Router.Add_literal_step New method idx hm
    (New_plain idx hidx) (toggleSlash P) h q1 q2
    (by rw [New_tree idx hidx]; exact newRoot_locate idx _)
  obtain ⟨r2, n2, hadd2, hpl2, htab2⟩ := Router.Add_literal_step r1 method idx hm hpl1 P h
    hlit hhead (by rw [htab1, if_neg (Ne.symm q3), New_tree idx hidx]
                   exact newRoot_locate idx _)
  rw [Router.Add_plain New rfl rfl] at hadd1
  rw [Router.Add_plain r1 hpl1.1 hpl1.2.1] at hadd2
  have e1 : (New.SetAutoTrailingSlash true).add method (toggleSlash P) (some h)
      = .ok { r1 with autoHead := false, autoTrailingSlash := true } n1 := by
    have := Router.add_flags New false true method (toggleSlash P) (some h)
    rw [hadd1] at this
    exact this
  have e2 : ({ r1 with autoHead := false, autoTrailingSlash := true } : Router).add method P
      (some h) = .ok { r2 with autoHead := false, autoTrailingSlash := true } n2 := by
    have := Router.add_flags r1 false true method P (some h)
    rw [hadd2] at this
    exact this
  have hAdd : (New.SetAutoTrailingSlash true).Add method P (some h)
      = .ok { r2 with autoHead := false, autoTrailingSlash := true } n2 := by
    unfold Router.Add
    have hh : (New.SetAutoTrailingSlash true).autoHead = false := rfl
    have hs : (New.SetAutoTrailingSlash true).autoTrailingSlash = true := rfl
    simp only [hh, hs, Bool.false_eq_true, and_false, if_false, true_and, hlen, true_or, if_true]
    unfold toggleSlash at e1
    by_cases hl : P.getLast? = some '/'
    · rw [if_pos hl] at e1 ⊢
      rw [e1]
      exact e2
    · rw [if_neg hl] at e1 ⊢
      rw [e1]
      exact e2
  obtain ⟨i1, i2, i3, i4, i5, i6, i7, i8⟩ := hpl2
  have hM : ∀ path, ({ r2 with autoHead := false, autoTrailingSlash := true } : Router).Match
      method path = r2.Match method path := fun _ => rfl
  refine ⟨_, _, hAdd, ?_, ?_⟩
  · rw [hM, Router.Match_eq r2 method idx hm,
      Tree.Get_of_locate _ i5 P h r2.nameAt (by rw [htab2, if_pos rfl]),
      nameOf_nil _ (Router.nameAt_nil r2 i8)]
  · rw [hM, Router.Match_eq r2 method idx hm,
      Tree.Get_of_locate _ i5 (toggleSlash P) h r2.nameAt
        (by rw [htab2, if_neg q3, htab1, if_pos rfl]),
      nameOf_nil _ (Router.nameAt_nil r2 i8)]

/-- C10 at `/foo` on `GET`: `/foo` and `/foo/` resolve to the same slice. -/
theorem trailing_slash_twin_witness :
    RouterMethods "GET".toList = some 0 ∧ isLiteral "/foo".toList
    ∧ "/foo".toList.head? = some '/' ∧ 1 < "/foo".toList.length
    ∧ toggleSlash "/foo".toList = "/foo/".toList
    ∧ ∃ r n, (New.SetAutoTrailingSlash true).Add "GET".toList "/foo".toList (some 5) = .ok r n
      ∧ r.Match "GET".toList "/foo".toList = .ret (some 5) [] []
      ∧ r.Match "GET".toList (toggleSlash "/foo".toList) = .ret (some 5) [] [] :=
  ⟨rfl, by decide, by decide, by decide, by decide,
    trailing_slash_twin "GET".toList 0 rfl "/foo".toList 5 (by decide) (by decide)
      (by decide)⟩

/-- C11 at its failing input: `FOO` is no key of `baa.RouterMethods`; on a
fresh router `/a` is registered on `GET` with the slice 1, and
`Match("FOO", "/a")` returns that slice instead of no handler: the absent key
reads as index 0, the trie of `GET`. -/
theorem unknown_method_resolves_as_get :
    RouterMethods "FOO".toList = Option.none
    ∧ (New.AddSeq [("GET".toList, "/a".toList, some 1)]).isOk = true
    ∧ (New.AddSeq [("GET".toList, "/a".toList, some 1)]).router.Match "FOO".toList
        "/a".toList = .ret (some 1) [] [] := by
  decide!

/-- C18 at its failing input: on a fresh router `/:id` is registered on `GET`.
The first `Routes()` lists the route once; the call has appended the dynamic
children of the root to its static children, so the trie of `GET` is not the
one it was and a second `Routes()` lists the route twice. -/
theorem routes_call_changes_trie :
    (New.AddSeq [("GET".toList, "/:id".toList, some 1)]).isOk = true
    ∧ (New.AddSeq [("GET".toList, "/:id".toList, some 1)]).router.Routes.1.head?
        = some ("GET".toList, ["/([^\\/]+)".toList])
    ∧ (New.AddSeq [("GET".toList, "/:id".toList, some 1)]).router.Routes.2.Routes.1.head?
        = some ("GET".toList, ["/([^\\/]+)".toList, "/([^\\/]+)".toList])
    ∧ ((New.AddSeq [("GET".toList, "/:id".toList, some 1)]).router.Routes.2.tree 0).schildren
        ≠ ((New.AddSeq [("GET".toList, "/:id".toList, some 1)]).router.tree 0).schildren := by
  refine ⟨by decide!, by decide!, by decide!, ?_⟩
  intro h
  have := congrArg List.length h
  revert this
  decide!

/-- C19 at its failing input: on a fresh router `/:id?` is registered on
`GET`; its compiled expression `([^\/]+)?$` matches the empty remainder of the
path `/` with the capture group unset (offsets -1), and `Match("GET", "/")`
slices the path with them: a slice-bounds fault. -/
theorem match_unset_group_faults :
    (New.AddSeq [("GET".toList, "/:id?".toList, some 1)]).isOk = true
    ∧ (New.AddSeq [("GET".toList, "/:id?".toList, some 1)]).router.Match "GET".toList
        "/".toList = .panic .sliceBounds [] := by
  decide!

/-- C20 at its failing input: on a fresh router with `autoHead` and
`autoTrailingSlash` set, `Add("GET", "/foo", h)` returns; `Match("GET",
"/foo/")` returns `h` and `Match("HEAD", "/foo/")` returns no handler: the
trailing-slash twin is registered for `GET` only. -/
theorem head_misses_trailing_slash_twin :
    (((New.SetAutoHead true).SetAutoTrailingSlash true).Add "GET".toList "/foo".toList
        (some 1)).isOk = true
    ∧ (((New.SetAutoHead true).SetAutoTrailingSlash true).Add "GET".toList "/foo".toList
        (some 1)).router.Match "GET".toList "/foo/".toList = .ret (some 1) [] []
    ∧ (((New.SetAutoHead true).SetAutoTrailingSlash true).Add "GET".toList "/foo".toList
        (some 1)).router.Match "HEAD".toList "/foo/".toList = .ret Option.none [] [] := by
  decide!

theorem Tree.EveryList_iff (Qs : Option Nat → Option Nat → Prop) (Qd : Tree → Prop)
    (sc : List Tree) : Tree.EveryList Qs Qd sc ↔ ∀ c ∈ sc, c.Every Qs Qd := by
  induction sc with
  | nil => simp [Tree.EveryList]
  | cons c cs ih => simp [Tree.EveryList, ih]

theorem Tree.Every_mk (Qs : Option Nat → Option Nat → Prop) (Qd : Tree → Prop)
    (d : TreeFields) (sc rc : List Tree) :
    (Tree.mk d sc rc).Every Qs Qd
      ↔ Qs d.handlers d.nameNode ∧ (∀ c ∈ rc, Qd c) ∧ ∀ c ∈ sc, c.Every Qs Qd := by
  rw [Tree.Every, Tree.EveryList_iff]

theorem addChild_every [Engine] (Qs : Option Nat → Option Nat → Prop) (Qd : Tree → Prop)
    (h nn : Option Nat) (q0 : Qs Option.none Option.none) (q1 : Qs h nn)
    (q2 : ∀ D re par a, Qd (dynLeaf D re h nn par a))
    (t : Tree) (ht : t.Every Qs Qd) (p : Str) (hne : p ≠ []) (f : Nat) (t' : Tree) (ret : Nat)
    (hh : t.addChild p h nn f = .node t' ret) : t'.Every Qs Qd := by
  cases t with
  | mk d sc rc =>
    obtain ⟨e1, e2, e3⟩ := (Tree.Every_mk Qs Qd d sc rc).1 ht
    rcases literal_or_tok p with hl | ⟨S, c, rest, e, hS, hc⟩
    · rw [addChild_literal _ _ hl hne] at hh
      simp only [AddOut.node.injEq, Tree.d_mk, Tree.schildren_mk, Tree.rchildren_mk] at hh
      rw [← hh.1, Tree.Every_mk]
      refine ⟨e1, e2, ?_⟩
      intro x hx
      rcases List.mem_append.1 hx with hx | hx
      · exact e3 x hx
      · simp only [List.mem_singleton] at hx
        rw [hx]
        unfold staticLeaf
        rw [Tree.Every_mk]
        exact ⟨q1, by simp, by simp⟩
    · rw [e, addChild_dynamic _ S hS c rest hc] at hh
      cases hre : Engine.compile ((dynScan (c :: rest)).newPattern ++ "$".toList) with
      | error err => rw [hre] at hh; cases hh
      | ok re =>
        rw [hre] at hh
        simp only [Tree.d_mk, Tree.schildren_mk, Tree.rchildren_mk] at hh
        by_cases h1 : S ≠ []
        · rw [if_pos h1] at hh
          simp only [AddOut.node.injEq] at hh
          rw [← hh.1, Tree.Every_mk]
          refine ⟨e1, e2, ?_⟩
          intro x hx
          rcases List.mem_append.1 hx with hx | hx
          · exact e3 x hx
          · simp only [List.mem_singleton] at hx
            rw [hx]
            unfold staticLeaf
            rw [Tree.Every_mk]
            refine ⟨q0, ?_, by simp⟩
            intro y hy
            simp only [List.mem_singleton] at hy
            rw [hy]
            exact q2 _ _ _ _
        · rw [if_neg h1] at hh
          split at hh
          · cases hh
          · simp only [AddOut.node.injEq] at hh
            rw [← hh.1, Tree.Every_mk]
            refine ⟨e1, ?_, e3⟩
            intro y hy
            rcases List.mem_append.1 hy with hy | hy
            · exact e2 y hy
            · simp only [List.mem_singleton] at hy
              rw [hy]
              exact q2 _ _ _ _

/-- A property of every node that holds of the nodes `Add` creates is kept
by a successful `Add`. -/
theorem Tree.Add_every [Engine] (Qs : Option Nat → Option Nat → Prop) (Qd : Tree → Prop)
    (h nn : Option Nat) (q0 : Qs Option.none Option.none) (q1 : Qs h nn)
    (q2 : ∀ D re par a, Qd (dynLeaf D re h nn par a)) (t : Tree) :
    t.Every Qs Qd → ∀ (p : Str) (f : Nat) (t' : Tree) (ret : Nat),
    t.Add p h nn f = .node t' ret → t'.Every Qs Qd := by
  induction t using Tree.induct with
  | h d sc rc ih _ =>
    intro ht p f t' ret hh
    obtain ⟨e1, e2, e3⟩ := (Tree.Every_mk Qs Qd d sc rc).1 ht
    rw [Tree.Add_mk] at hh
    by_cases hm0 : matchedLen p d.pattern = 0
    · rw [if_pos hm0] at hh; cases hh
    rw [if_neg hm0] at hh
    by_cases h1 : matchedLen p d.pattern = d.pattern.length
    · rw [if_pos h1] at hh
      by_cases h2 : matchedLen p d.pattern = p.length
      · rw [if_pos h2] at hh
        by_cases h3 : h.isSome = true
        · rw [if_pos h3] at hh
          by_cases h4 : d.handlers.isSome = true
          · rw [if_pos h4] at hh; cases hh
          · rw [if_neg h4] at hh
            simp only [AddOut.node.injEq] at hh
            rw [← hh.1, Tree.Every_mk]
            exact ⟨q1, e2, e3⟩
        · rw [if_neg h3] at hh
          simp only [AddOut.node.injEq] at hh
          rw [← hh.1]
          exact ht
      · rw [if_neg h2] at hh
        cases hl : Tree.addList sc (p.drop (matchedLen p d.pattern)) h nn f with
        | node sc' r =>
          rw [hl] at hh
          simp only [AddOut.node.injEq] at hh
          obtain ⟨pre, c, c', post, rfl, rfl, hc, -⟩ := Tree.addList_eq_node _ _ _ _ _ _ _ hl
          rw [← hh.1, Tree.Every_mk]
          refine ⟨e1, e2, ?_⟩
          intro x hx
          simp only [List.mem_append, List.mem_cons] at hx
          rcases hx with hx | rfl | hx
          · exact e3 x (by simp [hx])
          · exact ih c (by simp) (e3 c (by simp)) _ _ _ _ hc
          · exact e3 x (by simp [hx])
        | panic e sc' => rw [hl] at hh; cases hh
        | none =>
          rw [hl] at hh
          exact addChild_every Qs Qd h nn q0 q1 q2 _ ht _
            (drop_matchedLen_ne_nil p d.pattern h2) f t' ret hh
    · rw [if_neg h1] at hh
      cases hn : NewTree (d.pattern.drop (matchedLen p d.pattern)) d.handlers f with
      | none => rw [hn] at hh; cases hh
      | some node0 =>
        rw [hn] at hh
        simp only at hh
        have hnode : ∀ dT, dT.handlers = node0.d.handlers → dT.nameNode = d.nameNode →
            (Tree.mk dT sc rc).Every Qs Qd := by
          intro dT hT1 hT2
          rw [Tree.Every_mk, hT1, hT2]
          have : node0.d.handlers = d.handlers := by
            cases hp : d.pattern.drop (matchedLen p d.pattern) with
            | nil => rw [hp] at hn; cases hn
            | cons x xs =>
              rw [hp, NewTree_cons] at hn
              simp only [Option.some.injEq] at hn
              rw [← hn]
              rfl
          rw [this]
          exact ⟨e1, e2, e3⟩
        by_cases h2 : matchedLen p d.pattern = p.length
        · rw [if_pos h2] at hh
          simp only [AddOut.node.injEq] at hh
          rw [← hh.1, Tree.Every_mk]
          refine ⟨q1, by simp, ?_⟩
          intro x hx
          simp only [List.mem_singleton] at hx
          rw [hx]
          exact hnode _ rfl rfl
        · rw [if_neg h2] at hh
          refine addChild_every Qs Qd h nn q0 q1 q2 _ ?_ _
            (drop_matchedLen_ne_nil p d.pattern h2) f t' ret hh
          rw [Tree.Every_mk]
          refine ⟨q0, by simp, ?_⟩
          intro x hx
          simp only [List.mem_singleton] at hx
          rw [hx]
          exact hnode _ rfl rfl

theorem Tree.Node.leaf {t x : Tree} (h : Tree.Node t x) (h1 : t.schildren = [])
    (h2 : t.rchildren = []) : x = t := by
  cases h with
  | self => rfl
  | static hc _ => rw [h1] at hc; cases hc
  | dynamic hc _ => rw [h2] at hc; cases hc

/-- In a trie obtained from a fresh root, the dynamic children are leaves
that are not static. -/
theorem Tree.Reach.dynLeaves [Engine] {t : Tree} (h : Tree.Reach t) :
    t.Every (fun _ _ => True)
      (fun x => x.d.static = false ∧ x.schildren = [] ∧ x.rchildren = []) := by
  induction h with
  | root a =>
    rw [newRoot_eq, Tree.Every_mk]
    exact ⟨trivial, by simp, by simp⟩
  | add _ hadd ih =>
    exact Tree.Add_every _ _ _ _ trivial trivial (fun _ _ _ _ => ⟨rfl, rfl, rfl⟩) _ ih _ _ _ _ hadd

theorem Tree.Node.shape {t x : Tree} (h : Tree.Node t x) :
    t.WF → t.Every (fun _ _ => True)
      (fun x => x.d.static = false ∧ x.schildren = [] ∧ x.rchildren = []) →
    x.WF ∨ (x.d.static = false ∧ x.schildren = [] ∧ x.rchildren = []) := by
  induction h with
  | self t => exact fun hw _ => Or.inl hw
  | @static t c x hc hn ih =>
    intro hw he
    cases t with
    | mk d sc rc =>
      exact ih (((Tree.WF_mk d sc rc).1 hw).2.2.2.1 c hc)
        (((Tree.Every_mk _ _ d sc rc).1 he).2.2 c hc)
  | @dynamic t c x hc hn ih =>
    intro _ he
    cases t with
    | mk d sc rc =>
      have hq := ((Tree.Every_mk _ _ d sc rc).1 he).2.1 c hc
      rw [Tree.Node.leaf hn hq.2.1 hq.2.2]
      exact Or.inr hq

/-- C16: dispatch-byte uniqueness is an invariant of insertion.  In every trie
obtained from a fresh root `/` by successful `Add` calls, with any patterns,
at every node: the segments of its static children start with pairwise
distinct bytes; every static child is a static node whose segment is
non-empty, starts with the child's dispatch byte and contains neither `:` nor
`*`; and the segment of the node itself, if it is static, contains neither
`:` nor `*`.  The statement holds for every host engine: the tries range over
all those the package builds with it. -/
theorem dispatch_bytes_unique [Engine] (t : Tree) (ht : Tree.Reach t) (x : Tree)
    (hx : Tree.Node t x) :
    (x.schildren.map (fun c => c.d.pattern.head?)).Nodup
    ∧ (∀ c ∈ x.schildren, c.d.static = true ∧ c.d.pattern ≠ []
        ∧ c.d.pattern.head? = some c.d.alpha ∧ isLiteral c.d.pattern)
    ∧ (x.d.static = true → isLiteral x.d.pattern) := by
  rcases Tree.Node.shape hx ht.wf.1 ht.dynLeaves with hw | ⟨h0, h1, h2⟩
  · cases x with
    | mk d sc rc =>
      obtain ⟨w1, w2, w3, w4, w5⟩ := (Tree.WF_mk d sc rc).1 hw
      simp only [Tree.schildren_mk, Tree.d_mk]
      have hkids : ∀ c ∈ sc, c.d.static = true ∧ c.d.pattern ≠ []
          ∧ c.d.pattern.head? = some c.d.alpha ∧ isLiteral c.d.pattern := by
        intro c hc
        have hcw := w4 c hc
        have hh := Tree.WF.head c hcw
        refine ⟨?_, ?_, hh, Tree.WF.literal c hcw⟩
        · cases c with
          | mk dc scc rcc => exact ((Tree.WF_mk dc scc rcc).1 hcw).1
        · intro e
          rw [e] at hh
          cases hh
      refine ⟨?_, hkids, fun _ => w3⟩
      have e : sc.map (fun c => c.d.pattern.head?) = (sc.map (fun c => c.d.alpha)).map some := by
        rw [List.map_map]
        apply List.map_congr_left
        intro c hc
        exact (hkids c hc).2.2.1
      rw [e]
      exact w5.map (Option.some_injective _)
  · rw [h1]
    refine ⟨by simp, by simp, ?_⟩
    intro hs
    rw [h0] at hs
    cases hs

/-- The tries of a router reached from a fresh one by successful
registrations are obtained from fresh roots by successful `Add` calls. -/
theorem Router.AddSeq_reach [Engine] : ∀ (seq : List (Str × Str × Option Nat)) (r : Router), r.Sound →
    (∀ idx, idx < RouteLength → Tree.Reach (r.tree idx)) → (r.AddSeq seq).isOk = true →
    ∀ idx, idx < RouteLength → Tree.Reach ((r.AddSeq seq).router.tree idx) := by
  intro seq
  induction seq with
  | nil => intro r _ h _; exact h
  | cons e rest ih =>
    intro r hs hr hok
    rw [Router.AddSeq] at hok ⊢
    cases hadd : r.Add e.1 e.2.1 e.2.2 with
    | panic f r1 =>
      rw [hadd] at hok
      cases hok
    | ok r1 n =>
      rw [hadd] at hok
      simp only at hok ⊢
      obtain ⟨idx0, ret, hm, hT, hother, hs'⟩ := Router.Add_sound_step r hs _ _ _ r1 n hadd
      apply ih r1 hs' _ hok
      intro idx hidx
      by_cases e0 : idx = idx0
      · rw [e0]
        exact Tree.Reach.add (hr idx0 (RouterMethods_lt _ idx0 hm)) hT
      · rw [hother idx e0]
        exact hr idx hidx

theorem New_reach [Engine] (idx : Nat) (h : idx < RouteLength) : Tree.Reach (New.tree idx) := by
  rw [New_tree idx h]
  exact Tree.Reach.root idx

/-- C16 at the root of the trie of `GET` after `/ab`, `/ac/:id` and `/b` were
registered. -/
theorem dispatch_bytes_unique_witness :
    Tree.Reach ((New.AddSeq [("GET".toList, "/ab".toList, some 1),
        ("GET".toList, "/ac/:id".toList, some 2),
        ("GET".toList, "/b".toList, some 3)]).router.tree 0)
    ∧ Tree.Node ((New.AddSeq [("GET".toList, "/ab".toList, some 1),
        ("GET".toList, "/ac/:id".toList, some 2),
        ("GET".toList, "/b".toList, some 3)]).router.tree 0)
        ((New.AddSeq [("GET".toList, "/ab".toList, some 1),
        ("GET".toList, "/ac/:id".toList, some 2),
        ("GET".toList, "/b".toList, some 3)]).router.tree 0)
    ∧ ((((New.AddSeq [("GET".toList, "/ab".toList, some 1),
        ("GET".toList, "/ac/:id".toList, some 2),
        ("GET".toList, "/b".toList, some 3)]).router.tree 0).schildren.map
          (fun c => c.d.pattern.head?)).Nodup
      ∧ (∀ c ∈ ((New.AddSeq [("GET".toList, "/ab".toList, some 1),
          ("GET".toList, "/ac/:id".toList, some 2),
          ("GET".toList, "/b".toList, some 3)]).router.tree 0).schildren,
          c.d.static = true ∧ c.d.pattern ≠ []
          ∧ c.d.pattern.head? = some c.d.alpha ∧ isLiteral c.d.pattern)
      ∧ (((New.AddSeq [("GET".toList, "/ab".toList, some 1),
          ("GET".toList, "/ac/:id".toList, some 2),
          ("GET".toList, "/b".toList, some 3)]).router.tree 0).d.static = true →
          isLiteral ((New.AddSeq [("GET".toList, "/ab".toList, some 1),
            ("GET".toList, "/ac/:id".toList, some 2),
            ("GET".toList, "/b".toList, some 3)]).router.tree 0).d.pattern)) :=
  ⟨Router.AddSeq_reach _ New New_sound New_reach (by decide!) 0 (by decide),
    Tree.Node.self _,
    dispatch_bytes_unique _
      (Router.AddSeq_reach _ New New_sound New_reach (by decide!) 0 (by decide)) _
      (Tree.Node.self _)⟩

theorem Router.add_unknown [Engine] (r : Router) (method pattern : Str) (h : Option Nat)
    (hm : RouterMethods method = Option.none) :
    r.add method pattern h = .panic .unsupportedMethod r := by
  unfold Router.add
  rw [hm]

/-- `add` panics on a pattern that, after the group prefixes, is empty or
does not begin with `/`; no trie and no route node is touched. -/
theorem Router.add_invalid [Engine] (r : Router) (method pattern : Str) (h : Option Nat)
    (hbad : (r.fullPattern pattern).head? ≠ some '/') :
    ∃ f r', r.add method pattern h = .panic f r' ∧ r'.nodes = r.nodes
      ∧ r'.nameNodes = r.nameNodes ∧ r'.nodeStore = r.nodeStore ∧ r'.groups = r.groups
      ∧ r'.autoHead = r.autoHead ∧ r'.autoTrailingSlash = r.autoTrailingSlash := by
  cases hm : RouterMethods method with
  | none => exact ⟨_, _, Router.add_unknown r method pattern h hm, rfl, rfl, rfl, rfl, rfl, rfl⟩
  | some idx =>
    unfold Router.add
    rw [hm]
    simp only [foldl_group_pattern, List.nil_append]
    have hp1 : (if 0 < r.groups.length then
        (r.groups.map (fun g => g.pattern)).flatten ++ pattern else pattern)
        = r.fullPattern pattern := by
      unfold Router.fullPattern
      by_cases hg : 0 < r.groups.length
      · rw [if_pos hg]
      · rw [if_neg hg]
        have : r.groups = [] := List.length_eq_zero.1 (by omega)
        rw [this]
        rfl
    rw [hp1]
    cases hfp : r.fullPattern pattern with
    | nil => exact ⟨_, _, rfl, rfl, rfl, rfl, rfl, rfl, rfl⟩
    | cons c cs =>
      rw [hfp] at hbad
      simp only [List.head?_cons, ne_eq, Option.some.injEq] at hbad
      simp only [ne_eq, hbad, not_false_eq_true, if_true]
      exact ⟨_, _, rfl, rfl, rfl, rfl, rfl, rfl, rfl⟩

theorem twin_head_bad (G pattern : Str) (hbad : (G ++ pattern).head? ≠ some '/')
    (hne : G ++ pattern ≠ []) :
    (G ++ pattern.dropLast).head? ≠ some '/' ∨ pattern.getLast? ≠ some '/' := by
  cases G with
  | cons g gs => left; simpa using hbad
  | nil =>
    simp only [List.nil_append] at hbad hne ⊢
    cases pattern with
    | nil => exact absurd rfl hne
    | cons c cs =>
      simp only [List.head?_cons, ne_eq, Option.some.injEq] at hbad
      cases cs with
      | nil => right; simpa using hbad
      | cons d ds => left; simpa [List.dropLast] using hbad

theorem twin_head_bad_append (G pattern : Str) (hbad : (G ++ pattern).head? ≠ some '/')
    (hne : G ++ pattern ≠ []) : (G ++ (pattern ++ "/".toList)).head? ≠ some '/' := by
  cases G with
  | cons g gs => simpa using hbad
  | nil =>
    simp only [List.nil_append] at hbad hne ⊢
    cases pattern with
    | nil => exact absurd rfl hne
    | cons c cs => simpa using hbad

/-- `Add` panics on a pattern that, after the group prefixes, is empty or
does not begin with `/`, and touches no trie and no route node; the case of an
empty pattern with `autoTrailingSlash` set and a group open is left out. -/
theorem Router.Add_invalid [Engine] (r : Router) (method pattern : Str) (h : Option Nat)
    (hbad : (r.fullPattern pattern).head? ≠ some '/')
    (hslip : r.autoTrailingSlash = true → r.groups ≠ [] → r.fullPattern pattern ≠ []) :
    ∃ f r', r.Add method pattern h = .panic f r' ∧ r'.nodes = r.nodes
      ∧ r'.nameNodes = r.nameNodes ∧ r'.nodeStore = r.nodeStore := by
  unfold Router.Add
  by_cases hH : method = "GET".toList ∧ r.autoHead = true
  · rw [if_pos hH]
    obtain ⟨f, r', e, e1, e2, e3, -⟩ := Router.add_invalid r "HEAD".toList pattern h hbad
    rw [e]
    exact ⟨f, r', rfl, e1, e2, e3⟩
  · rw [if_neg hH]
    simp only
    by_cases hT : r.autoTrailingSlash = true ∧ (1 < pattern.length ∨ 0 < r.groups.length)
    · rw [if_pos hT]
      have hne : r.fullPattern pattern ≠ [] := by
        by_cases hg : r.groups = []
        · rcases hT.2 with h1 | h1
          · intro e
            unfold Router.fullPattern at e
            have := congrArg List.length e
            simp only [List.length_append, List.length_nil] at this
            omega
          · rw [hg] at h1
            simp at h1
        · exact hslip hT.1 hg
      by_cases hl : pattern.getLast? = some '/'
      · rw [if_pos hl]
        have hb' : (r.fullPattern pattern.dropLast).head? ≠ some '/' := by
          rcases twin_head_bad _ pattern hbad hne with h1 | h1
          · exact h1
          · exact absurd hl h1
        obtain ⟨f, r', e, e1, e2, e3, -⟩ := Router.add_invalid r method _ h hb'
        rw [e]
        exact ⟨f, r', rfl, e1, e2, e3⟩
      · rw [if_neg hl]
        obtain ⟨f, r', e, e1, e2, e3, -⟩ := Router.add_invalid r method _ h
          (twin_head_bad_append _ pattern hbad hne)
        rw [e]
        exact ⟨f, r', rfl, e1, e2, e3⟩
    · rw [if_neg hT]
      obtain ⟨f, r', e, e1, e2, e3, -⟩ := Router.add_invalid r method pattern h hbad
      simp only
      rw [e]
      exact ⟨f, r', rfl, e1, e2, e3⟩

theorem Router.Add_unknown [Engine] (r : Router) (method pattern : Str) (h : Option Nat)
    (hm : RouterMethods method = Option.none) :
    r.Add method pattern h = .panic .unsupportedMethod r := by
  unfold Router.Add
  have hget : method ≠ "GET".toList := by
    intro e
    rw [e] at hm
    cases hm
  rw [if_neg (fun hc => hget hc.1)]
  simp only
  by_cases hT : r.autoTrailingSlash = true ∧ (1 < pattern.length ∨ 0 < r.groups.length)
  · rw [if_pos hT]
    by_cases hl : pattern.getLast? = some '/'
    · rw [if_pos hl, Router.add_unknown _ _ _ _ hm]
    · rw [if_neg hl, Router.add_unknown _ _ _ _ hm]
  · rw [if_neg hT]
    simp only
    rw [Router.add_unknown _ _ _ _ hm]

/-- A pattern that no registration of the sequence spells on the method keeps
the answer of the node where it is spelled. -/
theorem Router.AddSeq_other [Engine] : ∀ (seq : List (Str × Str × Option Nat)) (r : Router), r.Sound →
    (r.AddSeq seq).isOk = true → ∀ idx P,
    (∀ e ∈ seq, RouterMethods e.1 = some idx → e.2.1 ≠ P) →
    (Tree.view (((r.AddSeq seq).router.tree idx).locate P)).1
      = (Tree.view ((r.tree idx).locate P)).1 := by
  intro seq
  induction seq with
  | nil => intro r _ _ idx P _; rfl
  | cons e rest ih =>
    intro r hs hok idx P hno
    rw [Router.AddSeq] at hok ⊢
    cases hadd : r.Add e.1 e.2.1 e.2.2 with
    | panic f r1 =>
      rw [hadd] at hok
      cases hok
    | ok r1 n =>
      rw [hadd] at hok
      simp only at hok ⊢
      obtain ⟨idx0, ret, hm, hT, hother, hs'⟩ := Router.Add_sound_step r hs _ _ _ r1 n hadd
      rw [ih r1 hs' hok idx P (fun x hx => hno x (by simp [hx]))]
      by_cases e0 : idx = idx0
      · subst e0
        have hwf := hs.2.2.2.2.1 idx (RouterMethods_lt _ idx hm)
        exact (Tree.Add_post _ hwf _ _ _ _ _ _ hT).2.2.1 P
          (Ne.symm (hno e (by simp) hm))
      · rw [hother idx e0]

/-- C13, as amended: registration validates its input.  For every router
state and every call `Add(method, pattern, handlers)`: (1) where `method` is
no recognized HTTP method the call panics and leaves the router as it was;
(2) where the pattern after the prefixes of the open groups is empty or does
not begin with `/` the call panics and no trie, no named route and no route
node is changed (the case of an empty pattern with `autoTrailingSlash` set and
a group open is left out); (3) conversely, on a router reached from a fresh
one (both options off, no group open) by registrations that all returned, for
a recognized method and a literal pattern that begins with `/` and that no
earlier registration on the method spelled, the call returns.  The statement
holds for every host engine, whatever expressions it compiles and whatever it
matches. -/
theorem add_validates_input [Engine] (r : Router) (method pattern : Str) (h : Option Nat) :
    (RouterMethods method = Option.none →
      r.Add method pattern h = .panic .unsupportedMethod r)
    ∧ ((r.fullPattern pattern).head? ≠ some '/' →
        (r.autoTrailingSlash = true → r.groups ≠ [] → r.fullPattern pattern ≠ []) →
        ∃ f r', r.Add method pattern h = .panic f r' ∧ r'.nodes = r.nodes
          ∧ r'.nameNodes = r.nameNodes ∧ r'.nodeStore = r.nodeStore)
    ∧ (∀ (seq : List (Str × Str × Option Nat)) (idx : Nat),
        (New.AddSeq seq).isOk = true → r = (New.AddSeq seq).router →
        RouterMethods method = some idx → isLiteral pattern → pattern.head? = some '/' →
        (∀ e ∈ seq, RouterMethods e.1 = some idx → e.2.1 ≠ pattern) →
        ∃ r' n, r.Add method pattern h = .ok r' n) := by
  refine ⟨Router.Add_unknown r method pattern h, Router.Add_invalid r method pattern h, ?_⟩
  intro seq idx hok hr hm hlit hhead hfresh
  subst hr
  have hidx := RouterMethods_lt method idx hm
  obtain ⟨b1, -⟩ := Router.AddSeq_facts seq New New_sound hok
  have hreach := Router.AddSeq_reach seq New New_sound New_reach hok idx hidx
  obtain ⟨hwf, halpha⟩ := hreach.wf
  have hview := Router.AddSeq_other seq New New_sound hok idx pattern hfresh
  rw [New_tree idx hidx] at hview
  cases pattern with
  | nil => cases hhead
  | cons c cs =>
    simp only [List.head?_cons, Option.some.injEq] at hhead
    subst hhead
    have hm0 : matchedLen ('/' :: cs) ((New.AddSeq seq).router.tree idx).d.pattern ≠ 0 := by
      have hh := Tree.WF.head _ hwf
      rw [halpha] at hh
      cases hp : ((New.AddSeq seq).router.tree idx).d.pattern with
      | nil => rw [hp] at hh; cases hh
      | cons y ys =>
        rw [hp] at hh
        simp only [List.head?_cons, Option.some.injEq] at hh
        rw [hh, matchedLen_cons, if_pos rfl]
        omega
    obtain ⟨t', ret, hadd⟩ := Tree.Add_succ _ hwf ('/' :: cs) h
      (some (New.AddSeq seq).router.nodeStore.length) (New.AddSeq seq).router.nextAddr hlit hm0
      (Or.inl (by rw [hview]; exact newRoot_locate idx _))
    rw [Router.Add_plain _ b1.1 b1.2.1, Router.add_nogroup _ b1.2.2.1 method idx hm, hadd]
    exact ⟨_, _, rfl⟩

/-- C13, as amended, at three calls: an unknown method and a pattern without
the leading `/` on a fresh router, and `/b` on `GET` after `/a`. -/
theorem add_validates_input_witness :
    New.Add "FOO".toList "/a".toList (some 1) = .panic .unsupportedMethod New
    ∧ (∃ f r', New.Add "GET".toList "a".toList (some 1) = .panic f r' ∧ r'.nodes = New.nodes
        ∧ r'.nameNodes = New.nameNodes ∧ r'.nodeStore = New.nodeStore)
    ∧ ∃ r' n, (New.AddSeq [("GET".toList, "/a".toList, some 1)]).router.Add "GET".toList
        "/b".toList (some 2) = .ok r' n :=
  ⟨(add_validates_input New "FOO".toList "/a".toList (some 1)).1 rfl,
    (add_validates_input New "GET".toList "a".toList (some 1)).2.1 (by decide)
      (fun hc => by cases hc),
    (add_validates_input _ "GET".toList "/b".toList (some 2)).2.2
      [("GET".toList, "/a".toList, some 1)] 0 (by decide!) rfl rfl (by decide) (by decide)
      (by decide)⟩

/-- C13 as stated fails: on a fresh router with `autoHead` set, `/x` is
registered on `HEAD`; `/x` is not registered on `GET` (`Match` finds nothing
there), `GET` is a recognized method and `/x` a literal pattern that begins
with `/`, and `Add("GET", "/x", h)` panics: it first registers the pattern on
`HEAD`, where it exists. -/
theorem add_unregistered_literal_panics :
    ((New.SetAutoHead true).Add "HEAD".toList "/x".toList (some 1)).isOk = true
    ∧ ((New.SetAutoHead true).Add "HEAD".toList "/x".toList (some 1)).router.Match
        "GET".toList "/x".toList = .ret Option.none [] []
    ∧ RouterMethods "GET".toList = some 0 ∧ isLiteral "/x".toList
    ∧ (((New.SetAutoHead true).Add "HEAD".toList "/x".toList (some 1)).router.Add
        "GET".toList "/x".toList (some 2)).isOk = false := by
  decide!

theorem Compile_wild : Regexp.Compile ("(^.*)".toList ++ "$".toList) = .ok ⟨wildRe, 1⟩ := by
  rfl

theorem Re.run_any_eq_cls :
    (fun s => Re.any.run s) = (fun s => (Re.cls true [.single '\n']).run s) := by
  funext s
  rw [Re.run, Re.run_cls]
  cases s.rest with
  | nil => rfl
  | cons d t =>
    simp only [classTest, ClassItem.test, List.any_cons, List.any_nil, Bool.or_false]
    by_cases hd : d = '\n'
    · simp [hd]
    · simp [hd]

/-- The expression of the wildcard, run at the start of a string without a
newline, matches the whole string and nothing else. -/
theorem mem_run_wild (r : Str) (hr : ∀ x ∈ r, x ≠ '\n') (s : MState) :
    s ∈ wildRe.run ⟨r, 0, []⟩ ↔ s = ⟨[], r.length, [(1, 0, r.length)]⟩ := by
  unfold wildRe
  rw [Re.run_cat]
  simp only [List.mem_flatMap, Re.run_cat_empty]
  have hgroup : ∀ s1, s1 ∈ (Re.group 1 (.cat .bol (.cat (.star true .any) .empty))).run
      ⟨r, 0, []⟩ ↔ ∃ v, r = v ++ s1.rest ∧ s1.pos = v.length ∧ s1.caps = [(1, 0, v.length)] := by
    intro s1
    have hbol : Re.bol.run ⟨r, 0, []⟩ = [⟨r, 0, []⟩] := by
      rw [Re.run]
      rfl
    have hstar : (Re.star true .any).run ⟨r, 0, []⟩
        = starM (fun s => (Re.cls true [.single '\n']).run s) r.length ⟨r, 0, []⟩ := by
      rw [Re.run, if_pos rfl, Re.run_any_eq_cls]
    have hinner : (Re.cat .bol (.cat (.star true .any) .empty)).run ⟨r, 0, []⟩
        = starM (fun s => (Re.cls true [.single '\n']).run s) r.length ⟨r, 0, []⟩ := by
      rw [Re.run_cat, hbol, List.flatMap_singleton, Re.run_cat_empty, hstar]
    rw [Re.run, hinner]
    simp only [List.mem_map]
    constructor
    · rintro ⟨a, ha, rfl⟩
      obtain ⟨v, h1, -, h3, h4⟩ := (mem_starM_cls true [.single '\n'] r.length ⟨r, 0, []⟩ a
        (le_refl _)).1 ha
      simp only [Nat.zero_add] at h1 h3 h4
      exact ⟨v, h1, h3, by rw [h3, h4]⟩
    · rintro ⟨v, h1, h3, h4⟩
      refine ⟨⟨s1.rest, s1.pos, []⟩, ?_, ?_⟩
      · apply (mem_starM_cls true [.single '\n'] r.length ⟨r, 0, []⟩ _ (le_refl _)).2
        refine ⟨v, h1, ?_, by simpa using h3, rfl⟩
        intro x hx
        have hxr : x ∈ r := by rw [h1]; exact List.mem_append_left _ hx
        have := hr x hxr
        simp [classTest, ClassItem.test, this]
      · cases s1 with
        | mk rest pos caps =>
          simp only at h3 h4 ⊢
          rw [h4, h3]
  constructor
  · rintro ⟨s1, hs1, hs⟩
    obtain ⟨v, h1, h3, h4⟩ := (hgroup s1).1 hs1
    rw [Re.run] at hs
    by_cases he : s1.rest = []
    · rw [if_pos he, List.mem_singleton] at hs
      rw [he, List.append_nil] at h1
      subst h1
      rw [hs]
      cases s1 with
      | mk rest pos caps =>
        simp only at he h3 h4
        rw [he, h3, h4]
    · rw [if_neg he] at hs
      cases hs
  · rintro rfl
    refine ⟨⟨[], r.length, [(1, 0, r.length)]⟩, (hgroup _).2 ⟨r, by simp, rfl, rfl⟩, ?_⟩
    rw [Re.run, if_pos rfl]
    exact List.mem_singleton.2 rfl

/-- What `Get` does at a node whose only dynamic child is the wildcard: the
whole remainder is bound to the unnamed parameter. -/
theorem getDynamic_wild (names : Nat → Str) (r : Str) (hr : ∀ x ∈ r, x ≠ '\n') (L : Tree)
    (hre : L.d.re = some ⟨wildRe, 1⟩) (hparams : L.d.params = [[]]) :
    getDynamic names r [L] = .ret L.d.handlers (nameOf names L.d.nameNode) [([], r)] := by
  have hrun : ∃ more, wildRe.run ⟨r, 0, []⟩ = ⟨[], r.length, [(1, 0, r.length)]⟩ :: more := by
    cases hl : wildRe.run ⟨r, 0, []⟩ with
    | nil =>
      have := (mem_run_wild r hr _).2 rfl
      rw [hl] at this
      cases this
    | cons s more =>
      have := (mem_run_wild r hr s).1 (by rw [hl]; exact List.mem_cons_self _ _)
      exact ⟨more, by rw [this]⟩
  obtain ⟨more, hrun⟩ := hrun
  have hfind : (⟨wildRe, 1⟩ : Regexp).FindStringSubmatchIndex r
      = [0, (r.length : Int), 0, (r.length : Int)] := by
    rw [find_of_run_cons ⟨wildRe, 1⟩ r _ more hrun]
    rfl
  rw [getDynamic_single, hre, hparams]
  simp only [Engine.find_embedded, hfind]
  have hs : goSlice r 0 (r.length : Int) = some r := by
    have := goSlice_mid [] r []
    simpa using this
  simp [bindParams, hs]

/-- Adding one pattern with a parameter or wildcard to a fresh root, where
its dynamic part compiles. -/
theorem Add_root_tok [Engine] (a : Nat) (S : Str) (c : Char) (rest : Str) (hS : isLiteral S)
    (hc : isTok c) (re : Regexp)
    (hre : Engine.compile ((dynScan (c :: rest)).newPattern ++ "$".toList) = .ok re)
    (h nn : Option Nat) (f : Nat) :
    (newRoot a).Add ('/' :: S ++ c :: rest) h nn f
      = .node (singleTrie a f S (fun par => dynLeaf (c :: rest) re h nn par (f + 1))) (f + 1) := by
  rw [newRoot_eq, Tree.Add_mk]
  simp only [List.cons_append, matchedLen_slash, List.length_cons, List.length_nil,
    Nat.zero_add, if_true, one_ne_zero, if_false, List.drop_succ_cons, List.drop_zero]
  rw [if_neg (by simp), Tree.addList_nil]
  simp only
  rw [addChild_dynamic _ S hS c rest hc, hre]
  simp only [Tree.d_mk, Tree.schildren_mk, Tree.rchildren_mk, List.nil_append]
  unfold singleTrie
  by_cases hSe : S = []
  · rw [if_neg (by simpa using hSe), if_pos hSe]
    simp
  · rw [if_pos hSe, if_neg hSe]

/-- A fresh router on which one pattern with a parameter or wildcard is
registered: the trie of the method, and the names `Match` reads. -/
theorem Router.Add_fresh_tok [Engine] (method : Str) (idx : Nat) (hm : RouterMethods method = some idx)
    (S : Str) (c : Char) (rest : Str) (hS : isLiteral S) (hc : isTok c) (re : Regexp)
    (hre : Engine.compile ((dynScan (c :: rest)).newPattern ++ "$".toList) = .ok re)
    (h : Option Nat) :
    ∃ rt k, New.Add method ('/' :: S ++ c :: rest) h = .ok rt k
      ∧ rt.Sound
      ∧ rt.tree idx = singleTrie idx New.nextAddr S
          (fun par => dynLeaf (c :: rest) re h (some 0) par (New.nextAddr + 1))
      ∧ ∀ k, rt.nameAt k = [] := by
  have hidx := RouterMethods_lt method idx hm
  have hadd := Router.add_nogroup New rfl method idx hm (S ++ c :: rest) h
  rw [New_tree idx hidx, ← List.cons_append,
    Add_root_tok idx S c rest hS hc re hre] at hadd
  have hAdd : New.Add method ('/' :: S ++ c :: rest) h = _ :=
    (Router.Add_plain New rfl rfl _ _ _).trans hadd
  obtain ⟨idx0, ret, hm0, hT, hother, hs'⟩ :=
    Router.Add_sound_step New New_sound method _ h _ _ hAdd
  have hlen : idx < New.nodes.length := by simpa [New] using hidx
  refine ⟨_, _, hAdd, hs', Router.tree_set New idx _ hlen _ rfl _ rfl, ?_⟩
  exact Router.nameAt_nil _ hs'.2.2.2.2.2

/-- C15, as amended: the wildcard captures the whole remainder, where the
remainder holds no newline byte.  On a fresh router the route `P ++ "*"`, for
a literal `P` that begins with `/`, is registered on a recognized method with
a non-nil slice; then for every string `r` without a newline (it may be empty
and may contain `/`), `Match` on `P ++ r` returns the slice and makes one
`setParam` call, with the empty name and the value `r`. -/
theorem wildcard_captures_remainder (method : Str) (idx : Nat)
    (hm : RouterMethods method = some idx) (P : Str) (hlit : isLiteral P)
    (hhead : P.head? = some '/') (r : Str) (hr : ∀ x ∈ r, x ≠ '\n') (h : Nat) :
    ∃ rt k, New.Add method (P ++ "*".toList) (some h) = .ok rt k
      ∧ rt.Match method (P ++ r) = .ret (some h) [] [([], r)] := by
  cases P with
  | nil => cases hhead
  | cons p0 S =>
    simp only [List.head?_cons, Option.some.injEq] at hhead
    subst hhead
    have hS : isLiteral S := ((isLiteral_cons _ _).1 hlit).2
    have hre : Regexp.Compile ((dynScan ('*' :: [])).newPattern ++ "$".toList)
        = .ok ⟨wildRe, 1⟩ := Compile_wild
    obtain ⟨rt, k, hadd, -, htree, hnames⟩ :=
      Router.Add_fresh_tok method idx hm S '*' [] hS (Or.inr rfl) _ hre (some h)
    refine ⟨rt, k, hadd, ?_⟩
    have hdyn : ∀ par, getDynamic rt.nameAt r
        [dynLeaf ('*' :: []) ⟨wildRe, 1⟩ (some h) (some 0) par (New.nextAddr + 1)]
        = .ret (some h) [] [([], r)] := by
      intro par
      rw [getDynamic_wild rt.nameAt r hr
        (dynLeaf ('*' :: []) ⟨wildRe, 1⟩ (some h) (some 0) par (New.nextAddr + 1)) rfl rfl]
      show GetOut.ret (some h) (rt.nameAt 0) _ = _
      rw [hnames 0]
    rw [Router.Match_eq rt method idx hm, htree]
    cases S with
    | nil =>
      rw [singleTrie_nil]
      show Tree.Get _ ('/' :: r) _ = _
      rw [Get_single_nil]
      exact hdyn idx
    | cons b s =>
      rw [singleTrie_cons, Get_single_cons, hdyn]

/-- C15, as amended, at `/files/*` and the path `/files/a/b`. -/
theorem wildcard_captures_remainder_witness :
    RouterMethods "GET".toList = some 0 ∧ isLiteral "/files/".toList
    ∧ "/files/".toList.head? = some '/' ∧ (∀ x ∈ "a/b".toList, x ≠ '\n')
    ∧ ∃ rt k, New.Add "GET".toList ("/files/".toList ++ "*".toList) (some 3) = .ok rt k
      ∧ rt.Match "GET".toList ("/files/".toList ++ "a/b".toList)
          = .ret (some 3) [] [([], "a/b".toList)] :=
  ⟨rfl, by decide, by decide, by decide,
    wildcard_captures_remainder "GET".toList 0 rfl "/files/".toList (by decide) (by decide)
      "a/b".toList (by decide) 3⟩

/-- C15 as stated fails: on a fresh router `/files/*` is registered on `GET`
with a non-nil slice, and `Match` on `/files/` followed by `a`, a newline and
`b` returns no handler and makes no `setParam` call: the `.` of the compiled
wildcard `(^.*)$` does not match a newline. -/
theorem wildcard_stops_at_newline :
    (New.Add "GET".toList "/files/*".toList (some 3)).isOk = true
    ∧ (New.Add "GET".toList "/files/*".toList (some 3)).router.Match "GET".toList
        ("/files/".toList ++ ['a', '\n', 'b']) = .ret Option.none [] [] := by
  decide!

theorem singleTrie_eq (a f : Nat) (S : Str) (L : Nat → Tree) :
    singleTrie a f S L = dynTrie a f S (fun par => [L par]) := rfl

theorem dynTrie_nil (a f : Nat) (rc : Nat → List Tree) :
    dynTrie a f [] rc
      = .mk ⟨true, '/', ['/'], Option.none, [], ['/'], Option.none, Option.none, Option.none, a⟩
          [] (rc a) := by
  unfold dynTrie
  rw [if_pos rfl]

theorem dynTrie_cons (a f : Nat) (b : Char) (s : Str) (rc : Nat → List Tree) :
    dynTrie a f (b :: s) rc
      = .mk ⟨true, '/', ['/'], Option.none, [], ['/'], Option.none, Option.none, Option.none, a⟩
          [staticLeaf (b :: s) Option.none Option.none a (f + 2) (rc (f + 2))] [] := by
  unfold dynTrie
  rw [if_neg (by simp)]

theorem Get_root_rc [Engine] (a : Nat) (rc : List Tree) (names : Nat → Str) (rem : Str) :
    (Tree.mk ⟨true, '/', ['/'], Option.none, [], ['/'], Option.none, Option.none, Option.none,
      a⟩ [] rc).Get ('/' :: rem) names = getDynamic names rem rc := by
  rw [Tree.Get_static _ _ _ rfl]
  simp only [matchedLen_slash, List.length_cons, List.length_nil, Nat.zero_add, ne_eq,
    not_true_eq_false, if_false, Option.isSome_none, Bool.false_eq_true, and_false,
    List.drop_succ_cons, List.drop_zero]
  cases rem with
  | nil => rfl
  | cons b r =>
    simp only [Tree.getFirst_nil]

theorem Get_leaf_rc [Engine] (S : Str) (par ad : Nat) (rc : List Tree) (names : Nat → Str) (rem : Str) :
    (staticLeaf S Option.none Option.none par ad rc).Get (S ++ rem) names
      = getDynamic names rem rc := by
  unfold staticLeaf
  rw [Tree.Get_static _ _ _ rfl]
  simp only [matchedLen_self_append, ne_eq, not_true_eq_false, if_false, Option.isSome_none,
    Bool.false_eq_true, and_false, List.drop_left]
  cases rem with
  | nil => rfl
  | cons b r =>
    simp only [Tree.getFirst_nil]

theorem Get_leaf_rc_other [Engine] (S : Str) (par ad : Nat) (rc : List Tree) (names : Nat → Str)
    (path : Str) (h : ¬ S <+: path) :
    (staticLeaf S Option.none Option.none par ad rc).Get path names
      = .ret Option.none [] [] := by
  unfold staticLeaf
  rw [Tree.Get_static _ _ _ rfl]
  have hm : matchedLen path S ≠ S.length := fun e => h ((matchedLen_eq_length_iff _ _).1 e)
  simp only [ne_eq, hm, not_false_eq_true, if_true]

theorem Get_root_leaf_rc [Engine] (a par ad : Nat) (b : Char) (s : Str) (rc : List Tree)
    (names : Nat → Str) (rem : Str) :
    (Tree.mk ⟨true, '/', ['/'], Option.none, [], ['/'], Option.none, Option.none, Option.none,
      a⟩ [staticLeaf (b :: s) Option.none Option.none par ad rc] []).Get
        ('/' :: (b :: s) ++ rem) names
      = match getDynamic names rem rc with
        | .panic e calls => .panic e calls
        | .ret (some h) name calls => .ret (some h) name calls
        | .ret Option.none _ calls => .ret Option.none [] (calls ++ []) := by
  rw [Tree.Get_static _ _ _ rfl]
  simp only [List.cons_append, matchedLen_slash, List.length_cons, List.length_nil,
    Nat.zero_add, ne_eq, not_true_eq_false, if_false, Option.isSome_none, Bool.false_eq_true,
    and_false, List.drop_succ_cons, List.drop_zero]
  rw [Tree.getFirst_cons, if_pos (staticLeaf_alpha b s _ _ _ _ _)]
  have := Get_leaf_rc (b :: s) par ad rc names rem
  simp only [List.cons_append] at this
  rw [this]
  cases getDynamic names rem rc with
  | panic e calls => rfl
  | ret h name calls =>
    cases h with
    | none => rfl
    | some v => rfl

theorem Get_root_leaf_rc_other [Engine] (a par ad : Nat) (b : Char) (s : Str) (rc : List Tree)
    (names : Nat → Str) (path : Str) (h : ∀ rem, path ≠ '/' :: (b :: s) ++ rem) :
    (Tree.mk ⟨true, '/', ['/'], Option.none, [], ['/'], Option.none, Option.none, Option.none,
      a⟩ [staticLeaf (b :: s) Option.none Option.none par ad rc] []).Get path names
      = .ret Option.none [] [] := by
  by_cases hsl : ∃ rem0, path = '/' :: rem0
  · obtain ⟨rem0, rfl⟩ := hsl
    have hnp : ¬ (b :: s) <+: rem0 := by
      rintro ⟨r, rfl⟩
      exact h r rfl
    rw [Tree.Get_static _ _ _ rfl]
    simp only [matchedLen_slash, List.length_cons, List.length_nil, Nat.zero_add, ne_eq,
      not_true_eq_false, if_false, Option.isSome_none, Bool.false_eq_true, and_false,
      List.drop_succ_cons, List.drop_zero]
    cases rem0 with
    | nil => rfl
    | cons c r0 =>
      simp only
      rw [Tree.getFirst_cons, Tree.getFirst_nil]
      by_cases hc : (staticLeaf (b :: s) Option.none Option.none par ad rc).d.alpha = c
      · rw [if_pos hc, Get_leaf_rc_other _ _ _ _ _ _ hnp]
        rfl
      · rw [if_neg hc]
        rfl
  · push_neg at hsl
    exact Get_root_other a _ _ names path hsl

/-- `Get` on a trie whose dynamic routes all sit at one node: a handler is
returned only on a path that continues the literal start, and it is the one
the loop over the dynamic children returns on the remainder. -/
theorem Get_dynTrie [Engine] (a f : Nat) (S : Str) (rc : Nat → List Tree) (names : Nat → Str)
    (path : Str) (h : Nat) (name : Str) (calls : List (Str × Str)) :
    (dynTrie a f S rc).Get path names = .ret (some h) name calls ↔
      ∃ rem, path = '/' :: S ++ rem
        ∧ getDynamic names rem (rc (if S = [] then a else f + 2)) = .ret (some h) name calls := by
  cases S with
  | nil =>
    rw [dynTrie_nil, if_pos rfl]
    constructor
    · intro hg
      by_cases hp : ∃ rem, path = '/' :: rem
      · obtain ⟨rem, rfl⟩ := hp
        rw [Get_root_rc] at hg
        exact ⟨rem, rfl, hg⟩
      · push_neg at hp
        rw [Get_root_other a _ _ names path hp] at hg
        cases hg
    · rintro ⟨rem, rfl, hg⟩
      rw [List.cons_append, List.nil_append, Get_root_rc]
      exact hg
  | cons b s =>
    rw [dynTrie_cons, if_neg (by simp)]
    constructor
    · intro hg
      by_cases hp : ∃ rem, path = '/' :: (b :: s) ++ rem
      · obtain ⟨rem, rfl⟩ := hp
        rw [Get_root_leaf_rc] at hg
        refine ⟨rem, rfl, ?_⟩
        cases hd : getDynamic names rem (rc (f + 2)) with
        | panic e c => rw [hd] at hg; cases hg
        | ret h' n' c' =>
          rw [hd] at hg
          cases h' with
          | none => cases hg
          | some v => exact hg
      · push_neg at hp
        rw [Get_root_leaf_rc_other a _ _ b s _ names path hp] at hg
        cases hg
    · rintro ⟨rem, rfl, hg⟩
      rw [Get_root_leaf_rc, hg]

theorem addChild_tok_node [Engine] (t : Tree) (c : Char) (rest : Str) (hc : isTok c) (re : Regexp)
    (hre : Engine.compile ((dynScan (c :: rest)).newPattern ++ "$".toList) = .ok re)
    (h nn : Option Nat) (f : Nat) (t' : Tree) (ret : Nat)
    (hadd : t.addChild (c :: rest) h nn f = .node t' ret) :
    t' = .mk t.d t.schildren (t.rchildren ++ [dynLeaf (c :: rest) re h nn t.d.addr (f + 1)])
      ∧ ret = f + 1 := by
  have := addChild_dynamic t [] isLiteral_nil c rest hc h nn f
  simp only [List.nil_append, hre, ne_eq, not_true_eq_false, if_false] at this
  rw [this] at hadd
  split at hadd
  · cases hadd
  · simp only [AddOut.node.injEq] at hadd
    exact ⟨hadd.1.symm, hadd.2.symm⟩

/-- One more pattern with a parameter or wildcard at the node where the
dynamic routes of the trie sit: its dynamic node goes to the end of the list
of dynamic children. -/
theorem Add_dynTrie_tok [Engine] (a f : Nat) (S : Str) (rc : Nat → List Tree) (c : Char) (rest : Str)
    (hc : isTok c) (re : Regexp)
    (hre : Engine.compile ((dynScan (c :: rest)).newPattern ++ "$".toList) = .ok re)
    (h nn : Option Nat) (f2 : Nat) (t' : Tree) (ret : Nat)
    (hadd : (dynTrie a f S rc).Add ('/' :: S ++ c :: rest) h nn f2 = .node t' ret) :
    t' = dynTrie a f S (fun par => rc par ++ [dynLeaf (c :: rest) re h nn par (f2 + 1)]) := by
  cases S with
  | nil =>
    rw [dynTrie_nil, Tree.Add_mk] at hadd
    simp only [List.cons_append, List.nil_append, matchedLen_slash, List.length_cons,
      List.length_nil, Nat.zero_add, if_true, one_ne_zero, if_false, List.drop_succ_cons,
      List.drop_zero] at hadd
    rw [if_neg (by simp), Tree.addList_nil] at hadd
    simp only at hadd
    rw [dynTrie_nil]
    exact (addChild_tok_node _ c rest hc re hre h nn f2 t' ret hadd).1
  | cons b s =>
    rw [dynTrie_cons, Tree.Add_mk] at hadd
    simp only [List.cons_append, matchedLen_slash, List.length_cons, List.length_nil,
      Nat.zero_add, if_true, one_ne_zero, if_false, List.drop_succ_cons, List.drop_zero] at hadd
    rw [if_neg (by simp), Tree.addList_cons] at hadd
    have hleaf : ∀ t2 r2, (staticLeaf (b :: s) Option.none Option.none a (f + 2)
        (rc (f + 2))).Add (b :: (s ++ c :: rest)) h nn f2 = .node t2 r2 →
        t2 = staticLeaf (b :: s) Option.none Option.none a (f + 2)
          (rc (f + 2) ++ [dynLeaf (c :: rest) re h nn (f + 2) (f2 + 1)]) := by
      intro t2 r2 hl
      unfold staticLeaf at hl
      rw [Tree.Add_mk] at hl
      have hm : matchedLen (b :: (s ++ c :: rest)) (b :: s) = (b :: s).length := by
        have := matchedLen_self_append (b :: s) (c :: rest)
        simpa using this
      simp only [hm, List.length_cons, Nat.succ_ne_zero, if_false, if_true] at hl
      rw [if_neg (by simp), Tree.addList_nil] at hl
      simp only [List.drop_succ_cons, List.drop_left] at hl
      exact (addChild_tok_node _ c rest hc re hre h nn f2 t2 r2 hl).1
    rw [dynTrie_cons]
    cases hl : (staticLeaf (b :: s) Option.none Option.none a (f + 2) (rc (f + 2))).Add
        (b :: (s ++ c :: rest)) h nn f2 with
    | node t2 r2 =>
      rw [hl] at hadd
      simp only [AddOut.node.injEq] at hadd
      rw [← hadd.1, hleaf t2 r2 hl]
    | panic e t2 =>
      rw [hl] at hadd
      cases hadd
    | none =>
      rw [Tree.Add_eq_none_iff] at hl
      simp [staticLeaf, matchedLen_cons] at hl

theorem getDynamic_first [Engine] (names : Nat → Str) (rem : Str) (L : Tree) (more : List Tree)
    (h : Nat) (name : Str) (calls : List (Str × Str))
    (hg : getDynamic names rem [L] = .ret (some h) name calls) :
    getDynamic names rem (L :: more) = .ret (some h) name calls := by
  rw [getDynamic] at hg ⊢
  split at hg
  · rw [getDynamic] at hg
    cases hg
  · rename_i hc
    rw [if_neg hc]
    exact hg

/-- Two patterns with a parameter or wildcard that start their dynamic part
at the same node, registered one after the other on a fresh router: the trie
of the method after the first and after the second registration. -/
theorem two_dynamic_tries [Engine] (method : Str) (S : Str) (c1 : Char) (rest1 : Str) (c2 : Char)
    (rest2 : Str) (hS : isLiteral S) (hc1 : isTok c1) (hc2 : isTok c2) (h1 h2 : Option Nat)
    (r1 r2 : Router) (k1 k2 : Nat)
    (hadd1 : New.Add method ('/' :: S ++ c1 :: rest1) h1 = .ok r1 k1)
    (hadd2 : r1.Add method ('/' :: S ++ c2 :: rest2) h2 = .ok r2 k2) :
    ∃ (idx : Nat) (L1 L2 : Nat → Tree), RouterMethods method = some idx
      ∧ (∀ par, (L1 par).d.handlers = h1) ∧ (∀ par, (L2 par).d.handlers = h2)
      ∧ r1.tree idx = dynTrie idx New.nextAddr S (fun par => [L1 par])
      ∧ r2.tree idx = dynTrie idx New.nextAddr S (fun par => [L1 par] ++ [L2 par])
      ∧ (∀ k, r1.nameAt k = []) ∧ (∀ k, r2.nameAt k = []) := by
  have hlit : isLiteral ('/' :: S) := (isLiteral_cons _ _).2 ⟨⟨by decide, by decide⟩, hS⟩
  obtain ⟨idx, ret1, hm, hT1, -, hs1⟩ := Router.Add_sound_step New New_sound method _ h1 r1 k1 hadd1
  have hidx := RouterMethods_lt method idx hm
  obtain ⟨re1, hre1, -⟩ := (Tree.Add_post _ (New_sound.2.2.2.2.1 idx hidx) _ _ _ _ _ _ hT1).2.2.2.2.2
    ('/' :: S) c1 rest1 rfl hlit hc1
  rw [New_tree idx hidx, Add_root_tok idx S c1 rest1 hS hc1 re1 hre1] at hT1
  simp only [AddOut.node.injEq] at hT1
  obtain ⟨idx', ret2, hm', hT2, -, hs2⟩ := Router.Add_sound_step r1 hs1 method _ h2 r2 k2 hadd2
  rw [hm] at hm'
  simp only [Option.some.injEq] at hm'
  subst hm'
  obtain ⟨re2, hre2, -⟩ := (Tree.Add_post _ (hs1.2.2.2.2.1 idx hidx) _ _ _ _ _ _ hT2).2.2.2.2.2
    ('/' :: S) c2 rest2 rfl hlit hc2
  rw [← hT1.1, singleTrie_eq] at hT2
  have ht2 := Add_dynTrie_tok idx New.nextAddr S _ c2 rest2 hc2 re2 hre2 h2 _ _ _ _ hT2
  exact ⟨idx,
    fun par => dynLeaf (c1 :: rest1) re1 h1 (some New.nodeStore.length) par (New.nextAddr + 1),
    fun par => dynLeaf (c2 :: rest2) re2 h2 (some r1.nodeStore.length) par (r1.nextAddr + 1),
    hm, fun _ => rfl, fun _ => rfl, by rw [← hT1.1, singleTrie_eq], ht2,
    Router.nameAt_nil _ hs1.2.2.2.2.2, Router.nameAt_nil _ hs2.2.2.2.2.2⟩

theorem Router.AddSeq_one [Engine] (r : Router) (e : Str × Str × Option Nat)
    (hok : (r.AddSeq [e]).isOk = true) :
    ∃ k, r.Add e.1 e.2.1 e.2.2 = .ok (r.AddSeq [e]).router k := by
  rw [Router.AddSeq] at hok ⊢
  cases hadd : r.Add e.1 e.2.1 e.2.2 with
  | panic f r1 => rw [hadd] at hok; cases hok
  | ok r1 n => exact ⟨n, rfl⟩

theorem Router.AddSeq_two [Engine] (r : Router) (e1 e2 : Str × Str × Option Nat)
    (hok : (r.AddSeq [e1, e2]).isOk = true) :
    (r.AddSeq [e1]).isOk = true
    ∧ ∃ k, (r.AddSeq [e1]).router.Add e2.1 e2.2.1 e2.2.2 = .ok (r.AddSeq [e1, e2]).router k := by
  rw [Router.AddSeq] at hok ⊢
  rw [Router.AddSeq]
  cases hadd : r.Add e1.1 e1.2.1 e1.2.2 with
  | panic f r1 => rw [hadd] at hok; cases hok
  | ok r1 n =>
    rw [hadd] at hok
    simp only at hok ⊢
    refine ⟨rfl, ?_⟩
    have := Router.AddSeq_one r1 e2 hok
    exact this

/-- C14, as amended: among dynamic routes at the same node the first
registered wins.  On a fresh router two patterns are registered on one method
with non-nil slices, one after the other, and both calls return; the patterns
share the literal start `P`, which begins with `/`, and each continues with a
parameter or wildcard.  Then on every path that the first route, registered
alone, resolves (its matcher accepts the remainder from offset 0 with one
capture group for each parameter), `Match` returns the same: the slice and
the `setParam` calls of the first route.  The statement holds for every host
engine, whatever expressions it compiles and however it reads the path (byte
by byte or character by character). -/
theorem first_dynamic_wins [Engine] (method P : Str) (c1 : Char) (rest1 : Str) (c2 : Char)
    (rest2 : Str) (h1 h2 : Nat) (hlit : isLiteral P) (hhead : P.head? = some '/')
    (hc1 : isTok c1) (hc2 : isTok c2)
    (hok : (New.AddSeq [(method, P ++ c1 :: rest1, some h1),
      (method, P ++ c2 :: rest2, some h2)]).isOk = true)
    (path name : Str) (calls : List (Str × Str))
    (hfirst : (New.AddSeq [(method, P ++ c1 :: rest1, some h1)]).router.Match method path
      = .ret (some h1) name calls) :
    (New.AddSeq [(method, P ++ c1 :: rest1, some h1),
      (method, P ++ c2 :: rest2, some h2)]).router.Match method path
      = .ret (some h1) name calls := by
  cases P with
  | nil => cases hhead
  | cons p0 S =>
    simp only [List.head?_cons, Option.some.injEq] at hhead
    subst hhead
    have hS : isLiteral S := ((isLiteral_cons _ _).1 hlit).2
    obtain ⟨hok1, k2, hadd2⟩ := Router.AddSeq_two New _ _ hok
    obtain ⟨k1, hadd1⟩ := Router.AddSeq_one New _ hok1
    obtain ⟨idx, L1, L2, hm, -, -, ht1, ht2, hn1, hn2⟩ :=
      two_dynamic_tries method S c1 rest1 c2 rest2 hS hc1 hc2 (some h1) (some h2) _ _ k1 k2
        hadd1 hadd2
    have e1 : (New.AddSeq [(method, '/' :: S ++ c1 :: rest1, some h1)]).router.nameAt
        = fun _ => [] := funext hn1
    have e2 : (New.AddSeq [(method, '/' :: S ++ c1 :: rest1, some h1),
        (method, '/' :: S ++ c2 :: rest2, some h2)]).router.nameAt = fun _ => [] := funext hn2
    rw [Router.Match_eq _ method idx hm, ht1, e1, Get_dynTrie] at hfirst
    obtain ⟨rem, hp, hg⟩ := hfirst
    rw [Router.Match_eq _ method idx hm, ht2, e2, Get_dynTrie]
    exact ⟨rem, hp, getDynamic_first _ rem _ _ h1 name calls hg⟩

/-- C14, as amended, at `/users/:id(int)` registered before `/users/:name`
and the path `/users/42`: `id` is bound, and the slice of the first route is
returned. -/
theorem first_dynamic_wins_witness :
    isLiteral "/users/".toList ∧ "/users/".toList.head? = some '/' ∧ isTok ':'
    ∧ (New.AddSeq [("GET".toList, "/users/".toList ++ ':' :: "id(int)".toList, some 1),
        ("GET".toList, "/users/".toList ++ ':' :: "name".toList, some 2)]).isOk = true
    ∧ (New.AddSeq [("GET".toList, "/users/".toList ++ ':' :: "id(int)".toList,
        some 1)]).router.Match "GET".toList "/users/42".toList
        = .ret (some 1) [] [("id".toList, "42".toList)]
    ∧ (New.AddSeq [("GET".toList, "/users/".toList ++ ':' :: "id(int)".toList, some 1),
        ("GET".toList, "/users/".toList ++ ':' :: "name".toList, some 2)]).router.Match
        "GET".toList "/users/42".toList = .ret (some 1) [] [("id".toList, "42".toList)] :=
  ⟨by decide, by decide, by decide, by decide!, by decide!,
    first_dynamic_wins "GET".toList "/users/".toList ':' "id(int)".toList ':' "name".toList 1 2
      (by decide) (by decide) (by decide) (by decide) (by decide!) "/users/42".toList []
      [("id".toList, "42".toList)] (by decide!)⟩

/-- C14 as stated fails: on a fresh router `/u/:id((a))` and then `/u/:name`
are registered on `GET`.  Both dynamic nodes sit under the node `u/`, with the
compiled expressions `((a))` and `([^\/]+)`; both expressions match the
remainder `a` of the path `/u/a` from offset 0, the first with two capture
groups for its one parameter.  `Match` returns the slice of the second route
and binds `name`. -/
theorem second_dynamic_wins_on_group_count :
    (New.AddSeq [("GET".toList, "/u/:id((a))".toList, some 1),
        ("GET".toList, "/u/:name".toList, some 2)]).isOk = true
    ∧ (((New.AddSeq [("GET".toList, "/u/:id((a))".toList, some 1),
        ("GET".toList, "/u/:name".toList, some 2)]).router.tree 0).schildren.map
          (fun x => (x.d.pattern, x.rchildren.map (fun y => y.d.pattern))))
        = [("u/".toList, ["((a))".toList, "([^\\/]+)".toList])]
    ∧ (((New.AddSeq [("GET".toList, "/u/:id((a))".toList, some 1),
        ("GET".toList, "/u/:name".toList, some 2)]).router.tree 0).schildren.map
          (fun x => x.rchildren.map (fun y =>
            y.d.re.map (fun re => re.FindStringSubmatchIndex "a".toList))))
        = [[some [0, 1, 0, 1, 0, 1], some [0, 1, 0, 1]]]
    ∧ (New.AddSeq [("GET".toList, "/u/:id((a))".toList, some 1),
        ("GET".toList, "/u/:name".toList, some 2)]).router.Match "GET".toList "/u/a".toList
        = .ret (some 2) [] [("name".toList, "a".toList)] := by
  decide!

theorem Tree.Every_mono (Qs Qs2 : Option Nat → Option Nat → Prop) (Qd Qd2 : Tree → Prop)
    (hs : ∀ a b, Qs a b → Qs2 a b) (hd : ∀ x, Qd x → Qd2 x) (t : Tree) :
    t.Every Qs Qd → t.Every Qs2 Qd2 := by
  induction t using Tree.induct with
  | h d sc rc ih _ =>
    intro ht
    obtain ⟨e1, e2, e3⟩ := (Tree.Every_mk Qs Qd d sc rc).1 ht
    rw [Tree.Every_mk]
    exact ⟨hs _ _ e1, fun c hc => hd c (e2 c hc), fun c hc => ih c hc (e3 c hc)⟩

theorem getDynamic_every [Engine] (Qs : Option Nat → Option Nat → Prop) (names : Nat → Str) (p : Str)
    (rc : List Tree) (hrc : ∀ c ∈ rc, Qs c.d.handlers c.d.nameNode) (h : Option Nat)
    (name : Str) (calls : List (Str × Str)) (hg : getDynamic names p rc = .ret h name calls) :
    (h = Option.none ∧ name = []) ∨ ∃ nn, Qs h nn ∧ name = nameOf names nn := by
  induction rc with
  | nil =>
    rw [getDynamic] at hg
    simp only [GetOut.ret.injEq] at hg
    exact Or.inl ⟨hg.1.symm, hg.2.1.symm⟩
  | cons c cs ih =>
    rw [getDynamic] at hg
    split at hg
    · exact ih (fun x hx => hrc x (by simp [hx])) hg
    · split at hg
      · simp only [GetOut.ret.injEq] at hg
        right
        refine ⟨c.d.nameNode, ?_, hg.2.1.symm⟩
        rw [← hg.1]
        exact hrc c (by simp)
      · cases hg

theorem Tree.getFirst_mem [Engine] (sc : List Tree) (b : Char) (q : Str) (names : Nat → Str)
    (o : GetOut) (hf : Tree.getFirst sc b q names = some o) :
    ∃ c ∈ sc, o = c.Get q names := by
  induction sc with
  | nil => rw [Tree.getFirst_nil] at hf; cases hf
  | cons c cs ihc =>
    rw [Tree.getFirst_cons] at hf
    by_cases hcb : c.d.alpha = b
    · rw [if_pos hcb] at hf
      simp only [Option.some.injEq] at hf
      exact ⟨c, by simp, hf.symm⟩
    · rw [if_neg hcb] at hf
      obtain ⟨x, hx, hxo⟩ := ihc hf
      exact ⟨x, by simp [hx], hxo⟩

/-- Whatever handler slice `Get` returns is the slice of a node of the trie,
and the name it returns is the name of the route node of that node. -/
theorem Tree.Get_every [Engine] (Qs : Option Nat → Option Nat → Prop) (names : Nat → Str) (t : Tree) :
    t.WF → t.Every Qs (fun x => Qs x.d.handlers x.d.nameNode) →
    ∀ (path : Str) (h : Nat) (name : Str) (calls : List (Str × Str)),
    t.Get path names = .ret (some h) name calls →
    ∃ nn, Qs (some h) nn ∧ name = nameOf names nn := by
  induction t using Tree.induct with
  | h d sc rc ih _ =>
    intro hwf hev path h name calls hg
    obtain ⟨w1, w2, w3, w4, w5⟩ := (Tree.WF_mk d sc rc).1 hwf
    obtain ⟨e1, e2, e3⟩ := (Tree.Every_mk _ _ d sc rc).1 hev
    have hdyn : ∀ p h name calls, getDynamic names p rc = .ret (some h) name calls →
        ∃ nn, Qs (some h) nn ∧ name = nameOf names nn := by
      intro p h name calls hd
      rcases getDynamic_every Qs names p rc e2 _ _ _ hd with ⟨hn, -⟩ | hx
      · cases hn
      · exact hx
    rw [Tree.Get_static d sc rc w1] at hg
    split at hg
    · cases hg
    · split at hg
      · rename_i hc
        simp only [GetOut.ret.injEq] at hg
        refine ⟨d.nameNode, ?_, hg.2.1.symm⟩
        rw [← hg.1]
        exact e1
      · split at hg
        · exact hdyn _ _ _ _ hg
        · rename_i b rest hdrop
          cases hf : Tree.getFirst sc b (b :: rest) names with
          | none =>
            rw [hf] at hg
            exact hdyn _ _ _ _ hg
          | some o =>
            rw [hf] at hg
            have hchild := Tree.getFirst_mem sc b (b :: rest) names o hf
            obtain ⟨c, hc, rfl⟩ := hchild
            cases hcg : c.Get (b :: rest) names with
            | panic f cl =>
              rw [hcg] at hg
              cases hg
            | ret h' n' c' =>
              rw [hcg] at hg
              cases h' with
              | some v =>
                simp only [GetOut.ret.injEq, Option.some.injEq] at hg
                obtain ⟨nn, q1, q2⟩ := ih c hc (w4 c hc) (e3 c hc) _ _ _ _ hcg
                refine ⟨nn, ?_, ?_⟩
                · rw [← hg.1]; exact q1
                · rw [← hg.2.1]; exact q2
              | none =>
                simp only at hg
                cases hd : getDynamic names (b :: rest) rc with
                | panic f cl => rw [hd] at hg; cases hg
                | ret h2 n2 c2 =>
                  rw [hd] at hg
                  simp only [GetOut.ret.injEq] at hg
                  obtain ⟨nn, q1, q2⟩ := hdyn _ _ _ _ (hg.1 ▸ hd)
                  exact ⟨nn, q1, by rw [← hg.2.1]; exact q2⟩

theorem Router.nameAt_append (r r' : Router) (nd : Node) (hnd : nd.name = [])
    (hs : r'.nodeStore = r.nodeStore ++ [nd]) : r'.nameAt = r.nameAt := by
  funext k
  unfold Router.nameAt
  rw [hs]
  by_cases hk : k < r.nodeStore.length
  · rw [List.get?_eq_getElem?, List.get?_eq_getElem?, List.getElem?_append_left hk]
  · rw [List.get?_eq_getElem?, List.get?_eq_getElem?, List.getElem?_append_right (by omega)]
    have hnone : r.nodeStore[k]? = Option.none := List.getElem?_eq_none (by omega)
    rw [hnone]
    cases hx : ([nd] : List Node)[k - r.nodeStore.length]? with
    | none => rfl
    | some x =>
      have := List.getElem?_mem hx
      simp only [List.mem_singleton] at this
      simp only [this, hnd]

/-- One successful registration on a router with both options off: the trie
of the method is the one `Tree.Add` returns, the other tries are kept, one
unnamed route node is allocated and returned. -/
theorem Router.Add_good_step [Engine] (r : Router) (hs : r.Good) (method p : Str) (h : Option Nat)
    (r' : Router) (n : Nat) (hadd : r.Add method p h = .ok r' n) :
    ∃ idx ret, RouterMethods method = some idx
      ∧ (r.tree idx).Add p h (some r.nodeStore.length) r.nextAddr = .node (r'.tree idx) ret
      ∧ (∀ j, j ≠ idx → r'.tree j = r.tree j) ∧ r'.Good
      ∧ n = r.nodeStore.length ∧ r'.nodeStore.length = r.nodeStore.length + 1
      ∧ r'.nameAt = r.nameAt := by
  obtain ⟨s1, s2, s3, s4, s5⟩ := hs
  rw [Router.Add_plain r s1 s2] at hadd
  obtain ⟨idx, cs, hm, rfl⟩ := Router.add_ok_shape r s3 method p h r' n hadd
  have hidx := RouterMethods_lt method idx hm
  rw [Router.add_nogroup r s3 method idx hm] at hadd
  cases ht : (r.tree idx).Add ('/' :: cs) h (some r.nodeStore.length) r.nextAddr with
  | none => rw [ht] at hadd; cases hadd
  | panic e t' => rw [ht] at hadd; cases hadd
  | node t' ret =>
    rw [ht] at hadd
    simp only [Out.ok.injEq] at hadd
    obtain ⟨rfl, rfl⟩ := hadd
    have hlen : idx < r.nodes.length := by rw [s4]; exact hidx
    refine ⟨idx, ret, hm, ?_, ?_, ⟨s1, s2, s3, ?_, ?_⟩, rfl, ?_, ?_⟩
    · rw [ht]
      congr 1
      exact (Router.tree_set r idx t' hlen _ rfl _ rfl).symm
    · intro j hj
      exact Router.tree_set_ne r idx j t' hj _ rfl
    · simp [s4]
    · intro j hj
      by_cases e : j = idx
      · rw [e, Router.tree_set r idx t' hlen _ rfl _ rfl]
        exact (Tree.Add_post _ (s5 idx hidx) _ _ _ _ _ _ ht).1
      · rw [Router.tree_set_ne r idx j t' e _ rfl]
        exact s5 j hj
    · simp
    · exact Router.nameAt_append r _ _ rfl rfl

theorem New_good : New.Good :=
  ⟨rfl, rfl, rfl, by simp [New], fun idx hidx => by rw [New_tree idx hidx]; exact newRoot_WF idx⟩

theorem pairOK_mono (h : Nat) (rn : Option Nat) (B B2 : Nat) (hB : B ≤ B2) (hh nn : Option Nat)
    (hp : pairOK h rn B hh nn) : pairOK h rn B2 hh nn :=
  ⟨hp.1, fun k hk => Nat.lt_of_lt_of_le (hp.2 k hk) hB⟩

/-- One registration with a slice other than `h` keeps the relation of the
trie nodes to the slice `h` and its route node. -/
theorem Router.Add_pairs_step [Engine] (h : Nat) (rn : Option Nat) (r : Router) (hs : r.Good)
    (hrn : ∀ n, rn = some n → n < r.nodeStore.length)
    (hev : ∀ idx, idx < RouteLength → (r.tree idx).Every (pairOK h rn r.nodeStore.length)
      (fun x => pairOK h rn r.nodeStore.length x.d.handlers x.d.nameNode))
    (method p : Str) (hq : Option Nat) (hfresh : hq ≠ some h) (r' : Router) (n : Nat)
    (hadd : r.Add method p hq = .ok r' n) :
    r'.Good ∧ (∀ n, rn = some n → n < r'.nodeStore.length)
      ∧ (∀ idx, idx < RouteLength → (r'.tree idx).Every (pairOK h rn r'.nodeStore.length)
          (fun x => pairOK h rn r'.nodeStore.length x.d.handlers x.d.nameNode))
      ∧ r'.nameAt = r.nameAt := by
  obtain ⟨idx0, ret, hm, hT, hother, hg, -, hlen, hname⟩ :=
    Router.Add_good_step r hs method p hq r' n hadd
  refine ⟨hg, fun n hn => by rw [hlen]; exact Nat.lt_succ_of_lt (hrn n hn), ?_, hname⟩
  intro idx hidx
  rw [hlen]
  have hold : ∀ j, j < RouteLength →
      (r.tree j).Every (pairOK h rn (r.nodeStore.length + 1))
        (fun x => pairOK h rn (r.nodeStore.length + 1) x.d.handlers x.d.nameNode) := by
    intro j hj
    exact Tree.Every_mono _ _ _ _ (fun a b => pairOK_mono h rn _ _ (Nat.le_succ _) a b)
      (fun x => pairOK_mono h rn _ _ (Nat.le_succ _) _ _) _ (hev j hj)
  have q1 : pairOK h rn (r.nodeStore.length + 1) hq (some r.nodeStore.length) := by
    refine ⟨⟨fun e => absurd e hfresh, ?_⟩, ?_⟩
    · rintro ⟨-, e⟩
      exact absurd (hrn _ e.symm) (Nat.lt_irrefl _)
    · intro k hk
      simp only [Option.some.injEq] at hk
      omega
  have q0 : pairOK h rn (r.nodeStore.length + 1) Option.none Option.none := by
    refine ⟨⟨(fun e => by cases e), ?_⟩, (fun k hk => by cases hk)⟩
    rintro ⟨e1, e2⟩
    rw [← e2] at e1
    cases e1
  by_cases e : idx = idx0
  · rw [e]
    exact Tree.Add_every _ _ hq (some r.nodeStore.length) q0 q1 (fun _ _ _ _ => q1) _
      (hold idx0 (RouterMethods_lt _ _ hm)) _ _ _ _ hT
  · rw [hother idx e]
    exact hold idx hidx

/-- The same along a sequence of registrations. -/
theorem Router.AddSeq_pairs [Engine] (h : Nat) (rn : Option Nat) :
    ∀ (seq : List (Str × Str × Option Nat)) (r : Router), r.Good →
    (∀ n, rn = some n → n < r.nodeStore.length) →
    (∀ idx, idx < RouteLength → (r.tree idx).Every (pairOK h rn r.nodeStore.length)
      (fun x => pairOK h rn r.nodeStore.length x.d.handlers x.d.nameNode)) →
    (∀ e ∈ seq, e.2.2 ≠ some h) → (r.AddSeq seq).isOk = true →
    (r.AddSeq seq).router.Good
      ∧ (∀ n, rn = some n → n < (r.AddSeq seq).router.nodeStore.length)
      ∧ (∀ idx, idx < RouteLength →
          ((r.AddSeq seq).router.tree idx).Every
            (pairOK h rn (r.AddSeq seq).router.nodeStore.length)
            (fun x => pairOK h rn (r.AddSeq seq).router.nodeStore.length
              x.d.handlers x.d.nameNode))
      ∧ (r.AddSeq seq).router.nameAt = r.nameAt := by
  intro seq
  induction seq with
  | nil => intro r hs hrn hev _ _; exact ⟨hs, hrn, hev, rfl⟩
  | cons e rest ih =>
    intro r hs hrn hev hfresh hok
    rw [Router.AddSeq] at hok ⊢
    cases hadd : r.Add e.1 e.2.1 e.2.2 with
    | panic f r1 =>
      rw [hadd] at hok
      cases hok
    | ok r1 n =>
      rw [hadd] at hok
      simp only at hok ⊢
      obtain ⟨a1, a2, a3, a4⟩ := Router.Add_pairs_step h rn r hs hrn hev _ _ _
        (hfresh e (by simp)) r1 n hadd
      obtain ⟨b1, b2, b3, b4⟩ := ih r1 a1 a2 a3 (fun x hx => hfresh x (by simp [hx])) hok
      exact ⟨b1, b2, b3, by rw [b4, a4]⟩

/-- The registration of the route with the slice `h`, which no node has yet:
its route node is the one the trie nodes with the slice `h` point to. -/
theorem Router.Add_pairs_register [Engine] (h : Nat) (r : Router) (hs : r.Good)
    (hev : ∀ idx, idx < RouteLength →
      (r.tree idx).Every (pairOK h Option.none r.nodeStore.length)
        (fun x => pairOK h Option.none r.nodeStore.length x.d.handlers x.d.nameNode))
    (method p : Str) (r' : Router) (n : Nat) (hadd : r.Add method p (some h) = .ok r' n) :
    r'.Good ∧ n < r'.nodeStore.length
      ∧ (∀ idx, idx < RouteLength → (r'.tree idx).Every (pairOK h (some n) r'.nodeStore.length)
          (fun x => pairOK h (some n) r'.nodeStore.length x.d.handlers x.d.nameNode))
      ∧ r'.nameAt = r.nameAt := by
  obtain ⟨idx0, ret, hm, hT, hother, hg, hn, hlen, hname⟩ :=
    Router.Add_good_step r hs method p (some h) r' n hadd
  subst hn
  refine ⟨hg, by omega, ?_, hname⟩
  intro idx hidx
  rw [hlen]
  have hup : ∀ hh nn, pairOK h Option.none r.nodeStore.length hh nn →
      pairOK h (some r.nodeStore.length) (r.nodeStore.length + 1) hh nn := by
    intro hh nn hp
    refine ⟨⟨fun e => ?_, ?_⟩, fun k hk => Nat.lt_succ_of_lt (hp.2 k hk)⟩
    · have := hp.1.1 e
      simp at this
    · rintro ⟨-, e⟩
      exact absurd (hp.2 _ e) (Nat.lt_irrefl _)
  have hold : ∀ j, j < RouteLength →
      (r.tree j).Every (pairOK h (some r.nodeStore.length) (r.nodeStore.length + 1))
        (fun x => pairOK h (some r.nodeStore.length) (r.nodeStore.length + 1)
          x.d.handlers x.d.nameNode) := by
    intro j hj
    exact Tree.Every_mono _ _ _ _ hup (fun x => hup _ _) _ (hev j hj)
  have q1 : pairOK h (some r.nodeStore.length) (r.nodeStore.length + 1) (some h)
      (some r.nodeStore.length) := by
    refine ⟨⟨fun _ => ⟨rfl, rfl⟩, fun _ => rfl⟩, ?_⟩
    intro k hk
    simp only [Option.some.injEq] at hk
    omega
  have q0 : pairOK h (some r.nodeStore.length) (r.nodeStore.length + 1) Option.none
      Option.none := by
    refine ⟨⟨(fun e => by cases e), ?_⟩, (fun k hk => by cases hk)⟩
    rintro ⟨-, e2⟩
    cases e2
  by_cases e : idx = idx0
  · rw [e]
    exact Tree.Add_every _ _ (some h) (some r.nodeStore.length) q0 q1 (fun _ _ _ _ => q1) _
      (hold idx0 (RouterMethods_lt _ _ hm)) _ _ _ _ hT
  · rw [hother idx e]
    exact hold idx hidx

theorem Router.Name_tree (r : Router) (n : Nat) (N : Str) (idx : Nat) :
    (r.Name n N).tree idx = r.tree idx := by
  unfold Router.Name
  split <;> rfl

theorem Router.Name_length (r : Router) (n : Nat) (N : Str) :
    (r.Name n N).nodeStore.length = r.nodeStore.length := by
  unfold Router.Name
  split
  · rfl
  · simp

theorem Router.Name_good (r : Router) (n : Nat) (N : Str) (hs : r.Good) : (r.Name n N).Good := by
  obtain ⟨s1, s2, s3, s4, s5⟩ := hs
  refine ⟨?_, ?_, ?_, ?_, ?_⟩
  · unfold Router.Name; split <;> exact s1
  · unfold Router.Name; split <;> exact s2
  · unfold Router.Name; split <;> exact s3
  · unfold Router.Name; split <;> exact s4
  · intro idx hidx
    rw [Router.Name_tree]
    exact s5 idx hidx

/-- `Name` on an unnamed router: the route node `n` gets the name, the others
stay unnamed. -/
theorem Router.Name_nameAt (r : Router) (n : Nat) (N : Str) (hn : n < r.nodeStore.length)
    (hnames : ∀ k, r.nameAt k = []) :
    (r.Name n N).nameAt n = N ∧ ∀ k, k ≠ n → (r.Name n N).nameAt k = [] := by
  unfold Router.Name
  by_cases hN : N = []
  · rw [if_pos hN, hN]
    exact ⟨hnames n, fun k _ => hnames k⟩
  · rw [if_neg hN]
    constructor
    · unfold Router.nameAt
      simp only [List.get?_eq_getElem?, List.getElem?_modify_eq]
      rw [List.getElem?_eq_getElem hn]
      rfl
    · intro k hk
      have := hnames k
      unfold Router.nameAt at this ⊢
      simp only [List.get?_eq_getElem?] at this ⊢
      rw [List.getElem?_modify_ne _ _ (Ne.symm hk)]
      exact this

theorem New_pairs (h : Nat) (idx : Nat) :
    (New.tree idx).Every (pairOK h Option.none New.nodeStore.length)
      (fun x => pairOK h Option.none New.nodeStore.length x.d.handlers x.d.nameNode) := by
  unfold Router.tree
  rw [List.getD_eq_getElem?_getD]
  cases hx : New.nodes[idx]? with
  | none =>
    show (Tree.nilTree).Every _ _
    unfold Tree.nilTree
    rw [Tree.Every_mk]
    refine ⟨⟨⟨(fun e => by cases e), ?_⟩, (fun k hk => by cases hk)⟩, by simp, by simp⟩
    rintro ⟨e, -⟩
    cases e
  | some t =>
    have hmem := List.getElem?_mem hx
    simp only [New, List.mem_map, List.mem_range] at hmem
    obtain ⟨a, -, rfl⟩ := hmem
    show (newRoot a).Every _ _
    rw [newRoot_eq, Tree.Every_mk]
    refine ⟨⟨⟨(fun e => by cases e), ?_⟩, (fun k hk => by cases hk)⟩, by simp, by simp⟩
    rintro ⟨e, -⟩
    cases e

/-- C12: `Match` returns the route's registered name, also after the route's
node has been split.  On a fresh router any registrations are made, then a
route is registered with the non-nil slice `h`, which no other registration
uses, and named `N` through the route node `Add` returned, then any further
registrations are made; all calls return.  Then wherever `Match`, on any
method and path, resolves to that route (it returns `h`), the name it returns
is `N`; and wherever it resolves to another route, none of which was named,
it returns the empty name.  The statement holds for every host engine,
whatever expressions it compiles and whatever it matches. -/
theorem match_returns_name [Engine] (seq1 : List (Str × Str × Option Nat))
    (method P : Str) (h : Nat) (N : Str) (seq2 : List (Str × Str × Option Nat))
    (hok : (Router.namedRun seq1 method P h N seq2).isOk = true)
    (hfresh : ∀ e ∈ seq1 ++ seq2, e.2.2 ≠ some h)
    (m path : Str) (h2 : Nat) (name : Str) (calls : List (Str × Str))
    (hmatch : (Router.namedRun seq1 method P h N seq2).router.Match m path
      = .ret (some h2) name calls) :
    (h2 = h → name = N) ∧ (h2 ≠ h → name = []) := by
  unfold Router.namedRun at hok hmatch
  cases h1 : New.AddSeq seq1 with
  | panic f r => rw [h1] at hok; cases hok
  | ok r1 u =>
    rw [h1] at hok hmatch
    simp only at hok hmatch
    have hok1 : (New.AddSeq seq1).isOk = true := by rw [h1]; rfl
    obtain ⟨a1, -, a3, a4⟩ := Router.AddSeq_pairs h Option.none seq1 New New_good
      (fun n hn => by cases hn) (fun idx _ => New_pairs h idx)
      (fun e he => hfresh e (List.mem_append_left _ he)) hok1
    rw [h1] at a1 a3 a4
    simp only [Out.router] at a1 a3 a4
    cases h2' : r1.Add method P (some h) with
    | panic f r => rw [h2'] at hok; cases hok
    | ok r2 n =>
      rw [h2'] at hok hmatch
      simp only at hok hmatch
      obtain ⟨b1, b2, b3, b4⟩ := Router.Add_pairs_register h r1 a1 a3 method P r2 n h2'
      have hnames2 : ∀ k, r2.nameAt k = [] := by
        intro k
        rw [b4, a4]
        exact Router.nameAt_nil New (by intro nd hnd; simp [New] at hnd) k
      obtain ⟨c1, c2⟩ := Router.Name_nameAt r2 n N b2 hnames2
      obtain ⟨d1, -, d3, d4⟩ := Router.AddSeq_pairs h (some n) seq2 (r2.Name n N)
        (Router.Name_good r2 n N b1)
        (fun k hk => by
          simp only [Option.some.injEq] at hk
          rw [Router.Name_length, ← hk]
          exact b2)
        (fun idx hidx => by
          rw [Router.Name_tree, Router.Name_length]
          exact b3 idx hidx)
        (fun e he => hfresh e (List.mem_append_right _ he)) hok
      have hidx : (RouterMethods m).getD 0 < RouteLength := by
        cases hm : RouterMethods m with
        | none => decide
        | some i => exact RouterMethods_lt m i hm
      unfold Router.Match at hmatch
      obtain ⟨nn, q1, q2⟩ := Tree.Get_every _ _ _ (d1.2.2.2.2 _ hidx) (d3 _ hidx) _ _ _ _ hmatch
      rw [d4] at q2
      constructor
      · intro e
        subst e
        have := (q1.1.1 rfl).2
        rw [q2, this]
        exact c1
      · intro e
        cases nn with
        | none => exact q2
        | some k =>
          rw [q2]
          apply c2
          intro ek
          subst ek
          have := q1.1.2 ⟨rfl, rfl⟩
          simp only [Option.some.injEq] at this
          exact e this

/-- C12 at `/abc`, registered on `GET` and named `n`, after which `/ab` is
registered and splits its node: `Match("GET", "/abc")` still returns `n`. -/
theorem match_returns_name_witness :
    (Router.namedRun [] "GET".toList "/abc".toList 1 "n".toList
        [("GET".toList, "/ab".toList, some 2)]).isOk = true
    ∧ (∀ e ∈ ([] : List (Str × Str × Option Nat)) ++ [("GET".toList, "/ab".toList, some 2)],
        e.2.2 ≠ some 1)
    ∧ (Router.namedRun [] "GET".toList "/abc".toList 1 "n".toList
        [("GET".toList, "/ab".toList, some 2)]).router.Match "GET".toList "/abc".toList
        = .ret (some 1) "n".toList []
    ∧ ((1 = 1 → "n".toList = "n".toList) ∧ (1 ≠ 1 → "n".toList = [])) :=
  ⟨by decide!, by decide, by decide!,
    match_returns_name [] "GET".toList "/abc".toList 1 "n".toList
      [("GET".toList, "/ab".toList, some 2)] (by decide!) (by decide) "GET".toList
      "/abc".toList 1 "n".toList [] (by decide!)⟩

/-! ## Capturing parentheses of an expression text -/

theorem capScan_append (a b : Str) : ∀ st : CapState,
    capScan st (a ++ b) = capScan st a + capScan (capEnd st a) b := by
  induction a with
  | nil => intro st; simp [capScan, capEnd]
  | cons c a ih =>
    intro st
    rw [List.cons_append, capScan, capScan, capEnd, ih]
    omega

theorem capEnd_append (a b : Str) : ∀ st : CapState,
    capEnd st (a ++ b) = capEnd (capEnd st a) b := by
  induction a with
  | nil => intro st; rfl
  | cons c a ih =>
    intro st
    rw [List.cons_append, capEnd, capEnd, ih]

/-- A byte other than `\`, `[` and `(` read outside everything changes
nothing. -/
theorem capScan_out_plain (c : Char) (rest : Str) (h1 : c ≠ '\\') (h2 : c ≠ '[')
    (h3 : c ≠ '(') : capScan .out (c :: rest) = capScan .out rest := by
  simp [capScan, capStep, outStep, h1, h2, h3]

theorem capScan_cls_plain (st : CapState) (hst : st = .clsFirst ∨ st = .cls) (c : Char)
    (rest : Str) (h1 : c ≠ ']') (h2 : c ≠ '\\') (h3 : c ≠ '[') :
    capScan st (c :: rest) = capScan .cls rest := by
  rcases hst with rfl | rfl <;> simp [capScan, capStep, clsStep, h1, h2, h3]

theorem capScan_cls_esc (st : CapState) (hst : st = .clsFirst ∨ st = .cls) (c : Char)
    (rest : Str) : capScan st ('\\' :: c :: rest) = capScan .cls rest := by
  rcases hst with rfl | rfl <;> simp [capScan, capStep, clsStep]

theorem parseClassItems_esc_aux (rest : Str) (items : List ClassItem) (rest' : Str)
    (item : Except CompileError ClassItem) :
    (match item with
      | .error e => (Except.error e : Except CompileError (List ClassItem × Str))
      | .ok it =>
        match rest with
        | '-' :: d :: _ =>
            if d == ']' then
              match parseClassItems false rest with
              | .ok (items, rest') => .ok (it :: items, rest')
              | .error e => .error e
            else .error .unsupported
        | _ =>
          match parseClassItems false rest with
          | .ok (items, rest') => .ok (it :: items, rest')
          | .error e => .error e) = .ok (items, rest') →
    ∃ items1, parseClassItems false rest = .ok (items1, rest') := by
  intro h
  cases item with
  | error e => cases h
  | ok it =>
    simp only at h
    split at h
    · split at h
      · split at h
        · rename_i items1 rest2 heq
          simp only [Except.ok.injEq, Prod.mk.injEq] at h
          exact ⟨items1, by rw [heq, h.2]⟩
        · cases h
      · cases h
    · split at h
      · rename_i items1 rest2 heq
        simp only [Except.ok.injEq, Prod.mk.injEq] at h
        exact ⟨items1, by rw [heq, h.2]⟩
      · cases h

theorem parseClassItems_esc (first : Bool) (c : Char) (rest : Str) (items : List ClassItem)
    (rest' : Str) (h : parseClassItems first ('\\' :: c :: rest) = .ok (items, rest')) :
    ∃ items1, parseClassItems false rest = .ok (items1, rest') := by
  rw [parseClassItems.eq_5] at h
  exact parseClassItems_esc_aux rest items rest' _ h

/-- A bracket expression the embedded engine reads opens no group: the
reading of the text is outside again where the engine has read the closing
`]`. -/
theorem parseClassItems_capScan : ∀ (n : Nat) (s : Str), s.length ≤ n →
    ∀ (first : Bool) (items : List ClassItem) (rest : Str),
    parseClassItems first s = .ok (items, rest) →
    capScan (if first then .clsFirst else .cls) s = capScan .out rest := by
  intro n
  induction n with
  | zero =>
    intro s hs first items rest h
    have : s = [] := List.length_eq_zero.1 (Nat.le_zero.1 hs)
    subst this
    simp [parseClassItems] at h
  | succ n ih =>
    intro s hs first items rest h
    have hst : (if first then CapState.clsFirst else CapState.cls) = .clsFirst
        ∨ (if first then CapState.clsFirst else CapState.cls) = .cls := by
      cases first <;> simp
    cases s with
    | nil => simp [parseClassItems] at h
    | cons c s1 =>
      have hrec : ∀ (s2 : Str), s2.length ≤ s1.length → ∀ items1 rest2,
          parseClassItems false s2 = .ok (items1, rest2) →
          capScan .cls s2 = capScan .out rest2 := fun s2 hlen items1 rest2 heq =>
        ih s2 (by simp only [List.length_cons] at hs; omega) false items1 rest2 heq
      by_cases hc1 : c = ']'
      · subst hc1
        rw [parseClassItems.eq_2] at h
        cases first with
        | true =>
          simp only [if_true] at h ⊢
          split at h
          · rename_i items1 rest2 heq
            simp only [Except.ok.injEq, Prod.mk.injEq] at h
            rw [← h.2, ← hrec s1 (le_refl _) _ _ heq]
            simp [capScan, capStep, clsStep]
          · cases h
        | false =>
          simp only [Bool.false_eq_true, if_false, Except.ok.injEq, Prod.mk.injEq] at h ⊢
          rw [← h.2]
          simp [capScan, capStep, clsStep]
      · by_cases hc2 : c = '['
        · subst hc2
          rw [parseClassItems.eq_3] at h
          cases h
        · by_cases hc3 : c = '\\'
          · subst hc3
            cases s1 with
            | nil =>
              rw [parseClassItems.eq_4] at h
              cases h
            | cons c2 s2 =>
              obtain ⟨items1, heq⟩ := parseClassItems_esc _ _ _ _ _ h
              rw [capScan_cls_esc _ hst]
              exact hrec s2 (by simp) _ _ heq
          · rw [capScan_cls_plain _ hst c s1 hc1 hc3 hc2]
            by_cases hform : ∃ d s3, s1 = '-' :: d :: s3
            · obtain ⟨d, s3, rfl⟩ := hform
              rw [parseClassItems.eq_6 _ _ _ _ hc1 hc2 hc3] at h
              split at h
              · split at h
                · rename_i items1 rest2 heq
                  simp only [Except.ok.injEq, Prod.mk.injEq] at h
                  rw [← h.2]
                  exact hrec _ (le_refl _) _ _ heq
                · cases h
              · rename_i hd
                split at h
                · cases h
                · rename_i hd2
                  split at h
                  · cases h
                  · split at h
                    · rename_i items1 rest2 heq
                      simp only [Except.ok.injEq, Prod.mk.injEq] at h
                      rw [← h.2, ← hrec s3 (by simp; omega) _ _ heq]
                      have e1 : d ≠ ']' := by simpa using hd
                      have e2 : d ≠ '\\' ∧ d ≠ '[' := by simpa using hd2
                      rw [capScan_cls_plain _ (Or.inr rfl) '-' _ (by decide) (by decide)
                        (by decide),
                        capScan_cls_plain _ (Or.inr rfl) d _ e1 e2.1 e2.2]
                    · cases h
            · rw [parseClassItems.eq_7 _ _ _ hc1 hc2 (fun e => absurd e hc3)
                (fun _ _ e => absurd e hc3)
                (fun d s3 e => hform ⟨d, s3, e⟩)] at h
              split at h
              · rename_i items1 rest2 heq
                simp only [Except.ok.injEq, Prod.mk.injEq] at h
                rw [← h.2]
                exact hrec _ (le_refl _) _ _ heq
              · cases h

theorem parseClass_capScan (s : Str) (r : Re) (rest : Str)
    (h : parseClass s = .ok (r, rest)) : capScan .clsStart s = capScan .out rest := by
  unfold parseClass at h
  split at h
  · rename_i s1
    split at h
    · rename_i items rest1 heq
      simp only [Except.ok.injEq, Prod.mk.injEq] at h
      rw [← h.2, ← parseClassItems_capScan _ _ (le_refl _) true _ _ heq]
      simp [capScan, capStep]
    · cases h
  · rename_i hne
    split at h
    · rename_i items rest1 heq
      simp only [Except.ok.injEq, Prod.mk.injEq] at h
      rw [← h.2, ← parseClassItems_capScan _ _ (le_refl _) true _ _ heq]
      cases s with
      | nil => rfl
      | cons c s1 =>
        have hc : c ≠ '^' := fun e => hne s1 (by rw [e])
        simp [capScan, capStep, hc]
    · cases h

theorem parseEscape_capScan (s : Str) (r : Re) (rest : Str)
    (h : parseEscape s = .ok (r, rest)) : capScan .esc s = capScan .out rest := by
  cases s with
  | nil => simp [parseEscape] at h
  | cons c s1 =>
    have hq : c ≠ 'Q' := by
      intro e
      subst e
      simp [parseEscape, isAlnum, isDigit] at h
    have hrest : rest = s1 := by
      simp only [parseEscape] at h
      repeat (split at h <;> try (first
        | (simp only [Except.ok.injEq, Prod.mk.injEq] at h; exact h.2.symm)
        | (simp only [reduceCtorEq] at h)))
    subst hrest
    simp [capScan, capStep, hq]

theorem isRepeatOp_plain (c : Char) (h : isRepeatOp c = true) :
    c ≠ '\\' ∧ c ≠ '[' ∧ c ≠ '(' := by
  refine ⟨?_, ?_, ?_⟩ <;> (intro e; subst e; simp [isRepeatOp] at h)

theorem parsePostfix_lazy (t : Str) :
    ((match t with | '?' :: _ => true | _ => false) = true ∧ ∃ t2, t = '?' :: t2)
    ∨ ((match t with | '?' :: _ => true | _ => false) = false ∧ ∀ t2, t ≠ '?' :: t2) := by
  split
  · exact Or.inl ⟨rfl, _, rfl⟩
  · rename_i hne
    exact Or.inr ⟨rfl, fun t2 e => hne t2 e⟩

theorem parsePostfix_rest (a : Re) (s : Str) (r : Re) (rest : Str)
    (h : parsePostfix a s = .ok (r, rest)) :
    rest = s ∨ ∃ op t, s = op :: t ∧ isRepeatOp op = true ∧ (rest = t ∨ t = '?' :: rest) := by
  unfold parsePostfix at h
  split at h
  · cases h
  · rename_i op t hne
    split at h
    · rename_i hop
      right
      refine ⟨op, t, rfl, hop, ?_⟩
      simp only at h
      rcases parsePostfix_lazy t with ⟨e, t2, rfl⟩ | ⟨e, hne2⟩
      · right
        simp only [e, if_true, List.drop_succ_cons, List.drop_zero] at h
        congr 1
        repeat (split at h <;> try (first
          | (simp only [Except.ok.injEq, Prod.mk.injEq] at h; exact h.2)
          | (simp only [reduceCtorEq] at h)))
      · left
        simp only [e, Bool.false_eq_true, if_false] at h
        repeat (split at h <;> try (first
          | (simp only [Except.ok.injEq, Prod.mk.injEq] at h; exact h.2.symm)
          | (simp only [reduceCtorEq] at h)))
    · simp only [Except.ok.injEq, Prod.mk.injEq] at h
      exact Or.inl h.2.symm
  · simp only [Except.ok.injEq, Prod.mk.injEq] at h
    exact Or.inl h.2.symm

theorem parsePostfix_capScan (a : Re) (s : Str) (r : Re) (rest : Str)
    (h : parsePostfix a s = .ok (r, rest)) : capScan .out s = capScan .out rest := by
  rcases parsePostfix_rest a s r rest h with e | ⟨op, t, e, hop, e2 | e2⟩
  · rw [e]
  · obtain ⟨p1, p2, p3⟩ := isRepeatOp_plain op hop
    rw [e, e2, capScan_out_plain _ _ p1 p2 p3]
  · obtain ⟨p1, p2, p3⟩ := isRepeatOp_plain op hop
    rw [e, e2, capScan_out_plain _ _ p1 p2 p3,
      capScan_out_plain _ _ (by decide) (by decide) (by decide)]

theorem capScan_paren (c : Char) (rest : Str) (hc : c ≠ '?') :
    capScan .out ('(' :: c :: rest) = capScan .out (c :: rest) + 1 := by
  simp only [capScan, capStep, outStep, hc, if_false]
  simp
  omega

theorem parseCat_nil (n : Nat) (g : Nat) (r : Re) (rest : Str) (g1 : Nat)
    (h : parseCat n [] g = .ok (r, rest, g1)) : rest = [] := by
  cases n with
  | zero => simp [parseCat] at h
  | succ n =>
    simp only [parseCat, Except.ok.injEq, Prod.mk.injEq] at h
    exact h.2.1.symm

theorem parseAlt_nil (n : Nat) (g : Nat) (r : Re) (rest : Str) (g1 : Nat)
    (h : parseAlt n [] g = .ok (r, rest, g1)) : rest = [] := by
  cases n with
  | zero => simp [parseAlt] at h
  | succ n =>
    rw [parseAlt] at h
    split at h
    · cases h
    · rename_i a rest1 g2 heq
      have := parseCat_nil _ _ _ _ _ heq
      subst this
      simp only [Except.ok.injEq, Prod.mk.injEq] at h
      exact h.2.1.symm

/-- The group counter of the embedded parser moves by the number of capturing
parentheses of the text it reads. -/
theorem parse_capScan : ∀ n : Nat,
    (∀ s g r rest g1, parseAlt n s g = .ok (r, rest, g1) →
        g1 + capScan .out rest = g + capScan .out s)
    ∧ (∀ s g r rest g1, parseCat n s g = .ok (r, rest, g1) →
        g1 + capScan .out rest = g + capScan .out s)
    ∧ (∀ s g r rest g1, parseAtom n s g = .ok (r, rest, g1) →
        g1 + capScan .out rest = g + capScan .out s) := by
  intro n
  induction n with
  | zero =>
    refine ⟨?_, ?_, ?_⟩ <;> intro s g r rest g1 h
    · simp [parseAlt] at h
    · simp [parseCat] at h
    · simp [parseAtom] at h
  | succ n ih =>
    obtain ⟨ihA, ihC, ihT⟩ := ih
    refine ⟨?_, ?_, ?_⟩ <;> intro s g r rest g1 h
    · rw [parseAlt] at h
      split at h
      · cases h
      · rename_i a rest1 g2 heq
        have h1 := ihC _ _ _ _ _ heq
        split at h
        · rename_i rest2
          split at h
          · cases h
          · rename_i b rest3 g3 heq2
            have h2 := ihA _ _ _ _ _ heq2
            simp only [Except.ok.injEq, Prod.mk.injEq] at h
            obtain ⟨_, e1, e2⟩ := h
            subst e1 e2
            rw [capScan_out_plain _ _ (by decide) (by decide) (by decide)] at h1
            omega
        · simp only [Except.ok.injEq, Prod.mk.injEq] at h
          obtain ⟨_, e1, e2⟩ := h
          subst e1 e2
          exact h1
    · unfold parseCat at h
      split at h
      · simp only [Except.ok.injEq, Prod.mk.injEq] at h
        obtain ⟨_, e1, e2⟩ := h
        subst e1 e2
        rfl
      · simp only [Except.ok.injEq, Prod.mk.injEq] at h
        obtain ⟨_, e1, e2⟩ := h
        subst e1 e2
        rfl
      · simp only [Except.ok.injEq, Prod.mk.injEq] at h
        obtain ⟨_, e1, e2⟩ := h
        subst e1 e2
        rfl
      · split at h
        · cases h
        · rename_i a rest1 g2 heq
          have h1 := ihT _ _ _ _ _ heq
          split at h
          · cases h
          · rename_i a2 rest2 heq2
            have h2 := parsePostfix_capScan _ _ _ _ heq2
            split at h
            · cases h
            · rename_i b rest3 g3 heq3
              have h3 := ihC _ _ _ _ _ heq3
              simp only [Except.ok.injEq, Prod.mk.injEq] at h
              obtain ⟨_, e1, e2⟩ := h
              subst e1 e2
              omega
    · unfold parseAtom at h
      split at h
      · cases h
      · rename_i rest0
        split at h
        · cases h
        · rename_i hq
          split at h
          · cases h
          · rename_i r1 rest1 g2 heq
            have h1 := ihA _ _ _ _ _ heq
            split at h
            · rename_i rest2
              simp only [Except.ok.injEq, Prod.mk.injEq] at h
              obtain ⟨_, e1, e2⟩ := h
              subst e1 e2
              rw [capScan_out_plain _ _ (by decide) (by decide) (by decide)] at h1
              cases rest0 with
              | nil =>
                have := parseAlt_nil _ _ _ _ _ heq
                cases this
              | cons c t =>
                have hc : c ≠ '?' := fun e => hq t (by rw [e])
                rw [capScan_paren c t hc]
                omega
            · cases h
      · rename_i rest0
        split at h
        · cases h
        · rename_i r1 rest1 heq
          have h1 := parseClass_capScan _ _ _ heq
          simp only [Except.ok.injEq, Prod.mk.injEq] at h
          obtain ⟨_, e1, e2⟩ := h
          subst e1 e2
          have : capScan .out ('[' :: rest0) = capScan .clsStart rest0 := by
            simp [capScan, capStep, outStep]
          omega
      · rename_i rest0
        split at h
        · cases h
        · rename_i r1 rest1 heq
          have h1 := parseEscape_capScan _ _ _ heq
          simp only [Except.ok.injEq, Prod.mk.injEq] at h
          obtain ⟨_, e1, e2⟩ := h
          subst e1 e2
          have : capScan .out ('\\' :: rest0) = capScan .esc rest0 := by
            simp [capScan, capStep, outStep]
          omega
      · simp only [Except.ok.injEq, Prod.mk.injEq] at h
        obtain ⟨_, e1, e2⟩ := h
        subst e1 e2
        rw [capScan_out_plain _ _ (by decide) (by decide) (by decide)]
      · simp only [Except.ok.injEq, Prod.mk.injEq] at h
        obtain ⟨_, e1, e2⟩ := h
        subst e1 e2
        rw [capScan_out_plain _ _ (by decide) (by decide) (by decide)]
      · simp only [Except.ok.injEq, Prod.mk.injEq] at h
        obtain ⟨_, e1, e2⟩ := h
        subst e1 e2
        rw [capScan_out_plain _ _ (by decide) (by decide) (by decide)]
      · cases h
      · rename_i c rest0 hn1 hn2 hn3 hn4 hn5 hn6 hn7
        split at h
        · cases h
        · split at h
          · cases h
          · simp only [Except.ok.injEq, Prod.mk.injEq] at h
            obtain ⟨_, e1, e2⟩ := h
            subst e1 e2
            rw [capScan_out_plain _ _ hn3 hn2 hn1]

/-- The embedded engine counts one capture group for each capturing
parenthesis of the expression text. -/
theorem Compile_numCap (e : Str) (re : Regexp) (h : Regexp.Compile e = .ok re) :
    re.numCap = capGroups e := by
  unfold Regexp.Compile at h
  split at h
  · cases h
  · rename_i r rest g heq
    have h1 := (parse_capScan _).1 _ _ _ _ _ heq
    split at h
    · simp only [Except.ok.injEq] at h
      subst h
      simp only [capScan] at h1
      simp only [capGroups]
      omega
    · cases h

/-! ## Parameter, group and placeholder counts -/

theorem segText_head_not_param (is : List Seg) (hend : segEndsName is) :
    ∀ c t, segText is = c :: t → IsParamChar c = false ∧ c ≠ '(' := by
  intro c t h
  cases is with
  | nil => cases h
  | cons i is =>
    cases i with
    | lit d =>
      simp only [segText, Seg.text, List.singleton_append, List.cons.injEq] at h
      rw [← h.1]
      exact hend
    | param n r =>
      simp only [segText, Seg.text, List.cons_append, List.cons.injEq] at h
      rw [← h.1]
      exact ⟨by decide, by decide⟩
    | wild =>
      simp only [segText, Seg.text, List.singleton_append, List.cons.injEq] at h
      rw [← h.1]
      exact ⟨by decide, by decide⟩

/-- One turn of the scanning loop on the text of a parameter, whatever text
follows it. -/
theorem scanLoop_param_tail (m : Nat) (n : Str) (rule : Option Str) (tl : Str)
    (hn : ∀ x ∈ n, IsParamChar x = true)
    (hr : rule = none → ∀ c t, tl = c :: t → IsParamChar c = false ∧ c ≠ '(')
    (hw : ∀ x ∈ rule.getD [], x ≠ ')') :
    (scanLoop (m + 1) [] (':' :: (n ++ (ruleText rule ++ tl))) Scan.init).params
        = n :: (scanLoop m [] tl Scan.init).params
    ∧ (scanLoop (m + 1) [] (':' :: (n ++ (ruleText rule ++ tl))) Scan.init).newPattern
        = ruleExpr (rule.getD []) ++ (scanLoop m [] tl Scan.init).newPattern
    ∧ (scanLoop (m + 1) [] (':' :: (n ++ (ruleText rule ++ tl))) Scan.init).format
        = "%v".toList ++ (scanLoop m [] tl Scan.init).format := by
  cases rule with
  | none =>
    have hstop : ∀ c t, tl = c :: t → IsParamChar c = false :=
      fun c t h => (hr rfl c t h).1
    obtain ⟨e1, e2⟩ := takeWhile_append_stop n tl hn hstop
    simp only [ruleText, List.nil_append, Option.getD_none]
    rw [scanLoop]
    simp only [show ¬ (':' = '*') by decide, if_false, if_true, e1, e2]
    split
    · exact absurd rfl (hr rfl _ _ rfl).2
    · refine ⟨?_, ?_, ?_⟩
      · conv_lhs => rw [(scanLoop_acc m _ _ _).1]
        rfl
      · conv_lhs => rw [(scanLoop_acc m _ _ _).2.1]
        rfl
      · conv_lhs => rw [(scanLoop_acc m _ _ _).2.2]
        rfl
  | some w =>
    have hstop : ∀ c t, ('(' :: (w ++ ')' :: tl)) = c :: t → IsParamChar c = false := by
      intro c t h
      simp only [List.cons.injEq] at h
      rw [← h.1]
      decide
    obtain ⟨e1, e2⟩ := takeWhile_append_stop n ('(' :: (w ++ ')' :: tl)) hn hstop
    obtain ⟨e3, e4⟩ := takeWhile_append_stop (p := fun x => x != ')') w (')' :: tl)
      (fun x hx => by simpa using hw x (by simpa using hx))
      (fun c t h => by
        simp only [List.cons.injEq] at h
        rw [← h.1]
        decide)
    have htxt : ruleText (some w) ++ tl = '(' :: (w ++ ')' :: tl) := by
      simp [ruleText]
    rw [htxt, scanLoop]
    simp only [show ¬ (':' = '*') by decide, if_false, if_true, e1, e2, e3, e4,
      Option.getD_some, List.drop_succ_cons, List.drop_zero]
    refine ⟨?_, ?_, ?_⟩
    · conv_lhs => rw [(scanLoop_acc m _ _ _).1]
      rfl
    · conv_lhs => rw [(scanLoop_acc m _ _ _).2.1]
      rfl
    · conv_lhs => rw [(scanLoop_acc m _ _ _).2.2]
      rfl

/-- One turn of the scanning loop on the wildcard. -/
theorem scanLoop_wild (m : Nat) (tl : Str) :
    (scanLoop (m + 1) [] ('*' :: tl) Scan.init).params
        = [] :: (scanLoop m [] tl Scan.init).params
    ∧ (scanLoop (m + 1) [] ('*' :: tl) Scan.init).newPattern
        = "(^.*)".toList ++ (scanLoop m [] tl Scan.init).newPattern
    ∧ (scanLoop (m + 1) [] ('*' :: tl) Scan.init).format
        = "%v".toList ++ (scanLoop m [] tl Scan.init).format := by
  rw [scanLoop]
  simp only [if_true]
  refine ⟨?_, ?_, ?_⟩
  · conv_lhs => rw [(scanLoop_acc m _ _ _).1]
    rfl
  · conv_lhs => rw [(scanLoop_acc m _ _ _).2.1]
    rfl
  · conv_lhs => rw [(scanLoop_acc m _ _ _).2.2]
    rfl

theorem ruleText_length (rule : Option Str) (tl : Str) :
    tl.length ≤ (ruleText rule ++ tl).length := by
  simp

/-- What the scanning loop of `addChild` computes on the text of a list of
pieces. -/
theorem scanLoop_segs (is : List Seg) : ∀ (m : Nat), segsOK is →
    (segText is).length ≤ m →
    (scanLoop m [] (segText is) Scan.init).params = segNames is
    ∧ (scanLoop m [] (segText is) Scan.init).newPattern = segExpr is
    ∧ (scanLoop m [] (segText is) Scan.init).format = segFormat is := by
  induction is with
  | nil =>
    intro m _ _
    simp [segText, scanLoop_nil, Scan.init, segNames, segExpr, segFormat]
  | cons i is ih =>
    intro m hok hm
    cases i with
    | lit c =>
      obtain ⟨h1, h2, hok'⟩ := hok
      simp only [segText, Seg.text, List.singleton_append, List.length_cons] at hm ⊢
      obtain ⟨m', rfl⟩ : ∃ m', m = m' + 1 := ⟨m - 1, by omega⟩
      rw [scanLoop_lit _ _ _ _ _ h1 h2]
      obtain ⟨a1, a2, a3⟩ := ih m' hok' (by omega)
      refine ⟨?_, ?_, ?_⟩
      · rw [(scanLoop_acc m' _ _ _).1, a1]; simp [Scan.init, segNames]
      · rw [(scanLoop_acc m' _ _ _).2.1, a2]; simp [Scan.init, segExpr]
      · rw [(scanLoop_acc m' _ _ _).2.2, a3]; simp [Scan.init, segFormat]
    | param n r =>
      obtain ⟨h1, h2, h3, hok'⟩ := hok
      have hlen : (segText is).length + 1 ≤ m := by
        simp only [segText, Seg.text, List.length_append, List.length_cons] at hm
        omega
      obtain ⟨m', rfl⟩ : ∃ m', m = m' + 1 := ⟨m - 1, by omega⟩
      obtain ⟨a1, a2, a3⟩ := ih m' hok' (by omega)
      obtain ⟨b1, b2, b3⟩ := scanLoop_param_tail m' n r (segText is) h1
        (fun hr => segText_head_not_param is (h2 hr)) h3
      simp only [segText, Seg.text, List.cons_append, List.append_assoc]
      rw [b1, b2, b3, a1, a2, a3]
      simp [segNames, segExpr, segFormat]
    | wild =>
      have hlen : (segText is).length + 1 ≤ m := by
        simp only [segText, Seg.text, List.length_append, List.length_cons] at hm
        omega
      obtain ⟨m', rfl⟩ : ∃ m', m = m' + 1 := ⟨m - 1, by omega⟩
      obtain ⟨a1, a2, a3⟩ := ih m' hok (by omega)
      obtain ⟨b1, b2, b3⟩ := scanLoop_wild m' (segText is)
      simp only [segText, Seg.text, List.singleton_append]
      rw [b1, b2, b3, a1, a2, a3]
      simp [segNames, segExpr, segFormat]

theorem dynScan_segs (D : List Seg) (hok : segsOK D) :
    (dynScan (segText D)).params = segNames D
    ∧ (dynScan (segText D)).newPattern = segExpr D
    ∧ (dynScan (segText D)).format = segFormat D :=
  scanLoop_segs D _ hok (le_refl _)

/-- The expression text of a list of pieces followed by `$` has one capturing
parenthesis for each parameter and wildcard. -/
theorem capGroups_segs (is : List Seg) (hp : segsPlain is) :
    capGroups (segExpr is ++ "$".toList) = (segNames is).length := by
  unfold capGroups
  induction is with
  | nil => rfl
  | cons i is ih =>
    cases i with
    | lit c =>
      obtain ⟨⟨p1, p2, p3, _⟩, hp'⟩ := hp
      simp only [segExpr, segNames, List.cons_append]
      rw [capScan_out_plain _ _ p3 p2 p1, ih hp']
    | param n rule =>
      obtain ⟨⟨q1, q2⟩, hp'⟩ := hp
      simp only [segExpr, segNames, List.append_assoc, List.length_cons]
      rw [capScan_append, q1, q2, ih hp']
      omega
    | wild =>
      have hp' : segsPlain is := hp
      simp only [segExpr, segNames, List.append_assoc, List.length_cons]
      rw [capScan_append]
      have e1 : capScan .out "(^.*)".toList = 1 := by decide
      have e2 : capEnd .out "(^.*)".toList = .out := by decide
      rw [e1, e2, ih hp']
      omega

theorem countPlaceholders_cons (c : Char) (rest : Str) (hc : c ≠ '%') :
    countPlaceholders (c :: rest) = countPlaceholders rest := by
  conv_lhs => unfold countPlaceholders
  split
  · rename_i heq; cases heq
  · rename_i heq
    simp only [List.cons.injEq] at heq
    exact absurd heq.1 hc
  · rename_i heq
    simp only [List.cons.injEq] at heq
    exact absurd heq.1 hc
  · rename_i heq
    simp only [List.cons.injEq] at heq
    rw [heq.2]

theorem countPlaceholders_verb (rest : Str) :
    countPlaceholders ("%v".toList ++ rest) = countPlaceholders rest + 1 := by
  show countPlaceholders ('%' :: 'v' :: rest) = _
  rw [countPlaceholders]

/-- The render fragment of a list of pieces has one placeholder for each
parameter and wildcard. -/
theorem countPlaceholders_segs (is : List Seg) (hp : segsPlain is) :
    countPlaceholders (segFormat is) = (segNames is).length := by
  induction is with
  | nil => rfl
  | cons i is ih =>
    cases i with
    | lit c =>
      obtain ⟨⟨_, _, _, hc⟩, hp'⟩ := hp
      simp only [segFormat, segNames]
      rw [countPlaceholders_cons _ _ hc, ih hp']
    | param n r =>
      simp only [segFormat, segNames, List.length_cons]
      rw [countPlaceholders_verb, ih hp.2]
    | wild =>
      simp only [segFormat, segNames, List.length_cons]
      rw [countPlaceholders_verb, ih hp]

theorem segText_tok (D : List Seg) (htok : startsTok D) :
    ∃ c rest, segText D = c :: rest ∧ isTok c := by
  cases D with
  | nil => exact absurd htok (by simp [startsTok])
  | cons i is =>
    cases i with
    | lit c => exact absurd htok (by simp [startsTok])
    | param n r => exact ⟨':', _, rfl, Or.inl rfl⟩
    | wild => exact ⟨'*', _, rfl, Or.inr rfl⟩

/-- C17 as stated fails.  `addChild` on a fresh root, with patterns it accepts;
each triple is the length of the parameter list, the number of capture groups
and the number of placeholders of the dynamic node created.  For `u/:id((a))`
the custom rule is the text `(a` up to the first `)`, the compiled expression
is `((a))` with two capture groups for the one parameter.  For `u/:id-(a)` the
literal bytes `(a)` after the parameter are a capture group of the compiled
expression.  For `u/:id%v` the literal bytes `%v` after the parameter are a
placeholder of the render fragment `%v%v`.  For `u/:z[:a(x)]` the literal `[`
opens a bracket expression that holds the parenthesis written for `a`: one
group for two parameters.  For `u/:a([):b(])` the rule text `[` does the same.
For `u/:a\:b(y\)` the literal backslash escapes the parenthesis written for
`b`.  The last line: the rule text `?:x` makes the parenthesis written for the
parameter a non-capturing one, so that the expression `(?:x)$` has no
capturing parenthesis for its one parameter (the embedded engine does not
read `(?`). -/
theorem custom_rule_group_breaks_counts :
    ((newRoot 0).addChild "u/:id((a))".toList (some 1) Option.none 22).counts
        = [(1, some 2, 1)]
    ∧ ((newRoot 0).addChild "u/:id-(a)".toList (some 1) Option.none 22).counts
        = [(1, some 2, 1)]
    ∧ ((newRoot 0).addChild "u/:id%v".toList (some 1) Option.none 22).counts
        = [(1, some 1, 2)]
    ∧ ((newRoot 0).addChild "u/:z[:a(x)]".toList (some 1) Option.none 22).counts
        = [(2, some 1, 2)]
    ∧ ((newRoot 0).addChild "u/:a([):b(])".toList (some 1) Option.none 22).counts
        = [(2, some 1, 2)]
    ∧ ((newRoot 0).addChild "u/:a\\:b(y\\)".toList (some 1) Option.none 22).counts
        = [(2, some 1, 2)]
    ∧ ((dynScan ":id(?:x)".toList).params = ["id".toList]
        ∧ (dynScan ":id(?:x)".toList).newPattern = "(?:x)".toList
        ∧ capGroups "(?:x)$".toList = 0) := by
  decide!

/-- C17 (amended), for every host engine.  The pattern handed to `addChild` is
a literal start `S` (any bytes but `:` and `*`) followed by a list of pieces
that starts with a parameter or a wildcard and holds any number of `*`,
parameters `:name` and `:name(rule)` and literal bytes, where no literal byte
is `(`, `[`, a backslash or `%`, and the capture expression written for each
rule text, read by itself, opens its own group and no other and leaves no
bracket expression, escape or quotation open (`ruleOK`: so for the rules
`int`, `string`, `[0-9]+`, `a|b`, `\d+`, not for `(a`, `[`, `?:x`).  The host
engine is taken to count one capture group for each capturing parenthesis of
this expression (`hE`).  Then `addChild` panics, the trie unchanged, exactly
where the engine rejects the expression or where the node has a dynamic child
with the same expression; otherwise it returns the dynamic node it creates
(the new last dynamic child of the node, or the only dynamic child of the new
last static child), whose parameter-name list has as many names as its
compiled expression has capture groups and as its render fragment has `%v`
placeholders. -/
theorem counts_agree [Engine] (t : Tree) (S : Str) (D : List Seg) (hS : isLiteral S)
    (htok : startsTok D) (hok : segsOK D) (hp : segsPlain D) (h nn : Option Nat) (f : Nat)
    (hE : ∀ re, Engine.compile (segExpr D ++ "$".toList) = .ok re →
      re.numCap = capGroups (segExpr D ++ "$".toList)) :
    match t.addChild (S ++ segText D) h nn f with
    | .node t' a =>
        a = f + 1 ∧ ∃ x re, Engine.compile (segExpr D ++ "$".toList) = .ok re
          ∧ (t'.rchildren = t.rchildren ++ [x]
              ∨ ∃ st, t'.schildren = t.schildren ++ [st] ∧ st.rchildren = [x])
          ∧ x.d.addr = f + 1 ∧ x.d.static = false ∧ x.d.params = segNames D
          ∧ x.d.re = some re
          ∧ x.d.params.length = re.numCap
          ∧ countPlaceholders x.d.format = x.d.params.length
    | .panic fault t0 =>
        t0 = t
          ∧ ((∃ e, fault = .regexCompile e
                ∧ Engine.compile (segExpr D ++ "$".toList) = .error e)
            ∨ (fault = .routeExists ∧ S = []
                ∧ ∃ x ∈ t.rchildren, x.d.pattern = segExpr D))
    | .none => False := by
  obtain ⟨c, rest, hcr, hc⟩ := segText_tok D htok
  obtain ⟨d1, d2, d3⟩ := dynScan_segs D hok
  rw [hcr] at d1 d2 d3 ⊢
  have hcnt : countPlaceholders (dynScan (c :: rest)).format
      = (dynScan (c :: rest)).params.length := by
    rw [d3, d1]
    exact countPlaceholders_segs D hp
  rw [addChild_dynamic t S hS c rest hc h nn f, d2]
  cases hre : Engine.compile (segExpr D ++ "$".toList) with
  | error e => exact ⟨rfl, Or.inl ⟨e, rfl, rfl⟩⟩
  | ok re =>
    have hnum : (dynScan (c :: rest)).params.length = re.numCap := by
      rw [hE re hre, capGroups_segs D hp, d1]
    simp only
    by_cases hSe : S = []
    · rw [if_neg (not_not.2 hSe)]
      by_cases hany : t.rchildren.any (fun x => x.d.pattern == segExpr D) = true
      · rw [if_pos hany]
        obtain ⟨x, hx, hxe⟩ := List.any_eq_true.1 hany
        exact ⟨rfl, Or.inr ⟨rfl, hSe, x, hx, by simpa using hxe⟩⟩
      · rw [if_neg hany]
        exact ⟨rfl, dynLeaf (c :: rest) re h nn t.d.addr (f + 1), re, rfl, Or.inl rfl,
          rfl, rfl, d1, rfl, hnum, hcnt⟩
    · rw [if_pos hSe]
      exact ⟨rfl, dynLeaf (c :: rest) re h nn (f + 2) (f + 1), re, rfl,
        Or.inr ⟨_, rfl, rfl⟩, rfl, rfl, d1, rfl, hnum, hcnt⟩

/-- C17 (amended) at an instance, with the embedded engine: `addChild` on a
fresh root with the pattern `u/:id([0-9]+).:ext(a|b)-*`. -/
theorem counts_agree_witness :
    isLiteral "u/".toList
    ∧ startsTok [Seg.param "id".toList (some "[0-9]+".toList), Seg.lit '.',
        Seg.param "ext".toList (some "a|b".toList), Seg.lit '-', Seg.wild]
    ∧ segsOK [Seg.param "id".toList (some "[0-9]+".toList), Seg.lit '.',
        Seg.param "ext".toList (some "a|b".toList), Seg.lit '-', Seg.wild]
    ∧ segsPlain [Seg.param "id".toList (some "[0-9]+".toList), Seg.lit '.',
        Seg.param "ext".toList (some "a|b".toList), Seg.lit '-', Seg.wild]
    ∧ segText [Seg.param "id".toList (some "[0-9]+".toList), Seg.lit '.',
        Seg.param "ext".toList (some "a|b".toList), Seg.lit '-', Seg.wild]
        = ":id([0-9]+).:ext(a|b)-*".toList
    ∧ (∀ re, Regexp.Compile (segExpr [Seg.param "id".toList (some "[0-9]+".toList),
          Seg.lit '.', Seg.param "ext".toList (some "a|b".toList), Seg.lit '-', Seg.wild]
          ++ "$".toList) = .ok re →
        re.numCap = capGroups (segExpr [Seg.param "id".toList (some "[0-9]+".toList),
          Seg.lit '.', Seg.param "ext".toList (some "a|b".toList), Seg.lit '-', Seg.wild]
          ++ "$".toList))
    ∧ ((newRoot 0).addChild "u/:id([0-9]+).:ext(a|b)-*".toList
          (some 1) Option.none 22).counts = [(3, some 3, 3)]
    ∧ (match (newRoot 0).addChild ("u/".toList
          ++ segText [Seg.param "id".toList (some "[0-9]+".toList), Seg.lit '.',
            Seg.param "ext".toList (some "a|b".toList), Seg.lit '-', Seg.wild])
          (some 1) Option.none 22 with
      | .node t' a =>
          a = 22 + 1 ∧ ∃ x re, Engine.compile (segExpr
              [Seg.param "id".toList (some "[0-9]+".toList), Seg.lit '.',
                Seg.param "ext".toList (some "a|b".toList), Seg.lit '-', Seg.wild]
              ++ "$".toList) = .ok re
            ∧ (t'.rchildren = (newRoot 0).rchildren ++ [x]
                ∨ ∃ st, t'.schildren = (newRoot 0).schildren ++ [st] ∧ st.rchildren = [x])
            ∧ x.d.addr = 22 + 1 ∧ x.d.static = false
            ∧ x.d.params = segNames [Seg.param "id".toList (some "[0-9]+".toList),
                Seg.lit '.', Seg.param "ext".toList (some "a|b".toList), Seg.lit '-',
                Seg.wild]
            ∧ x.d.re = some re
            ∧ x.d.params.length = re.numCap
            ∧ countPlaceholders x.d.format = x.d.params.length
      | .panic fault t0 =>
          t0 = newRoot 0
            ∧ ((∃ e, fault = .regexCompile e
                  ∧ Engine.compile (segExpr
                    [Seg.param "id".toList (some "[0-9]+".toList), Seg.lit '.',
                      Seg.param "ext".toList (some "a|b".toList), Seg.lit '-', Seg.wild]
                    ++ "$".toList) = .error e)
              ∨ (fault = .routeExists ∧ "u/".toList = []
                  ∧ ∃ x ∈ (newRoot 0).rchildren, x.d.pattern = segExpr
                    [Seg.param "id".toList (some "[0-9]+".toList), Seg.lit '.',
                      Seg.param "ext".toList (some "a|b".toList), Seg.lit '-', Seg.wild]))
      | .none => False) :=
  ⟨by decide, by decide, by decide, by decide, by decide,
    fun re hre => Compile_numCap _ re hre, by decide!,
    counts_agree (newRoot 0) "u/".toList
      [Seg.param "id".toList (some "[0-9]+".toList), Seg.lit '.',
        Seg.param "ext".toList (some "a|b".toList), Seg.lit '-', Seg.wild]
      (by decide) (by decide) (by decide) (by decide) (some 1) Option.none 22
      (fun re hre => Compile_numCap _ re hre)⟩

end Regtree
